import Mathlib

/-!
Verification of nutshell: ring buffer, scheduled tasks, cooperative scheduler, control
task, stop sequence, actuators and telemetry.

Shallow embedding of `Core/Inc/Buffer.h`, of `Core/Inc/ScheduledTask.h`, of
`Device::getFiltered`, `Device::setDirection`, `Device::setPower`, `Device::sendData`
and `Device::sendDataSafely` in `Core/Src/Device.cpp`, and of the control task, the
statistics task and the main loop of `App` in `Core/Src/App.cpp`.

Machine integers are natural numbers reduced explicitly: `uint32_t` values modulo
`2^32`; `std::size_t` values modulo `2^32` as well, because the firmware is built
for an STM32F1 (`main.h` includes `stm32f1xx_hal.h`), a 32-bit Cortex-M3.
-/

namespace Nutshell

/-! ## Machine arithmetic -/

/-- Modulus of `uint32_t`. -/
def U32 : Nat := 2 ^ 32

/-- Modulus of `std::size_t` on the 32-bit target. -/
def SIZE_MOD : Nat := 2 ^ 32

/-- The constant `UINT32_MAX`. -/
def UINT32_MAX : Nat := 2 ^ 32 - 1

/-- The constant `INF_RUNS = std::numeric_limits<uint32_t>::max()`. -/
def INF_RUNS : Nat := UINT32_MAX

/-- Unsigned 32-bit addition `a + b`. -/
def add32 (a b : Nat) : Nat := (a + b) % U32

/-- Unsigned 32-bit subtraction `a - b` (wraps below zero). -/
def sub32 (a b : Nat) : Nat := (a + (U32 - b % U32)) % U32

/-- Conversion of an `int` to `std::size_t` (value modulo the size_t modulus). -/
def toSizeT (i : Int) : Nat := (i % (SIZE_MOD : Int)).toNat

/-! ## Buffer.h -/

/-- State of `Buffer<T, N>`: the backing `std::array<T, N>` and the write cursor. -/
structure Buffer (α : Type) where
  N : Nat
  buffer : List α
  head : Nat

namespace Buffer

variable {α : Type}

/-- Constructor `Buffer()`: `buffer.fill(T{})`, `head = 0`; `dflt` is `T{}`. -/
def new (N : Nat) (dflt : α) : Buffer α :=
  { N := N, buffer := List.replicate N dflt, head := 0 }

/-- Member `push`: `buffer[head] = item; head = (head + 1) % N;` -/
def push (b : Buffer α) (item : α) : Buffer α :=
  { b with buffer := b.buffer.set b.head item,
           head := ((b.head + 1) % SIZE_MOD) % b.N }

/-- Slot computed by `operator[]`: `(head + N + index) % N` in `std::size_t`
arithmetic, the `int` index being converted to `std::size_t` first. -/
def slotOf (N head : Nat) (index : Int) : Nat :=
  ((head + N + toSizeT index) % SIZE_MOD) % N

/-- Slot accessed by `operator[]` on a buffer. -/
def slot (b : Buffer α) (index : Int) : Nat := slotOf b.N b.head index

/-- Member `operator[]`: the element `buffer[(head + N + index) % N]`. -/
def get (b : Buffer α) (index : Int) : Option α := b.buffer[b.slot index]?

/-- Pushing a sequence of values in order. -/
def pushAll (b : Buffer α) (vs : List α) : Buffer α := vs.foldl push b

end Buffer

/-! ## ScheduledTask.h: tasks -/

/-- State of the primary template `ScheduledTask<Steps>`: the fields inherited from
`ScheduledTaskBase` followed by its own; the callback is kept apart. -/
structure StepTask where
  period_ms : Nat
  last_tick_ms : Nat
  task_id : Nat
  finished_flag : Bool
  Steps : Nat
  cur_step : Nat
  step_durations : List Nat
  step_period_ms : Nat
  initial_delay_ms : Nat
  started : Bool
  max_runs : Nat
  run_count : Nat
deriving DecidableEq, Repr

/-- State of the specialization `ScheduledTask<1>`. -/
structure SingleTask where
  period_ms : Nat
  last_tick_ms : Nat
  task_id : Nat
  finished_flag : Bool
  initial_delay_ms : Nat
  started : Bool
  single_step_duration : Nat
  max_runs : Nat
  run_count : Nat
deriving DecidableEq, Repr

/-- Member `init_average_steps`: `std::max<uint32_t>(1, (period + Steps - 1) / Steps)`,
the sum being formed in 32-bit unsigned arithmetic. -/
def init_average_steps (Steps period : Nat) : Nat :=
  max 1 ((sub32 (add32 period Steps) 1 / Steps) % U32)

namespace StepTask

/-- Constructor 1 of `ScheduledTask<Steps>`: averaged steps, no delay. -/
def averaged (Steps period max_runs : Nat) : StepTask :=
  { period_ms := period, last_tick_ms := 0, task_id := UINT32_MAX, finished_flag := false,
    Steps := Steps, cur_step := 0, step_durations := [],
    step_period_ms := init_average_steps Steps period,
    initial_delay_ms := 0, started := true, max_runs := max_runs, run_count := 0 }

/-- Constructor 2 of `ScheduledTask<Steps>`: averaged steps with a delayed start. -/
def delayed (Steps initial_delay period max_runs : Nat) : StepTask :=
  { period_ms := period, last_tick_ms := 0, task_id := UINT32_MAX, finished_flag := false,
    Steps := Steps, cur_step := 0, step_durations := [],
    step_period_ms := init_average_steps Steps period,
    initial_delay_ms := initial_delay, started := false, max_runs := max_runs,
    run_count := 0 }

/-- Constructor 3 of `ScheduledTask<Steps>`: custom durations, each raised to at least 1;
`step_period_ms` keeps its default member initializer 0. -/
def custom (Steps : Nat) (step_durations : List Nat) (initial_delay max_runs : Nat) :
    StepTask :=
  { period_ms := 0, last_tick_ms := 0, task_id := UINT32_MAX, finished_flag := false,
    Steps := Steps, cur_step := 0, step_durations := step_durations.map (fun d => max 1 d),
    step_period_ms := 0,
    initial_delay_ms := initial_delay, started := (initial_delay == 0),
    max_runs := max_runs, run_count := 0 }

/-- Member `reached_limit`: `run_count >= max_runs`. -/
def reached_limit (t : StepTask) : Bool := decide (t.max_runs ≤ t.run_count)

/-- Member `current_step_duration`. Reading `step_durations[cur_step]` outside the
vector is undefined in the source; the model then reads 0. -/
def current_step_duration (t : StepTask) : Nat :=
  if !t.step_durations.isEmpty then t.step_durations.getD t.cur_step 0
  else t.step_period_ms

/-- Body of the `while` loop of `tick`, taken at most `fuel` times. The callback
`cb(dev, cur_step)` acts on everything outside the task, the state `w`. -/
def loop {σ : Type} (fire : Nat → σ → σ) (now : Nat) : Nat → StepTask → σ → StepTask × σ
  | 0, t, w => (t, w)
  | fuel + 1, t, w =>
    if !t.reached_limit && decide (t.current_step_duration ≤ sub32 now t.last_tick_ms) then
      let dt := t.current_step_duration
      let t1 := { t with last_tick_ms := add32 t.last_tick_ms dt }
      let w1 := fire t1.cur_step w
      let t2 := { t1 with run_count := add32 t1.run_count 1 }
      if t2.reached_limit then
        ({ t2 with finished_flag := true }, w1)
      else
        loop fire now fuel { t2 with cur_step := ((t2.cur_step + 1) % SIZE_MOD) % t2.Steps } w1
    else (t, w)

/-- The `while` loop of `tick`. Every pass through the body increments `run_count` and
the loop stops once it reaches `max_runs`, so `max_runs - run_count` passes suffice. -/
def drain {σ : Type} (fire : Nat → σ → σ) (now : Nat) (t : StepTask) (w : σ) :
    StepTask × σ :=
  loop fire now (t.max_runs - t.run_count) t w

/-- Member `ScheduledTask<Steps>::tick`. -/
def tick {σ : Type} (fire : Nat → σ → σ) (now : Nat) (t : StepTask) (w : σ) :
    StepTask × σ :=
  if !t.started then
    if t.initial_delay_ms ≤ sub32 now t.last_tick_ms then
      drain fire now
        { t with last_tick_ms := add32 t.last_tick_ms t.initial_delay_ms, started := true } w
    else (t, w)
  else drain fire now t w

/-- Member `finished`. -/
def finished (t : StepTask) : Bool := t.finished_flag

end StepTask

namespace SingleTask

/-- Constructor 1 of `ScheduledTask<1>` (used by `makeTask(period_ms, cb, max_runs)`). -/
def periodic (period max_runs : Nat) : SingleTask :=
  { period_ms := period, last_tick_ms := 0, task_id := UINT32_MAX, finished_flag := false,
    initial_delay_ms := 0, started := true, single_step_duration := 0,
    max_runs := max_runs, run_count := 0 }

/-- Constructor 2 of `ScheduledTask<1>` (used by
`makeTask(initial_delay, period_ms, cb, max_runs)`). -/
def delayed (initial_delay period max_runs : Nat) : SingleTask :=
  { period_ms := period, last_tick_ms := 0, task_id := UINT32_MAX, finished_flag := false,
    initial_delay_ms := initial_delay, started := false, single_step_duration := 0,
    max_runs := max_runs, run_count := 0 }

/-- Member `reached_limit`: `run_count >= max_runs`. -/
def reached_limit (t : SingleTask) : Bool := decide (t.max_runs ≤ t.run_count)

/-- The local `dur` of `tick`: `single_step_duration` when positive, else `period_ms`,
and 1 when that is 0. -/
def dur (t : SingleTask) : Nat :=
  let d := if 0 < t.single_step_duration then t.single_step_duration else t.period_ms
  if d == 0 then 1 else d

/-- Second half of `ScheduledTask<1>::tick`: a single `if`, no loop. -/
def fireOnce {σ : Type} (fire : Nat → σ → σ) (now : Nat) (t : SingleTask) (w : σ) :
    SingleTask × σ :=
  if !t.reached_limit && decide (t.dur ≤ sub32 now t.last_tick_ms) then
    let t1 := { t with last_tick_ms := add32 t.last_tick_ms t.dur }
    let w1 := fire 0 w
    let t2 := { t1 with run_count := add32 t1.run_count 1 }
    if t2.reached_limit then ({ t2 with finished_flag := true }, w1) else (t2, w1)
  else (t, w)

/-- Member `ScheduledTask<1>::tick`. -/
def tick {σ : Type} (fire : Nat → σ → σ) (now : Nat) (t : SingleTask) (w : σ) :
    SingleTask × σ :=
  if !t.started then
    if t.initial_delay_ms ≤ sub32 now t.last_tick_ms then
      fireOnce fire now
        { t with last_tick_ms := add32 t.last_tick_ms t.initial_delay_ms, started := true } w
    else (t, w)
  else fireOnce fire now t w

/-- Member `finished`. -/
def finished (t : SingleTask) : Bool := t.finished_flag

end SingleTask

/-- Callback that only records the step index it is called with. -/
def record (step : Nat) (log : List Nat) : List Nat := log ++ [step]

/-- A sequence of `tick` calls on a `ScheduledTask<Steps>`, recording the step index of
every callback invocation. -/
def StepTask.run (t : StepTask) (log : List Nat) (nows : List Nat) : StepTask × List Nat :=
  nows.foldl (fun r now => StepTask.tick record now r.1 r.2) (t, log)

/-- A sequence of `tick` calls on a `ScheduledTask<1>`, recording every callback
invocation. -/
def SingleTask.run (t : SingleTask) (log : List Nat) (nows : List Nat) :
    SingleTask × List Nat :=
  nows.foldl (fun r now => SingleTask.tick record now r.1 r.2) (t, log)

/-! ## ScheduledTask.h: scheduler -/

/-- The object behind a `std::unique_ptr<ScheduledTaskBase>`: one of the two classes
deriving from `ScheduledTaskBase`. -/
inductive TaskState where
  | step (t : StepTask)
  | single (t : SingleTask)
deriving DecidableEq, Repr

namespace TaskState

/-- Public field `task_id` of the base class. -/
def task_id : TaskState → Nat
  | step t => t.task_id
  | single t => t.task_id

/-- Public field `last_tick_ms` of the base class. -/
def last_tick_ms : TaskState → Nat
  | step t => t.last_tick_ms
  | single t => t.last_tick_ms

/-- Virtual member `finished`. -/
def finished : TaskState → Bool
  | step t => t.finished
  | single t => t.finished

/-- Assignment `t->task_id = id`. -/
def setId (id : Nat) : TaskState → TaskState
  | step t => step { t with task_id := id }
  | single t => single { t with task_id := id }

/-- Assignment `t->last_tick_ms = tick`. -/
def setLastTick (tick : Nat) : TaskState → TaskState
  | step t => step { t with last_tick_ms := tick }
  | single t => single { t with last_tick_ms := tick }

end TaskState

/-- The five public `add` members of `Scheduler`, with their scalar arguments. -/
inductive AddCall where
  | addTask
  | addTaskWithID (id : Nat)
  | addTaskAndInit
  | addTaskAndInitAt (last_tick : Nat)
  | addTaskAndInitWithID (last_tick : Nat) (id : Nat)
deriving DecidableEq, Repr

/-- What a callback does to the scheduler and to the rest of the firmware: a tree of
calls of public `Scheduler` members, each continuation receiving the value the call
returned. `getDev` and `setDev` read and write the state outside the scheduler (device
and globals), abstracted to a number. A callback does not call `runOnce` or `clearAll`. -/
inductive Prog : Type where
  | ret : Prog
  | add (call : AddCall) (st : TaskState) (cb : Nat → Prog) (k : Nat → Prog) : Prog
  | addNull (call : AddCall) (k : Nat → Prog) : Prog
  | removeTask (id : Nat) (k : Prog) : Prog
  | currentTaskId (k : Nat → Prog) : Prog
  | taskCount (k : Nat → Prog) : Prog
  | resetTime (tick : Nat) (k : Prog) : Prog
  | getDev (k : Nat → Prog) : Prog
  | setDev (v : Nat) (k : Prog) : Prog

/-- A task object: its timing state and its callback `cb(dev, step)`. -/
structure Task where
  st : TaskState
  cb : Nat → Prog

/-- A `TaskPtr`; `none` is the null pointer. -/
abbrev TaskPtr := Option Task

/-- Test `!t || pending_remove.find(t->task_id) != pending_remove.end()`. -/
def TaskPtr.flagged (pending_remove : List Nat) : TaskPtr → Bool
  | none => true
  | some t => pending_remove.contains t.st.task_id

/-- Private state of `Scheduler`; `pending_remove` is the `std::unordered_set`. -/
structure Scheduler where
  start_tick : Nat
  next_id : Nat
  in_run : Bool
  current_task : Nat
  tasks : List TaskPtr
  pending_add : List TaskPtr
  pending_remove : List Nat

namespace Scheduler

/-- Constructor `Scheduler(start_tick)`. -/
def new (start_tick : Nat) : Scheduler :=
  { start_tick := start_tick, next_id := 1, in_run := false, current_task := UINT32_MAX,
    tasks := [], pending_add := [], pending_remove := [] }

/-- Common tail of `addTask` and `addTaskWithID`: queue when in a run, else append. -/
def enqueue (s : Scheduler) (t : Task) : Scheduler :=
  if s.in_run then { s with pending_add := s.pending_add ++ [some t] }
  else { s with tasks := s.tasks ++ [some t] }

/-- Member `addTask`. -/
def addTask (s : Scheduler) (t : TaskPtr) : Scheduler × Nat :=
  match t with
  | none => (s, UINT32_MAX)
  | some t =>
    let id := s.next_id
    let s1 := { s with next_id := add32 s.next_id 1 }
    (s1.enqueue { t with st := t.st.setId id }, id)

/-- Member `addTaskWithID`. -/
def addTaskWithID (s : Scheduler) (t : TaskPtr) (id : Nat) : Scheduler × Nat :=
  match t with
  | none => (s, UINT32_MAX)
  | some t => (s.enqueue { t with st := t.st.setId id }, id)

/-- Member `addTaskAndInit(TaskPtr)`. -/
def addTaskAndInit (s : Scheduler) (t : TaskPtr) : Scheduler × Nat :=
  match t with
  | none => (s, UINT32_MAX)
  | some t => s.addTask (some { t with st := t.st.setLastTick s.start_tick })

/-- Member `addTaskAndInit(TaskPtr, uint32_t last_tick)`. -/
def addTaskAndInitAt (s : Scheduler) (t : TaskPtr) (last_tick : Nat) : Scheduler × Nat :=
  match t with
  | none => (s, UINT32_MAX)
  | some t => s.addTask (some { t with st := t.st.setLastTick last_tick })

/-- Member `addTaskAndInitWithID`. -/
def addTaskAndInitWithID (s : Scheduler) (t : TaskPtr) (last_tick id : Nat) :
    Scheduler × Nat :=
  match t with
  | none => (s, UINT32_MAX)
  | some t => s.addTaskWithID (some { t with st := t.st.setLastTick last_tick }) id

/-- Dispatch of an `add` call to the member it names. -/
def add (s : Scheduler) (call : AddCall) (t : TaskPtr) : Scheduler × Nat :=
  match call with
  | .addTask => s.addTask t
  | .addTaskWithID id => s.addTaskWithID t id
  | .addTaskAndInit => s.addTaskAndInit t
  | .addTaskAndInitAt last_tick => s.addTaskAndInitAt t last_tick
  | .addTaskAndInitWithID last_tick id => s.addTaskAndInitWithID t last_tick id

/-- Private member `flushPending`. -/
def flushPending (s : Scheduler) : Scheduler :=
  let s1 :=
    if !s.pending_remove.isEmpty then
      { s with tasks := s.tasks.filter (fun t => !t.flagged s.pending_remove),
               pending_remove := [] }
    else s
  if !s1.pending_add.isEmpty then
    { s1 with tasks := s1.tasks ++ s1.pending_add.filter (fun pt => pt.isSome),
              pending_add := [] }
  else s1

/-- Member `removeTask`. -/
def removeTask (s : Scheduler) (id : Nat) : Scheduler :=
  if id == UINT32_MAX then s
  else
    let s1 := { s with pending_remove := s.pending_remove.insert id }
    if !s1.in_run then s1.flushPending else s1

/-- Member `currentTaskId`. -/
def currentTaskId (s : Scheduler) : Nat := s.current_task

/-- Member `taskCount`. -/
def taskCount (s : Scheduler) : Nat := s.tasks.length

/-- Member `clearAll`. -/
def clearAll (s : Scheduler) : Scheduler :=
  { s with tasks := [], pending_add := [], pending_remove := [] }

/-- Member `resetTime`. -/
def resetTime (s : Scheduler) (tick : Nat) : Scheduler := { s with start_tick := tick }

end Scheduler

/-- Observable steps of a run, recorded in the order in which they happen. -/
inductive Event where
  | tick (index id : Nat)
  | fire (id step : Nat)
  | added (id : Nat)
  | removeCalled (id : Nat)
  | currentRead (id : Nat)
deriving DecidableEq, Repr

/-- Everything a callback can touch: the scheduler, the state outside it, and the
record of what has happened so far. -/
structure World where
  sched : Scheduler
  dev : Nat
  log : List Event

/-- Running a callback body against the world. -/
def exec : Prog → World → World
  | .ret, w => w
  | .add call st cb k, w =>
    let r := w.sched.add call (some { st := st, cb := cb })
    exec (k r.2) { w with sched := r.1, log := w.log ++ [Event.added r.2] }
  | .addNull call k, w =>
    let r := w.sched.add call none
    exec (k r.2) { w with sched := r.1 }
  | .removeTask id k, w =>
    exec k { w with sched := w.sched.removeTask id, log := w.log ++ [Event.removeCalled id] }
  | .currentTaskId k, w =>
    exec (k w.sched.currentTaskId)
      { w with log := w.log ++ [Event.currentRead w.sched.currentTaskId] }
  | .taskCount k, w => exec (k w.sched.taskCount) w
  | .resetTime tick k, w => exec k { w with sched := w.sched.resetTime tick }
  | .getDev k, w => exec (k w.dev) w
  | .setDev v k, w => exec k { w with dev := v }

/-- The call `cb(dev, step)` of the task with identifier `id`. -/
def fireCb (cb : Nat → Prog) (id : Nat) (step : Nat) (w : World) : World :=
  exec (cb step) { w with log := w.log ++ [Event.fire id step] }

/-- Virtual call `t->tick(dev, now)`: the new state of the task and of the world. -/
def Task.tick (now : Nat) (t : Task) (w : World) : Task × World :=
  match t.st with
  | .step st =>
    let r := StepTask.tick (fireCb t.cb st.task_id) now st w
    ({ t with st := .step r.1 }, r.2)
  | .single st =>
    let r := SingleTask.tick (fireCb t.cb st.task_id) now st w
    ({ t with st := .single r.1 }, r.2)

namespace Scheduler

/-- Body of the `for` loop of `runOnce` at index `i`. The object at `tasks[i]` is
modified in place by its `tick`; callbacks leave `tasks` alone while `in_run` holds. -/
def visit (now i : Nat) (w : World) : World :=
  match w.sched.tasks.getD i none with
  | none => w
  | some t =>
    let id := t.st.task_id
    if w.sched.pending_remove.contains id then w
    else
      let w1 : World :=
        { w with sched := { w.sched with current_task := id },
                 log := w.log ++ [Event.tick i id] }
      let r := t.tick now w1
      let s2 := { r.2.sched with tasks := r.2.sched.tasks.set i (some r.1) }
      let s3 :=
        if r.1.st.finished then { s2 with pending_remove := s2.pending_remove.insert id }
        else s2
      { r.2 with sched := { s3 with current_task := UINT32_MAX } }

/-- The `for` loop of `runOnce` from index `i`, for at most `n` more indices. -/
def pass (now : Nat) : Nat → Nat → World → World
  | 0, _, w => w
  | n + 1, i, w =>
    if i < w.sched.tasks.length then pass now n (i + 1) (visit now i w) else w

/-- State at the end of the `for` loop of `runOnce`, before `in_run = false`. -/
def passEnd (w : World) (now : Nat) : World :=
  let w1 : World := { w with sched := { w.sched with in_run := true } }
  pass now w1.sched.tasks.length 0 w1

/-- Member `runOnce`. -/
def runOnce (w : World) (now : Nat) : World :=
  let w2 := passEnd w now
  { w2 with sched := ({ w2.sched with in_run := false }).flushPending }

end Scheduler


/-! ## Auxiliary predicates used in the statements -/

/-- Every step of the task lasts `d`: either the averaged mode (no duration vector,
`step_period_ms = d`) or a duration vector of `Steps` entries all equal to `d`, the step
cursor being inside it. -/
def StepTask.ConstDur (t : StepTask) (d : Nat) : Prop :=
  (t.step_durations = [] ∧ t.step_period_ms = d) ∨
  (t.step_durations = List.replicate t.Steps d ∧ t.cur_step < t.Steps)

/-- Identifier carried by the object behind a `TaskPtr`, if any. -/
def TaskPtr.id (t : TaskPtr) : Option Nat := t.map (fun x => x.st.task_id)

/-- Identifiers returned by the `add` calls of callbacks, in the order of the calls. -/
def addedIds : List Event → List Nat
  | [] => []
  | Event.added id :: es => id :: addedIds es
  | _ :: es => addedIds es

/-- Identifier of the task whose `tick` was invoked last, if any. -/
def lastTick (log : List Event) : Option Nat :=
  log.foldl (fun acc e => match e with
    | Event.tick _ id => some id
    | _ => acc) none

/-- What holds of the world at every point of the `for` loop of `runOnce` and inside
every callback it runs, the record of events having started empty with the loop:
`ids` are the identifiers of the active collection and `P0` the pending additions when
the loop started; `c` says that no task was current when the loop started. -/
structure PassInv (c : Prop) (ids : List (Option Nat)) (P0 : List TaskPtr) (w : World) :
    Prop where
  in_run : w.sched.in_run = true
  ids_eq : w.sched.tasks.map TaskPtr.id = ids
  removed : ∀ id, Event.removeCalled id ∈ w.log → id ≠ UINT32_MAX →
    id ∈ w.sched.pending_remove
  skip : ∀ pre post id, w.log = pre ++ Event.removeCalled id :: post → id ≠ UINT32_MAX →
    ∀ j, Event.tick j id ∉ post
  ticks : ∀ i id, Event.tick i id ∈ w.log → ids.getD i none = some id
  pending : ∃ added, w.sched.pending_add = P0 ++ added ∧
    added.map TaskPtr.id = (addedIds w.log).map some
  current : c →
    (w.sched.current_task = UINT32_MAX ∨ lastTick w.log = some w.sched.current_task)
  reads : c → ∀ pre post id, w.log = pre ++ Event.currentRead id :: post →
    id ≠ UINT32_MAX → lastTick pre = some id

/-- Inside a pass nothing is forgotten: everything recorded and every identifier marked
for removal in `w0` is still there in `w`. -/
def Grows (w0 w : World) : Prop :=
  w.sched.in_run = true ∧ (∀ e ∈ w0.log, e ∈ w.log) ∧
    (∀ id ∈ w0.sched.pending_remove, id ∈ w.sched.pending_remove)

/-! ## Concrete schedulers used as examples -/

/-- A `makeTask(1, cb)` task state: period 1 ms, no delay, default run limit. -/
def everyMs : TaskState := TaskState.single (SingleTask.periodic 1 INF_RUNS)

/-- Callback that registers a new task the first time it runs, keeping the identifier it
got, and asks for the removal of that identifier every later time. -/
def addThenRemoveLater : Nat → Prog := fun _ =>
  Prog.getDev (fun v =>
    if v = 0 then
      Prog.add AddCall.addTask everyMs (fun _ => Prog.ret) (fun id => Prog.setDev id Prog.ret)
    else Prog.removeTask v Prog.ret)

/-- Callback that registers a new task and at once asks for its removal. -/
def addThenRemoveNow : Nat → Prog := fun _ =>
  Prog.add AddCall.addTask everyMs (fun _ => Prog.ret) (fun id => Prog.removeTask id Prog.ret)

/-- Callback that asks for the removal of the task it belongs to. -/
def removeSelf : Nat → Prog := fun _ =>
  Prog.currentTaskId (fun id => Prog.removeTask id Prog.ret)

/-- A scheduler created at tick 0 holding one `makeTask(1, cb)` task, registered with
`addTaskAndInit` outside any pass; nothing recorded yet. -/
def oneTask (cb : Nat → Prog) : World :=
  { sched := ((Scheduler.new 0).addTaskAndInit (some { st := everyMs, cb := cb })).1,
    dev := 0, log := [] }

/-- The world handed to the next `runOnce`, with a fresh record. -/
def World.next (w : World) : World := { w with log := [] }

/-- State of a scheduler between two public calls made outside a pass: `in_run` is false,
nothing is pending and the active collection holds no null pointer. The constructor
gives such a state and every public member called outside a pass returns to one. -/
def Scheduler.Idle (s : Scheduler) : Prop :=
  s.in_run = false ∧ s.pending_add = [] ∧ s.pending_remove = [] ∧ none ∉ s.tasks

/-- A callback that does nothing. -/
def idleCb : Nat → Prog := fun _ => Prog.ret

/-- A scheduler in the middle of a pass (`in_run` holds) with one active task and one
task queued by a callback. -/
def midPass : Scheduler :=
  { start_tick := 0, next_id := 3, in_run := true, current_task := 1,
    tasks := [some { st := everyMs.setId 1, cb := idleCb }],
    pending_add := [some { st := everyMs.setId 2, cb := idleCb }],
    pending_remove := [] }

/-! ## Device.cpp: the outlier-trimmed filter -/

/-- The constant `UINT16_MAX`. -/
def UINT16_MAX : Nat := 65535

/-- Modulus of `uint64_t`. -/
def U64 : Nat := 2 ^ 64

/-- Checked unsigned division: undefined (`none`) when the divisor is 0. -/
def udiv (a b : Nat) : Option Nat := if b = 0 then none else some (a / b)

/-- The value `buffer[index]` of a `Buffer<uint16_t, N>`. -/
def Buffer.read (b : Buffer Nat) (index : Int) : Nat := (b.get index).getD 0

/-- The values `buffer[0], ..., buffer[count - 1]` read by both loops of `getFiltered`. -/
def Buffer.samples (b : Buffer Nat) : List Nat :=
  (List.range b.N).map (fun i => b.read (Int.ofNat i))

/-- The statements `for (k = 3; k > j; k--) a[k] = a[k - 1]; a[j] = val;` on a 4-element
array: the entries from `j` on move up by one, the last one is lost. -/
def shiftIn (a : List Nat) (j val : Nat) : List Nat :=
  a.take j ++ val :: (a.drop j).dropLast

/-- The loop over `j` that inserts `val` into `minVals` at the first `j` with
`val < minVals[j]` and breaks. -/
def insertMin (minVals : List Nat) (val : Nat) : List Nat :=
  match (List.range 4).find? (fun j => decide (val < minVals.getD j 0)) with
  | some j => shiftIn minVals j val
  | none => minVals

/-- The loop over `j` that inserts `val` into `maxVals` at the first `j` with
`val > maxVals[j]` and breaks. -/
def insertMax (maxVals : List Nat) (val : Nat) : List Nat :=
  match (List.range 4).find? (fun j => decide (maxVals.getD j 0 < val)) with
  | some j => shiftIn maxVals j val
  | none => maxVals

/-- First loop of `getFiltered`: `minVals` and `maxVals` after all samples. -/
def selectExtremes (samples : List Nat) : List Nat × List Nat :=
  samples.foldl (fun mm val => (insertMin mm.1 val, insertMax mm.2 val))
    ([UINT16_MAX, UINT16_MAX, UINT16_MAX, UINT16_MAX], [0, 0, 0, 0])

/-- The flag `isMinMax` computed for one sample in the second loop. -/
def isMinMax (minVals maxVals : List Nat) (val : Nat) : Bool :=
  (List.range 4).any (fun j => val == minVals.getD j 0 || val == maxVals.getD j 0)

/-- Variables of the second loop: the two sums and the number of times
`weight *= base` has run, which determines `weight`. -/
structure FilterAcc where
  weightedSum : Nat
  weightSum : Nat
  used : Nat
deriving DecidableEq, Repr

/-- Second loop of `getFiltered`. The floating-point weight is not modelled: `wt n` stands
for `static_cast<uint64_t>(weight + 0.5f)` after `n` multiplications by `base`. -/
def accumulate (wt : Nat → Nat) (minVals maxVals : List Nat) (samples : List Nat)
    (acc : FilterAcc) : FilterAcc :=
  samples.foldl (fun a val =>
    if isMinMax minVals maxVals val then a
    else
      { weightedSum := (a.weightedSum + (val * (wt a.used % U64)) % U64) % U64,
        weightSum := (a.weightSum + wt a.used % U64) % U64,
        used := a.used + 1 }) acc

/-- Member `Device::getFiltered`; `none` would be a division by zero. -/
def getFiltered (wt : Nat → Nat) (b : Buffer Nat) : Option Nat :=
  if b.N == 0 then some 0
  else
    let mm := selectExtremes b.samples
    let acc := accumulate wt mm.1 mm.2 b.samples { weightedSum := 0, weightSum := 0, used := 0 }
    if acc.weightSum == 0 then some (b.read (-1))
    else (udiv acc.weightedSum acc.weightSum).map (fun q => q % 2 ^ 16)

/-- Weighted sum the way the specification words it: the `k`-th surviving sample times the
`k`-th weight, counting the weights from `k`. -/
def weightedTotal (wt : Nat → Nat) : Nat → List Nat → Nat
  | _, [] => 0
  | k, v :: vs => v * (wt k % U64) + weightedTotal wt (k + 1) vs

/-- Sum of the weights consumed by the surviving samples, counting from `k`. -/
def weightTotal (wt : Nat → Nat) : Nat → List Nat → Nat
  | _, [] => 0
  | k, _ :: vs => wt k % U64 + weightTotal wt (k + 1) vs

/-- Samples of a 64-slot buffer with five 1s, five 9s and 54 other values in between. -/
def tenExtremes : List Nat :=
  [1, 1, 1, 1, 1, 2, 3, 4, 9, 9, 9, 9, 9, 8, 7, 6] ++ List.replicate 48 5


/-! ## Pass order and reaping -/

/-- Invocations of `tick` recorded, in the order in which they happened: the position in
the active collection and the identifier of the task. -/
def tickEvents : List Event → List (Nat × Nat)
  | [] => []
  | Event.tick i id :: es => (i, id) :: tickEvents es
  | _ :: es => tickEvents es

/-- The positions of the active collection in increasing order, each with the identifier
of the task it holds. -/
def Scheduler.positions (tasks : List TaskPtr) : List (Nat × Nat) :=
  (List.range tasks.length).filterMap
    (fun j => (tasks.getD j none).id.map (fun id => (j, id)))

/-- State of the `for` loop of `runOnce` when it reaches index `i`, the callbacks leaving
the scheduler alone: `tasks0` is the active collection at the start of the loop. The
tasks before `i` have been ticked with `now`, in order, the others are untouched, and
only identifiers of tasks before `i` are marked for removal. -/
def Scheduler.Visited (tasks0 : List TaskPtr) (now i : Nat) (w : World) : Prop :=
  w.sched.tasks.length = tasks0.length ∧
  (∀ j, i ≤ j → w.sched.tasks.getD j none = tasks0.getD j none) ∧
  (∀ j t, j < i → tasks0.getD j none = some t →
    ∃ wj, w.sched.tasks.getD j none = some (t.tick now wj).1) ∧
  tickEvents w.log = (Scheduler.positions tasks0).take i ∧
  (∀ id ∈ w.sched.pending_remove, ∃ j, j < i ∧ (tasks0.getD j none).id = some id)

/-- Two tasks registered with `addTaskWithID` under the same identifier 7, outside any
pass: the first fires every millisecond and once only, the second every second. -/
def twins : World :=
  { sched :=
      (((Scheduler.new 0).addTaskWithID
          (some { st := TaskState.single (SingleTask.periodic 1 1), cb := idleCb }) 7).1.addTaskWithID
          (some { st := TaskState.single (SingleTask.periodic 1000 INF_RUNS), cb := idleCb })
          7).1,
    dev := 0, log := [] }

/-- Two `makeTask(1, cb)` tasks registered with `addTask` outside any pass: they carry the
identifiers 1 and 2. -/
def twoTasks : World :=
  { sched :=
      (((Scheduler.new 0).addTask (some { st := everyMs, cb := idleCb })).1.addTask
          (some { st := everyMs, cb := idleCb })).1,
    dev := 0, log := [] }

/-- Every task that reports `finished()` after its `tick` of this pass is marked for
removal. -/
def Scheduler.FinishedMarked (w : World) : Prop :=
  ∀ i id t, Event.tick i id ∈ w.log → w.sched.tasks.getD i none = some t →
    t.st.finished = true → id ∈ w.sched.pending_remove

/-- Every identifier marked for removal was passed to `removeTask` by a callback of this
pass or is carried by a task that reports `finished()` after its `tick` of this pass. -/
def Scheduler.MarkedJustified (w : World) : Prop :=
  ∀ id ∈ w.sched.pending_remove,
    (id ≠ UINT32_MAX ∧ Event.removeCalled id ∈ w.log) ∨
    ∃ i t, Event.tick i id ∈ w.log ∧ w.sched.tasks.getD i none = some t ∧
      t.st.finished = true

/-- A task limited to two runs (identifier 1) and an unlimited one (identifier 2), both
`makeTask(1, cb, ...)`, registered with `addTask` outside any pass. -/
def limited : World :=
  { sched :=
      (((Scheduler.new 0).addTask
          (some { st := TaskState.single (SingleTask.periodic 1 2), cb := idleCb })).1.addTask
          (some { st := everyMs, cb := idleCb })).1,
    dev := 0, log := [] }

/-! ## Identifiers taken from the counter -/

/-- The `add` members that take the identifier from the counter `next_id`: `addTask`
and both overloads of `addTaskAndInit`. -/
def AddCall.counter : AddCall → Bool
  | .addTask => true
  | .addTaskAndInit => true
  | .addTaskAndInitAt _ => true
  | .addTaskWithID _ => false
  | .addTaskAndInitWithID _ _ => false

/-- A piece of code whose registrations all take the identifier from the counter, as do
the callbacks of the tasks it registers. -/
def Prog.CounterOnly : Prog → Prop
  | .ret => True
  | .add call _ cb k =>
    call.counter = true ∧ (∀ step, (cb step).CounterOnly) ∧ ∀ id, (k id).CounterOnly
  | .addNull _ k => ∀ id, (k id).CounterOnly
  | .removeTask _ k => k.CounterOnly
  | .currentTaskId k => ∀ id, (k id).CounterOnly
  | .taskCount k => ∀ n, (k n).CounterOnly
  | .resetTime _ k => k.CounterOnly
  | .getDev k => ∀ v, (k v).CounterOnly
  | .setDev _ k => k.CounterOnly

/-- What the main loop does with a scheduler: a piece of code calling public members
outside a pass, or a pass. -/
inductive Op where
  | call (p : Prog)
  | runOnce (now : Nat)

/-- Effect of one operation. -/
def Op.apply (w : World) : Op → World
  | .call p => exec p w
  | .runOnce now => Scheduler.runOnce w now

/-- The operation registers with the counter only. -/
def Op.CounterOnly : Op → Prop
  | .call p => p.CounterOnly
  | .runOnce _ => True

/-- A sequence of operations, the record of events being kept from one to the next. -/
def runOps (w : World) (ops : List Op) : World := ops.foldl Op.apply w

/-- State of a scheduler on which every registration so far took its identifier from the
counter: the `n`-th registration got `n` modulo `2^32`, the counter is one ahead, the
active collection followed by the pending additions is in registration order, and the
callbacks of the registered tasks register with the counter only. -/
structure Scheduler.Counted (w : World) : Prop where
  pending : w.sched.in_run = false → w.sched.pending_add = []
  next : w.sched.next_id = (1 + (addedIds w.log).length) % U32
  ids : addedIds w.log = (List.range' 1 (addedIds w.log).length).map (fun n => n % U32)
  sub : ((w.sched.tasks ++ w.sched.pending_add).map TaskPtr.id).Sublist
    ((addedIds w.log).map some)
  cbs : ∀ t, some t ∈ w.sched.tasks ++ w.sched.pending_add →
    ∀ step, (t.cb step).CounterOnly

/-- A callback that registers a new `makeTask(1, cb)` task with `addTask`, the new task
doing nothing. -/
def spawn : Nat → Prog := fun _ =>
  Prog.add AddCall.addTask everyMs idleCb (fun _ => Prog.ret)

/-- A main loop that registers two tasks, the second of which registers a task each time
it fires, runs a pass, removes the first task and registers one more. -/
def mainLoop : List Op :=
  [Op.call (Prog.add AddCall.addTaskAndInit everyMs idleCb (fun _ =>
      Prog.add AddCall.addTask everyMs spawn (fun _ => Prog.ret))),
   Op.runOnce 1,
   Op.call (Prog.removeTask 1 (Prog.add (AddCall.addTaskAndInitAt 5) everyMs idleCb
      (fun _ => Prog.ret)))]

/-! ## App.cpp: the control task -/

/-- The enumeration `Track`. -/
inductive Track where
  | Straight
  | Mid
  | Default
deriving DecidableEq, Repr

/-- The enumeration `ControlMode`. -/
inductive ControlMode where
  | PID
  | Stop
  | Max
  | DOS
deriving DecidableEq, Repr

/-- The structure `Params`. The three gains are `float`s; they are kept as the decimal
numbers of the source, and no statement depends on their value. `DeadZone`,
`StraightZone` and `OutZone` are `uint16_t`, `Speed` is `int32_t`. -/
structure Params where
  Kp : Rat
  Ki : Rat
  Kd : Rat
  DeadZone : Nat
  StraightZone : Nat
  OutZone : Nat
  Speed : Int
deriving DecidableEq, Repr

/-- The object `Config`, as far as the control task and the main loop read it. -/
structure Config where
  Default : Params
  Straight : Params
  Mid : Params
  SteerEnabled : Bool
  UseAnalysis : Bool
  StopPassNeeded : Nat
deriving DecidableEq, Repr

/-- `SpeedBase`. -/
def SpeedBase : Int := 650

/-- The initializer of `Config`. -/
def Config.compiled : Config :=
  { Default := { Kp := 44 / 1000, Ki := 0, Kd := 18 / 100, DeadZone := 250,
                 StraightZone := 0, OutZone := 1600, Speed := SpeedBase },
    Straight := { Kp := 15 / 1000, Ki := 0, Kd := 25 / 100, DeadZone := 0,
                  StraightZone := 1250, OutZone := 1800, Speed := SpeedBase },
    Mid := { Kp := 4 / 100, Ki := 0, Kd := 6 / 10, DeadZone := 0,
             StraightZone := 1000, OutZone := 3000, Speed := SpeedBase - 150 },
    SteerEnabled := false, UseAnalysis := false, StopPassNeeded := 2 }

/-- The object `Config` once the board task has run in `runMode` 0: steering and analysis
are switched on, and only speeds change besides. -/
def Config.contest : Config :=
  { Config.compiled with SteerEnabled := true, UseAnalysis := true }

/-- The object `State`, as far as the control task uses it; the zones and the speed are
`int32_t`. -/
structure State where
  Condition : Track
  Kp : Rat
  Ki : Rat
  Kd : Rat
  DeadZone : Int
  StraightZone : Int
  OutZone : Int
  Speed : Int
  Control : ControlMode
deriving DecidableEq, Repr

/-- The initializer of `State`. -/
def State.compiled : State :=
  { Condition := Track.Default, Kp := Config.compiled.Default.Kp,
    Ki := Config.compiled.Default.Ki, Kd := Config.compiled.Default.Kd,
    DeadZone := Config.compiled.Default.DeadZone,
    StraightZone := Config.compiled.Default.StraightZone,
    OutZone := Config.compiled.Default.OutZone, Speed := Config.compiled.Default.Speed,
    Control := ControlMode.PID }

/-- The expression
`State.Control == ControlMode::DOS ? (R - L / (R + R)) : R - L` on two samples; `none`
is the division by zero. The samples are values that `getNoseADC` returned (`uint16_t`)
or the initial 0, so no `int32_t` operation overflows. -/
def errorOf (control : ControlMode) (L R : Nat) : Option Int :=
  if control = ControlMode.DOS then
    if R + R = 0 then none else some ((R : Int) - (L : Int) / ((R : Int) + (R : Int)))
  else some ((R : Int) - (L : Int))

/-- The block `if (Config.UseAnalysis) { ... }` of the control task. -/
def analyse (cfg : Config) (st : State) (latest_err : Int) (ad_left ad_right : Nat) : State :=
  if cfg.UseAnalysis then
    if decide ((latest_err.natAbs : Int) > st.StraightZone) ||
        decide (((ad_left + ad_right : Nat) : Int) < st.OutZone) then
      { st with Condition := Track.Mid,
                Control := if ((ad_left + ad_right : Nat) : Int) < st.OutZone
                  then ControlMode.Max else ControlMode.PID }
    else { st with Condition := Track.Straight, Control := ControlMode.PID }
  else st

/-- The lambda that selects `config` from `State.Condition`. -/
def selectConfig (cfg : Config) (condition : Track) : Params :=
  match condition with
  | Track.Straight => cfg.Straight
  | Track.Mid => cfg.Mid
  | Track.Default => cfg.Default

/-- The assignments `State.Kp = config.Kp; ... State.Speed = config.Speed;` followed by
the dead-zone test. -/
def copyParams (config : Params) (st : State) (latest_err : Int) : State :=
  let st1 : State :=
    { st with Kp := config.Kp, Ki := config.Ki, Kd := config.Kd,
              DeadZone := config.DeadZone, StraightZone := config.StraightZone,
              OutZone := config.OutZone, Speed := config.Speed }
  if (latest_err.natAbs : Int) < st1.DeadZone then { st1 with Control := ControlMode.Stop }
  else st1

/-- The argument of `dev.setDirection` chosen by the mode dispatch. `pid` stands for
`static_cast<int32_t>(State.Kp * P + State.Kd * D)`, whose `float` arithmetic is not
modelled. -/
def steerCommand (pid : Rat → Rat → Int → Int → Int) (cfg : Config) (st : State)
    (latest_err previous_err : Int) (ad_left ad_right : Nat) : Int :=
  if cfg.SteerEnabled then
    match st.Control with
    | ControlMode.Stop => 0
    | ControlMode.Max => if ad_left < ad_right then 90 else -90
    | ControlMode.PID => pid st.Kp st.Kd latest_err previous_err
    | ControlMode.DOS => pid st.Kp st.Kd latest_err previous_err
  else 0

/-- The callback of the control task, without its telemetry frame: the new `State` and
the argument passed to `dev.setDirection`. `LBuffer` and `RBuffer` are the two
`Buffer<int32_t, 4>`; `none` is a division by zero in the `DOS` formula. -/
def controlTask (pid : Rat → Rat → Int → Int → Int) (cfg : Config)
    (LBuffer RBuffer : Buffer Nat) (st : State) : Option (State × Int) :=
  let ad_left := LBuffer.read (-1) % 2 ^ 16
  let ad_right := RBuffer.read (-1) % 2 ^ 16
  match errorOf st.Control (LBuffer.read (-1)) (RBuffer.read (-1)),
      errorOf st.Control (LBuffer.read (-2)) (RBuffer.read (-2)) with
  | some latest_err, some previous_err =>
    let st1 := analyse cfg st latest_err ad_left ad_right
    let st2 := copyParams (selectConfig cfg st1.Condition) st1 latest_err
    some (st2, steerCommand pid cfg st2 latest_err previous_err ad_left ad_right)
  | _, _ => none

/-! ## Device.cpp: actuators -/

/-- `STEER_CENTER`. -/
def STEER_CENTER : Nat := 741

/-- `STEER_MAX`. -/
def STEER_MAX : Int := 90

/-- `POWER_MAX`. -/
def POWER_MAX : Int := 4800

/-- Conversion of an `int32_t` to `uint32_t`. -/
def toU32 (i : Int) : Nat := (i % (U32 : Int)).toNat

/-- Member `Device::setDirection`: the value written to the compare register of the
steering timer. -/
def setDirection (rotation : Int) : Nat :=
  let rotation := if rotation > STEER_MAX then STEER_MAX
    else if rotation < -STEER_MAX then -STEER_MAX else rotation
  (STEER_CENTER + toU32 rotation) % U32

/-- Member `Device::setPower`: the value written to the compare register of the drive
timer, and whether the direction pin is set (`GPIO_PIN_SET`). -/
def setPower (power : Int) : Nat × Bool :=
  let power := if power > POWER_MAX then POWER_MAX
    else if power < -POWER_MAX then -POWER_MAX else power
  if power > 0 then (toU32 power, false)
  else ((4800 + toU32 power) % U32, true)

/-! ## App.cpp: the main loop -/

/-- `Setting.MusicTaskID`. -/
def MusicTaskID : Nat := 2147480000

/-- The identifiers that `App` keeps from the registration of the steady-state tasks. -/
structure SteadyIds where
  boardIOTaskID : Nat
  enableIOTaskID : Nat
  dataCollectionTaskID : Nat
  sdataCollectionTaskID : Nat
  controlTaskID : Nat
  stopTriggerTaskID : Nat
deriving DecidableEq, Repr

/-- How the main loop reads the globals that callbacks write, from the state outside the
scheduler: `State.StopPassed`, `Config.StopPassNeeded` and `Config.BrakingTime`. -/
structure Globals where
  StopPassed : Nat → Nat
  StopPassNeeded : Nat → Nat
  BrakingTime : Nat → Nat

/-- Variables of the main loop: the scheduler with the state outside it, `State.Stopped`,
the `static bool stopped`, the three task objects created before the loop (null once
moved from), the duty last written by `device.setDirection`, and a record, one entry
per iteration, of whether the test `State.StopPassed >= Config.StopPassNeeded` held and
whether the shutdown block ran. -/
structure MainLoop where
  world : World
  Stopped : Bool
  stopped : Bool
  brake : TaskPtr
  endShow : TaskPtr
  relayBuzz : TaskPtr
  duty : Option Nat
  trace : List (Bool × Bool)

/-- The task `makeTask(1, cb, 1)` of `brake`. -/
def brakeTask (cb : Nat → Prog) : Task :=
  { st := TaskState.single (SingleTask.periodic 1 1), cb := cb }

/-- The task `makeTask(Config.BrakingTime, 1, cb, 1)` that `createStop` returns. -/
def createStop (BrakingTime : Nat) (cb : Nat → Prog) : Task :=
  { st := TaskState.single (SingleTask.delayed BrakingTime 1 1), cb := cb }

/-- The task `makeStepTask<20>(1600, cb, 20)` of `endShow`. -/
def endShowTask (cb : Nat → Prog) : Task :=
  { st := TaskState.step (StepTask.averaged 20 1600 20), cb := cb }

/-- The task `makeTask(3000, 1, cb, 1)` of `relayBuzz`. -/
def relayBuzzTask (cb : Nat → Prog) : Task :=
  { st := TaskState.single (SingleTask.delayed 3000 1 1), cb := cb }

/-- The task `makeStepTask<42>(5400, cb, 42)` that `CreatePlayLevelComplete` returns. -/
def CreatePlayLevelComplete (cb : Nat → Prog) : Task :=
  { st := TaskState.step (StepTask.averaged 42 5400 42), cb := cb }

/-- The scheduler calls of the shutdown block, in order: seven `removeTask`, `resetTime`
and five `addTaskAndInit`. -/
def shutdownBlock (ids : SteadyIds) (BrakingTime : Nat) (haltCb melodyCb : Nat → Prog)
    (brake endShow relayBuzz : TaskPtr) (now : Nat) (s : Scheduler) : Scheduler :=
  let s := s.removeTask ids.boardIOTaskID
  let s := s.removeTask ids.enableIOTaskID
  let s := s.removeTask ids.dataCollectionTaskID
  let s := s.removeTask ids.sdataCollectionTaskID
  let s := s.removeTask ids.controlTaskID
  let s := s.removeTask ids.stopTriggerTaskID
  let s := s.removeTask MusicTaskID
  let s := s.resetTime now
  let s := (s.addTaskAndInit brake).1
  let s := (s.addTaskAndInit (some (createStop BrakingTime haltCb))).1
  let s := (s.addTaskAndInit endShow).1
  let s := (s.addTaskAndInit relayBuzz).1
  (s.addTaskAndInit (some (CreatePlayLevelComplete melodyCb))).1

/-- One iteration of `while (1)` in `App`, `now` being the value of `device.getTick()`;
`device.delay(1)` is left out. -/
def mainIteration (g : Globals) (ids : SteadyIds) (haltCb melodyCb : Nat → Prog)
    (l : MainLoop) (now : Nat) : MainLoop :=
  let w := Scheduler.runOnce l.world now
  let reached := decide (g.StopPassNeeded w.dev ≤ g.StopPassed w.dev)
  let Stopped := if reached then true else l.Stopped
  if Stopped && !l.stopped then
    let s := shutdownBlock ids (g.BrakingTime w.dev) haltCb melodyCb l.brake l.endShow
      l.relayBuzz now w.sched
    { world := { w with sched := s },
      Stopped := Stopped, stopped := true, brake := none, endShow := none,
      relayBuzz := none, duty := some (setDirection 0),
      trace := l.trace ++ [(reached, true)] }
  else { l with world := w, Stopped := Stopped, trace := l.trace ++ [(reached, false)] }

/-- The main loop over the successive values of `device.getTick()`. -/
def mainLoopRun (g : Globals) (ids : SteadyIds) (haltCb melodyCb : Nat → Prog)
    (l : MainLoop) (nows : List Nat) : MainLoop :=
  nows.foldl (mainIteration g ids haltCb melodyCb) l

/-- A callback that adds one to the state outside the scheduler. -/
def bump : Nat → Prog := fun _ => Prog.getDev (fun v => Prog.setDev (v + 1) Prog.ret)

/-- A scheduler created at tick 0 with one steady-state task (identifier 1) and a task
that counts its runs in the outside state (identifier 2), both `makeTask(1, cb)`. -/
def stopDemoSched : Scheduler :=
  (((Scheduler.new 0).addTaskAndInit (some { st := everyMs, cb := idleCb })).1.addTaskAndInit
    (some { st := everyMs, cb := bump })).1

/-- A main loop about to start on `stopDemoSched`. -/
def stopDemo : MainLoop :=
  { world := { sched := stopDemoSched, dev := 0, log := [] },
    Stopped := false, stopped := false,
    brake := some (brakeTask idleCb), endShow := some (endShowTask idleCb),
    relayBuzz := some (relayBuzzTask idleCb), duty := none, trace := [] }

/-- Identifiers used by `stopDemo`: the first task is every steady-state task. -/
def stopDemoIds : SteadyIds :=
  { boardIOTaskID := 1, enableIOTaskID := 1, dataCollectionTaskID := 1,
    sdataCollectionTaskID := 1, controlTaskID := 1, stopTriggerTaskID := 1 }

/-- Reading of the globals used by `stopDemo`. -/
def stopDemoGlobals : Globals :=
  { StopPassed := fun d => d, StopPassNeeded := fun _ => 2, BrakingTime := fun _ => 500 }

/-- The latches and the record during the main loop: both latches say whether the test has
held in some iteration so far, the block ran in an iteration exactly when the test held
in it and in none before, and it ran once if the latch is set and never otherwise. -/
def LatchInv (l : MainLoop) : Prop :=
  l.Stopped = l.stopped ∧ l.stopped = l.trace.any (fun e => e.1) ∧
  (∀ k r x, l.trace[k]? = some (r, x) →
    (x = true ↔ (r = true ∧ (l.trace.take k).any (fun e => e.1) = false))) ∧
  (l.trace.filter (fun e => e.2)).length = (if l.stopped then 1 else 0)

/-! ## Device.cpp: telemetry -/

/-- The array `Device::vofaEnd`. -/
def vofaEnd : List Nat := [0x00, 0x00, 0x80, 0x7f]

/-- The four bytes that a `float` occupies in memory, lowest address first; `bits` is its
IEEE-754 binary32 word and the target is little-endian. Both `(uint8_t*)datas.data()`
and the `union Convertor` read these bytes. -/
def floatBytes (bits : Nat) : List Nat :=
  [bits % 256, bits / 256 % 256, bits / 65536 % 256, bits / 16777216 % 256]

/-- Modelled from the spec: `HAL_UART_Transmit(&huart1, pData, Size, 10)` of the vendor
library, which is not among the sources. One transmit puts the first `Size` bytes at
`pData` on the line, after what has been sent; its time-out and its status are not
modelled. -/
def HAL_UART_Transmit (sent pData : List Nat) (Size : Nat) : List Nat :=
  sent ++ pData.take Size

/-- Member `Device::sendData(const std::vector<float>&)`: what has been sent afterwards.
The byte count `datas.size() * sizeof(float)` is a `size_t` product. -/
def sendData (sent datas : List Nat) : List Nat :=
  let s1 := HAL_UART_Transmit sent (datas.flatMap floatBytes) ((datas.length * 4) % SIZE_MOD)
  HAL_UART_Transmit s1 vofaEnd 4

/-- Member `Device::sendDataSafely`: what has been sent afterwards. -/
def sendDataSafely (sent datas : List Nat) : List Nat :=
  let s1 := datas.foldl (fun s data => HAL_UART_Transmit s (floatBytes data) 4) sent
  HAL_UART_Transmit s1 vofaEnd 4

/-- The word that four bytes form when read as a little-endian 32-bit value. -/
def leWord (bytes : List Nat) : Nat :=
  bytes.getD 0 0 + 256 * bytes.getD 1 0 + 65536 * bytes.getD 2 0 + 16777216 * bytes.getD 3 0

/-- Sign bit of an IEEE-754 binary32 word. -/
def signBit (w : Nat) : Nat := w / 2 ^ 31 % 2

/-- Exponent field (8 bits) of an IEEE-754 binary32 word. -/
def exponentField (w : Nat) : Nat := w / 2 ^ 23 % 256

/-- Fraction field (23 bits) of an IEEE-754 binary32 word. -/
def fractionField (w : Nat) : Nat := w % 2 ^ 23

/-- The word is a NaN: exponent field all ones, fraction field not zero. -/
def isNaN (w : Nat) : Bool := exponentField w == 255 && fractionField w != 0

/-- The word is an infinity: exponent field all ones, fraction field zero. -/
def isInfinite (w : Nat) : Bool := exponentField w == 255 && fractionField w == 0

/-! ## Shifted clocks and step durations -/

/-- The task with `last_tick_ms` moved forward by `c` (32-bit sum). -/
def StepTask.shift (c : Nat) (t : StepTask) : StepTask :=
  { t with last_tick_ms := add32 t.last_tick_ms c }

/-- The same for `ScheduledTask<1>`. -/
def SingleTask.shift (c : Nat) (t : SingleTask) : SingleTask :=
  { t with last_tick_ms := add32 t.last_tick_ms c }

/-- What `current_step_duration` returns when the step cursor is `step`. -/
def StepTask.durationOf (t : StepTask) (step : Nat) : Nat :=
  if !t.step_durations.isEmpty then t.step_durations.getD step 0
  else t.step_period_ms

/-- Content of a 64-slot buffer in which both initial values of the selection occur as
samples: 65535 twice, 0 twice, and 1, 2, 3, 9 among 56 sixes. -/
def sentinels : List Nat :=
  [65535, 3, 0, 9, 65535, 1, 0, 2] ++ List.replicate 56 6

/-! ## Step range, termination and tasks that never run -/

/-- What every constructor of `ScheduledTask<Steps>` establishes: `Steps > 0` (the
`static_assert`), the step cursor below `Steps`, and either no duration vector and
`step_period_ms >= 1` (averaged steps) or a duration vector of `Steps` entries, each at
least 1 (custom durations). -/
def StepTask.Valid (t : StepTask) : Prop :=
  0 < t.Steps ∧ t.cur_step < t.Steps ∧
  ((t.step_durations = [] ∧ 1 ≤ t.step_period_ms) ∨
    (t.step_durations.length = t.Steps ∧ ∀ d ∈ t.step_durations, 1 ≤ d))

instance StepTask.decidableValid (t : StepTask) : Decidable t.Valid :=
  inferInstanceAs (Decidable (0 < t.Steps ∧ t.cur_step < t.Steps ∧
    ((t.step_durations = [] ∧ 1 ≤ t.step_period_ms) ∨
      (t.step_durations.length = t.Steps ∧ ∀ d ∈ t.step_durations, 1 ≤ d))))

/-- The table `Setting.Lights` of App.cpp. -/
def Lights : List Nat := [1, 2, 4, 8, 4, 2, 1, 2, 4, 8, 4, 2, 1, 5, 10, 5, 10, 5, 10, 0]

/-- State of the task `makeStepTask<20>(1600, cb, 20)` that plays the light show on
startup; its callback reads `Setting.Lights[step]`. -/
def lightShow : StepTask := StepTask.averaged 20 1600 20

/-- Private member `max_runs` of the object behind a task pointer. -/
def TaskState.max_runs : TaskState → Nat
  | .step t => t.max_runs
  | .single t => t.max_runs

/-- A task whose run limit is zero and that is not marked finished, as every task
created with `max_runs = 0` is. -/
def TaskState.NeverRuns (st : TaskState) : Prop := st.max_runs = 0 ∧ st.finished = false

/-- Two tasks registered with `addTaskWithID` under the same identifier 7, outside any
pass: `makeTask(1, cb, 0)`, which never runs, and `makeTask(1, cb, 1)`, which runs
once. -/
def zeroTwins : World :=
  { sched :=
      (((Scheduler.new 0).addTaskWithID
          (some { st := TaskState.single (SingleTask.periodic 1 0), cb := idleCb }) 7).1.addTaskWithID
          (some { st := TaskState.single (SingleTask.periodic 1 1), cb := idleCb }) 7).1,
    dev := 0, log := [] }

/-- A `makeTask(1, cb, 0)` task (identifier 1) and a `makeTask(1, cb, 1)` task
(identifier 2), registered with `addTask` outside any pass. -/
def zeroAndOnce : World :=
  { sched :=
      (((Scheduler.new 0).addTask
          (some { st := TaskState.single (SingleTask.periodic 1 0), cb := idleCb })).1.addTask
          (some { st := TaskState.single (SingleTask.periodic 1 1), cb := idleCb })).1,
    dev := 0, log := [] }

/-! ## App.cpp: the states the control mode can reach -/

/-- The callback of the statistics task: `ErrBuffer` after the push of `latest_err`;
`none` is a division by zero in the `DOS` formula. -/
def sdataCollectionTask (LBuffer RBuffer : Buffer Nat) (ErrBuffer : Buffer Int) (st : State) :
    Option (Buffer Int) :=
  match errorOf st.Control (LBuffer.read (-1)) (RBuffer.read (-1)) with
  | some latest_err => some (ErrBuffer.push latest_err)
  | none => none

/-- One firing of a task that reads `State.Control`, with what the firing finds outside
`State`: the sample buffers, and for the control task the object `Config` and the
outcome of its floating-point computation. -/
inductive AppTick where
  | control (pid : Rat → Rat → Int → Int → Int) (cfg : Config) (LBuffer RBuffer : Buffer Nat)
  | statistics (LBuffer RBuffer : Buffer Nat)

/-- What these two tasks write: the object `State` and `ErrBuffer`. -/
structure AppState where
  State : Nutshell.State
  ErrBuffer : Buffer Int

/-- Effect of one firing; `none` when it divides by zero. -/
def AppState.step (a : AppState) : AppTick → Option AppState
  | .control pid cfg LBuffer RBuffer =>
    match controlTask pid cfg LBuffer RBuffer a.State with
    | some r => some { a with State := r.1 }
    | none => none
  | .statistics LBuffer RBuffer =>
    match sdataCollectionTask LBuffer RBuffer a.ErrBuffer a.State with
    | some e => some { a with ErrBuffer := e }
    | none => none

/-- Effect of a sequence of firings. -/
def AppState.run : AppState → List AppTick → Option AppState
  | a, [] => some a
  | a, t :: ts =>
    match a.step t with
    | some a1 => a1.run ts
    | none => none
/-! ## Buffer: proofs -/

theorem toSizeT_neg (k : Nat) (hk1 : 1 ≤ k) (hk : k ≤ SIZE_MOD) :
    toSizeT (-(k : Int)) = SIZE_MOD - k := by
  unfold toSizeT
  have h : (-(k : Int)) % (SIZE_MOD : Int) = ((SIZE_MOD - k : Nat) : Int) := by
    rw [← Int.add_emod_self, Nat.cast_sub hk]
    have e : -(k : Int) + (SIZE_MOD : Int) = (SIZE_MOD : Int) - (k : Int) := by ring
    rw [e]
    apply Int.emod_eq_of_lt <;> omega
  rw [h]; simp

theorem mod_shift_ne (N m j : Nat) (hj1 : 1 ≤ j) (hjN : j < N) :
    (m + N - j) % N ≠ m % N := by
  intro h
  have h1 : (m + N - j + j) % N = (m + j) % N := by
    rw [Nat.add_mod, h, ← Nat.add_mod]
  have h2 : m + N - j + j = m + N := by omega
  rw [h2, Nat.add_mod_right] at h1
  have h3 : (m + j) % N = (m % N + j) % N := by
    rw [Nat.add_mod, Nat.mod_eq_of_lt hjN]
  have hm : m % N < N := Nat.mod_lt _ (by omega)
  rw [h3] at h1
  by_cases hc : m % N + j < N
  · rw [Nat.mod_eq_of_lt hc] at h1; omega
  · have : (m % N + j) % N = m % N + j - N := by
      rw [Nat.mod_eq_sub_mod (by omega), Nat.mod_eq_of_lt (by omega)]
    omega

theorem Buffer.pushAll_snoc {α : Type} (b : Buffer α) (vs : List α) (v : α) :
    b.pushAll (vs ++ [v]) = (b.pushAll vs).push v := by
  simp [Buffer.pushAll, List.foldl_append]

theorem Buffer.pushAll_inv {α : Type} (N : Nat) (dflt : α) (hN : 1 ≤ N) (hN2 : N < SIZE_MOD)
    (vs : List α) :
    ((Buffer.new N dflt).pushAll vs).N = N ∧
    ((Buffer.new N dflt).pushAll vs).head = vs.length % N ∧
    ((Buffer.new N dflt).pushAll vs).buffer.length = N ∧
    ∀ k, 1 ≤ k → k ≤ N →
      ((Buffer.new N dflt).pushAll vs).buffer[(vs.length + N - k) % N]? =
        if k ≤ vs.length then vs[vs.length - k]? else some dflt := by
  induction vs using List.reverseRecOn with
  | nil =>
    refine ⟨rfl, by simp [Buffer.pushAll, Buffer.new], by simp [Buffer.pushAll, Buffer.new], ?_⟩
    intro k hk1 hkN
    have hlt : (0 + N - k) % N < N := Nat.mod_lt _ (by omega)
    simp only [Buffer.pushAll, Buffer.new, List.foldl_nil, List.length_nil]
    rw [if_neg (by omega)]
    rw [List.getElem?_eq_getElem (by simpa using hlt)]
    simp
  | append_singleton l a ih =>
    obtain ⟨ihN, ihh, ihl, ihk⟩ := ih
    rw [Buffer.pushAll_snoc]
    have hm : l.length % N < N := Nat.mod_lt _ (by omega)
    refine ⟨by simpa [Buffer.push] using ihN, ?_, by simpa [Buffer.push] using ihl, ?_⟩
    · simp only [Buffer.push, ihN, ihh, List.length_append, List.length_singleton]
      rw [Nat.mod_eq_of_lt (by omega : l.length % N + 1 < SIZE_MOD)]
      simp
    · intro k hk1 hkN
      simp only [Buffer.push, ihh, List.length_append, List.length_singleton]
      by_cases hk : k = 1
      · subst hk
        rw [if_pos (by omega)]
        have e1 : (l.length + 1 + N - 1) % N = l.length % N := by
          rw [show l.length + 1 + N - 1 = l.length + N by omega, Nat.add_mod_right]
        rw [e1, List.getElem?_set_self (by rw [ihl]; exact hm)]
        simp
      · have e1 : l.length + 1 + N - k = l.length + N - (k - 1) := by omega
        have hne : l.length % N ≠ (l.length + N - (k - 1)) % N :=
          fun h => mod_shift_ne N l.length (k - 1) (by omega) (by omega) h.symm
        rw [e1, List.getElem?_set_ne hne, ihk (k - 1) (by omega) (by omega)]
        by_cases hkl : k - 1 ≤ l.length
        · rw [if_pos hkl, if_pos (by omega),
            show l.length + 1 - k = l.length - (k - 1) by omega]
          rw [List.getElem?_append_left (by omega)]
        · rw [if_neg hkl, if_neg (by omega)]

/-- C1. Recency indexing of `Buffer<T, N>`: after pushing `vs = v_1 .. v_m` into a fresh
buffer of `N >= 1` slots, for every `k` with `1 <= k <= N` the element `buf[-k]` is
`v_(m-k+1)` (the `k`-th most recently pushed value, `vs[m-k]` counting from 0) when
`k <= m`, and the default value `T{}` when `m < k`. `N <= 2^31` holds for every array
the 32-bit target can hold. -/
theorem Buffer.recency_indexing {α : Type} (N : Nat) (dflt : α) (vs : List α) (k : Nat)
    (hN : 1 ≤ N) (hN2 : N ≤ 2 ^ 31) (hk1 : 1 ≤ k) (hkN : k ≤ N) :
    ((Buffer.new N dflt).pushAll vs).get (-(k : Int)) =
      if k ≤ vs.length then vs[vs.length - k]? else some dflt := by
  have hS : SIZE_MOD = 2 ^ 32 := rfl
  obtain ⟨iN, ih, _, ik⟩ := Buffer.pushAll_inv N dflt hN (by omega) vs
  have hm : vs.length % N < N := Nat.mod_lt _ (by omega)
  have hslot : ((Buffer.new N dflt).pushAll vs).slot (-(k : Int)) = (vs.length + N - k) % N := by
    unfold Buffer.slot Buffer.slotOf
    rw [iN, ih, toSizeT_neg k hk1 (by omega)]
    have e : vs.length % N + N + (SIZE_MOD - k) = (vs.length % N + N - k) + SIZE_MOD := by omega
    have e1 : (vs.length % N + N - k) % SIZE_MOD = vs.length % N + N - k :=
      Nat.mod_eq_of_lt (by omega)
    rw [e, Nat.add_mod_right, e1]
    have e2 : vs.length % N + N - k = vs.length % N + (N - k) := by omega
    have e3 : vs.length + N - k = vs.length + (N - k) := by omega
    rw [e2, e3, Nat.mod_add_mod]
  unfold Buffer.get
  rw [hslot]
  exact ik k hk1 hkN

/-- Witness of C1: `N = 4`, pushes 1,2,3,4,5, index `-4` reads 2. -/
theorem Buffer.recency_indexing_witness :
    ((Buffer.new 4 0).pushAll [1, 2, 3, 4, 5]).get (-4) = some 2 := by
  have h := Buffer.recency_indexing 4 0 [1, 2, 3, 4, 5] 4
    (by decide) (by decide) (by decide) (by decide)
  simpa using h


theorem Buffer.slotOf_cast (N head : Nat) (i : Int) :
    ((Buffer.slotOf N head i : Nat) : Int) =
      (((head : Int) + (N : Int) + i) % (2 ^ 32 : Int)) % (N : Int) := by
  have hM : ((SIZE_MOD : Nat) : Int) = (2 ^ 32 : Int) := by norm_num [SIZE_MOD]
  have hnn : (0 : Int) ≤ i % (2 ^ 32 : Int) := Int.emod_nonneg _ (by norm_num)
  unfold Buffer.slotOf toSizeT
  push_cast
  rw [hM, Int.toNat_of_nonneg hnn, Int.add_emod_emod]
  norm_num

/-- C2, counterexample. In the 20-slot buffer with `head = 0`, index `-21` reads slot 15,
while the mathematical `(head + N + i) mod N` is 19, the slot read by index `-21 + 20`. -/
theorem Buffer.slot_any_integer_counterexample :
    Buffer.slotOf 20 0 (-21) = 15 ∧ ((0 : Int) + 20 + (-21)) % 20 = 19 ∧
      Buffer.slotOf 20 0 (-21 + 20) = 19 := by
  decide

/-- C2, amended. For every `N >= 1`, every `head` and every integer index `i`, the slot
read by `operator[]` is `((head + N + i) mod 2^32) mod N` and lies inside `[0, N)`. It is
the mathematical `(head + N + i) mod N` whenever `0 <= head + N + i < 2^32`, and for
every `i` when `N` divides `2^32`. -/
theorem Buffer.slot_window (N head : Nat) (i : Int) (hN : 1 ≤ N) :
    Buffer.slotOf N head i < N ∧
    ((Buffer.slotOf N head i : Nat) : Int) =
      (((head : Int) + (N : Int) + i) % (2 ^ 32 : Int)) % (N : Int) ∧
    (0 ≤ (head : Int) + (N : Int) + i → (head : Int) + (N : Int) + i < 2 ^ 32 →
      ((Buffer.slotOf N head i : Nat) : Int) = ((head : Int) + (N : Int) + i) % (N : Int)) ∧
    ((N : Int) ∣ 2 ^ 32 →
      ((Buffer.slotOf N head i : Nat) : Int) = ((head : Int) + (N : Int) + i) % (N : Int)) := by
  refine ⟨Nat.mod_lt _ (by omega), Buffer.slotOf_cast N head i, ?_, ?_⟩
  · intro h0 h1
    rw [Buffer.slotOf_cast, Int.emod_eq_of_lt h0 h1]
  · intro hdvd
    rw [Buffer.slotOf_cast, Int.emod_emod_of_dvd _ hdvd]

/-- Witness of the amended C2: the 20-slot buffer with `head = 3` and index `-5`. -/
theorem Buffer.slot_window_witness :
    Buffer.slotOf 20 3 (-5) < 20 ∧
    ((Buffer.slotOf 20 3 (-5) : Nat) : Int) =
      ((((3 : Nat) : Int) + ((20 : Nat) : Int) + (-5)) % (2 ^ 32 : Int)) % ((20 : Nat) : Int) ∧
    (0 ≤ ((3 : Nat) : Int) + ((20 : Nat) : Int) + (-5) →
      ((3 : Nat) : Int) + ((20 : Nat) : Int) + (-5) < 2 ^ 32 →
      ((Buffer.slotOf 20 3 (-5) : Nat) : Int) =
        (((3 : Nat) : Int) + ((20 : Nat) : Int) + (-5)) % ((20 : Nat) : Int)) ∧
    ((((20 : Nat) : Int)) ∣ 2 ^ 32 →
      ((Buffer.slotOf 20 3 (-5) : Nat) : Int) =
        (((3 : Nat) : Int) + ((20 : Nat) : Int) + (-5)) % ((20 : Nat) : Int)) :=
  Buffer.slot_window 20 3 (-5) (by decide)

/-! ## Averaged step duration -/

/-- C7 at the failing input: for `Steps = 2` and `period = 2^32 - 1` the 32-bit sum
`period + Steps - 1` wraps to 0 and the step duration is 1, while
`max(1, ceil(period / Steps))` is `2^31`. -/
theorem init_average_steps_overflow :
    init_average_steps 2 4294967295 = 1 ∧
      max 1 ((4294967295 + 2 - 1) / 2) = 2147483648 ∧
      (StepTask.averaged 2 4294967295 INF_RUNS).step_period_ms = 1 := by
  decide

theorem init_average_steps_exact (Steps period : Nat) (hS : 1 ≤ Steps)
    (h : period + Steps ≤ U32) :
    init_average_steps Steps period = max 1 ((period + Steps - 1) / Steps) := by
  have hU : U32 = 4294967296 := rfl
  unfold init_average_steps sub32 add32
  by_cases hc : period + Steps = U32
  · rw [hc]
    have e1 : (U32 % U32 + (U32 - 1 % U32)) % U32 = U32 - 1 := by rw [hU]
    rw [e1]
    have e2 : (U32 - 1) / Steps % U32 = (U32 - 1) / Steps :=
      Nat.mod_eq_of_lt (lt_of_le_of_lt (Nat.div_le_self _ _) (by omega))
    rw [e2]
  · have e0 : (period + Steps) % U32 = period + Steps := Nat.mod_eq_of_lt (by omega)
    have e1 : ((period + Steps) % U32 + (U32 - 1 % U32)) % U32 = period + Steps - 1 := by
      rw [e0, show (1 : Nat) % U32 = 1 by rw [hU]]
      rw [show period + Steps + (U32 - 1) = (period + Steps - 1) + U32 by omega,
        Nat.add_mod_right]
      exact Nat.mod_eq_of_lt (by omega)
    rw [e1]
    have e2 : (period + Steps - 1) / Steps % U32 = (period + Steps - 1) / Steps :=
      Nat.mod_eq_of_lt (lt_of_le_of_lt (Nat.div_le_self _ _) (by omega))
    rw [e2]


/-! ## Tasks: the catch-up loop -/

theorem U32_eq : U32 = 4294967296 := rfl

theorem SIZE_MOD_eq : SIZE_MOD = 4294967296 := rfl

theorem sub32_lt (a b : Nat) : sub32 a b < U32 := Nat.mod_lt _ (by decide)

theorem add32_lt (a b : Nat) : add32 a b < U32 := Nat.mod_lt _ (by decide)

theorem sub32_add32 (now last d : Nat) (h : d ≤ sub32 now last) :
    sub32 now (add32 last d) = sub32 now last - d := by
  unfold sub32 add32 at *
  rw [U32_eq] at *
  omega

theorem sub32_exact (now last : Nat) (h1 : last ≤ now) (h2 : now < U32) :
    sub32 now last = now - last := by
  unfold sub32
  rw [U32_eq] at *
  omega

theorem add32_exact (a b : Nat) (h : a + b < U32) : add32 a b = a + b :=
  Nat.mod_eq_of_lt h

/-- One pass through the body of the loop, spelled out. -/
theorem StepTask.loop_succ {σ : Type} (fire : Nat → σ → σ) (now fuel : Nat) (t : StepTask)
    (w : σ) :
    StepTask.loop fire now (fuel + 1) t w =
      if t.run_count < t.max_runs ∧ t.current_step_duration ≤ sub32 now t.last_tick_ms then
        if t.max_runs ≤ add32 t.run_count 1 then
          ({ t with last_tick_ms := add32 t.last_tick_ms t.current_step_duration,
                    run_count := add32 t.run_count 1, finished_flag := true },
            fire t.cur_step w)
        else
          StepTask.loop fire now fuel
            { t with last_tick_ms := add32 t.last_tick_ms t.current_step_duration,
                     run_count := add32 t.run_count 1,
                     cur_step := ((t.cur_step + 1) % SIZE_MOD) % t.Steps }
            (fire t.cur_step w)
      else (t, w) := by
  by_cases h1 : t.run_count < t.max_runs <;>
    by_cases h2 : t.current_step_duration ≤ sub32 now t.last_tick_ms <;>
    by_cases h3 : t.max_runs ≤ add32 t.run_count 1 <;>
    simp [StepTask.loop, StepTask.reached_limit, h1, h2, h3]

/-- Loop rule: a relation between task and outside state that every pass through the
body preserves holds when the loop is left. -/
theorem StepTask.loop_rule {σ : Type} (fire : Nat → σ → σ) (now : Nat)
    (Inv : StepTask → σ → Prop)
    (hbody : ∀ t w, Inv t w → t.run_count < t.max_runs →
      t.current_step_duration ≤ sub32 now t.last_tick_ms →
      (t.max_runs ≤ add32 t.run_count 1 →
        Inv { t with last_tick_ms := add32 t.last_tick_ms t.current_step_duration,
                     run_count := add32 t.run_count 1, finished_flag := true }
          (fire t.cur_step w)) ∧
      (add32 t.run_count 1 < t.max_runs →
        Inv { t with last_tick_ms := add32 t.last_tick_ms t.current_step_duration,
                     run_count := add32 t.run_count 1,
                     cur_step := ((t.cur_step + 1) % SIZE_MOD) % t.Steps }
          (fire t.cur_step w))) :
    ∀ (fuel : Nat) (t : StepTask) (w : σ), Inv t w →
      Inv (StepTask.loop fire now fuel t w).1 (StepTask.loop fire now fuel t w).2 := by
  intro fuel
  induction fuel with
  | zero => intro t w h; simpa [StepTask.loop] using h
  | succ n ih =>
    intro t w h
    rw [StepTask.loop_succ]
    by_cases hc : t.run_count < t.max_runs ∧ t.current_step_duration ≤ sub32 now t.last_tick_ms
    · rw [if_pos hc]
      obtain ⟨h1, h2⟩ := hbody t w h hc.1 hc.2
      by_cases hr : t.max_runs ≤ add32 t.run_count 1
      · rw [if_pos hr]
        exact h1 hr
      · rw [if_neg hr]
        exact ih _ _ (h2 (by omega))
    · rw [if_neg hc]
      exact h

/-- Exit of the loop: with `max_runs - run_count` passes allowed, the loop is left only
when the `while` condition is false. -/
theorem StepTask.loop_exit {σ : Type} (fire : Nat → σ → σ) (now : Nat) :
    ∀ (fuel : Nat) (t : StepTask) (w : σ), t.max_runs - t.run_count ≤ fuel →
      t.max_runs < U32 →
      (StepTask.loop fire now fuel t w).1.max_runs ≤ (StepTask.loop fire now fuel t w).1.run_count ∨
      sub32 now (StepTask.loop fire now fuel t w).1.last_tick_ms <
        (StepTask.loop fire now fuel t w).1.current_step_duration := by
  intro fuel
  induction fuel with
  | zero =>
    intro t w h _
    left
    simp only [StepTask.loop]
    omega
  | succ n ih =>
    intro t w h hmax
    rw [StepTask.loop_succ]
    by_cases hc : t.run_count < t.max_runs ∧ t.current_step_duration ≤ sub32 now t.last_tick_ms
    · rw [if_pos hc]
      have hrc : add32 t.run_count 1 = t.run_count + 1 := add32_exact _ _ (by omega)
      by_cases hr : t.max_runs ≤ add32 t.run_count 1
      · rw [if_pos hr]
        left
        exact hr
      · rw [if_neg hr]
        apply ih
        · simp only [hrc]; omega
        · exact hmax
    · rw [if_neg hc]
      by_cases hl : t.max_runs ≤ t.run_count
      · left; exact hl
      · right
        have : ¬ t.current_step_duration ≤ sub32 now t.last_tick_ms := fun h2 => hc ⟨by omega, h2⟩
        show sub32 now t.last_tick_ms < t.current_step_duration
        omega


/-! ## Catch-up firing -/

theorem StepTask.ConstDur.dur_eq {t : StepTask} {d : Nat} (h : t.ConstDur d) :
    t.current_step_duration = d := by
  rcases h with ⟨h1, h2⟩ | ⟨h1, h2⟩
  · simp [StepTask.current_step_duration, h1, h2]
  · have hne : (List.replicate t.Steps d).isEmpty = false := by
      cases hS : t.Steps with
      | zero => omega
      | succ n => simp [List.replicate]
    simp only [StepTask.current_step_duration, h1, hne]
    simp [List.getD_eq_getElem?_getD, List.getElem?_replicate, h2]

theorem StepTask.ConstDur.advance {t : StepTask} {d : Nat} (h : t.ConstDur d)
    (l r : Nat) (f : Bool) :
    ({ t with last_tick_ms := l, run_count := r, finished_flag := f } : StepTask).ConstDur d
      ∧
    ({ t with last_tick_ms := l, run_count := r,
              cur_step := ((t.cur_step + 1) % SIZE_MOD) % t.Steps } : StepTask).ConstDur d := by
  rcases h with ⟨h1, h2⟩ | ⟨h1, h2⟩
  · exact ⟨Or.inl ⟨h1, h2⟩, Or.inl ⟨h1, h2⟩⟩
  · exact ⟨Or.inr ⟨h1, h2⟩, Or.inr ⟨h1, Nat.mod_lt _ (by omega)⟩⟩

/-- Catch-up of the primary template with a constant step duration: what the loop leaves
behind, for the callback that records its step index. -/
theorem StepTask.loop_const (now d fuel : Nat) (t : StepTask) (log : List Nat)
    (hd : 1 ≤ d) (hdur : t.ConstDur d) (hmax : t.max_runs < U32)
    (hfuel : t.max_runs - t.run_count ≤ fuel)
    (hlim : t.run_count + sub32 now t.last_tick_ms / d ≤ t.max_runs) :
    (StepTask.loop record now fuel t log).2.length =
        log.length + sub32 now t.last_tick_ms / d ∧
    sub32 now (StepTask.loop record now fuel t log).1.last_tick_ms =
        sub32 now t.last_tick_ms % d ∧
    (StepTask.loop record now fuel t log).1.run_count =
        t.run_count + sub32 now t.last_tick_ms / d := by
  have hinv := StepTask.loop_rule record now
    (fun u w => ∃ j, j * d ≤ sub32 now t.last_tick_ms ∧
      sub32 now u.last_tick_ms = sub32 now t.last_tick_ms - j * d ∧
      w.length = log.length + j ∧ u.run_count = t.run_count + j ∧
      u.max_runs = t.max_runs ∧ u.ConstDur d)
    (by
      intro u w ⟨j, hj1, hj2, hj3, hj4, hj5, hj6⟩ hrc hcond
      have hde := hj6.dur_eq
      rw [hde] at hcond ⊢
      have hrc1 : add32 u.run_count 1 = u.run_count + 1 := add32_exact _ _ (by omega)
      have hsub := sub32_add32 now u.last_tick_ms d hcond
      have hmul : (j + 1) * d = j * d + d := by ring
      have hcd := hj6.advance (add32 u.last_tick_ms d) (add32 u.run_count 1) true
      refine ⟨fun _ => ⟨j + 1, ?_, ?_, ?_, ?_, hj5, hcd.1⟩,
        fun _ => ⟨j + 1, ?_, ?_, ?_, ?_, hj5, hcd.2⟩⟩
      all_goals first
        | (rw [hmul]; omega)
        | (simp only [hsub, hmul]; omega)
        | (simp only [record, List.length_append, List.length_singleton]; omega))
    fuel t log ⟨0, by omega, by simp, by simp, by simp, rfl, hdur⟩
  obtain ⟨j, hj1, hj2, hj3, hj4, hj5, hj6⟩ := hinv
  have hexit := StepTask.loop_exit record now fuel t log hfuel hmax
  rw [hj6.dur_eq, hj2, hj4, hj5] at hexit
  have hjle : j ≤ sub32 now t.last_tick_ms / d := (Nat.le_div_iff_mul_le hd).2 hj1
  have hjeq : j = sub32 now t.last_tick_ms / d := by
    rcases hexit with h | h
    · omega
    · have : sub32 now t.last_tick_ms < (j + 1) * d := by
        have hmul : (j + 1) * d = j * d + d := by ring
        omega
      have := (Nat.div_lt_iff_lt_mul hd).2 this
      omega
  refine ⟨by rw [hj3, hjeq], ?_, by rw [hj4, hjeq]⟩
  rw [hj2, hjeq]
  have := Nat.div_add_mod (sub32 now t.last_tick_ms) d
  have hc : sub32 now t.last_tick_ms / d * d = d * (sub32 now t.last_tick_ms / d) := by ring
  omega

/-- C3, counterexample. The task built by `makeTask(10, cb)`, ticked once 35 ms after its
last fire, invokes the callback once and ends 25 ms behind `now`, not 3 times and 5 ms. -/
theorem SingleTask.catch_up_counterexample :
    (SingleTask.tick record 35 (SingleTask.periodic 10 INF_RUNS) []).2.length = 1 ∧
    sub32 35 (SingleTask.tick record 35 (SingleTask.periodic 10 INF_RUNS) []).1.last_tick_ms
      = 25 ∧
    sub32 35 (SingleTask.periodic 10 INF_RUNS).last_tick_ms / 10 = 3 ∧
    sub32 35 (SingleTask.periodic 10 INF_RUNS).last_tick_ms % 10 = 5 := by
  decide

/-- C3, amended. With `e = now - last_tick_ms` (32-bit difference): a started
`ScheduledTask<Steps>` of the primary template whose steps all last `d >= 1` (averaged or
custom durations) and whose run limit leaves room for `e / d` more runs fires exactly
`e / d` times in one `tick(now)` and leaves `now - last_tick_ms = e mod d`. A started
`ScheduledTask<1>` below its run limit fires once when `dur <= e` (leaving `e - dur`) and
not at all otherwise. -/
theorem StepTask.tick_catch_up (now d : Nat) (t : StepTask) (u : SingleTask) (log : List Nat)
    (hd : 1 ≤ d) (hstarted : t.started = true) (hdur : t.ConstDur d)
    (hmax : t.max_runs < U32)
    (hlim : t.run_count + sub32 now t.last_tick_ms / d ≤ t.max_runs)
    (hustarted : u.started = true) (hulim : u.run_count < u.max_runs) :
    ((StepTask.tick record now t log).2.length = log.length + sub32 now t.last_tick_ms / d ∧
     sub32 now (StepTask.tick record now t log).1.last_tick_ms
       = sub32 now t.last_tick_ms % d) ∧
    ((SingleTask.tick record now u log).2.length =
       log.length + (if u.dur ≤ sub32 now u.last_tick_ms then 1 else 0) ∧
     sub32 now (SingleTask.tick record now u log).1.last_tick_ms =
       (if u.dur ≤ sub32 now u.last_tick_ms then sub32 now u.last_tick_ms - u.dur
        else sub32 now u.last_tick_ms)) := by
  constructor
  · have h := StepTask.loop_const now d (t.max_runs - t.run_count) t log hd hdur hmax
      (le_refl _) hlim
    simp only [StepTask.tick, hstarted, StepTask.drain]
    exact ⟨h.1, h.2.1⟩
  · simp only [SingleTask.tick, hustarted, SingleTask.fireOnce, SingleTask.reached_limit]
    by_cases hc : u.dur ≤ sub32 now u.last_tick_ms
    · have hsub := sub32_add32 now u.last_tick_ms u.dur hc
      by_cases hr : u.max_runs ≤ add32 u.run_count 1 <;>
        simp [hc, hr, hulim, record, hsub]
    · simp [hc]

/-- Witness of the amended C3: `ScheduledTask<2>(20, cb)` (steps of 10 ms) and
`makeTask(10, cb)`, both ticked at `now = 35` with `last_tick_ms = 0`. -/
theorem StepTask.tick_catch_up_witness :
    ((StepTask.tick record 35 (StepTask.averaged 2 20 INF_RUNS) []).2.length = 3 ∧
     sub32 35 (StepTask.tick record 35 (StepTask.averaged 2 20 INF_RUNS) []).1.last_tick_ms
       = 5) ∧
    ((SingleTask.tick record 35 (SingleTask.periodic 10 INF_RUNS) []).2.length = 1 ∧
     sub32 35 (SingleTask.tick record 35 (SingleTask.periodic 10 INF_RUNS) []).1.last_tick_ms
       = 25) := by
  have h := StepTask.tick_catch_up 35 10 (StepTask.averaged 2 20 INF_RUNS)
    (SingleTask.periodic 10 INF_RUNS) [] (by decide) rfl (Or.inl ⟨rfl, by decide⟩)
    (by decide) (by decide) rfl (by decide)
  exact h

/-! ## Run-count limit -/

/-- Bookkeeping kept by every `tick` of the primary template: the limit is fixed, the
number of recorded invocations is `run_count`, it never exceeds the limit, and the
finished flag is raised exactly when the limit is met. -/
theorem StepTask.tick_limit_inv (m now : Nat) (hm : m < U32) (t : StepTask) (log : List Nat)
    (h : t.max_runs = m ∧ t.run_count = log.length ∧ t.run_count ≤ m ∧
      (t.finished_flag = true ↔ t.run_count = m)) :
    (StepTask.tick record now t log).1.max_runs = m ∧
    (StepTask.tick record now t log).1.run_count = (StepTask.tick record now t log).2.length ∧
    (StepTask.tick record now t log).1.run_count ≤ m ∧
    ((StepTask.tick record now t log).1.finished_flag = true ↔
      (StepTask.tick record now t log).1.run_count = m) := by
  have hloop : ∀ (t1 : StepTask), (t1.max_runs = m ∧ t1.run_count = log.length ∧
      t1.run_count ≤ m ∧ (t1.finished_flag = true ↔ t1.run_count = m)) →
      (StepTask.drain record now t1 log).1.max_runs = m ∧
      (StepTask.drain record now t1 log).1.run_count =
        (StepTask.drain record now t1 log).2.length ∧
      (StepTask.drain record now t1 log).1.run_count ≤ m ∧
      ((StepTask.drain record now t1 log).1.finished_flag = true ↔
        (StepTask.drain record now t1 log).1.run_count = m) := by
    intro t1 h1
    exact StepTask.loop_rule record now
      (fun u w => u.max_runs = m ∧ u.run_count = w.length ∧ u.run_count ≤ m ∧
        (u.finished_flag = true ↔ u.run_count = m))
      (by
        intro u w ⟨h1, h2, h3, h4⟩ hrc _
        have hrc1 : add32 u.run_count 1 = u.run_count + 1 := add32_exact _ _ (by omega)
        simp only [hrc1, record, List.length_append, List.length_singleton]
        refine ⟨fun hle => ⟨h1, by omega, by omega, by simp; omega⟩,
          fun hlt => ⟨h1, by omega, by omega, ?_⟩⟩
        constructor
        · intro hf; have := h4.1 hf; omega
        · intro he; omega)
      _ t1 log h1
  unfold StepTask.tick
  by_cases hs : t.started = true
  · simp only [hs, Bool.not_true, Bool.false_eq_true, if_false]
    exact hloop t h
  · simp only [Bool.not_eq_true] at hs
    simp only [hs, Bool.not_false, if_true]
    by_cases hd : t.initial_delay_ms ≤ sub32 now t.last_tick_ms
    · rw [if_pos hd]
      exact hloop _ h
    · rw [if_neg hd]
      exact h

/-- Once the limit is met a `tick` of the primary template invokes no callback. -/
theorem StepTask.tick_at_limit (now : Nat) (t : StepTask) (log : List Nat)
    (h : t.max_runs ≤ t.run_count) : (StepTask.tick record now t log).2 = log := by
  have h0 : t.max_runs - t.run_count = 0 := by omega
  unfold StepTask.tick StepTask.drain
  simp only [h0]
  split
  · split <;> rfl
  · rfl

/-- The same bookkeeping for `ScheduledTask<1>`. -/
theorem SingleTask.single_tick_limit_inv (m now : Nat) (hm : m < U32) (t : SingleTask)
    (log : List Nat)
    (h : t.max_runs = m ∧ t.run_count = log.length ∧ t.run_count ≤ m ∧
      (t.finished_flag = true ↔ t.run_count = m)) :
    (SingleTask.tick record now t log).1.max_runs = m ∧
    (SingleTask.tick record now t log).1.run_count = (SingleTask.tick record now t log).2.length ∧
    (SingleTask.tick record now t log).1.run_count ≤ m ∧
    ((SingleTask.tick record now t log).1.finished_flag = true ↔
      (SingleTask.tick record now t log).1.run_count = m) := by
  have hone : ∀ (t1 : SingleTask), (t1.max_runs = m ∧ t1.run_count = log.length ∧
      t1.run_count ≤ m ∧ (t1.finished_flag = true ↔ t1.run_count = m)) →
      (SingleTask.fireOnce record now t1 log).1.max_runs = m ∧
      (SingleTask.fireOnce record now t1 log).1.run_count =
        (SingleTask.fireOnce record now t1 log).2.length ∧
      (SingleTask.fireOnce record now t1 log).1.run_count ≤ m ∧
      ((SingleTask.fireOnce record now t1 log).1.finished_flag = true ↔
        (SingleTask.fireOnce record now t1 log).1.run_count = m) := by
    intro t1 ⟨h1, h2, h3, h4⟩
    unfold SingleTask.fireOnce
    by_cases hc : (!t1.reached_limit && decide (t1.dur ≤ sub32 now t1.last_tick_ms)) = true
    · rw [if_pos hc]
      simp only [SingleTask.reached_limit, Bool.and_eq_true, Bool.not_eq_true',
        decide_eq_false_iff_not, decide_eq_true_eq, not_le] at hc
      have hrc1 : add32 t1.run_count 1 = t1.run_count + 1 := add32_exact _ _ (by omega)
      simp only [SingleTask.reached_limit, hrc1, record]
      by_cases hr : t1.max_runs ≤ t1.run_count + 1
      · simp only [hr, decide_True, if_true, List.length_append, List.length_singleton]
        exact ⟨h1, by omega, by omega, by simp; omega⟩
      · simp only [hr, decide_False, Bool.false_eq_true, if_false, List.length_append,
          List.length_singleton]
        refine ⟨h1, by omega, by omega, ?_⟩
        constructor
        · intro hf; have := h4.1 hf; omega
        · intro he; omega
    · rw [if_neg hc]
      exact ⟨h1, h2, h3, h4⟩
  unfold SingleTask.tick
  by_cases hs : t.started = true
  · simp only [hs, Bool.not_true, Bool.false_eq_true, if_false]
    exact hone t h
  · simp only [Bool.not_eq_true] at hs
    simp only [hs, Bool.not_false, if_true]
    by_cases hd : t.initial_delay_ms ≤ sub32 now t.last_tick_ms
    · rw [if_pos hd]
      exact hone _ h
    · rw [if_neg hd]
      exact h

/-- Once the limit is met a `tick` of `ScheduledTask<1>` invokes no callback. -/
theorem SingleTask.single_tick_at_limit (now : Nat) (t : SingleTask) (log : List Nat)
    (h : t.max_runs ≤ t.run_count) : (SingleTask.tick record now t log).2 = log := by
  unfold SingleTask.tick SingleTask.fireOnce
  simp [SingleTask.reached_limit, h]
  split
  · split <;> rfl
  · rfl

theorem StepTask.run_append (t : StepTask) (log : List Nat) (xs ys : List Nat) :
    StepTask.run t log (xs ++ ys) =
      StepTask.run (StepTask.run t log xs).1 (StepTask.run t log xs).2 ys := by
  simp [StepTask.run, List.foldl_append]

theorem SingleTask.single_run_append (t : SingleTask) (log : List Nat) (xs ys : List Nat) :
    SingleTask.run t log (xs ++ ys) =
      SingleTask.run (SingleTask.run t log xs).1 (SingleTask.run t log xs).2 ys := by
  simp [SingleTask.run, List.foldl_append]

theorem StepTask.run_cons (t : StepTask) (log : List Nat) (now : Nat) (xs : List Nat) :
    StepTask.run t log (now :: xs) =
      StepTask.run (StepTask.tick record now t log).1 (StepTask.tick record now t log).2 xs := by
  simp [StepTask.run]

theorem SingleTask.single_run_cons (t : SingleTask) (log : List Nat) (now : Nat) (xs : List Nat) :
    SingleTask.run t log (now :: xs) =
      SingleTask.run (SingleTask.tick record now t log).1 (SingleTask.tick record now t log).2
        xs := by
  simp [SingleTask.run]

theorem StepTask.run_limit_inv (m : Nat) (hm : m < U32) (nows : List Nat) :
    ∀ (t : StepTask) (log : List Nat),
      (t.max_runs = m ∧ t.run_count = log.length ∧ t.run_count ≤ m ∧
        (t.finished_flag = true ↔ t.run_count = m)) →
      (StepTask.run t log nows).1.max_runs = m ∧
      (StepTask.run t log nows).1.run_count = (StepTask.run t log nows).2.length ∧
      (StepTask.run t log nows).1.run_count ≤ m ∧
      ((StepTask.run t log nows).1.finished_flag = true ↔
        (StepTask.run t log nows).1.run_count = m) := by
  induction nows with
  | nil => intro t log h; exact h
  | cons now xs ih =>
    intro t log h
    rw [StepTask.run_cons]
    exact ih _ _ (StepTask.tick_limit_inv m now hm t log h)

theorem SingleTask.single_run_limit_inv (m : Nat) (hm : m < U32) (nows : List Nat) :
    ∀ (t : SingleTask) (log : List Nat),
      (t.max_runs = m ∧ t.run_count = log.length ∧ t.run_count ≤ m ∧
        (t.finished_flag = true ↔ t.run_count = m)) →
      (SingleTask.run t log nows).1.max_runs = m ∧
      (SingleTask.run t log nows).1.run_count = (SingleTask.run t log nows).2.length ∧
      (SingleTask.run t log nows).1.run_count ≤ m ∧
      ((SingleTask.run t log nows).1.finished_flag = true ↔
        (SingleTask.run t log nows).1.run_count = m) := by
  induction nows with
  | nil => intro t log h; exact h
  | cons now xs ih =>
    intro t log h
    rw [SingleTask.single_run_cons]
    exact ih _ _ (SingleTask.single_tick_limit_inv m now hm t log h)

theorem StepTask.run_at_limit (m : Nat) (hm : m < U32) (more : List Nat) :
    ∀ (t : StepTask) (log : List Nat),
      (t.max_runs = m ∧ t.run_count = log.length ∧ t.run_count ≤ m ∧
        (t.finished_flag = true ↔ t.run_count = m)) → log.length = m →
      (StepTask.run t log more).2 = log := by
  induction more with
  | nil => intro t log _ _; rfl
  | cons now xs ih =>
    intro t log h hl
    rw [StepTask.run_cons]
    have h1 := StepTask.tick_limit_inv m now hm t log h
    have h2 := StepTask.tick_at_limit now t log (by omega)
    rw [h2] at h1 ⊢
    exact ih _ _ h1 hl

theorem SingleTask.single_run_at_limit (m : Nat) (hm : m < U32) (more : List Nat) :
    ∀ (t : SingleTask) (log : List Nat),
      (t.max_runs = m ∧ t.run_count = log.length ∧ t.run_count ≤ m ∧
        (t.finished_flag = true ↔ t.run_count = m)) → log.length = m →
      (SingleTask.run t log more).2 = log := by
  induction more with
  | nil => intro t log _ _; rfl
  | cons now xs ih =>
    intro t log h hl
    rw [SingleTask.single_run_cons]
    have h1 := SingleTask.single_tick_limit_inv m now hm t log h
    have h2 := SingleTask.single_tick_at_limit now t log (by omega)
    rw [h2] at h1 ⊢
    exact ih _ _ h1 hl

/-- C4. Run-count limit. Let a task be in the state every constructor leaves it in
(`run_count = 0`, `finished_flag = false`) with `max_runs = m`, `1 <= m <= UINT32_MAX`, be
it a `ScheduledTask<Steps>` `t` or a `ScheduledTask<1>` `u`. After every sequence `nows` of
`tick` calls the callback has been invoked at most `m` times, `finished()` is true exactly
when it has been invoked `m` times, and from then on no further sequence `more` of ticks
invokes it again. -/
theorem StepTask.run_limit (m : Nat) (t : StepTask) (u : SingleTask) (nows more : List Nat)
    (hm1 : 1 ≤ m) (hm2 : m ≤ UINT32_MAX)
    (ht : t.run_count = 0 ∧ t.finished_flag = false ∧ t.max_runs = m)
    (hu : u.run_count = 0 ∧ u.finished_flag = false ∧ u.max_runs = m) :
    ((StepTask.run t [] nows).2.length ≤ m ∧
     ((StepTask.run t [] nows).1.finished = true ↔ (StepTask.run t [] nows).2.length = m) ∧
     ((StepTask.run t [] nows).2.length = m →
       (StepTask.run t [] (nows ++ more)).2 = (StepTask.run t [] nows).2)) ∧
    ((SingleTask.run u [] nows).2.length ≤ m ∧
     ((SingleTask.run u [] nows).1.finished = true ↔ (SingleTask.run u [] nows).2.length = m) ∧
     ((SingleTask.run u [] nows).2.length = m →
       (SingleTask.run u [] (nows ++ more)).2 = (SingleTask.run u [] nows).2)) := by
  have hm : m < U32 := by
    have : UINT32_MAX = 4294967295 := rfl
    rw [U32_eq]; omega
  constructor
  · have h0 : t.max_runs = m ∧ t.run_count = ([] : List Nat).length ∧ t.run_count ≤ m ∧
        (t.finished_flag = true ↔ t.run_count = m) := by
      refine ⟨ht.2.2, by simp [ht.1], by omega, ?_⟩
      rw [ht.2.1, ht.1]; constructor
      · intro h; cases h
      · intro h; omega
    have h1 := StepTask.run_limit_inv m hm nows t [] h0
    refine ⟨by omega, ?_, ?_⟩
    · unfold StepTask.finished; rw [h1.2.2.2, h1.2.1]
    · intro hl
      rw [StepTask.run_append]
      exact StepTask.run_at_limit m hm more _ _ h1 hl
  · have h0 : u.max_runs = m ∧ u.run_count = ([] : List Nat).length ∧ u.run_count ≤ m ∧
        (u.finished_flag = true ↔ u.run_count = m) := by
      refine ⟨hu.2.2, by simp [hu.1], by omega, ?_⟩
      rw [hu.2.1, hu.1]; constructor
      · intro h; cases h
      · intro h; omega
    have h1 := SingleTask.single_run_limit_inv m hm nows u [] h0
    refine ⟨by omega, ?_, ?_⟩
    · unfold SingleTask.finished; rw [h1.2.2.2, h1.2.1]
    · intro hl
      rw [SingleTask.single_run_append]
      exact SingleTask.single_run_at_limit m hm more _ _ h1 hl

/-- Witness of C4: `m = 3`, a `ScheduledTask<2>(20, cb, 3)` and a `makeTask(10, cb, 3)`
ticked at 10, 20, 35 and then at 1000, 2000. -/
theorem StepTask.run_limit_witness :
    ((StepTask.run (StepTask.averaged 2 20 3) [] [10, 20, 35]).2.length ≤ 3 ∧
     ((StepTask.run (StepTask.averaged 2 20 3) [] [10, 20, 35]).1.finished = true ↔
       (StepTask.run (StepTask.averaged 2 20 3) [] [10, 20, 35]).2.length = 3) ∧
     ((StepTask.run (StepTask.averaged 2 20 3) [] [10, 20, 35]).2.length = 3 →
       (StepTask.run (StepTask.averaged 2 20 3) [] ([10, 20, 35] ++ [1000, 2000])).2 =
         (StepTask.run (StepTask.averaged 2 20 3) [] [10, 20, 35]).2)) ∧
    ((SingleTask.run (SingleTask.periodic 10 3) [] [10, 20, 35]).2.length ≤ 3 ∧
     ((SingleTask.run (SingleTask.periodic 10 3) [] [10, 20, 35]).1.finished = true ↔
       (SingleTask.run (SingleTask.periodic 10 3) [] [10, 20, 35]).2.length = 3) ∧
     ((SingleTask.run (SingleTask.periodic 10 3) [] [10, 20, 35]).2.length = 3 →
       (SingleTask.run (SingleTask.periodic 10 3) [] ([10, 20, 35] ++ [1000, 2000])).2 =
         (SingleTask.run (SingleTask.periodic 10 3) [] [10, 20, 35]).2)) :=
  StepTask.run_limit 3 (StepTask.averaged 2 20 3) (SingleTask.periodic 10 3) [10, 20, 35]
    [1000, 2000] (by decide) (by decide) ⟨rfl, rfl, rfl⟩ ⟨rfl, rfl, rfl⟩

/-! ## Initial delay -/

/-- The loop keeps `last_tick_ms = base + d * (number of recorded invocations)` and never
moves `last_tick_ms` past `now`, as long as it starts at or before `now`. -/
theorem StepTask.drain_phase (now d base : Nat) (t : StepTask) (log : List Nat)
    (hnow : now < U32) (hdur : t.ConstDur d)
    (hlast : t.last_tick_ms = base + d * log.length) (hle : t.last_tick_ms ≤ now) :
    (StepTask.drain record now t log).1.last_tick_ms =
        base + d * (StepTask.drain record now t log).2.length ∧
    (StepTask.drain record now t log).1.last_tick_ms ≤ now ∧
    (StepTask.drain record now t log).1.ConstDur d ∧
    (StepTask.drain record now t log).1.max_runs = t.max_runs ∧
    (StepTask.drain record now t log).1.started = t.started ∧
    (StepTask.drain record now t log).1.initial_delay_ms = t.initial_delay_ms := by
  exact StepTask.loop_rule record now
    (fun u w => u.last_tick_ms = base + d * w.length ∧ u.last_tick_ms ≤ now ∧ u.ConstDur d ∧
      u.max_runs = t.max_runs ∧ u.started = t.started ∧
      u.initial_delay_ms = t.initial_delay_ms)
    (by
      intro u w ⟨h1, h2, h3, h4, h5, h6⟩ _ hcond
      rw [h3.dur_eq] at hcond ⊢
      rw [sub32_exact now u.last_tick_ms h2 hnow] at hcond
      have hadd : add32 u.last_tick_ms d = u.last_tick_ms + d := add32_exact _ _ (by omega)
      have hcd := h3.advance (add32 u.last_tick_ms d) (add32 u.run_count 1) true
      have hlen : d * (w.length + 1) = d * w.length + d := by ring
      simp only [hadd, record, List.length_append, List.length_singleton, hlen]
      exact ⟨fun _ => ⟨by omega, by omega, hcd.1, h4, h5, h6⟩,
        fun _ => ⟨by omega, by omega, hcd.2, h4, h5, h6⟩⟩)
    _ t log ⟨hlast, hle, hdur, rfl, rfl, rfl⟩

/-- A sequence of non-decreasing ticks on a task of the primary template that waits for
its initial delay `D` from the baseline `B`. -/
theorem StepTask.run_delay (B D d : Nat) (nows : List Nat) :
    ∀ (t : StepTask) (log : List Nat) (lo : Nat),
      List.Chain (fun a b => a ≤ b) lo nows → (∀ n ∈ nows, n < U32) → B ≤ lo →
      t.ConstDur d → t.initial_delay_ms = D →
      ((t.started = false ∧ t.last_tick_ms = B ∧ log = []) ∨
       (t.started = true ∧ t.last_tick_ms = B + D + d * log.length ∧ t.last_tick_ms ≤ lo)) →
      ((StepTask.run t log nows).1.started = false ∧
        (StepTask.run t log nows).1.last_tick_ms = B ∧ (StepTask.run t log nows).2 = [] ∧
        t.started = false ∧ ∀ n ∈ nows, n < B + D) ∨
      ((StepTask.run t log nows).1.started = true ∧
        (StepTask.run t log nows).1.last_tick_ms =
          B + D + d * (StepTask.run t log nows).2.length ∧
        (t.started = true ∨ ∃ n ∈ nows, B + D ≤ n)) := by
  induction nows with
  | nil =>
    intro t log lo _ _ _ _ _ h
    rcases h with ⟨h1, h2, h3⟩ | ⟨h1, h2, _⟩
    · left; exact ⟨h1, h2, h3, h1, by simp⟩
    · right; exact ⟨h1, h2, Or.inl h1⟩
  | cons now xs ih =>
    intro t log lo hch hlt hB hdur hD h
    rw [StepTask.run_cons]
    have hlo : lo ≤ now := (List.chain_cons.1 hch).1
    have hch2 : List.Chain (fun a b => a ≤ b) now xs := (List.chain_cons.1 hch).2
    have hnow : now < U32 := hlt now (by simp)
    have hlt2 : ∀ n ∈ xs, n < U32 := fun n hn => hlt n (by simp [hn])
    rcases h with ⟨h1, h2, h3⟩ | ⟨h1, h2, h4⟩
    · by_cases hdel : D ≤ sub32 now t.last_tick_ms
      · -- the delay is over at this tick
        have hsub : sub32 now t.last_tick_ms = now - B := by
          rw [h2]; exact sub32_exact now B (by omega) hnow
        rw [hsub] at hdel
        have hadd : add32 t.last_tick_ms D = B + D := by
          rw [h2]; exact add32_exact _ _ (by omega)
        have htick : StepTask.tick record now t log =
            StepTask.drain record now { t with last_tick_ms := B + D, started := true } log := by
          unfold StepTask.tick
          simp only [h1, Bool.not_false, if_true, hD, hsub, hdel, hadd]
        have hcd : ({ t with last_tick_ms := B + D, started := true } : StepTask).ConstDur d := by
          rcases hdur with ⟨a, b⟩ | ⟨a, b⟩
          · exact Or.inl ⟨a, b⟩
          · exact Or.inr ⟨a, b⟩
        have hdr := StepTask.drain_phase now d (B + D)
          { t with last_tick_ms := B + D, started := true } log hnow hcd
          (by simp [h3]) (by show B + D ≤ now; omega)
        rw [htick]
        obtain ⟨e1, e2, e3, e4, e5, e6⟩ := hdr
        have := ih _ _ now hch2 hlt2 (by omega) e3 (by rw [e6]; exact hD) (Or.inr ⟨by rw [e5], e1, e2⟩)
        rcases this with ⟨_, _, _, c, _⟩ | ⟨a, b, _⟩
        · rw [e5] at c; cases c
        · right
          exact ⟨a, b, Or.inr ⟨now, by simp, by omega⟩⟩
      · -- still waiting
        have hsub : sub32 now t.last_tick_ms = now - B := by
          rw [h2]; exact sub32_exact now B (by omega) hnow
        have htick : StepTask.tick record now t log = (t, log) := by
          unfold StepTask.tick
          simp only [h1, Bool.not_false, if_true, hD, hdel, if_false]
        rw [hsub] at hdel
        rw [htick]
        have := ih t log now hch2 hlt2 (by omega) hdur hD (Or.inl ⟨h1, h2, h3⟩)
        rcases this with ⟨a, b, c, e, f⟩ | ⟨a, b, c⟩
        · left
          refine ⟨a, b, c, e, ?_⟩
          intro n hn
          rcases List.mem_cons.1 hn with rfl | hn
          · omega
          · exact f n hn
        · right
          refine ⟨a, b, ?_⟩
          rcases c with c | ⟨n, hn, hn2⟩
          · rw [h1] at c; cases c
          · exact Or.inr ⟨n, by simp [hn], hn2⟩
    · have htick : StepTask.tick record now t log = StepTask.drain record now t log := by
        unfold StepTask.tick
        simp only [h1, Bool.not_true, Bool.false_eq_true, if_false]
      have hdr := StepTask.drain_phase now d (B + D) t log hnow hdur h2 (by omega)
      rw [htick]
      obtain ⟨e1, e2, e3, e4, e5, e6⟩ := hdr
      have := ih _ _ now hch2 hlt2 (by omega) e3 (by rw [e6]; exact hD) (Or.inr ⟨by rw [e5]; exact h1, e1, e2⟩)
      rcases this with ⟨_, _, _, c, _⟩ | ⟨a, b, _⟩
      · rw [e5, h1] at c; cases c
      · right
        exact ⟨a, b, Or.inl h1⟩

/-- The single `if` of `ScheduledTask<1>::tick`, spelled out. -/
theorem SingleTask.fireOnce_eq {σ : Type} (fire : Nat → σ → σ) (now : Nat) (t : SingleTask)
    (w : σ) :
    SingleTask.fireOnce fire now t w =
      if t.run_count < t.max_runs ∧ t.dur ≤ sub32 now t.last_tick_ms then
        if t.max_runs ≤ add32 t.run_count 1 then
          ({ t with last_tick_ms := add32 t.last_tick_ms t.dur,
                    run_count := add32 t.run_count 1, finished_flag := true }, fire 0 w)
        else
          ({ t with last_tick_ms := add32 t.last_tick_ms t.dur,
                    run_count := add32 t.run_count 1 }, fire 0 w)
      else (t, w) := by
  by_cases h1 : t.run_count < t.max_runs <;>
    by_cases h2 : t.dur ≤ sub32 now t.last_tick_ms <;>
    by_cases h3 : t.max_runs ≤ add32 t.run_count 1 <;>
    simp [SingleTask.fireOnce, SingleTask.reached_limit, h1, h2, h3]

/-- The single `if` of `ScheduledTask<1>::tick` keeps
`last_tick_ms = base + d * (number of recorded invocations)` and never moves
`last_tick_ms` past `now`. -/
theorem SingleTask.fireOnce_phase (now d base : Nat) (t : SingleTask) (log : List Nat)
    (hnow : now < U32) (hdur : t.dur = d)
    (hlast : t.last_tick_ms = base + d * log.length) (hle : t.last_tick_ms ≤ now) :
    (SingleTask.fireOnce record now t log).1.last_tick_ms =
        base + d * (SingleTask.fireOnce record now t log).2.length ∧
    (SingleTask.fireOnce record now t log).1.last_tick_ms ≤ now ∧
    (SingleTask.fireOnce record now t log).1.dur = d ∧
    (SingleTask.fireOnce record now t log).1.started = t.started ∧
    (SingleTask.fireOnce record now t log).1.initial_delay_ms = t.initial_delay_ms := by
  rw [SingleTask.fireOnce_eq]
  by_cases hc : t.run_count < t.max_runs ∧ t.dur ≤ sub32 now t.last_tick_ms
  · rw [if_pos hc]
    have hcond := hc.2
    rw [hdur, sub32_exact now t.last_tick_ms hle hnow] at hcond
    have hadd : add32 t.last_tick_ms d = t.last_tick_ms + d := add32_exact _ _ (by omega)
    have hlen : d * (log.length + 1) = d * log.length + d := by ring
    by_cases hr : t.max_runs ≤ add32 t.run_count 1
    · rw [if_pos hr]
      simp only [hdur, hadd, record, List.length_append, List.length_singleton, hlen]
      exact ⟨by omega, by omega, hdur, by trivial⟩
    · rw [if_neg hr]
      simp only [hdur, hadd, record, List.length_append, List.length_singleton, hlen]
      exact ⟨by omega, by omega, hdur, by trivial⟩
  · rw [if_neg hc]
    exact ⟨hlast, hle, hdur, rfl, rfl⟩

/-- A sequence of non-decreasing ticks on a `ScheduledTask<1>` that waits for its initial
delay `D` from the baseline `B`. -/
theorem SingleTask.single_run_delay (B D d : Nat) (nows : List Nat) :
    ∀ (t : SingleTask) (log : List Nat) (lo : Nat),
      List.Chain (fun a b => a ≤ b) lo nows → (∀ n ∈ nows, n < U32) → B ≤ lo →
      t.dur = d → t.initial_delay_ms = D →
      ((t.started = false ∧ t.last_tick_ms = B ∧ log = []) ∨
       (t.started = true ∧ t.last_tick_ms = B + D + d * log.length ∧ t.last_tick_ms ≤ lo)) →
      ((SingleTask.run t log nows).1.started = false ∧
        (SingleTask.run t log nows).1.last_tick_ms = B ∧ (SingleTask.run t log nows).2 = [] ∧
        t.started = false ∧ ∀ n ∈ nows, n < B + D) ∨
      ((SingleTask.run t log nows).1.started = true ∧
        (SingleTask.run t log nows).1.last_tick_ms =
          B + D + d * (SingleTask.run t log nows).2.length ∧
        (t.started = true ∨ ∃ n ∈ nows, B + D ≤ n)) := by
  induction nows with
  | nil =>
    intro t log lo _ _ _ _ _ h
    rcases h with ⟨h1, h2, h3⟩ | ⟨h1, h2, _⟩
    · left; exact ⟨h1, h2, h3, h1, by simp⟩
    · right; exact ⟨h1, h2, Or.inl h1⟩
  | cons now xs ih =>
    intro t log lo hch hlt hB hdur hD h
    rw [SingleTask.single_run_cons]
    have hlo : lo ≤ now := (List.chain_cons.1 hch).1
    have hch2 : List.Chain (fun a b => a ≤ b) now xs := (List.chain_cons.1 hch).2
    have hnow : now < U32 := hlt now (by simp)
    have hlt2 : ∀ n ∈ xs, n < U32 := fun n hn => hlt n (by simp [hn])
    rcases h with ⟨h1, h2, h3⟩ | ⟨h1, h2, h4⟩
    · by_cases hdel : D ≤ sub32 now t.last_tick_ms
      · have hsub : sub32 now t.last_tick_ms = now - B := by
          rw [h2]; exact sub32_exact now B (by omega) hnow
        rw [hsub] at hdel
        have hadd : add32 t.last_tick_ms D = B + D := by
          rw [h2]; exact add32_exact _ _ (by omega)
        have htick : SingleTask.tick record now t log =
            SingleTask.fireOnce record now { t with last_tick_ms := B + D, started := true }
              log := by
          unfold SingleTask.tick
          simp only [h1, Bool.not_false, if_true, hD, hsub, hdel, hadd]
        have hdr := SingleTask.fireOnce_phase now d (B + D)
          { t with last_tick_ms := B + D, started := true } log hnow hdur
          (by simp [h3]) (by show B + D ≤ now; omega)
        rw [htick]
        obtain ⟨e1, e2, e3, e5, e6⟩ := hdr
        have := ih _ _ now hch2 hlt2 (by omega) e3 (by rw [e6]; exact hD)
          (Or.inr ⟨by rw [e5], e1, e2⟩)
        rcases this with ⟨_, _, _, c, _⟩ | ⟨a, b, _⟩
        · rw [e5] at c; cases c
        · right
          exact ⟨a, b, Or.inr ⟨now, by simp, by omega⟩⟩
      · have hsub : sub32 now t.last_tick_ms = now - B := by
          rw [h2]; exact sub32_exact now B (by omega) hnow
        have htick : SingleTask.tick record now t log = (t, log) := by
          unfold SingleTask.tick
          simp only [h1, Bool.not_false, if_true, hD, hdel, if_false]
        rw [hsub] at hdel
        rw [htick]
        have := ih t log now hch2 hlt2 (by omega) hdur hD (Or.inl ⟨h1, h2, h3⟩)
        rcases this with ⟨a, b, c, e, f⟩ | ⟨a, b, c⟩
        · left
          refine ⟨a, b, c, e, ?_⟩
          intro n hn
          rcases List.mem_cons.1 hn with rfl | hn
          · omega
          · exact f n hn
        · right
          refine ⟨a, b, ?_⟩
          rcases c with c | ⟨n, hn, hn2⟩
          · rw [h1] at c; cases c
          · exact Or.inr ⟨n, by simp [hn], hn2⟩
    · have htick : SingleTask.tick record now t log = SingleTask.fireOnce record now t log := by
        unfold SingleTask.tick
        simp only [h1, Bool.not_true, Bool.false_eq_true, if_false]
      have hdr := SingleTask.fireOnce_phase now d (B + D) t log hnow hdur h2 (by omega)
      rw [htick]
      obtain ⟨e1, e2, e3, e5, e6⟩ := hdr
      have := ih _ _ now hch2 hlt2 (by omega) e3 (by rw [e6]; exact hD)
        (Or.inr ⟨by rw [e5]; exact h1, e1, e2⟩)
      rcases this with ⟨_, _, _, c, _⟩ | ⟨a, b, _⟩
      · rw [e5, h1] at c; cases c
      · right
        exact ⟨a, b, Or.inl h1⟩

/-- C5, counterexample. `ScheduledTask<4>(50, 100, cb)` with baseline 0, ticked at 50, 75
and 100: after the tick at 75 it has fired once with `last_tick_ms = 75`, after the tick at
100 twice with `last_tick_ms = 100`; the two fires are 25 ms apart in logical time, not
`P = 100`. Likewise `makeTask(50, 0, cb)` ticked at 50, 51, 52 fires 1 ms apart, not 0. -/
theorem StepTask.delay_period_counterexample :
    (StepTask.run (StepTask.delayed 4 50 100 INF_RUNS) [] [50, 75]).2 = [0] ∧
    (StepTask.run (StepTask.delayed 4 50 100 INF_RUNS) [] [50, 75]).1.last_tick_ms = 75 ∧
    (StepTask.run (StepTask.delayed 4 50 100 INF_RUNS) [] [50, 75, 100]).2 = [0, 1] ∧
    (StepTask.run (StepTask.delayed 4 50 100 INF_RUNS) [] [50, 75, 100]).1.last_tick_ms = 100 ∧
    (SingleTask.run (SingleTask.delayed 50 0 INF_RUNS) [] [50, 51]).2 = [0] ∧
    (SingleTask.run (SingleTask.delayed 50 0 INF_RUNS) [] [50, 51]).1.last_tick_ms = 51 ∧
    (SingleTask.run (SingleTask.delayed 50 0 INF_RUNS) [] [50, 51, 52]).2 = [0, 0] ∧
    (SingleTask.run (SingleTask.delayed 50 0 INF_RUNS) [] [50, 51, 52]).1.last_tick_ms = 52 := by
  decide

/-- C5, amended. A task created with initial delay `D` and period `P` (constructor 2 of
`ScheduledTask<Steps>`, or `makeTask(D, P, cb)`) gets the baseline `B` and is ticked at
non-decreasing times `nows`, none before `B`, all below `2^32`. While every tick has
`now < B + D` no callback has fired, the task is not started and `last_tick_ms = B`.
Once some tick has `B + D <= now` the task is started and
`last_tick_ms = B + D + d * (number of invocations)`, where `d` is the step duration:
`init_average_steps Steps P` for `ScheduledTask<Steps>` and `P` (1 when `P = 0`) for
`ScheduledTask<1>`. -/
theorem StepTask.delay_phase (Steps D P m B : Nat) (nows : List Nat)
    (hch : List.Chain (fun a b => a ≤ b) B nows) (hlt : ∀ n ∈ nows, n < U32) :
    (((∀ n ∈ nows, n < B + D) →
        (StepTask.run { StepTask.delayed Steps D P m with last_tick_ms := B } [] nows).2 = [] ∧
        (StepTask.run { StepTask.delayed Steps D P m with last_tick_ms := B } [] nows).1.started
          = false ∧
        (StepTask.run { StepTask.delayed Steps D P m with last_tick_ms := B } [] nows).1.last_tick_ms
          = B) ∧
     ((∃ n ∈ nows, B + D ≤ n) →
        (StepTask.run { StepTask.delayed Steps D P m with last_tick_ms := B } [] nows).1.started
          = true ∧
        (StepTask.run { StepTask.delayed Steps D P m with last_tick_ms := B } [] nows).1.last_tick_ms
          = B + D + init_average_steps Steps P *
            (StepTask.run { StepTask.delayed Steps D P m with last_tick_ms := B } [] nows).2.length))
    ∧
    (((∀ n ∈ nows, n < B + D) →
        (SingleTask.run { SingleTask.delayed D P m with last_tick_ms := B } [] nows).2 = [] ∧
        (SingleTask.run { SingleTask.delayed D P m with last_tick_ms := B } [] nows).1.started
          = false ∧
        (SingleTask.run { SingleTask.delayed D P m with last_tick_ms := B } [] nows).1.last_tick_ms
          = B) ∧
     ((∃ n ∈ nows, B + D ≤ n) →
        (SingleTask.run { SingleTask.delayed D P m with last_tick_ms := B } [] nows).1.started
          = true ∧
        (SingleTask.run { SingleTask.delayed D P m with last_tick_ms := B } [] nows).1.last_tick_ms
          = B + D + (if P = 0 then 1 else P) *
            (SingleTask.run { SingleTask.delayed D P m with last_tick_ms := B } [] nows).2.length))
    := by
  have h1 := StepTask.run_delay B D (init_average_steps Steps P) nows
    { StepTask.delayed Steps D P m with last_tick_ms := B } [] B hch hlt (le_refl _)
    (Or.inl ⟨rfl, rfl⟩) rfl (Or.inl ⟨rfl, rfl, rfl⟩)
  have hdur : ({ SingleTask.delayed D P m with last_tick_ms := B } : SingleTask).dur =
      (if P = 0 then 1 else P) := by
    simp [SingleTask.dur, SingleTask.delayed]
  have h2 := SingleTask.single_run_delay B D (if P = 0 then 1 else P) nows
    { SingleTask.delayed D P m with last_tick_ms := B } [] B hch hlt (le_refl _)
    hdur rfl (Or.inl ⟨rfl, rfl, rfl⟩)
  refine ⟨⟨?_, ?_⟩, ⟨?_, ?_⟩⟩
  · intro hall
    rcases h1 with ⟨a, b, c, _, _⟩ | ⟨_, _, c⟩
    · exact ⟨c, a, b⟩
    · rcases c with c | ⟨n, hn, hn2⟩
      · cases c
      · have := hall n hn; omega
  · intro ⟨n, hn, hn2⟩
    rcases h1 with ⟨_, _, _, _, f⟩ | ⟨a, b, _⟩
    · have := f n hn; omega
    · exact ⟨a, b⟩
  · intro hall
    rcases h2 with ⟨a, b, c, _, _⟩ | ⟨_, _, c⟩
    · exact ⟨c, a, b⟩
    · rcases c with c | ⟨n, hn, hn2⟩
      · cases c
      · have := hall n hn; omega
  · intro ⟨n, hn, hn2⟩
    rcases h2 with ⟨_, _, _, _, f⟩ | ⟨a, b, _⟩
    · have := f n hn; omega
    · exact ⟨a, b⟩

/-- Witness of the amended C5: `B = 0`, `D = 50`, `P = 20`, ticks at 10, 50, 70, 90. The
task of `makeTask(50, 20, cb)` ends with `last_tick_ms = 90` after two invocations. -/
theorem StepTask.delay_phase_witness :
    (SingleTask.run { SingleTask.delayed 50 20 INF_RUNS with last_tick_ms := 0 } []
        [10, 50, 70, 90]).1.started = true ∧
    (SingleTask.run { SingleTask.delayed 50 20 INF_RUNS with last_tick_ms := 0 } []
        [10, 50, 70, 90]).1.last_tick_ms = 0 + 50 + 20 * 2 :=
  (StepTask.delay_phase 4 50 20 INF_RUNS 0 [10, 50, 70, 90] (by simp) (by decide)).2.2
    ⟨50, by decide, by decide⟩

/-! ## Step cycling -/

/-- What the loop never touches, and the constant-duration property it keeps. -/
theorem StepTask.loop_frame {σ : Type} (fire : Nat → σ → σ) (now d fuel : Nat) (t : StepTask)
    (w : σ) (hdur : t.ConstDur d) :
    (StepTask.loop fire now fuel t w).1.ConstDur d ∧
    (StepTask.loop fire now fuel t w).1.max_runs = t.max_runs ∧
    (StepTask.loop fire now fuel t w).1.started = t.started ∧
    (StepTask.loop fire now fuel t w).1.Steps = t.Steps :=
  StepTask.loop_rule fire now
    (fun u _ => u.ConstDur d ∧ u.max_runs = t.max_runs ∧ u.started = t.started ∧
      u.Steps = t.Steps)
    (by
      intro u w ⟨h1, h2, h3, h4⟩ _ _
      have hcd := h1.advance (add32 u.last_tick_ms u.current_step_duration)
        (add32 u.run_count 1) true
      exact ⟨fun _ => ⟨hcd.1, h2, h3, h4⟩, fun _ => ⟨hcd.2, h2, h3, h4⟩⟩)
    fuel t w ⟨hdur, rfl, rfl, rfl⟩

/-- Cycling through the loop: the recorded indices are `0, 1, 2, ...` modulo `Steps`, and
while the limit is not met the cursor is the number of invocations modulo `Steps`. -/
theorem StepTask.tick_cycle (S now : Nat) (hS1 : 1 ≤ S) (hS2 : S < SIZE_MOD) (t : StepTask)
    (log : List Nat)
    (h : t.Steps = S ∧ log = (List.range log.length).map (fun j => j % S) ∧
      (t.run_count < t.max_runs → t.cur_step = log.length % S)) :
    (StepTask.tick record now t log).1.Steps = S ∧
    (StepTask.tick record now t log).2 =
      (List.range (StepTask.tick record now t log).2.length).map (fun j => j % S) ∧
    ((StepTask.tick record now t log).1.run_count < (StepTask.tick record now t log).1.max_runs →
      (StepTask.tick record now t log).1.cur_step =
        (StepTask.tick record now t log).2.length % S) := by
  have hloop : ∀ (t1 : StepTask), (t1.Steps = S ∧
      log = (List.range log.length).map (fun j => j % S) ∧
      (t1.run_count < t1.max_runs → t1.cur_step = log.length % S)) →
      (StepTask.drain record now t1 log).1.Steps = S ∧
      (StepTask.drain record now t1 log).2 =
        (List.range (StepTask.drain record now t1 log).2.length).map (fun j => j % S) ∧
      ((StepTask.drain record now t1 log).1.run_count <
          (StepTask.drain record now t1 log).1.max_runs →
        (StepTask.drain record now t1 log).1.cur_step =
          (StepTask.drain record now t1 log).2.length % S) := by
    intro t1 h1
    exact StepTask.loop_rule record now
      (fun u w => u.Steps = S ∧ w = (List.range w.length).map (fun j => j % S) ∧
        (u.run_count < u.max_runs → u.cur_step = w.length % S))
      (by
        intro u w ⟨h1, h2, h3⟩ hrc _
        have hcur := h3 hrc
        have hw : record u.cur_step w =
            (List.range (record u.cur_step w).length).map (fun j => j % S) := by
          simp only [record, List.length_append, List.length_singleton, List.range_succ,
            List.map_append, List.map_cons, List.map_nil]
          rw [← h2, hcur]
        have hlt : w.length % S < S := Nat.mod_lt _ (by omega)
        refine ⟨fun hle => ⟨h1, hw, ?_⟩, fun _ => ⟨h1, hw, ?_⟩⟩
        · intro hlt2
          exfalso
          exact absurd hle (not_le.2 hlt2)
        · intro _
          show ((u.cur_step + 1) % SIZE_MOD) % u.Steps = (record u.cur_step w).length % S
          rw [h1, hcur, Nat.mod_eq_of_lt (by omega : w.length % S + 1 < SIZE_MOD)]
          simp only [record, List.length_append, List.length_singleton]
          exact Nat.mod_add_mod _ _ _)
      _ t1 log h1
  unfold StepTask.tick
  by_cases hs : t.started = true
  · simp only [hs, Bool.not_true, Bool.false_eq_true, if_false]
    exact hloop t h
  · simp only [Bool.not_eq_true] at hs
    simp only [hs, Bool.not_false, if_true]
    by_cases hd : t.initial_delay_ms ≤ sub32 now t.last_tick_ms
    · rw [if_pos hd]
      exact hloop _ h
    · rw [if_neg hd]
      exact h

theorem StepTask.run_cycle (S : Nat) (hS1 : 1 ≤ S) (hS2 : S < SIZE_MOD) (nows : List Nat) :
    ∀ (t : StepTask) (log : List Nat),
      (t.Steps = S ∧ log = (List.range log.length).map (fun j => j % S) ∧
        (t.run_count < t.max_runs → t.cur_step = log.length % S)) →
      (StepTask.run t log nows).2 =
        (List.range (StepTask.run t log nows).2.length).map (fun j => j % S) := by
  induction nows with
  | nil => intro t log h; exact h.2.1
  | cons now xs ih =>
    intro t log h
    rw [StepTask.run_cons]
    exact ih _ _ (StepTask.tick_cycle S now hS1 hS2 t log h)

/-- A tick arriving exactly one step duration after the tick that left no backlog fires
exactly once and leaves no backlog. -/
theorem StepTask.tick_on_time (prev now d : Nat) (t : StepTask) (log : List Nat)
    (hd1 : 1 ≤ d) (hd2 : d < U32) (hnow : now = (prev + d) % U32)
    (hstarted : t.started = true) (hdur : t.ConstDur d) (hmax : t.max_runs < U32)
    (hrc : t.run_count + 1 ≤ t.max_runs) (hprev : sub32 prev t.last_tick_ms = 0) :
    (StepTask.tick record now t log).2.length = log.length + 1 ∧
    sub32 now (StepTask.tick record now t log).1.last_tick_ms = 0 ∧
    (StepTask.tick record now t log).1.run_count = t.run_count + 1 ∧
    (StepTask.tick record now t log).1.started = true ∧
    (StepTask.tick record now t log).1.ConstDur d ∧
    (StepTask.tick record now t log).1.max_runs = t.max_runs ∧
    (StepTask.tick record now t log).1.Steps = t.Steps := by
  have he : sub32 now t.last_tick_ms = d := by
    unfold sub32 at *
    rw [U32_eq] at *
    omega
  have hdiv : d / d = 1 := Nat.div_self (by omega)
  have hc := StepTask.loop_const now d (t.max_runs - t.run_count) t log hd1 hdur hmax
    (le_refl _) (by rw [he, hdiv]; exact hrc)
  have hf := StepTask.loop_frame record now d (t.max_runs - t.run_count) t log hdur
  rw [he, hdiv, Nat.mod_self] at hc
  simp only [StepTask.tick, hstarted, StepTask.drain, Bool.not_true, Bool.false_eq_true,
    if_false]
  exact ⟨hc.1, hc.2.1, hc.2.2, by rw [hf.2.2.1]; exact hstarted, hf.1, hf.2.1, hf.2.2.2⟩

/-- The tick times `B + d, B + 2 d, ..., B + n d` of the 32-bit counter. -/
theorem StepTask.run_on_time (B d : Nat) (hd1 : 1 ≤ d) (hd2 : d < U32) (n : Nat) :
    ∀ (t : StepTask), t.started = true → t.ConstDur d → t.max_runs < U32 →
      t.run_count + n ≤ t.max_runs → sub32 (B % U32) t.last_tick_ms = 0 →
      (StepTask.run t [] ((List.range n).map (fun k => (B + (k + 1) * d) % U32))).2.length = n ∧
      sub32 ((B + n * d) % U32)
        (StepTask.run t [] ((List.range n).map (fun k => (B + (k + 1) * d) % U32))).1.last_tick_ms
          = 0 ∧
      (StepTask.run t [] ((List.range n).map (fun k => (B + (k + 1) * d) % U32))).1.run_count
        = t.run_count + n ∧
      (StepTask.run t [] ((List.range n).map (fun k => (B + (k + 1) * d) % U32))).1.started
        = true ∧
      (StepTask.run t [] ((List.range n).map (fun k => (B + (k + 1) * d) % U32))).1.ConstDur d ∧
      (StepTask.run t [] ((List.range n).map (fun k => (B + (k + 1) * d) % U32))).1.max_runs
        = t.max_runs := by
  induction n with
  | zero =>
    intro t hs hdur _ _ hB
    simp only [List.range_zero, List.map_nil, StepTask.run, List.foldl_nil, List.length_nil,
      Nat.zero_mul, Nat.add_zero]
    exact ⟨trivial, hB, trivial, hs, hdur, trivial⟩
  | succ n ih =>
    intro t hs hdur hmax hrc hB
    obtain ⟨i1, i2, i3, i4, i5, i6⟩ := ih t hs hdur hmax (by omega) hB
    rw [List.range_succ, List.map_append, StepTask.run_append]
    simp only [List.map_cons, List.map_nil]
    rw [StepTask.run_cons]
    simp only [StepTask.run, List.foldl_nil]
    have hnow : (B + (n + 1) * d) % U32 = ((B + n * d) % U32 + d) % U32 := by
      have : (n + 1) * d = n * d + d := by ring
      rw [this, U32_eq]
      omega
    have ht := StepTask.tick_on_time ((B + n * d) % U32) ((B + (n + 1) * d) % U32) d _
      (StepTask.run t [] ((List.range n).map (fun k => (B + (k + 1) * d) % U32))).2
      hd1 hd2 hnow i4 i5 (by rw [i6]; exact hmax) (by rw [i3, i6]; omega) i2
    simp only [StepTask.run] at ht i1 i3 i6
    obtain ⟨j1, j2, j3, j4, j5, j6, _⟩ := ht
    exact ⟨by rw [j1, i1], j2, by rw [j3, i3]; omega, j4, j5, by rw [j6, i6]⟩

theorem init_average_steps_pos (Steps period : Nat) : 1 ≤ init_average_steps Steps period :=
  le_max_left _ _

theorem init_average_steps_lt (Steps period : Nat) : init_average_steps Steps period < U32 := by
  unfold init_average_steps
  have h : (sub32 (add32 period Steps) 1 / Steps) % U32 < U32 := Nat.mod_lt _ (by decide)
  have h1 : 1 < U32 := by decide
  exact max_lt h1 h

/-- C6. Step cycling of an averaged-step task `ScheduledTask<S>`, `2 <= S`, built by
constructor 1 or by constructor 2 (delay `D`) with run limit `m` and given the baseline
`B`. After every sequence `nows` of `tick` calls the `j`-th callback invocation
(`j = 0, 1, ...`) has received the step index `j mod S`. When the task of constructor 1
is ticked at `B + d, B + 2 d, ..., B + n d` (32-bit times, `d` the step duration
`init_average_steps S P`) and the run limit is not met before (`n <= m`; the default
`m = INF_RUNS` stands for no limit), every tick fires exactly once: after the `n` ticks
the recorded indices are exactly `0 mod S, ..., (n - 1) mod S`. -/
theorem StepTask.step_cycling (S P m B D n : Nat) (nows : List Nat)
    (hS : 2 ≤ S) (hS2 : S < SIZE_MOD) (hm : m ≤ UINT32_MAX) (hn : n ≤ m) :
    (StepTask.run { StepTask.averaged S P m with last_tick_ms := B } [] nows).2 =
      (List.range
        (StepTask.run { StepTask.averaged S P m with last_tick_ms := B } [] nows).2.length).map
        (fun j => j % S) ∧
    (StepTask.run { StepTask.delayed S D P m with last_tick_ms := B } [] nows).2 =
      (List.range
        (StepTask.run { StepTask.delayed S D P m with last_tick_ms := B } [] nows).2.length).map
        (fun j => j % S) ∧
    (StepTask.run { StepTask.averaged S P m with last_tick_ms := B } []
        ((List.range n).map (fun k => (B + (k + 1) * init_average_steps S P) % U32))).2 =
      (List.range n).map (fun j => j % S) := by
  have hc1 := StepTask.run_cycle S (by omega) hS2 nows
    { StepTask.averaged S P m with last_tick_ms := B } []
    ⟨rfl, by simp, fun _ => by simp [StepTask.averaged]⟩
  have hc2 := StepTask.run_cycle S (by omega) hS2 nows
    { StepTask.delayed S D P m with last_tick_ms := B } []
    ⟨rfl, by simp, fun _ => by simp [StepTask.delayed]⟩
  refine ⟨hc1, hc2, ?_⟩
  have hc3 := StepTask.run_cycle S (by omega) hS2
    ((List.range n).map (fun k => (B + (k + 1) * init_average_steps S P) % U32))
    { StepTask.averaged S P m with last_tick_ms := B } []
    ⟨rfl, by simp, fun _ => by simp [StepTask.averaged]⟩
  have hB : sub32 (B % U32) B = 0 := by
    unfold sub32; rw [U32_eq]; omega
  have hmU : m < U32 := by
    have : UINT32_MAX = 4294967295 := rfl
    rw [U32_eq]; omega
  have hlen := (StepTask.run_on_time B (init_average_steps S P) (init_average_steps_pos S P)
    (init_average_steps_lt S P) n { StepTask.averaged S P m with last_tick_ms := B } rfl
    (Or.inl ⟨rfl, rfl⟩) hmU (by simp [StepTask.averaged]; exact hn) hB).1
  rw [hlen] at hc3
  exact hc3

/-- Witness of C6: `S = 4`, period 100 (steps of 25 ms), baseline 0, ticks at 25, 50, 75,
100, 125: five invocations with the step indices 0, 1, 2, 3, 0. -/
theorem StepTask.step_cycling_witness :
    (StepTask.run { StepTask.averaged 4 100 INF_RUNS with last_tick_ms := 0 } []
        [25, 50, 75, 100, 125]).2 = [0, 1, 2, 3, 0] :=
  (StepTask.step_cycling 4 100 INF_RUNS 0 0 5 [] (by decide) (by decide) (by decide)
    (by decide)).2.2

/-! ## Scheduler: callbacks -/

/-- A property of the world that every primitive action of a callback preserves is
preserved by running any callback body. -/
theorem exec_stable (Q : World → Prop)
    (hadd : ∀ w call t, Q w →
      Q { w with sched := (w.sched.add call (some t)).1,
                 log := w.log ++ [Event.added (w.sched.add call (some t)).2] })
    (hnull : ∀ w call, Q w → Q { w with sched := (w.sched.add call none).1 })
    (hrem : ∀ w id, Q w →
      Q { w with sched := w.sched.removeTask id, log := w.log ++ [Event.removeCalled id] })
    (hcur : ∀ w, Q w → Q { w with log := w.log ++ [Event.currentRead w.sched.currentTaskId] })
    (hreset : ∀ w tick, Q w → Q { w with sched := w.sched.resetTime tick })
    (hdev : ∀ w v, Q w → Q { w with dev := v }) :
    ∀ (p : Prog) (w : World), Q w → Q (exec p w) := by
  intro p
  induction p with
  | ret => intro w h; exact h
  | add call st cb k _ ih => intro w h; exact ih _ _ (hadd w call _ h)
  | addNull call k ih => intro w h; exact ih _ _ (hnull w call h)
  | removeTask id k ih => intro w h; exact ih _ (hrem w id h)
  | currentTaskId k ih => intro w h; exact ih _ _ (hcur w h)
  | taskCount k ih => intro w h; exact ih _ _ h
  | resetTime tick k ih => intro w h; exact ih _ (hreset w tick h)
  | getDev k ih => intro w h; exact ih _ _ h
  | setDev v k ih => intro w h; exact ih _ (hdev w v h)

/-- A property of the outside state preserved by the callback is preserved by `tick` of
the primary template. -/
theorem StepTask.tick_stable {σ : Type} (fire : Nat → σ → σ) (Q : σ → Prop)
    (hfire : ∀ step w, Q w → Q (fire step w)) (now : Nat) (t : StepTask) (w : σ) (h : Q w) :
    Q (StepTask.tick fire now t w).2 := by
  have hl : ∀ (t1 : StepTask), Q (StepTask.drain fire now t1 w).2 := fun t1 =>
    StepTask.loop_rule fire now (fun _ w => Q w)
      (fun u w hw _ _ => ⟨fun _ => hfire _ _ hw, fun _ => hfire _ _ hw⟩) _ t1 w h
  unfold StepTask.tick
  split
  · split
    · exact hl _
    · exact h
  · exact hl _

/-- The same for `ScheduledTask<1>`. -/
theorem SingleTask.single_tick_stable {σ : Type} (fire : Nat → σ → σ) (Q : σ → Prop)
    (hfire : ∀ step w, Q w → Q (fire step w)) (now : Nat) (t : SingleTask) (w : σ)
    (h : Q w) : Q (SingleTask.tick fire now t w).2 := by
  have hl : ∀ (t1 : SingleTask), Q (SingleTask.fireOnce fire now t1 w).2 := by
    intro t1
    rw [SingleTask.fireOnce_eq]
    split
    · split <;> exact hfire _ _ h
    · exact h
  unfold SingleTask.tick
  split
  · split
    · exact hl _
    · exact h
  · exact hl _

/-- No `tick` changes the identifier of its task. -/
theorem StepTask.tick_task_id {σ : Type} (fire : Nat → σ → σ) (now : Nat) (t : StepTask)
    (w : σ) : (StepTask.tick fire now t w).1.task_id = t.task_id := by
  have hl : ∀ (t1 : StepTask), (StepTask.drain fire now t1 w).1.task_id = t1.task_id :=
    fun t1 => StepTask.loop_rule fire now (fun u _ => u.task_id = t1.task_id)
      (fun u w hw _ _ => ⟨fun _ => hw, fun _ => hw⟩) _ t1 w rfl
  unfold StepTask.tick
  split
  · split
    · exact hl _
    · rfl
  · exact hl _

theorem SingleTask.single_tick_task_id {σ : Type} (fire : Nat → σ → σ) (now : Nat)
    (t : SingleTask) (w : σ) : (SingleTask.tick fire now t w).1.task_id = t.task_id := by
  have hl : ∀ (t1 : SingleTask), (SingleTask.fireOnce fire now t1 w).1.task_id = t1.task_id := by
    intro t1
    rw [SingleTask.fireOnce_eq]
    split
    · split <;> rfl
    · rfl
  unfold SingleTask.tick
  split
  · split
    · exact hl _
    · rfl
  · exact hl _

theorem Task.task_tick_task_id (now : Nat) (t : Task) (w : World) :
    (t.tick now w).1.st.task_id = t.st.task_id := by
  unfold Task.tick
  cases hst : t.st with
  | step st => simp only [TaskState.task_id]; exact StepTask.tick_task_id _ now st w
  | single st => simp only [TaskState.task_id]; exact SingleTask.single_tick_task_id _ now st w

/-- A property of the world preserved by every primitive action of a callback and by the
recording of a `fire` event is preserved by the `tick` of any task. -/
theorem Task.task_tick_stable (Q : World → Prop)
    (hexec : ∀ (p : Prog) (w : World), Q w → Q (exec p w))
    (hfire : ∀ w id step, Q w → Q { w with log := w.log ++ [Event.fire id step] })
    (now : Nat) (t : Task) (w : World) (h : Q w) : Q (t.tick now w).2 := by
  have hcb : ∀ id step w, Q w → Q (fireCb t.cb id step w) := fun id step w hw =>
    hexec _ _ (hfire w id step hw)
  unfold Task.tick
  cases hst : t.st with
  | step st => exact StepTask.tick_stable _ Q (hcb st.task_id) now st w h
  | single st => exact SingleTask.single_tick_stable _ Q (hcb st.task_id) now st w h

/-! ## Scheduler: what holds throughout a pass -/

theorem TaskState.setId_task_id (st : TaskState) (id : Nat) : (st.setId id).task_id = id := by
  cases st <;> rfl

theorem Scheduler.add_none (s : Scheduler) (call : AddCall) :
    s.add call none = (s, UINT32_MAX) := by
  cases call <;> rfl

/-- An `add` call made while `in_run` holds: the task is queued in `pending_add` with
the identifier that the call returns; the active collection, the removal set and the flag
are left alone. -/
theorem Scheduler.add_in_run (s : Scheduler) (call : AddCall) (t : Task)
    (h : s.in_run = true) :
    ∃ t1 : Task, (s.add call (some t)).1.pending_add = s.pending_add ++ [some t1] ∧
      t1.st.task_id = (s.add call (some t)).2 ∧ t1.cb = t.cb ∧
      (s.add call (some t)).1.tasks = s.tasks ∧
      (s.add call (some t)).1.in_run = true ∧
      (s.add call (some t)).1.pending_remove = s.pending_remove := by
  cases call with
  | addTask =>
    refine ⟨{ t with st := t.st.setId s.next_id }, ?_, ?_, ?_, ?_, ?_, ?_⟩ <;>
      simp [Scheduler.add, Scheduler.addTask, Scheduler.enqueue, h, TaskState.setId_task_id]
  | addTaskWithID id =>
    refine ⟨{ t with st := t.st.setId id }, ?_, ?_, ?_, ?_, ?_, ?_⟩ <;>
      simp [Scheduler.add, Scheduler.addTaskWithID, Scheduler.enqueue, h,
        TaskState.setId_task_id]
  | addTaskAndInit =>
    refine ⟨{ t with st := (t.st.setLastTick s.start_tick).setId s.next_id },
      ?_, ?_, ?_, ?_, ?_, ?_⟩ <;>
      simp [Scheduler.add, Scheduler.addTaskAndInit, Scheduler.addTask, Scheduler.enqueue, h,
        TaskState.setId_task_id]
  | addTaskAndInitAt last_tick =>
    refine ⟨{ t with st := (t.st.setLastTick last_tick).setId s.next_id },
      ?_, ?_, ?_, ?_, ?_, ?_⟩ <;>
      simp [Scheduler.add, Scheduler.addTaskAndInitAt, Scheduler.addTask, Scheduler.enqueue, h,
        TaskState.setId_task_id]
  | addTaskAndInitWithID last_tick id =>
    refine ⟨{ t with st := (t.st.setLastTick last_tick).setId id },
      ?_, ?_, ?_, ?_, ?_, ?_⟩ <;>
      simp [Scheduler.add, Scheduler.addTaskAndInitWithID, Scheduler.addTaskWithID,
        Scheduler.enqueue, h, TaskState.setId_task_id]

/-- A `removeTask` call made while `in_run` holds only records the identifier. -/
theorem Scheduler.removeTask_in_run (s : Scheduler) (id : Nat) (h : s.in_run = true) :
    (s.removeTask id).tasks = s.tasks ∧ (s.removeTask id).in_run = true ∧
    (s.removeTask id).pending_add = s.pending_add ∧
    (∀ x ∈ s.pending_remove, x ∈ (s.removeTask id).pending_remove) ∧
    (id ≠ UINT32_MAX → id ∈ (s.removeTask id).pending_remove) := by
  unfold Scheduler.removeTask
  by_cases hid : id = UINT32_MAX
  · simp [hid, h]
  · have hb : (id == UINT32_MAX) = false := by simpa using hid
    rw [hb]
    simp only [Bool.false_eq_true, if_false, h, Bool.not_true]
    refine ⟨trivial, trivial, trivial, fun x hx => List.mem_insert_of_mem hx,
      fun _ => List.mem_insert_self _ _⟩

theorem snoc_eq_append_cons {α : Type} (l pre post : List α) (e r : α)
    (h : l ++ [e] = pre ++ r :: post) :
    (post = [] ∧ e = r ∧ l = pre) ∨ (∃ post1, post = post1 ++ [e] ∧ l = pre ++ r :: post1) := by
  rcases List.eq_nil_or_concat post with hp | ⟨L, b, hp⟩
  · left
    subst hp
    have h2 : l ++ [e] = pre ++ [r] := h
    have := List.append_inj' h2 rfl
    exact ⟨rfl, by simpa using this.2, this.1⟩
  · right
    rw [List.concat_eq_append] at hp
    subst hp
    have h2 : l ++ [e] = (pre ++ r :: L) ++ [b] := by simpa using h
    have := List.append_inj' h2 rfl
    have hb : e = b := by simpa using this.2
    exact ⟨L, by rw [hb], this.1⟩

theorem lastTick_snoc_tick (log : List Event) (j id : Nat) :
    lastTick (log ++ [Event.tick j id]) = some id := by
  simp [lastTick, List.foldl_append]

theorem lastTick_snoc_other (log : List Event) (e : Event) (h : ∀ j id, e ≠ Event.tick j id) :
    lastTick (log ++ [e]) = lastTick log := by
  cases e with
  | tick j id => exact absurd rfl (h j id)
  | fire _ _ => simp [lastTick, List.foldl_append]
  | added _ => simp [lastTick, List.foldl_append]
  | removeCalled _ => simp [lastTick, List.foldl_append]
  | currentRead _ => simp [lastTick, List.foldl_append]

theorem addedIds_append (a b : List Event) : addedIds (a ++ b) = addedIds a ++ addedIds b := by
  induction a with
  | nil => rfl
  | cons e es ih => cases e <;> simp [addedIds, ih]

/-- Extending the record by one event keeps the pass invariant, provided the event is
consistent with the new state. -/
theorem PassInv.append_event {c : Prop} {ids : List (Option Nat)} {P0 : List TaskPtr} {w : World}
    (h : PassInv c ids P0 w) (w1 : World) (e : Event)
    (hin : w1.sched.in_run = true) (htasks : w1.sched.tasks = w.sched.tasks)
    (hlog : w1.log = w.log ++ [e])
    (hsub : ∀ id ∈ w.sched.pending_remove, id ∈ w1.sched.pending_remove)
    (herem : ∀ id, e = Event.removeCalled id → id ≠ UINT32_MAX →
      id ∈ w1.sched.pending_remove)
    (hetick : ∀ i id, e = Event.tick i id →
      ids.getD i none = some id ∧ id ∉ w.sched.pending_remove)
    (hpend : ∃ added, w1.sched.pending_add = P0 ++ added ∧
      added.map TaskPtr.id = (addedIds (w.log ++ [e])).map some)
    (hcur : ((∀ j id, e ≠ Event.tick j id) ∧ w1.sched.current_task = w.sched.current_task) ∨
      ∃ j, e = Event.tick j w1.sched.current_task)
    (heread : ∀ id, e = Event.currentRead id → id = w.sched.current_task) :
    PassInv c ids P0 w1 where
  in_run := hin
  ids_eq := by rw [htasks]; exact h.ids_eq
  removed := by
    intro id hmem hid
    rw [hlog] at hmem
    rcases List.mem_append.1 hmem with hm | hm
    · exact hsub id (h.removed id hm hid)
    · exact herem id (List.mem_singleton.1 hm).symm hid
  skip := by
    intro pre post id hsplit hid j hj
    rw [hlog] at hsplit
    rcases snoc_eq_append_cons _ _ _ _ _ hsplit with ⟨hp, _, _⟩ | ⟨post1, hp, hl⟩
    · rw [hp] at hj; cases hj
    · rw [hp] at hj
      rcases List.mem_append.1 hj with hm | hm
      · exact h.skip pre post1 id hl hid j hm
      · have he : e = Event.tick j id := (List.mem_singleton.1 hm).symm
        have hnot := (hetick j id he).2
        exact hnot (h.removed id (by rw [hl]; simp) hid)
  ticks := by
    intro i id hmem
    rw [hlog] at hmem
    rcases List.mem_append.1 hmem with hm | hm
    · exact h.ticks i id hm
    · exact (hetick i id (List.mem_singleton.1 hm).symm).1
  pending := by rw [hlog]; exact hpend
  current := by
    intro h0
    rw [hlog]
    rcases hcur with ⟨hnt, hc⟩ | ⟨j, he⟩
    · rw [hc, lastTick_snoc_other _ _ hnt]
      exact h.current h0
    · right
      rw [he, lastTick_snoc_tick]
  reads := by
    intro h0 pre post id hsplit hid
    rw [hlog] at hsplit
    rcases snoc_eq_append_cons _ _ _ _ _ hsplit with ⟨_, he, hl⟩ | ⟨post1, _, hl⟩
    · have hc := heread id he
      rw [← hl]
      rcases h.current h0 with hm | hm
      · rw [hc] at hid; exact absurd hm hid
      · rw [hc]; exact hm
    · exact h.reads h0 pre post1 id hl hid

/-- Changes of the scheduler that leave the record alone keep the pass invariant. -/
theorem PassInv.same_log {c : Prop} {ids : List (Option Nat)} {P0 : List TaskPtr} {w : World}
    (h : PassInv c ids P0 w) (w1 : World)
    (hin : w1.sched.in_run = true)
    (htasks : w1.sched.tasks.map TaskPtr.id = w.sched.tasks.map TaskPtr.id)
    (hlog : w1.log = w.log)
    (hsub : ∀ id ∈ w.sched.pending_remove, id ∈ w1.sched.pending_remove)
    (hpend : w1.sched.pending_add = w.sched.pending_add)
    (hcur : w1.sched.current_task = w.sched.current_task ∨
      w1.sched.current_task = UINT32_MAX) :
    PassInv c ids P0 w1 where
  in_run := hin
  ids_eq := by rw [htasks]; exact h.ids_eq
  removed := by
    intro id hmem hid
    rw [hlog] at hmem
    exact hsub id (h.removed id hmem hid)
  skip := by rw [hlog]; exact h.skip
  ticks := by rw [hlog]; exact h.ticks
  pending := by rw [hlog, hpend]; exact h.pending
  current := by
    intro h0
    rcases hcur with hc | hc
    · rw [hlog, hc]; exact h.current h0
    · left; exact hc
  reads := by rw [hlog]; exact h.reads

theorem Scheduler.add_current (s : Scheduler) (call : AddCall) (t : TaskPtr) :
    (s.add call t).1.current_task = s.current_task := by
  cases t with
  | none => rw [Scheduler.add_none]
  | some t =>
    cases call <;>
      simp only [Scheduler.add, Scheduler.addTask, Scheduler.addTaskWithID,
        Scheduler.addTaskAndInit, Scheduler.addTaskAndInitAt, Scheduler.addTaskAndInitWithID,
        Scheduler.enqueue] <;>
      split <;> rfl

/-- The effect of `flushPending`, field by field. -/
theorem Scheduler.flushPending_fields (s : Scheduler) :
    s.flushPending.tasks =
      (if s.pending_remove.isEmpty then s.tasks
        else s.tasks.filter (fun t => !t.flagged s.pending_remove)) ++
        s.pending_add.filter (fun pt => pt.isSome) ∧
    s.flushPending.pending_add = [] ∧ s.flushPending.pending_remove = [] ∧
    s.flushPending.current_task = s.current_task ∧ s.flushPending.in_run = s.in_run ∧
    s.flushPending.next_id = s.next_id ∧ s.flushPending.start_tick = s.start_tick := by
  cases hpr : s.pending_remove <;> cases hpa : s.pending_add <;>
    simp [Scheduler.flushPending, hpr, hpa]

theorem Scheduler.flushPending_current (s : Scheduler) :
    s.flushPending.current_task = s.current_task :=
  s.flushPending_fields.2.2.2.1

theorem Scheduler.removeTask_current (s : Scheduler) (id : Nat) :
    (s.removeTask id).current_task = s.current_task := by
  unfold Scheduler.removeTask
  by_cases hid : (id == UINT32_MAX) = true
  · simp [hid]
  · cases hin : s.in_run <;> simp [hid, hin, Scheduler.flushPending_current]

/-- Every callback body keeps the pass invariant. -/
theorem PassInv.exec {c : Prop} {ids : List (Option Nat)} {P0 : List TaskPtr} (p : Prog) (w : World)
    (h : PassInv c ids P0 w) : PassInv c ids P0 (exec p w) := by
  refine exec_stable (PassInv c ids P0) ?_ ?_ ?_ ?_ ?_ ?_ p w h
  · intro w call t hw
    obtain ⟨t1, h1, h2, _, h4, h5, h6⟩ := Scheduler.add_in_run w.sched call t hw.in_run
    obtain ⟨added, ha1, ha2⟩ := hw.pending
    refine hw.append_event _ _ h5 h4 rfl (by rw [h6]; exact fun _ hx => hx) ?_ ?_ ?_
      (Or.inl ⟨fun _ _ he => (by cases he), Scheduler.add_current _ _ _⟩) ?_
    · intro id he; cases he
    · intro i id he; cases he
    · refine ⟨added ++ [some t1], ?_, ?_⟩
      · show (w.sched.add call (some t)).1.pending_add = P0 ++ (added ++ [some t1])
        rw [h1, ha1, List.append_assoc]
      · rw [List.map_append, ha2, addedIds_append, List.map_append]
        simp [addedIds, TaskPtr.id, h2]
    · intro id he; cases he
  · intro w call hw
    rw [Scheduler.add_none]
    exact hw
  · intro w id hw
    obtain ⟨h1, h2, h3, h4, h5⟩ := Scheduler.removeTask_in_run w.sched id hw.in_run
    obtain ⟨added, ha1, ha2⟩ := hw.pending
    refine hw.append_event _ _ h2 h1 rfl h4 ?_ ?_ ?_
      (Or.inl ⟨fun _ _ he => (by cases he), Scheduler.removeTask_current _ _⟩) ?_
    · intro id1 he hid
      have : id = id1 := by cases he; rfl
      subst this
      exact h5 hid
    · intro i id1 he; cases he
    · refine ⟨added, ?_, ?_⟩
      · show (w.sched.removeTask id).pending_add = P0 ++ added
        rw [h3, ha1]
      · rw [ha2, addedIds_append]
        simp [addedIds]
    · intro id1 he; cases he
  · intro w hw
    obtain ⟨added, ha1, ha2⟩ := hw.pending
    refine hw.append_event _ _ hw.in_run rfl rfl (fun _ hx => hx) ?_ ?_ ?_
      (Or.inl ⟨fun _ _ he => (by cases he), rfl⟩) ?_
    · intro id1 he; cases he
    · intro i id1 he; cases he
    · exact ⟨added, ha1, by rw [ha2, addedIds_append]; simp [addedIds]⟩
    · intro id he
      cases he
      rfl
  · intro w tick hw
    exact hw.same_log _ hw.in_run rfl rfl (fun _ hx => hx) rfl (Or.inl rfl)
  · intro w v hw
    exact hw.same_log _ hw.in_run rfl rfl (fun _ hx => hx) rfl (Or.inl rfl)

/-- The `tick` of any task keeps the pass invariant. -/
theorem PassInv.tick {c : Prop} {ids : List (Option Nat)} {P0 : List TaskPtr} (now : Nat) (t : Task)
    (w : World) (h : PassInv c ids P0 w) : PassInv c ids P0 (t.tick now w).2 := by
  refine Task.task_tick_stable (PassInv c ids P0) (fun p w hw => hw.exec p w) ?_ now t w h
  intro w id step hw
  obtain ⟨added, ha1, ha2⟩ := hw.pending
  refine hw.append_event _ _ hw.in_run rfl rfl (fun _ hx => hx) ?_ ?_ ?_
    (Or.inl ⟨fun _ _ he => (by cases he), rfl⟩) ?_
  · intro id1 he; cases he
  · intro i id1 he; cases he
  · exact ⟨added, ha1, by rw [ha2, addedIds_append]; simp [addedIds]⟩
  · intro id1 he; cases he

/-! ## Scheduler: the pass -/

theorem set_same_of_getD (l : List (Option Nat)) (i v : Nat)
    (h : l.getD i none = some v) : l.set i (some v) = l := by
  induction l generalizing i with
  | nil => rfl
  | cons a as ih =>
    cases i with
    | zero =>
      have : a = some v := by simpa using h
      rw [this]; rfl
    | succ n =>
      have h2 : as.getD n none = some v := by simpa using h
      rw [List.set_cons_succ, ih n h2]

theorem ids_getD (tasks : List TaskPtr) (i : Nat) :
    (tasks.map TaskPtr.id).getD i none = (tasks.getD i none).id := by
  induction tasks generalizing i with
  | nil => rfl
  | cons a as ih =>
    cases i with
    | zero => rfl
    | succ n => simpa using ih n

/-- One turn of the `for` loop keeps the pass invariant. -/
theorem PassInv.visit {c : Prop} {ids : List (Option Nat)} {P0 : List TaskPtr} (now i : Nat) (w : World)
    (h : PassInv c ids P0 w) : PassInv c ids P0 (Scheduler.visit now i w) := by
  unfold Scheduler.visit
  cases ht : w.sched.tasks.getD i none with
  | none => exact h
  | some t =>
    simp only
    by_cases hc : w.sched.pending_remove.contains t.st.task_id = true
    · rw [if_pos hc]; exact h
    · rw [if_neg hc]
      have hid : ids.getD i none = some t.st.task_id := by
        rw [← h.ids_eq, ids_getD, ht]; rfl
      have hnot : t.st.task_id ∉ w.sched.pending_remove := by
        intro hm; exact hc (by simpa using hm)
      obtain ⟨added, ha1, ha2⟩ := h.pending
      have h1 : PassInv c ids P0
          { w with sched := { w.sched with current_task := t.st.task_id },
                   log := w.log ++ [Event.tick i t.st.task_id] } := by
        refine h.append_event _ _ h.in_run rfl rfl (fun _ hx => hx) ?_ ?_ ?_
          (Or.inr ⟨i, rfl⟩) ?_
        · intro id he; cases he
        · intro j id he
          cases he
          exact ⟨hid, hnot⟩
        · exact ⟨added, ha1, by rw [ha2, addedIds_append]; simp [addedIds]⟩
        · intro id he; cases he
      have h2 := h1.tick now t
      have hset : ((t.tick now
            { w with sched := { w.sched with current_task := t.st.task_id },
                     log := w.log ++ [Event.tick i t.st.task_id] }).2.sched.tasks.set i
            (some (t.tick now
              { w with sched := { w.sched with current_task := t.st.task_id },
                       log := w.log ++ [Event.tick i t.st.task_id] }).1)).map TaskPtr.id =
          (t.tick now
            { w with sched := { w.sched with current_task := t.st.task_id },
                     log := w.log ++ [Event.tick i t.st.task_id] }).2.sched.tasks.map
            TaskPtr.id := by
        rw [List.map_set, h2.ids_eq]
        simp only [TaskPtr.id, Option.map_some', Task.task_tick_task_id]
        exact set_same_of_getD ids i _ hid
      split
      · exact h2.same_log _ h2.in_run hset rfl
          (fun _ hx => List.mem_insert_of_mem hx) rfl (Or.inr rfl)
      · exact h2.same_log _ h2.in_run hset rfl (fun _ hx => hx) rfl (Or.inr rfl)

/-- The `for` loop keeps the pass invariant. -/
theorem PassInv.pass {c : Prop} {ids : List (Option Nat)} {P0 : List TaskPtr} (now : Nat) :
    ∀ (n i : Nat) (w : World), PassInv c ids P0 w → PassInv c ids P0 (Scheduler.pass now n i w) := by
  intro n
  induction n with
  | zero => intro i w h; exact h
  | succ n ih =>
    intro i w h
    unfold Scheduler.pass
    split
    · exact ih _ _ (h.visit now i w)
    · exact h

/-- The pass invariant holds when the loop of `runOnce` is entered, the record being
empty. -/
theorem Scheduler.passStart_inv (w : World) (hlog : w.log = []) :
    PassInv (w.sched.current_task = UINT32_MAX) (w.sched.tasks.map TaskPtr.id)
      w.sched.pending_add { w with sched := { w.sched with in_run := true } } :=
  { in_run := rfl
    ids_eq := rfl
    removed := by intro id hm; simp [hlog] at hm
    skip := by
      intro pre post id hs
      simp [hlog] at hs
    ticks := by intro i id hm; simp [hlog] at hm
    pending := ⟨[], by simp, by simp [hlog, addedIds]⟩
    current := fun h0 => Or.inl h0
    reads := by
      intro _ pre post id hs
      simp [hlog] at hs }

/-- The pass invariant holds when the loop of `runOnce` is left, the record having
started empty. -/
theorem Scheduler.passEnd_inv (w : World) (now : Nat) (hlog : w.log = []) :
    PassInv (w.sched.current_task = UINT32_MAX) (w.sched.tasks.map TaskPtr.id)
      w.sched.pending_add (Scheduler.passEnd w now) :=
  PassInv.pass now _ _ _ (Scheduler.passStart_inv w hlog)

theorem Grows.refl (w : World) (h : w.sched.in_run = true) : Grows w w :=
  ⟨h, fun _ he => he, fun _ hi => hi⟩

theorem Grows.grows_exec (w0 : World) (p : Prog) (w : World) (h : Grows w0 w) :
    Grows w0 (exec p w) := by
  refine exec_stable (Grows w0) ?_ ?_ ?_ ?_ ?_ ?_ p w h
  · intro w call t ⟨h1, h2, h3⟩
    obtain ⟨_, _, _, _, _, a5, a6⟩ := Scheduler.add_in_run w.sched call t h1
    exact ⟨a5, fun e he => List.mem_append_left _ (h2 e he), by rw [a6]; exact h3⟩
  · intro w call hw
    rw [Scheduler.add_none]
    exact hw
  · intro w id ⟨h1, h2, h3⟩
    obtain ⟨_, b2, _, b4, _⟩ := Scheduler.removeTask_in_run w.sched id h1
    exact ⟨b2, fun e he => List.mem_append_left _ (h2 e he), fun x hx => b4 x (h3 x hx)⟩
  · intro w ⟨h1, h2, h3⟩
    exact ⟨h1, fun e he => List.mem_append_left _ (h2 e he), h3⟩
  · intro w tick hw
    exact hw
  · intro w v hw
    exact hw

theorem Grows.grows_tick (w0 : World) (now : Nat) (t : Task) (w : World) (h : Grows w0 w) :
    Grows w0 (t.tick now w).2 := by
  refine Task.task_tick_stable (Grows w0) (fun p w hw => Grows.grows_exec w0 p w hw) ?_ now t w h
  intro w id step ⟨h1, h2, h3⟩
  exact ⟨h1, fun e he => List.mem_append_left _ (h2 e he), h3⟩

/-- One turn of the loop forgets nothing; a task met unflagged has its `tick` recorded. -/
theorem Grows.grows_visit (w0 : World) (now i : Nat) (w : World) (h : Grows w0 w) :
    Grows w0 (Scheduler.visit now i w) ∧
    (∀ t, w.sched.tasks.getD i none = some t → t.st.task_id ∉ w.sched.pending_remove →
      Event.tick i t.st.task_id ∈ (Scheduler.visit now i w).log) := by
  unfold Scheduler.visit
  cases ht : w.sched.tasks.getD i none with
  | none => exact ⟨h, fun t ht2 => by cases ht2⟩
  | some t =>
    simp only
    by_cases hc : w.sched.pending_remove.contains t.st.task_id = true
    · rw [if_pos hc]
      refine ⟨h, fun t2 ht2 hn => ?_⟩
      cases ht2
      exact absurd (by simpa using hc) hn
    · rw [if_neg hc]
      obtain ⟨h1, h2, h3⟩ := h
      have hw1 : Grows w0
          { w with sched := { w.sched with current_task := t.st.task_id },
                   log := w.log ++ [Event.tick i t.st.task_id] } :=
        ⟨h1, fun e he => List.mem_append_left _ (h2 e he), h3⟩
      have hself : Grows
          { w with sched := { w.sched with current_task := t.st.task_id },
                   log := w.log ++ [Event.tick i t.st.task_id] }
          { w with sched := { w.sched with current_task := t.st.task_id },
                   log := w.log ++ [Event.tick i t.st.task_id] } := Grows.refl _ h1
      have g1 := Grows.grows_tick _ now t _ hw1
      have g2 := Grows.grows_tick _ now t _ hself
      have hmem : Event.tick i t.st.task_id ∈ (t.tick now
          { w with sched := { w.sched with current_task := t.st.task_id },
                   log := w.log ++ [Event.tick i t.st.task_id] }).2.log :=
        g2.2.1 _ (by simp)
      split
      · exact ⟨⟨g1.1, g1.2.1, fun x hx => List.mem_insert_of_mem (g1.2.2 x hx)⟩,
          fun t2 ht2 _ => by cases ht2; exact hmem⟩
      · exact ⟨⟨g1.1, g1.2.1, g1.2.2⟩, fun t2 ht2 _ => by cases ht2; exact hmem⟩

theorem Grows.grows_pass (w0 : World) (now : Nat) :
    ∀ (n i : Nat) (w : World), Grows w0 w → Grows w0 (Scheduler.pass now n i w) := by
  intro n
  induction n with
  | zero => intro i w h; exact h
  | succ n ih =>
    intro i w h
    unfold Scheduler.pass
    split
    · exact ih _ _ (Grows.grows_visit w0 now i w h).1
    · exact h

/-- The loop reaches every position of the active collection: the task there has its
`tick` invoked unless its identifier is marked for removal. -/
theorem Scheduler.pass_covers {c : Prop} {ids : List (Option Nat)} {P0 : List TaskPtr}
    (now : Nat) :
    ∀ (n i : Nat) (w : World), PassInv c ids P0 w → ∀ (p id : Nat), i ≤ p → p < i + n →
      ids.getD p none = some id →
      Event.tick p id ∈ (Scheduler.pass now n i w).log ∨
        id ∈ (Scheduler.pass now n i w).sched.pending_remove := by
  intro n
  induction n with
  | zero => intro i w _ p id h1 h2; omega
  | succ n ih =>
    intro i w h p id h1 h2 hid
    have hlen : p < w.sched.tasks.length := by
      by_contra hge
      have : ids.getD p none = none := by
        rw [← h.ids_eq]
        exact List.getD_eq_default _ _ (by simpa using hge)
      rw [this] at hid; cases hid
    unfold Scheduler.pass
    rw [if_pos (by omega)]
    by_cases hp : p = i
    · subst hp
      have hg := Grows.grows_visit w now p w (Grows.refl w h.in_run)
      have hrest := Grows.grows_pass (Scheduler.visit now p w) now n (p + 1)
        (Scheduler.visit now p w) (Grows.refl _ (h.visit now p w).in_run)
      have hget : (w.sched.tasks.getD p none).id = some id := by
        rw [← ids_getD, h.ids_eq]; exact hid
      cases ht : w.sched.tasks.getD p none with
      | none => rw [ht] at hget; cases hget
      | some t =>
        rw [ht] at hget
        have hidt : t.st.task_id = id := by simpa [TaskPtr.id] using hget
        by_cases hm : id ∈ w.sched.pending_remove
        · right
          exact hrest.2.2 id (hg.1.2.2 id hm)
        · left
          have := hg.2 t ht (by rw [hidt]; exact hm)
          rw [hidt] at this
          exact hrest.2.1 _ this
    · exact ih (i + 1) _ (h.visit now i w) p id (by omega) (by omega) hid

/-! ## Scheduler: deferred addition and removal -/

theorem pending_all_some (l : List TaskPtr) (ids : List Nat)
    (h : l.map TaskPtr.id = ids.map some) : l.filter (fun pt => pt.isSome) = l := by
  rw [List.filter_eq_self]
  intro x hx
  have hm : x.id ∈ l.map TaskPtr.id := List.mem_map_of_mem _ hx
  rw [h] at hm
  obtain ⟨y, _, hy⟩ := List.mem_map.1 hm
  cases x with
  | none => cases hy
  | some _ => rfl

/-- The active collection after `runOnce`: the tasks that the flush keeps, followed by the
tasks queued during the pass. -/
theorem Scheduler.runOnce_tasks (w : World) (now : Nat) :
    (Scheduler.runOnce w now).sched.tasks =
      (if (Scheduler.passEnd w now).sched.pending_remove.isEmpty then
          (Scheduler.passEnd w now).sched.tasks
        else (Scheduler.passEnd w now).sched.tasks.filter
          (fun t => !t.flagged (Scheduler.passEnd w now).sched.pending_remove)) ++
        (Scheduler.passEnd w now).sched.pending_add.filter (fun pt => pt.isSome) ∧
    (Scheduler.runOnce w now).sched.pending_add = [] ∧
    (Scheduler.runOnce w now).sched.pending_remove = [] ∧
    (Scheduler.runOnce w now).sched.in_run = false :=
  let f := Scheduler.flushPending_fields
    { (Scheduler.passEnd w now).sched with in_run := false }
  ⟨f.1, f.2.1, f.2.2.1, f.2.2.2.2.1⟩

/-- A task that the flush keeps does not carry an identifier marked for removal. -/
theorem Scheduler.survivor_not_marked (tasks : List TaskPtr) (pr : List Nat) (id : Nat)
    (hid : id ∈ pr) (t : TaskPtr)
    (ht : t ∈ (if pr.isEmpty then tasks else tasks.filter (fun t => !t.flagged pr))) :
    t.id ≠ some id := by
  have hne : pr.isEmpty = false := by
    cases pr with
    | nil => cases hid
    | cons _ _ => rfl
  rw [hne] at ht
  simp only [Bool.false_eq_true, if_false, List.mem_filter] at ht
  intro heq
  cases t with
  | none => cases heq
  | some x =>
    have hx : x.st.task_id = id := by simpa [TaskPtr.id] using heq
    have := ht.2
    simp [TaskPtr.flagged, hx, hid] at this

/-- C8, counterexample. A scheduler holds one task, registered first, whose callback adds
a task on its first run and later asks for the removal of the identifier it got. The
first `runOnce` queues the new task and appends it (identifiers 1, 2 are active
afterwards); in the next `runOnce` the first task requests the removal before the loop
reaches the new task, so the new task is skipped and erased without ever being ticked. -/
theorem Scheduler.deferred_addition_counterexample :
    (Scheduler.runOnce (oneTask addThenRemoveLater) 1).log =
      [Event.tick 0 1, Event.fire 1 0, Event.added 2] ∧
    (Scheduler.runOnce (oneTask addThenRemoveLater) 1).sched.tasks.map TaskPtr.id =
      [some 1, some 2] ∧
    (Scheduler.runOnce (Scheduler.runOnce (oneTask addThenRemoveLater) 1).next 2).log =
      [Event.tick 0 1, Event.fire 1 0, Event.removeCalled 2] ∧
    (Scheduler.runOnce
      (Scheduler.runOnce (oneTask addThenRemoveLater) 1).next 2).sched.tasks.map TaskPtr.id =
      [some 1] := by
  decide

/-- C8, amended. Deferred addition. (a) Any `add` member called with a non-null task while
`in_run` holds leaves the active collection as it is and queues the task in
`pending_add`, carrying the identifier that the call returns. For a `runOnce(dev, now)`
entered with nothing pending and an empty record: (b) the active collection holds the
same identifiers, position by position, when the loop is left; (c) every `tick` invoked
is that of a position of the collection as it was on entry, so no task added during the
pass is ticked; (d) the tasks queued carry the identifiers returned by the `add` calls,
in the order of the calls; (e) after `runOnce` the active collection is the kept tasks
followed by all queued tasks, and nothing is pending; (f) in the next `runOnce` every
task of the active collection, the added ones included, has its `tick` invoked unless
its identifier is marked for removal during that call. -/
theorem Scheduler.deferred_addition (w : World) (now now2 : Nat) (hlog : w.log = [])
    (hpend : w.sched.pending_add = []) :
    (∀ (s : Scheduler) (call : AddCall) (t : Task), s.in_run = true →
      (s.add call (some t)).1.tasks = s.tasks ∧
      ∃ t1 : Task, (s.add call (some t)).1.pending_add = s.pending_add ++ [some t1] ∧
        t1.st.task_id = (s.add call (some t)).2 ∧ t1.cb = t.cb) ∧
    (Scheduler.passEnd w now).sched.tasks.map TaskPtr.id = w.sched.tasks.map TaskPtr.id ∧
    (∀ i id, Event.tick i id ∈ (Scheduler.passEnd w now).log →
      (w.sched.tasks.map TaskPtr.id).getD i none = some id) ∧
    (Scheduler.passEnd w now).sched.pending_add.map TaskPtr.id =
      (addedIds (Scheduler.passEnd w now).log).map some ∧
    (Scheduler.runOnce w now).sched.tasks =
      (if (Scheduler.passEnd w now).sched.pending_remove.isEmpty then
          (Scheduler.passEnd w now).sched.tasks
        else (Scheduler.passEnd w now).sched.tasks.filter
          (fun t => !t.flagged (Scheduler.passEnd w now).sched.pending_remove)) ++
        (Scheduler.passEnd w now).sched.pending_add ∧
    (Scheduler.runOnce w now).sched.pending_add = [] ∧
    (∀ p t, (Scheduler.runOnce w now).sched.tasks.getD p none = some t →
      Event.tick p t.st.task_id ∈ (Scheduler.passEnd (Scheduler.runOnce w now).next now2).log ∨
      t.st.task_id ∈
        (Scheduler.passEnd (Scheduler.runOnce w now).next now2).sched.pending_remove) := by
  have hinv := Scheduler.passEnd_inv w now hlog
  have hpa : (Scheduler.passEnd w now).sched.pending_add.map TaskPtr.id =
      (addedIds (Scheduler.passEnd w now).log).map some := by
    obtain ⟨added, h1, h2⟩ := hinv.pending
    rw [h1, hpend, List.nil_append, h2]
  have hro := Scheduler.runOnce_tasks w now
  refine ⟨?_, hinv.ids_eq, hinv.ticks, hpa, ?_, hro.2.1, ?_⟩
  · intro s call t hs
    obtain ⟨t1, a1, a2, a3, a4, _, _⟩ := Scheduler.add_in_run s call t hs
    exact ⟨a4, t1, a1, a2, a3⟩
  · rw [hro.1, pending_all_some _ _ hpa]
  · intro p t hp
    have hstart := Scheduler.passStart_inv (Scheduler.runOnce w now).next rfl
    have hlen : p < (Scheduler.runOnce w now).sched.tasks.length := by
      by_contra hge
      rw [List.getD_eq_default _ _ (by simpa using hge)] at hp
      cases hp
    have hid : ((Scheduler.runOnce w now).next.sched.tasks.map TaskPtr.id).getD p none =
        some t.st.task_id := by
      rw [ids_getD]
      show ((Scheduler.runOnce w now).sched.tasks.getD p none).id = some t.st.task_id
      rw [hp]; rfl
    exact Scheduler.pass_covers now2 _ 0 _ hstart p t.st.task_id (Nat.zero_le _)
      (by simpa using hlen) hid

/-- Witness of the amended C8: the scheduler of the counterexample, whose first task adds
a task during the pass at `now = 1`: afterwards nothing is pending. -/
theorem Scheduler.deferred_addition_witness :
    (Scheduler.runOnce (oneTask addThenRemoveLater) 1).sched.pending_add = [] :=
  (Scheduler.deferred_addition (oneTask addThenRemoveLater) 1 2 rfl rfl).2.2.2.2.2.1

/-- C9. Skip after a removal requested during a pass, for a `runOnce(dev, now)` entered
with an empty record. (a) Once a callback has called `removeTask(id)`, `id` not being the
invalid sentinel, no `tick` of a task carrying `id` is invoked in the rest of the pass.
(b) The active collection still holds the same identifiers, position by position, when
the loop is left. (c) If no task was current on entry, whenever a callback reads
`currentTaskId()` and gets a valid identifier, it is the identifier of the task whose
`tick` was invoked last, so a task can remove itself that way. (d) For every such
`removeTask(id)`, no task that the flush keeps carries `id`, and after `runOnce` the
active collection consists of the kept tasks followed by the tasks queued during the
pass. -/
theorem Scheduler.removed_task_skipped (w : World) (now : Nat) (hlog : w.log = []) :
    (∀ pre post id, (Scheduler.passEnd w now).log = pre ++ Event.removeCalled id :: post →
      id ≠ UINT32_MAX → ∀ j, Event.tick j id ∉ post) ∧
    (Scheduler.passEnd w now).sched.tasks.map TaskPtr.id = w.sched.tasks.map TaskPtr.id ∧
    (w.sched.current_task = UINT32_MAX →
      ∀ pre post id, (Scheduler.passEnd w now).log = pre ++ Event.currentRead id :: post →
        id ≠ UINT32_MAX → lastTick pre = some id) ∧
    (∀ id, Event.removeCalled id ∈ (Scheduler.passEnd w now).log → id ≠ UINT32_MAX →
      ∀ t, t ∈ (if (Scheduler.passEnd w now).sched.pending_remove.isEmpty then
          (Scheduler.passEnd w now).sched.tasks
        else (Scheduler.passEnd w now).sched.tasks.filter
          (fun t => !t.flagged (Scheduler.passEnd w now).sched.pending_remove)) →
        t.id ≠ some id) ∧
    (Scheduler.runOnce w now).sched.tasks =
      (if (Scheduler.passEnd w now).sched.pending_remove.isEmpty then
          (Scheduler.passEnd w now).sched.tasks
        else (Scheduler.passEnd w now).sched.tasks.filter
          (fun t => !t.flagged (Scheduler.passEnd w now).sched.pending_remove)) ++
        (Scheduler.passEnd w now).sched.pending_add.filter (fun pt => pt.isSome) := by
  have hinv := Scheduler.passEnd_inv w now hlog
  refine ⟨hinv.skip, hinv.ids_eq, hinv.reads, ?_, (Scheduler.runOnce_tasks w now).1⟩
  intro id hmem hid t ht
  exact Scheduler.survivor_not_marked _ _ id (hinv.removed id hmem hid) t ht

/-- Witness of C9: a scheduler whose only task removes itself through `currentTaskId()`
during the pass at `now = 1`; the identifier read is that of the task being ticked. -/
theorem Scheduler.removed_task_skipped_witness :
    lastTick [Event.tick 0 1, Event.fire 1 0] = some 1 :=
  (Scheduler.removed_task_skipped (oneTask removeSelf) 1 rfl).2.2.1 rfl
    [Event.tick 0 1, Event.fire 1 0] [Event.removeCalled 1] 1 (by decide) (by decide)

/-- C10, counterexample. A scheduler holds one task whose callback adds a task and at once
calls `removeTask` with the identifier it got. When `runOnce` returns the added task,
identifier 2, is in the active collection, and the next `runOnce` invokes its `tick`. -/
theorem Scheduler.deferred_removal_counterexample :
    (Scheduler.runOnce (oneTask addThenRemoveNow) 1).log =
      [Event.tick 0 1, Event.fire 1 0, Event.added 2, Event.removeCalled 2] ∧
    (Scheduler.runOnce (oneTask addThenRemoveNow) 1).sched.tasks.map TaskPtr.id =
      [some 1, some 2] ∧
    Event.tick 1 2 ∈
      (Scheduler.runOnce (Scheduler.runOnce (oneTask addThenRemoveNow) 1).next 2).log := by
  decide

/-- C10, amended. Deferred removal, for a `runOnce(dev, now)` entered with an empty
record. (a) Every `removeTask(id)` called from a callback with a valid `id` is recorded in
`pending_remove` until the loop is left. (b) No task of the active collection that
carries an identifier recorded in `pending_remove` (by `removeTask` or because the task
finished) is kept by the flush. (c) Every task queued in `pending_add` during the pass
is appended to the active collection, whatever removal was requested: the removal set
is applied to the active collection only. (d) When `runOnce` returns, nothing is pending
and `in_run` is false. -/
theorem Scheduler.deferred_removal (w : World) (now : Nat) (hlog : w.log = []) :
    (∀ id, Event.removeCalled id ∈ (Scheduler.passEnd w now).log → id ≠ UINT32_MAX →
      id ∈ (Scheduler.passEnd w now).sched.pending_remove) ∧
    (∀ id ∈ (Scheduler.passEnd w now).sched.pending_remove,
      ∀ t, t ∈ (if (Scheduler.passEnd w now).sched.pending_remove.isEmpty then
          (Scheduler.passEnd w now).sched.tasks
        else (Scheduler.passEnd w now).sched.tasks.filter
          (fun t => !t.flagged (Scheduler.passEnd w now).sched.pending_remove)) →
        t.id ≠ some id) ∧
    (Scheduler.runOnce w now).sched.tasks =
      (if (Scheduler.passEnd w now).sched.pending_remove.isEmpty then
          (Scheduler.passEnd w now).sched.tasks
        else (Scheduler.passEnd w now).sched.tasks.filter
          (fun t => !t.flagged (Scheduler.passEnd w now).sched.pending_remove)) ++
        (Scheduler.passEnd w now).sched.pending_add.filter (fun pt => pt.isSome) ∧
    (∀ t, some t ∈ (Scheduler.passEnd w now).sched.pending_add →
      some t ∈ (Scheduler.runOnce w now).sched.tasks) ∧
    (Scheduler.runOnce w now).sched.pending_add = [] ∧
    (Scheduler.runOnce w now).sched.pending_remove = [] ∧
    (Scheduler.runOnce w now).sched.in_run = false := by
  have hinv := Scheduler.passEnd_inv w now hlog
  have hro := Scheduler.runOnce_tasks w now
  refine ⟨hinv.removed, ?_, hro.1, ?_, hro.2.1, hro.2.2.1, hro.2.2.2⟩
  · intro id hid t ht
    exact Scheduler.survivor_not_marked _ _ id hid t ht
  · intro t ht
    rw [hro.1]
    exact List.mem_append_right _ (List.mem_filter.2 ⟨ht, rfl⟩)

/-- Witness of the amended C10: the scheduler of the counterexample after the pass at
`now = 1`: nothing is pending and `in_run` is false. -/
theorem Scheduler.deferred_removal_witness :
    (Scheduler.runOnce (oneTask addThenRemoveNow) 1).sched.pending_add = [] ∧
    (Scheduler.runOnce (oneTask addThenRemoveNow) 1).sched.pending_remove = [] ∧
    (Scheduler.runOnce (oneTask addThenRemoveNow) 1).sched.in_run = false :=
  (Scheduler.deferred_removal (oneTask addThenRemoveNow) 1 rfl).2.2.2.2

/-! ## The bounded loops are the loops of the source -/

/-- The loop of `tick` as the source writes it: `drain` satisfies the equation of the
`while` statement, so the bound on the number of passes is never what stops it. -/
theorem StepTask.drain_while {σ : Type} (fire : Nat → σ → σ) (now : Nat) (t : StepTask)
    (w : σ) (hmax : t.max_runs < U32) :
    StepTask.drain fire now t w =
      if t.run_count < t.max_runs ∧ t.current_step_duration ≤ sub32 now t.last_tick_ms then
        if t.max_runs ≤ add32 t.run_count 1 then
          ({ t with last_tick_ms := add32 t.last_tick_ms t.current_step_duration,
                    run_count := add32 t.run_count 1, finished_flag := true },
            fire t.cur_step w)
        else
          StepTask.drain fire now
            { t with last_tick_ms := add32 t.last_tick_ms t.current_step_duration,
                     run_count := add32 t.run_count 1,
                     cur_step := ((t.cur_step + 1) % SIZE_MOD) % t.Steps }
            (fire t.cur_step w)
      else (t, w) := by
  unfold StepTask.drain
  by_cases hrc : t.run_count < t.max_runs
  · have hfuel : t.max_runs - t.run_count = (t.max_runs - (t.run_count + 1)) + 1 := by omega
    have hadd : add32 t.run_count 1 = t.run_count + 1 := add32_exact _ _ (by omega)
    rw [hfuel, StepTask.loop_succ, hadd]
  · have hfuel : t.max_runs - t.run_count = 0 := by omega
    rw [hfuel, if_neg (fun h => hrc h.1)]
    rfl

/-- More passes than `max_runs - run_count` change nothing. -/
theorem StepTask.loop_enough {σ : Type} (fire : Nat → σ → σ) (now : Nat) :
    ∀ (fuel : Nat) (t : StepTask) (w : σ), t.max_runs - t.run_count ≤ fuel →
      t.max_runs < U32 → StepTask.loop fire now fuel t w = StepTask.drain fire now t w := by
  intro fuel
  induction fuel with
  | zero =>
    intro t w h _
    unfold StepTask.drain
    rw [show t.max_runs - t.run_count = 0 by omega]
  | succ n ih =>
    intro t w h hmax
    rw [StepTask.drain_while fire now t w hmax, StepTask.loop_succ]
    by_cases hc : t.run_count < t.max_runs ∧ t.current_step_duration ≤ sub32 now t.last_tick_ms
    · rw [if_pos hc, if_pos hc]
      by_cases hr : t.max_runs ≤ add32 t.run_count 1
      · rw [if_pos hr, if_pos hr]
      · rw [if_neg hr, if_neg hr]
        have hadd : add32 t.run_count 1 = t.run_count + 1 := add32_exact _ _ (by omega)
        apply ih
        · simp only [hadd]; omega
        · exact hmax
    · rw [if_neg hc, if_neg hc]

/-- While `in_run` holds no callback and no `tick` changes the length of the active
collection. -/
theorem Scheduler.visit_length (now i : Nat) (w : World) (h : w.sched.in_run = true) :
    (Scheduler.visit now i w).sched.in_run = true ∧
    (Scheduler.visit now i w).sched.tasks.length = w.sched.tasks.length := by
  have key : ∀ (w1 : World), w1.sched.in_run = true →
      ∀ (p : Prog), (exec p w1).sched.in_run = true ∧
        (exec p w1).sched.tasks = w1.sched.tasks := by
    intro w1 h1 p
    refine exec_stable (fun x => x.sched.in_run = true ∧ x.sched.tasks = w1.sched.tasks)
      ?_ ?_ ?_ ?_ ?_ ?_ p w1 ⟨h1, rfl⟩
    · intro x call t ⟨a, b⟩
      obtain ⟨_, _, _, _, c4, c5, _⟩ := Scheduler.add_in_run x.sched call t a
      exact ⟨c5, by rw [c4]; exact b⟩
    · intro x call hx
      rw [Scheduler.add_none]; exact hx
    · intro x id ⟨a, b⟩
      obtain ⟨c1, c2, _, _, _⟩ := Scheduler.removeTask_in_run x.sched id a
      exact ⟨c2, by rw [c1]; exact b⟩
    · intro x hx; exact hx
    · intro x tick hx; exact hx
    · intro x v hx; exact hx
  unfold Scheduler.visit
  cases ht : w.sched.tasks.getD i none with
  | none => exact ⟨h, rfl⟩
  | some t =>
    simp only
    split
    · exact ⟨h, rfl⟩
    · have hq := Task.task_tick_stable
        (fun x => x.sched.in_run = true ∧ x.sched.tasks = w.sched.tasks)
        (fun p x hx => by
          obtain ⟨a, b⟩ := key x hx.1 p
          exact ⟨a, by rw [b]; exact hx.2⟩)
        (fun x id step hx => hx) now t
        { w with sched := { w.sched with current_task := t.st.task_id },
                 log := w.log ++ [Event.tick i t.st.task_id] } ⟨h, rfl⟩
      split
      · exact ⟨hq.1, by simp [hq.2]⟩
      · exact ⟨hq.1, by simp [hq.2]⟩

/-- The `for` loop of `runOnce` is never stopped by its bound: allowing more turns than
the positions left changes nothing. -/
theorem Scheduler.pass_enough (now : Nat) :
    ∀ (n i : Nat) (w : World), w.sched.in_run = true → w.sched.tasks.length ≤ i + n →
      ∀ m, n ≤ m → Scheduler.pass now m i w = Scheduler.pass now n i w := by
  intro n
  induction n with
  | zero =>
    intro i w _ hlen m _
    cases m with
    | zero => rfl
    | succ k =>
      unfold Scheduler.pass
      rw [if_neg (by omega)]
  | succ n ih =>
    intro i w hin hlen m hm
    cases m with
    | zero => omega
    | succ k =>
      unfold Scheduler.pass
      by_cases hi : i < w.sched.tasks.length
      · rw [if_pos hi, if_pos hi]
        obtain ⟨v1, v2⟩ := Scheduler.visit_length now i w hin
        exact ih (i + 1) _ v1 (by rw [v2]; omega) k (by omega)
      · rw [if_neg hi, if_neg hi]

/-! ## Scheduler: single operations -/

/-- C16. Null registration is ignored: in every scheduler state, inside or outside a
pass, each of the five `add` members called with a null `TaskPtr` returns `UINT32_MAX`
and returns the scheduler state as it was, counter, active collection and pending
collections included. -/
theorem Scheduler.null_registration (s : Scheduler) (id last_tick : Nat) :
    s.addTask none = (s, UINT32_MAX) ∧
    s.addTaskWithID none id = (s, UINT32_MAX) ∧
    s.addTaskAndInit none = (s, UINT32_MAX) ∧
    s.addTaskAndInitAt none last_tick = (s, UINT32_MAX) ∧
    s.addTaskAndInitWithID none last_tick id = (s, UINT32_MAX) :=
  ⟨rfl, rfl, rfl, rfl, rfl⟩

/-- C17, counterexample. `addTaskWithID` and `addTaskAndInitWithID` called with a task and
the identifier `UINT32_MAX` register the task: outside a pass the active collection of
a new scheduler then holds one task carrying `UINT32_MAX`; inside a pass the task is
queued in `pending_add`. -/
theorem Scheduler.sentinel_id_counterexample :
    ((Scheduler.new 0).addTaskWithID (some { st := everyMs, cb := idleCb })
        UINT32_MAX).1.tasks.map TaskPtr.id = [some UINT32_MAX] ∧
    ((Scheduler.new 0).addTaskAndInitWithID (some { st := everyMs, cb := idleCb }) 5
        UINT32_MAX).1.tasks.map TaskPtr.id = [some UINT32_MAX] ∧
    (midPass.addTaskWithID (some { st := everyMs, cb := idleCb })
        UINT32_MAX).1.pending_add.map TaskPtr.id = [some 2, some UINT32_MAX] ∧
    (Scheduler.new 0).tasks.map TaskPtr.id = [] := by
  decide

/-- C17, amended. `removeTask(UINT32_MAX)` returns the scheduler state as it was, inside
and outside a pass. `addTaskWithID` and `addTaskAndInitWithID` do not look at the
identifier: called with a task and `UINT32_MAX` they register the task carrying
`UINT32_MAX` (in the active collection outside a pass, in `pending_add` inside) and
return `UINT32_MAX`. -/
theorem Scheduler.sentinel_handle (s : Scheduler) (t : Task) (last_tick : Nat) :
    s.removeTask UINT32_MAX = s ∧
    s.addTaskWithID (some t) UINT32_MAX =
      (s.enqueue { t with st := t.st.setId UINT32_MAX }, UINT32_MAX) ∧
    s.addTaskAndInitWithID (some t) last_tick UINT32_MAX =
      (s.enqueue { t with st := (t.st.setLastTick last_tick).setId UINT32_MAX },
        UINT32_MAX) ∧
    (s.in_run = false → ∀ u : Task, (s.enqueue u).tasks = s.tasks ++ [some u]) ∧
    (s.in_run = true → ∀ u : Task, (s.enqueue u).pending_add = s.pending_add ++ [some u]) := by
  refine ⟨by simp [Scheduler.removeTask], rfl, rfl, ?_, ?_⟩
  · intro h u; simp [Scheduler.enqueue, h]
  · intro h u; simp [Scheduler.enqueue, h]

/-- Witness of the amended C17: a task enqueued in a new scheduler, which is outside a
pass, is appended to the active collection. -/
theorem Scheduler.sentinel_handle_witness :
    ((Scheduler.new 0).enqueue
        { st := everyMs.setId UINT32_MAX, cb := idleCb }).tasks.map TaskPtr.id =
      [some UINT32_MAX] := by
  have h := (Scheduler.sentinel_handle (Scheduler.new 0) { st := everyMs, cb := idleCb }
    0).2.2.2.1 rfl { st := everyMs.setId UINT32_MAX, cb := idleCb }
  rw [h]
  decide

/-- C15 at the failing inputs. In the middle of a pass (`in_run` holds, one active task,
one queued task) `clearAll` empties the active collection at once, and a nested
`runOnce` ends with `in_run = false` and a flush that appends the queued task to the
active collection; neither waits for the flush of the pass under way. -/
theorem Scheduler.clearAll_in_pass :
    midPass.in_run = true ∧ midPass.tasks.map TaskPtr.id = [some 1] ∧
    midPass.clearAll.tasks.map TaskPtr.id = [] ∧
    (Scheduler.runOnce { sched := midPass, dev := 0, log := [] } 0).sched.tasks.map TaskPtr.id
      = [some 1, some 2] ∧
    (Scheduler.runOnce { sched := midPass, dev := 0, log := [] } 0).sched.in_run = false := by
  decide

/-- The part of C15 that holds: while `in_run` holds, the `add` members, `removeTask` and
`resetTime` leave the active collection as it is. -/
theorem Scheduler.in_run_frame (s : Scheduler) (call : AddCall) (t : TaskPtr) (id tick : Nat)
    (h : s.in_run = true) :
    (s.add call t).1.tasks = s.tasks ∧ (s.removeTask id).tasks = s.tasks ∧
    (s.resetTime tick).tasks = s.tasks := by
  refine ⟨?_, (Scheduler.removeTask_in_run s id h).1, rfl⟩
  cases t with
  | none => rw [Scheduler.add_none]
  | some t => exact (Scheduler.add_in_run s call t h).choose_spec.2.2.2.1

/-- C11. Immediate removal outside a pass. In a state between public calls outside a pass
(`in_run` false, nothing pending, no null entry), `removeTask(id)` with `id` other than
`UINT32_MAX` leaves as active collection the previous one with exactly the entries
carrying `id` erased, the others in their order and as they were; if no entry carries
`id` the collection is unchanged. The other fields are as before. -/
theorem Scheduler.immediate_removal (s : Scheduler) (id : Nat) (hs : s.Idle)
    (hid : id ≠ UINT32_MAX) :
    (s.removeTask id).tasks = s.tasks.filter (fun t => decide (t.id ≠ some id)) ∧
    ((∀ t ∈ s.tasks, t.id ≠ some id) → (s.removeTask id).tasks = s.tasks) ∧
    (s.removeTask id).Idle ∧
    (s.removeTask id).next_id = s.next_id ∧ (s.removeTask id).start_tick = s.start_tick ∧
    (s.removeTask id).current_task = s.current_task := by
  obtain ⟨hin, hpa, hpr, hnn⟩ := hs
  have hb : (id == UINT32_MAX) = false := by simpa using hid
  have hf := Scheduler.flushPending_fields
    { s with pending_remove := s.pending_remove.insert id }
  have hrem : s.removeTask id =
      Scheduler.flushPending { s with pending_remove := s.pending_remove.insert id } := by
    simp [Scheduler.removeTask, hb, hin]
  have hins : s.pending_remove.insert id = [id] := by rw [hpr]; rfl
  have htasks : (s.removeTask id).tasks =
      s.tasks.filter (fun t => decide (t.id ≠ some id)) := by
    rw [hrem, hf.1]
    simp only [hins, hpa, List.filter_nil, List.append_nil, List.isEmpty_cons,
      Bool.false_eq_true, if_false]
    apply List.filter_congr
    intro t ht
    cases t with
    | none => exact absurd ht hnn
    | some x =>
      by_cases hx : x.st.task_id = id <;> simp [TaskPtr.flagged, TaskPtr.id, hx]
  refine ⟨htasks, ?_, ⟨?_, ?_, ?_, ?_⟩, ?_, ?_, ?_⟩
  · intro hall
    rw [htasks, List.filter_eq_self]
    intro t ht
    simpa using hall t ht
  · rw [hrem, hf.2.2.2.2.1]; exact hin
  · rw [hrem]; exact hf.2.1
  · rw [hrem]; exact hf.2.2.1
  · rw [htasks]
    intro hm
    exact hnn (List.mem_filter.1 hm).1
  · rw [hrem]; exact hf.2.2.2.2.2.1
  · rw [hrem]; exact hf.2.2.2.2.2.2
  · rw [hrem]; exact hf.2.2.2.1

/-- Witness of C11: a scheduler holding the tasks 1, 2, 3 registered with `addTask`;
`removeTask(2)` leaves 1, 3. -/
theorem Scheduler.immediate_removal_witness :
    (((((Scheduler.new 0).addTask (some { st := everyMs, cb := idleCb })).1.addTask
        (some { st := everyMs, cb := idleCb })).1.addTask
        (some { st := everyMs, cb := idleCb })).1.removeTask 2).tasks.map TaskPtr.id =
      [some 1, some 3] := by
  have h := (Scheduler.immediate_removal
    ((((Scheduler.new 0).addTask (some { st := everyMs, cb := idleCb })).1.addTask
        (some { st := everyMs, cb := idleCb })).1.addTask
        (some { st := everyMs, cb := idleCb })).1 2
    ⟨rfl, rfl, rfl, by simp [Scheduler.addTask, Scheduler.enqueue, Scheduler.new]⟩
    (by decide)).1
  rw [h]
  decide

/-! ## Baseline seeding -/

theorem TaskState.setLastTick_last (st : TaskState) (B id : Nat) :
    ((st.setLastTick B).setId id).last_tick_ms = B := by
  cases st <;> rfl

/-- The loop does nothing when the `while` condition is false. -/
theorem StepTask.loop_idle {σ : Type} (fire : Nat → σ → σ) (now fuel : Nat) (t : StepTask)
    (w : σ)
    (h : ¬ (t.run_count < t.max_runs ∧ t.current_step_duration ≤ sub32 now t.last_tick_ms)) :
    StepTask.loop fire now fuel t w = (t, w) := by
  cases fuel with
  | zero => rfl
  | succ n => rw [StepTask.loop_succ, if_neg h]

/-- A `tick` of a task without initial delay is its loop, `started` being set. -/
theorem StepTask.tick_no_delay {σ : Type} (fire : Nat → σ → σ) (now B : Nat) (t : StepTask)
    (w : σ) (hB : B < U32) (hlast : t.last_tick_ms = B)
    (hst : t.started = true ∨ t.initial_delay_ms = 0) :
    StepTask.tick fire now t w = StepTask.drain fire now { t with started := true } w := by
  unfold StepTask.tick
  cases hs : t.started with
  | true =>
    simp only [Bool.not_true, Bool.false_eq_true, if_false]
    have : ({ t with started := true } : StepTask) = t := by
      cases t; simp_all
    rw [this]
  | false =>
    have hd : t.initial_delay_ms = 0 := by
      rcases hst with h | h
      · rw [hs] at h; cases h
      · exact h
    have hadd : add32 t.last_tick_ms 0 = t.last_tick_ms := by
      rw [hlast]; exact add32_exact _ _ (by omega)
    simp only [Bool.not_false, if_true, hd, Nat.zero_le, hadd]

theorem SingleTask.single_tick_no_delay {σ : Type} (fire : Nat → σ → σ) (now B : Nat)
    (t : SingleTask) (w : σ) (hB : B < U32) (hlast : t.last_tick_ms = B)
    (hst : t.started = true ∨ t.initial_delay_ms = 0) :
    SingleTask.tick fire now t w = SingleTask.fireOnce fire now { t with started := true } w := by
  unfold SingleTask.tick
  cases hs : t.started with
  | true =>
    simp only [Bool.not_true, Bool.false_eq_true, if_false]
    have : ({ t with started := true } : SingleTask) = t := by
      cases t; simp_all
    rw [this]
  | false =>
    have hd : t.initial_delay_ms = 0 := by
      rcases hst with h | h
      · rw [hs] at h; cases h
      · exact h
    have hadd : add32 t.last_tick_ms 0 = t.last_tick_ms := by
      rw [hlast]; exact add32_exact _ _ (by omega)
    simp only [Bool.not_false, if_true, hd, Nat.zero_le, hadd]

/-- C18. Baseline seeding. Registration: `addTaskAndInit(task, B)` registers the task with
`last_tick_ms = B` and the next identifier; `addTaskAndInit(task)` does the same with
the scheduler `start_tick`, which is the value given to the constructor or to the
latest `resetTime`. Ticking a task whose `last_tick_ms` is `B` and which has no initial
delay (`started`, or a delay of 0), be it a `ScheduledTask<Steps>` `st` or a
`ScheduledTask<1>` `u`: while the 32-bit difference `now - B` is smaller than the first
step duration the callback is not invoked and the task is left as it was, `started`
apart, so `last_tick_ms` stays `B` (in particular at `now = B`, every duration being
positive); when it is not smaller and the run limit is not met, the callback is invoked
and that first invocation moves `last_tick_ms` to `B + duration` (32-bit sum): the
primary template then goes on with its loop from that value, the specialization
returns. -/
theorem Scheduler.baseline_seeding {σ : Type} (fire : Nat → σ → σ) (w : σ) (s : Scheduler)
    (t : Task) (B now : Nat) (st : StepTask) (u : SingleTask)
    (hB : B < U32)
    (hst : st.started = true ∨ st.initial_delay_ms = 0) (hstB : st.last_tick_ms = B)
    (hmax : st.max_runs < U32)
    (hu : u.started = true ∨ u.initial_delay_ms = 0) (huB : u.last_tick_ms = B) :
    (s.addTaskAndInitAt (some t) B =
        (({ s with next_id := add32 s.next_id 1 } : Scheduler).enqueue
          { t with st := (t.st.setLastTick B).setId s.next_id }, s.next_id) ∧
      ((t.st.setLastTick B).setId s.next_id).last_tick_ms = B) ∧
    (s.addTaskAndInit (some t) =
        (({ s with next_id := add32 s.next_id 1 } : Scheduler).enqueue
          { t with st := (t.st.setLastTick s.start_tick).setId s.next_id }, s.next_id) ∧
      ((t.st.setLastTick s.start_tick).setId s.next_id).last_tick_ms = s.start_tick) ∧
    ((Scheduler.new B).start_tick = B ∧ (s.resetTime B).start_tick = B) ∧
    (sub32 now B < st.current_step_duration →
      StepTask.tick fire now st w = ({ st with started := true }, w)) ∧
    (st.current_step_duration ≤ sub32 now B → st.run_count < st.max_runs →
      StepTask.tick fire now st w =
        if st.max_runs ≤ st.run_count + 1 then
          ({ st with started := true, last_tick_ms := add32 B st.current_step_duration,
                     run_count := st.run_count + 1, finished_flag := true },
            fire st.cur_step w)
        else
          StepTask.drain fire now
            { st with started := true, last_tick_ms := add32 B st.current_step_duration,
                      run_count := st.run_count + 1,
                      cur_step := ((st.cur_step + 1) % SIZE_MOD) % st.Steps }
            (fire st.cur_step w)) ∧
    (sub32 now B < u.dur →
      SingleTask.tick fire now u w = ({ u with started := true }, w)) ∧
    (u.dur ≤ sub32 now B → u.run_count < u.max_runs →
      (SingleTask.tick fire now u w).2 = fire 0 w ∧
      (SingleTask.tick fire now u w).1.last_tick_ms = add32 B u.dur) := by
  refine ⟨⟨rfl, TaskState.setLastTick_last _ _ _⟩, ⟨rfl, TaskState.setLastTick_last _ _ _⟩,
    ⟨rfl, rfl⟩, ?_, ?_, ?_, ?_⟩
  · intro hlt
    rw [StepTask.tick_no_delay fire now B st w hB hstB hst]
    unfold StepTask.drain
    rw [StepTask.loop_idle]
    intro h
    have h2 : st.current_step_duration ≤ sub32 now st.last_tick_ms := h.2
    rw [hstB] at h2
    omega
  · intro hle hrc
    rw [StepTask.tick_no_delay fire now B st w hB hstB hst,
      StepTask.drain_while fire now { st with started := true } w hmax]
    have hadd : add32 st.run_count 1 = st.run_count + 1 := add32_exact _ _ (by omega)
    have hd : ({ st with started := true } : StepTask).current_step_duration =
        st.current_step_duration := rfl
    have hc : ({ st with started := true } : StepTask).run_count <
        ({ st with started := true } : StepTask).max_runs ∧
        ({ st with started := true } : StepTask).current_step_duration ≤
          sub32 now ({ st with started := true } : StepTask).last_tick_ms := by
      refine ⟨hrc, ?_⟩
      show st.current_step_duration ≤ sub32 now st.last_tick_ms
      rw [hstB]; exact hle
    rw [if_pos hc]
    simp only [hd, hadd, hstB]
    rfl
  · intro hlt
    rw [SingleTask.single_tick_no_delay fire now B u w hB huB hu, SingleTask.fireOnce_eq]
    rw [if_neg]
    intro h
    have h2 : u.dur ≤ sub32 now u.last_tick_ms := h.2
    rw [huB] at h2
    omega
  · intro hle hrc
    rw [SingleTask.single_tick_no_delay fire now B u w hB huB hu, SingleTask.fireOnce_eq]
    have hc : ({ u with started := true } : SingleTask).run_count <
        ({ u with started := true } : SingleTask).max_runs ∧
        ({ u with started := true } : SingleTask).dur ≤
          sub32 now ({ u with started := true } : SingleTask).last_tick_ms := by
      refine ⟨hrc, ?_⟩
      show u.dur ≤ sub32 now u.last_tick_ms
      rw [huB]; exact hle
    rw [if_pos hc]
    have hd : ({ u with started := true } : SingleTask).dur = u.dur := rfl
    split
    · refine ⟨rfl, ?_⟩
      show add32 u.last_tick_ms ({ u with started := true } : SingleTask).dur = add32 B u.dur
      rw [hd, huB]
    · refine ⟨rfl, ?_⟩
      show add32 u.last_tick_ms ({ u with started := true } : SingleTask).dur = add32 B u.dur
      rw [hd, huB]

/-- Witness of C18: `makeTask(10, cb)` seeded with the baseline 100 and ticked at
`now = 109` is not invoked. -/
theorem Scheduler.baseline_seeding_witness :
    (SingleTask.tick record 109 { SingleTask.periodic 10 INF_RUNS with last_tick_ms := 100 }
        []).2 = [] :=
  congrArg Prod.snd
    ((Scheduler.baseline_seeding record [] (Scheduler.new 0) { st := everyMs, cb := idleCb }
      100 109 { StepTask.averaged 2 20 INF_RUNS with last_tick_ms := 100 }
      { SingleTask.periodic 10 INF_RUNS with last_tick_ms := 100 }
      (by decide) (Or.inl rfl) rfl (by decide) (Or.inl rfl) rfl).2.2.2.2.2.1 (by decide))

/-- Every constructor leaves a positive first step duration, so a task seeded with the
baseline `B` is not invoked at `now = B`. -/
theorem StepTask.ctor_duration_pos (S P D m : Nat) (durs : List Nat) (hlen : durs.length = S)
    (hS : 1 ≤ S) :
    1 ≤ (StepTask.averaged S P m).current_step_duration ∧
    1 ≤ (StepTask.delayed S D P m).current_step_duration ∧
    1 ≤ (StepTask.custom S durs D m).current_step_duration ∧
    1 ≤ (SingleTask.periodic P m).dur ∧ 1 ≤ (SingleTask.delayed D P m).dur := by
  have h1 : (StepTask.averaged S P m).current_step_duration = init_average_steps S P := by
    simp only [StepTask.current_step_duration, StepTask.averaged, List.isEmpty_nil,
      Bool.not_true, Bool.false_eq_true, if_false]
  have h2 : (StepTask.delayed S D P m).current_step_duration = init_average_steps S P := by
    simp only [StepTask.current_step_duration, StepTask.delayed, List.isEmpty_nil,
      Bool.not_true, Bool.false_eq_true, if_false]
  have h4 : ∀ x : Nat, 1 ≤ (if ((if 0 < 0 then 0 else x) == 0) = true then 1
      else (if 0 < 0 then 0 else x)) := by
    intro x
    by_cases hx : x = 0
    · subst hx; decide
    · have e : (if 0 < 0 then 0 else x) = x := if_neg (by omega)
      rw [e]
      have : (x == 0) = false := by simpa using hx
      rw [this]
      simp only [Bool.false_eq_true, if_false]
      omega
  refine ⟨by rw [h1]; exact init_average_steps_pos S P,
    by rw [h2]; exact init_average_steps_pos S P, ?_, h4 P, h4 P⟩
  cases durs with
  | nil =>
    have : S = 0 := by simpa using hlen.symm
    omega
  | cons d ds =>
    have h3 : (StepTask.custom S (d :: ds) D m).current_step_duration = max 1 d := by
      simp only [StepTask.current_step_duration, StepTask.custom, List.map_cons,
        List.isEmpty_cons, Bool.not_false, if_true, List.getD_cons_zero]
    rw [h3]
    exact le_max_left _ _

/-! ## The outlier-trimmed filter -/

theorem U64_eq : U64 = 18446744073709551616 := rfl

theorem accumulate_cons (wt : Nat → Nat) (mins maxs : List Nat) (v : Nat) (vs : List Nat)
    (acc : FilterAcc) :
    accumulate wt mins maxs (v :: vs) acc =
      accumulate wt mins maxs vs
        (if isMinMax mins maxs v then acc
         else
          { weightedSum := (acc.weightedSum + (v * (wt acc.used % U64)) % U64) % U64,
            weightSum := (acc.weightSum + wt acc.used % U64) % U64,
            used := acc.used + 1 }) := by
  simp [accumulate, List.foldl_cons]

/-- The second loop in closed form: only the samples that are not flagged contribute, the
`k`-th of them with the `k`-th weight, and only they consume a weight. -/
theorem accumulate_closed (wt : Nat → Nat) (mins maxs : List Nat) :
    ∀ (samples : List Nat) (acc : FilterAcc), acc.weightedSum < U64 → acc.weightSum < U64 →
      accumulate wt mins maxs samples acc =
        { weightedSum := (acc.weightedSum +
            weightedTotal wt acc.used (samples.filter (fun v => !isMinMax mins maxs v))) % U64,
          weightSum := (acc.weightSum +
            weightTotal wt acc.used (samples.filter (fun v => !isMinMax mins maxs v))) % U64,
          used := acc.used + (samples.filter (fun v => !isMinMax mins maxs v)).length } := by
  intro samples
  induction samples with
  | nil =>
    intro acc h1 h2
    simp [accumulate, weightedTotal, weightTotal, Nat.mod_eq_of_lt h1, Nat.mod_eq_of_lt h2]
  | cons v vs ih =>
    intro acc h1 h2
    rw [accumulate_cons]
    by_cases hv : isMinMax mins maxs v = true
    · rw [if_pos hv, ih acc h1 h2]
      simp [hv]
    · rw [if_neg hv, ih _ (Nat.mod_lt _ (by decide)) (Nat.mod_lt _ (by decide))]
      have hf : (v :: vs).filter (fun v => !isMinMax mins maxs v) =
          v :: vs.filter (fun v => !isMinMax mins maxs v) := by
        simp [hv]
      rw [hf]
      simp only [weightedTotal, weightTotal, List.length_cons]
      have hU := U64_eq
      congr 1
      · rw [hU]; omega
      · rw [hU]; omega
      · omega

theorem shiftIn_length (a : List Nat) (j val : Nat) (hj : j < a.length) :
    (shiftIn a j val).length = a.length := by
  simp [shiftIn]
  omega

theorem shiftIn_mem (a : List Nat) (j val : Nat) : val ∈ shiftIn a j val := by
  simp [shiftIn]

theorem find_range_lt (p : Nat → Bool) (n j : Nat) (h : (List.range n).find? p = some j) :
    j < n := by
  have := List.mem_of_find?_eq_some h
  simpa using this

theorem insertMax_keeps (a : List Nat) (v : Nat) (hlen : a.length = 4) (hv : v ∈ a) :
    (insertMax a v).length = 4 ∧ v ∈ insertMax a v := by
  unfold insertMax
  cases hf : (List.range 4).find? (fun j => decide (a.getD j 0 < v)) with
  | none => exact ⟨hlen, hv⟩
  | some j =>
    have hj := find_range_lt _ _ _ hf
    exact ⟨by rw [shiftIn_length a j v (by omega)]; exact hlen, shiftIn_mem a j v⟩

theorem insertMax_first (v : Nat) :
    (insertMax [0, 0, 0, 0] v).length = 4 ∧ v ∈ insertMax [0, 0, 0, 0] v := by
  by_cases h0 : v = 0
  · subst h0; decide
  · have hf : (List.range 4).find? (fun j => decide (([0, 0, 0, 0] : List Nat).getD j 0 < v))
        = some 0 := by
      have : (0 : Nat) < v := by omega
      simp [List.range_succ_eq_map, List.find?, this]
    unfold insertMax
    rw [hf]
    exact ⟨by simp [shiftIn], shiftIn_mem _ _ _⟩

theorem selectExtremes_replicate (v : Nat) (n : Nat) :
    ∀ (mm : List Nat × List Nat), mm.2.length = 4 → v ∈ mm.2 →
      ((List.replicate n v).foldl
        (fun mm val => (insertMin mm.1 val, insertMax mm.2 val)) mm).2.length = 4 ∧
      v ∈ ((List.replicate n v).foldl
        (fun mm val => (insertMin mm.1 val, insertMax mm.2 val)) mm).2 := by
  induction n with
  | zero => intro mm h1 h2; exact ⟨h1, h2⟩
  | succ n ih =>
    intro mm h1 h2
    rw [List.replicate_succ, List.foldl_cons]
    obtain ⟨a, b⟩ := insertMax_keeps mm.2 v h1 h2
    exact ih _ a b

theorem isMinMax_of_mem_max (mins maxs : List Nat) (v : Nat) (hlen : maxs.length = 4)
    (hv : v ∈ maxs) : isMinMax mins maxs v = true := by
  obtain ⟨j, hj, hjv⟩ := List.getElem_of_mem hv
  unfold isMinMax
  rw [List.any_eq_true]
  refine ⟨j, by simpa using (by omega : j < 4), ?_⟩
  have : maxs.getD j 0 = v := by
    rw [List.getD_eq_getElem _ _ hj]; exact hjv
  rw [this]
  simp

theorem accumulate_all_flagged (wt : Nat → Nat) (mins maxs : List Nat) :
    ∀ (samples : List Nat) (acc : FilterAcc),
      (∀ x ∈ samples, isMinMax mins maxs x = true) →
      accumulate wt mins maxs samples acc = acc := by
  intro samples
  induction samples with
  | nil => intro acc _; rfl
  | cons v vs ih =>
    intro acc h
    rw [accumulate_cons, if_pos (h v (by simp))]
    exact ih acc (fun x hx => h x (by simp [hx]))

theorem Buffer.samples_replicate (b : Buffer Nat) (v : Nat) (hN : b.N = 64)
    (hbuf : b.buffer = List.replicate 64 v) :
    b.samples = List.replicate 64 v ∧ b.read (-1) = v := by
  have hread : ∀ i : Int, b.read i = v := by
    intro i
    unfold Buffer.read Buffer.get
    have hlt : b.slot i < 64 := by
      unfold Buffer.slot Buffer.slotOf
      rw [hN]; exact Nat.mod_lt _ (by decide)
    rw [hbuf, List.getElem?_replicate, if_pos hlt]
    rfl
  refine ⟨?_, hread _⟩
  unfold Buffer.samples
  rw [hN, List.eq_replicate_iff]
  refine ⟨by rw [List.length_map, List.length_range], ?_⟩
  intro x hx
  obtain ⟨i, _, hi⟩ := List.mem_map.1 hx
  rw [← hi]
  exact hread _

/-- C19. Degenerate fallback of the filter, for a 64-slot buffer and whatever weights the
floating-point computation yields (`wt`). (a) `getFiltered` always returns a value: the
division is never by zero. (b) When every sample is flagged `isMinMax`, that is equals
one of the four entries of `minVals` or of `maxVals` found by the first loop, the
result is `buffer[-1]`. (c) In particular a buffer whose 64 slots all hold `v` gives
`v`. -/
theorem getFiltered_fallback (wt : Nat → Nat) (b : Buffer Nat) (v : Nat) (hN : b.N = 64) :
    (getFiltered wt b).isSome = true ∧
    ((∀ x ∈ b.samples,
        isMinMax (selectExtremes b.samples).1 (selectExtremes b.samples).2 x = true) →
      getFiltered wt b = some (b.read (-1))) ∧
    (b.buffer = List.replicate 64 v → getFiltered wt b = some v) := by
  have hN0 : (b.N == 0) = false := by rw [hN]; rfl
  have hall : (∀ x ∈ b.samples,
        isMinMax (selectExtremes b.samples).1 (selectExtremes b.samples).2 x = true) →
      getFiltered wt b = some (b.read (-1)) := by
    intro h
    unfold getFiltered
    simp only [hN0, Bool.false_eq_true, if_false]
    rw [accumulate_all_flagged wt _ _ _ _ h]
    simp
  refine ⟨?_, hall, ?_⟩
  · unfold getFiltered
    simp only [hN0, Bool.false_eq_true, if_false]
    split
    · rfl
    · rename_i hne
      have : (accumulate wt (selectExtremes b.samples).1 (selectExtremes b.samples).2
          b.samples { weightedSum := 0, weightSum := 0, used := 0 }).weightSum ≠ 0 := by
        simpa using hne
      simp [udiv, this]
  · intro hbuf
    obtain ⟨hs, hr⟩ := Buffer.samples_replicate b v hN hbuf
    rw [← hr]
    apply hall
    rw [hs]
    intro x hx
    have hx2 : x = v := List.eq_of_mem_replicate hx
    subst hx2
    have h1 := insertMax_first x
    have h2 := selectExtremes_replicate x 63
      (insertMin [UINT16_MAX, UINT16_MAX, UINT16_MAX, UINT16_MAX] x, insertMax [0, 0, 0, 0] x)
      h1.1 h1.2
    have hsel : (selectExtremes (List.replicate 64 x)).2 =
        ((List.replicate 63 x).foldl
          (fun mm val => (insertMin mm.1 val, insertMax mm.2 val))
          (insertMin [UINT16_MAX, UINT16_MAX, UINT16_MAX, UINT16_MAX] x,
            insertMax [0, 0, 0, 0] x)).2 := by
      unfold selectExtremes
      rw [show (64 : Nat) = 63 + 1 from rfl, List.replicate_succ, List.foldl_cons]
    exact isMinMax_of_mem_max _ _ x (by rw [hsel]; exact h2.1) (by rw [hsel]; exact h2.2)

/-- Witness of C19: a buffer whose 64 samples all equal 7 returns 7. -/
theorem getFiltered_fallback_witness :
    getFiltered (fun _ => 1) { N := 64, buffer := List.replicate 64 7, head := 3 } = some 7 :=
  (getFiltered_fallback (fun _ => 1) { N := 64, buffer := List.replicate 64 7, head := 3 } 7
    rfl).2.2 rfl

set_option maxRecDepth 100000 in
/-- C20. Trimming with duplicates. A sample is flagged `isMinMax` exactly when it equals
one of the four entries of `minVals` or one of the four entries of `maxVals`. The sums
built by the second loop are those of the samples that are not flagged, in buffer
order, the `k`-th of them multiplied by the `k`-th weight (64-bit sums), and the number
of weights consumed is the number of such samples: flagged samples consume no weight,
and every occurrence of a value held by `minVals` or `maxVals` is left out. The value
returned is the quotient of these two sums, or `buffer[-1]` when the weights sum to 0.
More than 8 samples can be dropped: with five 1s and five 9s among 64 samples, 54
contribute. -/
theorem accumulate_trimmed (wt : Nat → Nat) (mins maxs samples : List Nat) (val : Nat)
    (b : Buffer Nat) :
    (isMinMax mins maxs val = true ↔
      ∃ j, j < 4 ∧ (val = mins.getD j 0 ∨ val = maxs.getD j 0)) ∧
    accumulate wt mins maxs samples { weightedSum := 0, weightSum := 0, used := 0 } =
      { weightedSum :=
          weightedTotal wt 0 (samples.filter (fun v => !isMinMax mins maxs v)) % U64,
        weightSum := weightTotal wt 0 (samples.filter (fun v => !isMinMax mins maxs v)) % U64,
        used := (samples.filter (fun v => !isMinMax mins maxs v)).length } ∧
    getFiltered wt b =
      (if b.N = 0 then some 0
       else if weightTotal wt 0 (b.samples.filter (fun v =>
            !isMinMax (selectExtremes b.samples).1 (selectExtremes b.samples).2 v)) % U64 = 0
         then some (b.read (-1))
       else some ((weightedTotal wt 0 (b.samples.filter (fun v =>
            !isMinMax (selectExtremes b.samples).1 (selectExtremes b.samples).2 v)) % U64 /
          (weightTotal wt 0 (b.samples.filter (fun v =>
            !isMinMax (selectExtremes b.samples).1 (selectExtremes b.samples).2 v)) % U64)) %
          2 ^ 16)) ∧
    (selectExtremes tenExtremes = ([1, 1, 1, 1], [9, 9, 9, 9]) ∧ tenExtremes.length = 64 ∧
      (tenExtremes.filter (fun v => !isMinMax [1, 1, 1, 1] [9, 9, 9, 9] v)).length = 54 ∧
      getFiltered (fun _ => 1) { N := 64, buffer := tenExtremes, head := 0 } = some 5) := by
  have hcl : ∀ (mins maxs samples : List Nat),
      accumulate wt mins maxs samples { weightedSum := 0, weightSum := 0, used := 0 } =
      { weightedSum :=
          weightedTotal wt 0 (samples.filter (fun v => !isMinMax mins maxs v)) % U64,
        weightSum := weightTotal wt 0 (samples.filter (fun v => !isMinMax mins maxs v)) % U64,
        used := (samples.filter (fun v => !isMinMax mins maxs v)).length } := by
    intro mins maxs samples
    have h := accumulate_closed wt mins maxs samples
      { weightedSum := 0, weightSum := 0, used := 0 } (by decide) (by decide)
    rw [h]
    simp
  refine ⟨?_, hcl mins maxs samples, ?_, by decide⟩
  · unfold isMinMax
    rw [List.any_eq_true]
    constructor
    · rintro ⟨j, hj, h⟩
      refine ⟨j, by simpa using hj, ?_⟩
      simpa using h
    · rintro ⟨j, hj, h⟩
      exact ⟨j, by simpa using hj, by simpa using h⟩
  · unfold getFiltered
    by_cases hN : b.N = 0
    · simp [hN]
    · have hN2 : (b.N == 0) = false := by simpa using hN
      simp only [hN2, Bool.false_eq_true, if_false, hN, hcl]
      by_cases hz : weightTotal wt 0 (b.samples.filter (fun v =>
            !isMinMax (selectExtremes b.samples).1 (selectExtremes b.samples).2 v)) % U64 = 0
      · simp [hz]
      · simp [hz, udiv]

/-! ## Scheduler: order of a pass -/

theorem tickEvents_append (a b : List Event) :
    tickEvents (a ++ b) = tickEvents a ++ tickEvents b := by
  induction a with
  | nil => rfl
  | cons e es ih => cases e <;> simp [tickEvents, ih]

/-- No callback records a `tick`. -/
theorem tickEvents_exec (p : Prog) (w : World) :
    tickEvents (exec p w).log = tickEvents w.log := by
  refine exec_stable (fun x => tickEvents x.log = tickEvents w.log) ?_ ?_ ?_ ?_ ?_ ?_ p w rfl
  · intro x call t hx
    simp only [tickEvents_append, hx]; simp [tickEvents]
  · intro x call hx; exact hx
  · intro x id hx
    simp only [tickEvents_append, hx]; simp [tickEvents]
  · intro x hx
    simp only [tickEvents_append, hx]; simp [tickEvents]
  · intro x tick hx; exact hx
  · intro x v hx; exact hx

/-- The `tick` of a task whose callback leaves the scheduler alone leaves it alone and
records no `tick`. -/
theorem Task.tick_quiet (now : Nat) (t : Task) (w : World)
    (hq : ∀ step w1, (exec (t.cb step) w1).sched = w1.sched) :
    (t.tick now w).2.sched = w.sched ∧ tickEvents (t.tick now w).2.log = tickEvents w.log := by
  have hcb : ∀ id step x, (x.sched = w.sched ∧ tickEvents x.log = tickEvents w.log) →
      ((fireCb t.cb id step x).sched = w.sched ∧
        tickEvents (fireCb t.cb id step x).log = tickEvents w.log) := by
    intro id step x hx
    unfold fireCb
    refine ⟨by rw [hq]; exact hx.1, ?_⟩
    rw [tickEvents_exec]
    simp only [tickEvents_append, hx.2]; simp [tickEvents]
  unfold Task.tick
  cases hst : t.st with
  | step st =>
    exact StepTask.tick_stable _
      (fun x => x.sched = w.sched ∧ tickEvents x.log = tickEvents w.log)
      (hcb st.task_id) now st w ⟨rfl, rfl⟩
  | single st =>
    exact SingleTask.single_tick_stable _
      (fun x => x.sched = w.sched ∧ tickEvents x.log = tickEvents w.log)
      (hcb st.task_id) now st w ⟨rfl, rfl⟩

/-- One turn of the `for` loop of `runOnce` on a task that is present and not marked:
`w1` is the world in which its `tick` starts. -/
theorem Scheduler.visit_eq (now i : Nat) (w : World) (t : Task)
    (ht : w.sched.tasks.getD i none = some t)
    (hc : w.sched.pending_remove.contains t.st.task_id = false) (w1 : World)
    (hw1 : w1 = { w with sched := { w.sched with current_task := t.st.task_id },
                         log := w.log ++ [Event.tick i t.st.task_id] }) :
    (Scheduler.visit now i w).log = (t.tick now w1).2.log ∧
    (Scheduler.visit now i w).sched.tasks =
      (t.tick now w1).2.sched.tasks.set i (some (t.tick now w1).1) ∧
    (Scheduler.visit now i w).sched.pending_remove =
      (if (t.tick now w1).1.st.finished = true
        then (t.tick now w1).2.sched.pending_remove.insert t.st.task_id
        else (t.tick now w1).2.sched.pending_remove) ∧
    (Scheduler.visit now i w).sched.pending_add = (t.tick now w1).2.sched.pending_add ∧
    (Scheduler.visit now i w).sched.in_run = (t.tick now w1).2.sched.in_run ∧
    (Scheduler.visit now i w).sched.next_id = (t.tick now w1).2.sched.next_id := by
  subst hw1
  unfold Scheduler.visit
  rw [ht]
  simp only [hc, Bool.false_eq_true, if_false]
  split <;> simp_all

theorem getD_set_ne (l : List TaskPtr) (i j : Nat) (x : TaskPtr) (h : i ≠ j) :
    (l.set i x).getD j none = l.getD j none := by
  simp [List.getD_eq_getElem?_getD, List.getElem?_set, h]

theorem getD_set_self (l : List TaskPtr) (i : Nat) (x : TaskPtr) (h : i < l.length) :
    (l.set i x).getD i none = x := by
  simp [List.getD_eq_getElem?_getD, List.getElem?_set, h]

theorem getD_mem_of_lt (l : List TaskPtr) (i : Nat) (h : i < l.length) :
    l.getD i none ∈ l := by
  rw [List.getD_eq_getElem _ _ h]
  exact List.getElem_mem _

theorem Scheduler.positions_take_succ (tasks0 : List TaskPtr) (i : Nat) (t : Task)
    (hi : i < tasks0.length) (hnull : none ∉ tasks0) (ht : tasks0.getD i none = some t) :
    (Scheduler.positions tasks0).take (i + 1) =
      (Scheduler.positions tasks0).take i ++ [(i, t.st.task_id)] := by
  have hall : ∀ n, n ≤ tasks0.length →
      (List.range n).filterMap (fun j => (tasks0.getD j none).id.map (fun id => (j, id))) =
        (List.range n).map (fun j => (j, ((tasks0.getD j none).id).getD 0)) := by
    intro n hn
    induction n with
    | zero => rfl
    | succ n ih =>
      rw [List.range_succ, List.filterMap_append, List.map_append, ih (by omega)]
      congr 1
      cases hx : tasks0.getD n none with
      | none => exact absurd (hx ▸ getD_mem_of_lt tasks0 n (by omega)) hnull
      | some u =>
        have hx2 : tasks0[n]?.getD none = some u := by
          rw [← List.getD_eq_getElem?_getD]; exact hx
        simp [hx2, TaskPtr.id]
  unfold Scheduler.positions
  rw [hall _ (Nat.le_refl _), ← List.map_take, ← List.map_take, List.take_range,
    List.take_range, Nat.min_eq_left (by omega), Nat.min_eq_left (by omega), List.range_succ,
    List.map_append]
  have ht2 : tasks0[i]?.getD none = some t := by
    rw [← List.getD_eq_getElem?_getD]; exact ht
  simp [ht2, TaskPtr.id]

theorem ids_nodup_getD (tasks0 : List TaskPtr) (h : (tasks0.map TaskPtr.id).Nodup)
    (i j : Nat) (hi : i < tasks0.length) (hj : j < tasks0.length)
    (heq : (tasks0.getD i none).id = (tasks0.getD j none).id) : i = j := by
  rw [← ids_getD, ← ids_getD] at heq
  have hi2 : i < (tasks0.map TaskPtr.id).length := by simpa using hi
  have hj2 : j < (tasks0.map TaskPtr.id).length := by simpa using hj
  rw [List.getD_eq_getElem _ _ hi2, List.getD_eq_getElem _ _ hj2] at heq
  exact (List.Nodup.getElem_inj_iff h).1 heq

/-- One turn of the loop, the callbacks leaving the scheduler alone and the identifiers
being pairwise distinct: the task at `i` is ticked. -/
theorem Scheduler.visited_step (tasks0 : List TaskPtr) (now i : Nat) (w : World)
    (hnull : none ∉ tasks0)
    (hquiet : ∀ t, some t ∈ tasks0 → ∀ step w1, (exec (t.cb step) w1).sched = w1.sched)
    (hnodup : (tasks0.map TaskPtr.id).Nodup) (hi : i < tasks0.length)
    (h : Scheduler.Visited tasks0 now i w) :
    Scheduler.Visited tasks0 now (i + 1) (Scheduler.visit now i w) := by
  obtain ⟨hlen, hrest, hdone, hlog, hpr⟩ := h
  cases ht0 : tasks0.getD i none with
  | none => exact absurd (ht0 ▸ getD_mem_of_lt tasks0 i hi) hnull
  | some t =>
    have ht : w.sched.tasks.getD i none = some t := by rw [hrest i (Nat.le_refl _), ht0]
    have hmem : some t ∈ tasks0 := ht0 ▸ getD_mem_of_lt tasks0 i hi
    have hc : w.sched.pending_remove.contains t.st.task_id = false := by
      cases hcc : w.sched.pending_remove.contains t.st.task_id with
      | false => rfl
      | true =>
        exfalso
        have hm : t.st.task_id ∈ w.sched.pending_remove := by simpa using hcc
        obtain ⟨j, hj, hjid⟩ := hpr _ hm
        have : j = i := ids_nodup_getD tasks0 hnodup j i (by omega) hi (by
          rw [hjid, ht0]; rfl)
        omega
    obtain ⟨w1, hw1⟩ : ∃ w1 : World,
        w1 = { w with sched := { w.sched with current_task := t.st.task_id },
                      log := w.log ++ [Event.tick i t.st.task_id] } := ⟨_, rfl⟩
    have hs1 : w1.sched.tasks = w.sched.tasks := by rw [hw1]
    have hs2 : w1.sched.pending_remove = w.sched.pending_remove := by rw [hw1]
    have hl1 : w1.log = w.log ++ [Event.tick i t.st.task_id] := by rw [hw1]
    obtain ⟨e1, e2, e3, _, _⟩ := Scheduler.visit_eq now i w t ht hc w1 hw1
    obtain ⟨q1, q2⟩ := Task.tick_quiet now t w1 (hquiet t hmem)
    refine ⟨?_, ?_, ?_, ?_, ?_⟩
    · rw [e2, q1, hs1]; simpa using hlen
    · intro j hj
      rw [e2, q1, hs1, getD_set_ne _ _ _ _ (by omega)]
      exact hrest j (by omega)
    · intro j u hj hu
      by_cases hji : j = i
      · subst hji
        have : u = t := by
          rw [ht0] at hu
          exact (Option.some.inj hu).symm
        subst this
        refine ⟨w1, ?_⟩
        rw [e2, q1, hs1]
        exact getD_set_self _ _ _ (by rw [hlen]; exact hi)
      · obtain ⟨wj, hwj⟩ := hdone j u (by omega) hu
        refine ⟨wj, ?_⟩
        rw [e2, q1, hs1, getD_set_ne _ _ _ _ (fun h => hji h.symm)]
        exact hwj
    · rw [e1, q2, hl1, tickEvents_append, hlog,
        Scheduler.positions_take_succ tasks0 i t hi hnull ht0]
      simp [tickEvents]
    · intro id hid
      rw [e3, q1, hs2] at hid
      split at hid
      · rcases List.mem_insert_iff.1 hid with h1 | h1
        · exact ⟨i, by omega, by rw [ht0, h1]; rfl⟩
        · obtain ⟨j, hj, hjid⟩ := hpr id h1
          exact ⟨j, by omega, hjid⟩
      · obtain ⟨j, hj, hjid⟩ := hpr id hid
        exact ⟨j, by omega, hjid⟩

theorem Scheduler.visited_pass (tasks0 : List TaskPtr) (now : Nat)
    (hnull : none ∉ tasks0)
    (hquiet : ∀ t, some t ∈ tasks0 → ∀ step w1, (exec (t.cb step) w1).sched = w1.sched)
    (hnodup : (tasks0.map TaskPtr.id).Nodup) :
    ∀ (n i : Nat) (w : World), i + n = tasks0.length → Scheduler.Visited tasks0 now i w →
      Scheduler.Visited tasks0 now tasks0.length (Scheduler.pass now n i w) := by
  intro n
  induction n with
  | zero =>
    intro i w hn h
    have : i = tasks0.length := by omega
    subst this
    exact h
  | succ n ih =>
    intro i w hn h
    unfold Scheduler.pass
    rw [if_pos (by rw [h.1]; omega)]
    exact ih (i + 1) _ (by omega)
      (Scheduler.visited_step tasks0 now i w hnull hquiet hnodup (by omega) h)

theorem no_null_of_ids (l : List TaskPtr) (h : none ∉ l.map TaskPtr.id) : none ∉ l := by
  intro hm
  exact h (List.mem_map.2 ⟨none, hm, rfl⟩)

theorem ids_no_null (l : List TaskPtr) (h : none ∉ l) : none ∉ l.map TaskPtr.id := by
  intro hm
  obtain ⟨x, hx, hxid⟩ := List.mem_map.1 hm
  cases x with
  | none => exact h hx
  | some _ => cases hxid

/-- An `add` call made outside a pass appends the task to the active collection, with
the identifier that the call returns. -/
theorem Scheduler.add_idle (s : Scheduler) (call : AddCall) (t : Task)
    (h : s.in_run = false) :
    ∃ t1 : Task, (s.add call (some t)).1.tasks = s.tasks ++ [some t1] ∧
      t1.st.task_id = (s.add call (some t)).2 ∧ t1.cb = t.cb ∧
      (s.add call (some t)).1.pending_add = s.pending_add ∧
      (s.add call (some t)).1.in_run = false ∧
      (s.add call (some t)).1.pending_remove = s.pending_remove := by
  cases call with
  | addTask =>
    refine ⟨{ t with st := t.st.setId s.next_id }, ?_, ?_, ?_, ?_, ?_, ?_⟩ <;>
      simp [Scheduler.add, Scheduler.addTask, Scheduler.enqueue, h, TaskState.setId_task_id]
  | addTaskWithID id =>
    refine ⟨{ t with st := t.st.setId id }, ?_, ?_, ?_, ?_, ?_, ?_⟩ <;>
      simp [Scheduler.add, Scheduler.addTaskWithID, Scheduler.enqueue, h,
        TaskState.setId_task_id]
  | addTaskAndInit =>
    refine ⟨{ t with st := (t.st.setLastTick s.start_tick).setId s.next_id },
      ?_, ?_, ?_, ?_, ?_, ?_⟩ <;>
      simp [Scheduler.add, Scheduler.addTaskAndInit, Scheduler.addTask, Scheduler.enqueue, h,
        TaskState.setId_task_id]
  | addTaskAndInitAt last_tick =>
    refine ⟨{ t with st := (t.st.setLastTick last_tick).setId s.next_id },
      ?_, ?_, ?_, ?_, ?_, ?_⟩ <;>
      simp [Scheduler.add, Scheduler.addTaskAndInitAt, Scheduler.addTask, Scheduler.enqueue, h,
        TaskState.setId_task_id]
  | addTaskAndInitWithID last_tick id =>
    refine ⟨{ t with st := (t.st.setLastTick last_tick).setId id },
      ?_, ?_, ?_, ?_, ?_, ?_⟩ <;>
      simp [Scheduler.add, Scheduler.addTaskAndInitWithID, Scheduler.addTaskWithID,
        Scheduler.enqueue, h, TaskState.setId_task_id]

/-- After `runOnce` the identifiers of the active collection are those it started with,
some of them erased, in their order, followed by the identifiers of the tasks that
callbacks added, in the order of the calls. -/
theorem Scheduler.runOnce_order (w : World) (now : Nat) (hlog : w.log = [])
    (hpa : w.sched.pending_add = []) :
    ∃ kept : List (Option Nat), kept.Sublist (w.sched.tasks.map TaskPtr.id) ∧
      (Scheduler.runOnce w now).sched.tasks.map TaskPtr.id =
        kept ++ (addedIds (Scheduler.runOnce w now).log).map some := by
  have hinv := Scheduler.passEnd_inv w now hlog
  obtain ⟨added, ha1, ha2⟩ := hinv.pending
  have hlogeq : (Scheduler.runOnce w now).log = (Scheduler.passEnd w now).log := rfl
  rw [hpa, List.nil_append] at ha1
  refine ⟨(if (Scheduler.passEnd w now).sched.pending_remove.isEmpty then
          (Scheduler.passEnd w now).sched.tasks
        else (Scheduler.passEnd w now).sched.tasks.filter
          (fun t => !t.flagged (Scheduler.passEnd w now).sched.pending_remove)).map TaskPtr.id,
    ?_, ?_⟩
  · rw [← hinv.ids_eq]
    split
    · exact List.Sublist.refl _
    · exact (List.filter_sublist _).map _
  · rw [(Scheduler.runOnce_tasks w now).1, List.map_append, hlogeq, ha1,
      pending_all_some added _ ha2, ha2]

/-- The state between public calls outside a pass: the constructor gives it and every
public member called outside a pass, `runOnce` included, returns to it. -/
theorem Scheduler.idle_invariant (s : Scheduler) (w : World) (call : AddCall) (t : TaskPtr)
    (id tick now : Nat) :
    (Scheduler.new tick).Idle ∧
    (s.Idle → (s.add call t).1.Idle) ∧
    (s.Idle → (s.removeTask id).Idle) ∧
    (s.Idle → (s.resetTime tick).Idle) ∧
    (s.Idle → s.clearAll.Idle) ∧
    (w.sched.Idle → w.log = [] → (Scheduler.runOnce w now).sched.Idle) := by
  refine ⟨⟨rfl, rfl, rfl, by simp [Scheduler.new]⟩, ?_, ?_, fun h => h, ?_, ?_⟩
  · intro ⟨h1, h2, h3, h4⟩
    cases t with
    | none => rw [Scheduler.add_none]; exact ⟨h1, h2, h3, h4⟩
    | some t =>
      obtain ⟨t1, a1, _, _, a4, a5, a6⟩ := Scheduler.add_idle s call t h1
      refine ⟨a5, by rw [a4]; exact h2, by rw [a6]; exact h3, ?_⟩
      rw [a1]
      intro hm
      rcases List.mem_append.1 hm with hm | hm
      · exact h4 hm
      · simp at hm
  · intro ⟨h1, h2, h3, h4⟩
    by_cases hid : id = UINT32_MAX
    · subst hid
      have : s.removeTask UINT32_MAX = s := by simp [Scheduler.removeTask]
      rw [this]; exact ⟨h1, h2, h3, h4⟩
    · have hb : (id == UINT32_MAX) = false := by simpa using hid
      have hf := Scheduler.flushPending_fields
        { s with pending_remove := s.pending_remove.insert id }
      have hrem : s.removeTask id =
          Scheduler.flushPending { s with pending_remove := s.pending_remove.insert id } := by
        simp [Scheduler.removeTask, hb, h1]
      rw [hrem]
      refine ⟨by rw [hf.2.2.2.2.1]; exact h1, hf.2.1, hf.2.2.1, ?_⟩
      rw [hf.1]
      intro hm
      rcases List.mem_append.1 hm with hm | hm
      · split at hm
        · exact h4 hm
        · exact h4 (List.mem_filter.1 hm).1
      · have := (List.mem_filter.1 hm).2
        simp at this
  · intro ⟨h1, _, _, _⟩
    exact ⟨h1, rfl, rfl, by simp [Scheduler.clearAll]⟩
  · intro ⟨h1, h2, h3, h4⟩ hlog
    have hinv := Scheduler.passEnd_inv w now hlog
    obtain ⟨r1, r2, r3, r4⟩ := Scheduler.runOnce_tasks w now
    refine ⟨r4, r2, r3, ?_⟩
    rw [r1]
    have hT : none ∉ (Scheduler.passEnd w now).sched.tasks :=
      no_null_of_ids _ (by rw [hinv.ids_eq]; exact ids_no_null _ h4)
    intro hm
    rcases List.mem_append.1 hm with hm | hm
    · split at hm
      · exact hT hm
      · exact hT (List.mem_filter.1 hm).1
    · have := (List.mem_filter.1 hm).2
      simp at this

theorem filterMap_length_of_some {α β : Type} (f : α → Option β) (l : List α)
    (h : ∀ x ∈ l, (f x).isSome = true) : (l.filterMap f).length = l.length := by
  induction l with
  | nil => rfl
  | cons a as ih =>
    have ha := h a (by simp)
    obtain ⟨b, hb⟩ := Option.isSome_iff_exists.1 ha
    rw [List.filterMap_cons, hb]
    simp [ih (fun x hx => h x (by simp [hx]))]

theorem Scheduler.positions_length (tasks : List TaskPtr) (h : none ∉ tasks) :
    (Scheduler.positions tasks).length = tasks.length := by
  unfold Scheduler.positions
  rw [filterMap_length_of_some, List.length_range]
  intro j hj
  have hj2 : j < tasks.length := by simpa using hj
  cases hx : tasks.getD j none with
  | none => exact absurd (hx ▸ getD_mem_of_lt tasks j hj2) h
  | some u => rfl

/-- C12, counterexample. Two active tasks carry the identifier 7, no callback touches the
scheduler, and the scheduler is outside a pass with nothing pending. In `runOnce` at
`now = 1` the first task fires its only run and finishes, which marks 7; the second task
is then skipped: `tick` is invoked on the first position only. -/
theorem Scheduler.pass_order_counterexample :
    twins.sched.in_run = false ∧ twins.sched.pending_add.length = 0 ∧
    twins.sched.pending_remove = [] ∧
    twins.sched.tasks.map TaskPtr.id = [some 7, some 7] ∧
    (∀ step w1, (exec (idleCb step) w1).sched = w1.sched) ∧
    tickEvents (Scheduler.runOnce twins 1).log = [(0, 7)] :=
  ⟨rfl, rfl, rfl, by decide, fun _ _ => rfl, by decide⟩

/-- C12, amended. Let the scheduler be between public calls outside a pass, the
identifiers of the active tasks be pairwise distinct and no callback of an active task
change the scheduler. Then `runOnce(dev, now)` invokes `tick` once per position of the
active collection, in increasing position, on the task that position holds, and the
task found there after the loop is the result of its `tick` with that `now`. The order
of the collection is the order of registration: outside a pass each `add` member
appends at the end, and after any `runOnce` (whatever the callbacks do) the collection
holds the identifiers it started with, some erased, in their order, followed by those
added during the pass in the order of the calls. -/
theorem Scheduler.pass_order (w : World) (now : Nat) (hidle : w.sched.Idle)
    (hlog : w.log = [])
    (hquiet : ∀ t, some t ∈ w.sched.tasks →
      ∀ step w1, (exec (t.cb step) w1).sched = w1.sched)
    (hnodup : (w.sched.tasks.map TaskPtr.id).Nodup) :
    tickEvents (Scheduler.runOnce w now).log = Scheduler.positions w.sched.tasks ∧
    (Scheduler.positions w.sched.tasks).length = w.sched.tasks.length ∧
    (∀ i t, w.sched.tasks.getD i none = some t →
      ∃ wi, (Scheduler.passEnd w now).sched.tasks.getD i none = some (t.tick now wi).1) ∧
    (∀ call t, ∃ t1 : Task, (w.sched.add call (some t)).1.tasks = w.sched.tasks ++ [some t1] ∧
      t1.st.task_id = (w.sched.add call (some t)).2 ∧ t1.cb = t.cb) ∧
    (∃ kept : List (Option Nat), kept.Sublist (w.sched.tasks.map TaskPtr.id) ∧
      (Scheduler.runOnce w now).sched.tasks.map TaskPtr.id =
        kept ++ (addedIds (Scheduler.runOnce w now).log).map some) := by
  obtain ⟨h1, h2, h3, h4⟩ := hidle
  have hstart : Scheduler.Visited w.sched.tasks now 0
      { w with sched := { w.sched with in_run := true } } := by
    refine ⟨rfl, fun _ _ => rfl, ?_, ?_, ?_⟩
    · intro j t hj; omega
    · show tickEvents w.log = _
      rw [hlog]; rfl
    · intro id hid
      have : id ∈ w.sched.pending_remove := hid
      rw [h3] at this
      cases this
  have hend := Scheduler.visited_pass w.sched.tasks now h4 hquiet hnodup
    w.sched.tasks.length 0 { w with sched := { w.sched with in_run := true } }
    (by omega) hstart
  obtain ⟨e1, e2, e3, e4, e5⟩ := hend
  have hlen := Scheduler.positions_length w.sched.tasks h4
  refine ⟨?_, hlen, ?_, ?_, Scheduler.runOnce_order w now hlog h2⟩
  · show tickEvents (Scheduler.passEnd w now).log = _
    unfold Scheduler.passEnd
    rw [e4, List.take_of_length_le (by rw [hlen])]
  · intro i t hit
    have hi : i < w.sched.tasks.length := by
      by_contra hge
      rw [List.getD_eq_default _ _ (by omega)] at hit
      cases hit
    exact e3 i t hi hit
  · intro call t
    obtain ⟨t1, a1, a2, a3, _⟩ := Scheduler.add_idle w.sched call t h1
    exact ⟨t1, a1, a2, a3⟩

/-- Witness of the amended C12: two tasks registered with `addTask`, identifiers 1 and 2;
`runOnce` at `now = 5` ticks position 0 and then position 1. -/
theorem Scheduler.pass_order_witness :
    tickEvents (Scheduler.runOnce twoTasks 5).log = [(0, 1), (1, 2)] :=
  (Scheduler.pass_order twoTasks 5
    ⟨rfl, rfl, rfl, no_null_of_ids _ (by decide)⟩ rfl
    (fun t ht step w1 => by
      have hcb : t.cb = idleCb := by
        simp [twoTasks, Scheduler.addTask, Scheduler.enqueue, Scheduler.new] at ht
        rcases ht with h | h <;> rw [h]
      rw [hcb]; rfl)
    (by decide)).1.trans (by decide)

/-! ## Scheduler: reaping of finished tasks -/

theorem mem_tickEvents (log : List Event) (i id : Nat) :
    (i, id) ∈ tickEvents log ↔ Event.tick i id ∈ log := by
  induction log with
  | nil => simp [tickEvents]
  | cons e es ih => cases e <;> simp [tickEvents, ih]

/-- No `tick` of a task records the `tick` of a task: only the loop of `runOnce` does. -/
theorem Task.tick_ticks (now : Nat) (t : Task) (w : World) :
    tickEvents (t.tick now w).2.log = tickEvents w.log := by
  refine Task.task_tick_stable (fun x => tickEvents x.log = tickEvents w.log) ?_ ?_ now t w rfl
  · intro p x hx
    rw [tickEvents_exec]; exact hx
  · intro x id step hx
    show tickEvents (x.log ++ [Event.fire id step]) = tickEvents w.log
    rw [tickEvents_append, hx]; simp [tickEvents]

theorem Scheduler.removeTask_in_run_mem (s : Scheduler) (id : Nat) (h : s.in_run = true) :
    ∀ x ∈ (s.removeTask id).pending_remove, x ∈ s.pending_remove ∨ (x = id ∧ id ≠ UINT32_MAX) := by
  unfold Scheduler.removeTask
  by_cases hid : id = UINT32_MAX
  · simp [hid]
  · have hb : (id == UINT32_MAX) = false := by simpa using hid
    rw [hb]
    simp only [Bool.false_eq_true, if_false, h, Bool.not_true]
    intro x hx
    rcases List.mem_insert_iff.1 hx with h1 | h1
    · exact Or.inr ⟨h1, hid⟩
    · exact Or.inl h1

/-- What the `tick` of a task does to the scheduler inside a pass: the active collection
is left alone, nothing recorded or marked is forgotten, and an identifier is newly marked
only by a `removeTask` call. -/
theorem Task.tick_marks (now : Nat) (t : Task) (w : World) (h : w.sched.in_run = true) :
    (t.tick now w).2.sched.in_run = true ∧
    (t.tick now w).2.sched.tasks = w.sched.tasks ∧
    (∀ e ∈ w.log, e ∈ (t.tick now w).2.log) ∧
    (∀ id ∈ w.sched.pending_remove, id ∈ (t.tick now w).2.sched.pending_remove) ∧
    (∀ id ∈ (t.tick now w).2.sched.pending_remove,
      id ∈ w.sched.pending_remove ∨
        (id ≠ UINT32_MAX ∧ Event.removeCalled id ∈ (t.tick now w).2.log)) := by
  have hexec : ∀ (p : Prog) (x : World),
      (x.sched.in_run = true ∧ x.sched.tasks = w.sched.tasks ∧ (∀ e ∈ w.log, e ∈ x.log) ∧
        (∀ id ∈ w.sched.pending_remove, id ∈ x.sched.pending_remove) ∧
        (∀ id ∈ x.sched.pending_remove,
          id ∈ w.sched.pending_remove ∨ (id ≠ UINT32_MAX ∧ Event.removeCalled id ∈ x.log))) →
      ((exec p x).sched.in_run = true ∧ (exec p x).sched.tasks = w.sched.tasks ∧
        (∀ e ∈ w.log, e ∈ (exec p x).log) ∧
        (∀ id ∈ w.sched.pending_remove, id ∈ (exec p x).sched.pending_remove) ∧
        (∀ id ∈ (exec p x).sched.pending_remove,
          id ∈ w.sched.pending_remove ∨
            (id ≠ UINT32_MAX ∧ Event.removeCalled id ∈ (exec p x).log))) := by
    refine exec_stable (fun x => x.sched.in_run = true ∧ x.sched.tasks = w.sched.tasks ∧
        (∀ e ∈ w.log, e ∈ x.log) ∧
        (∀ id ∈ w.sched.pending_remove, id ∈ x.sched.pending_remove) ∧
        (∀ id ∈ x.sched.pending_remove,
          id ∈ w.sched.pending_remove ∨ (id ≠ UINT32_MAX ∧ Event.removeCalled id ∈ x.log)))
      ?_ ?_ ?_ ?_ ?_ ?_
    · intro x call u ⟨q1, q2, q3, q4, q5⟩
      obtain ⟨_, _, _, _, a4, a5, a6⟩ := Scheduler.add_in_run x.sched call u q1
      refine ⟨a5, by rw [a4]; exact q2, fun e he => List.mem_append_left _ (q3 e he),
        by rw [a6]; exact q4, ?_⟩
      intro id hid
      rw [a6] at hid
      rcases q5 id hid with r | ⟨r1, r2⟩
      · exact Or.inl r
      · exact Or.inr ⟨r1, List.mem_append_left _ r2⟩
    · intro x call hx
      rw [Scheduler.add_none]
      exact hx
    · intro x id ⟨q1, q2, q3, q4, q5⟩
      obtain ⟨b1, b2, _, b4, _⟩ := Scheduler.removeTask_in_run x.sched id q1
      refine ⟨b2, by rw [b1]; exact q2, fun e he => List.mem_append_left _ (q3 e he),
        fun y hy => b4 y (q4 y hy), ?_⟩
      intro y hy
      rcases Scheduler.removeTask_in_run_mem x.sched id q1 y hy with r | ⟨r1, r2⟩
      · rcases q5 y r with r | ⟨r1, r2⟩
        · exact Or.inl r
        · exact Or.inr ⟨r1, List.mem_append_left _ r2⟩
      · subst r1
        exact Or.inr ⟨r2, List.mem_append_right _ (List.mem_singleton.2 rfl)⟩
    · intro x ⟨q1, q2, q3, q4, q5⟩
      refine ⟨q1, q2, fun e he => List.mem_append_left _ (q3 e he), q4, ?_⟩
      intro y hy
      rcases q5 y hy with r | ⟨r1, r2⟩
      · exact Or.inl r
      · exact Or.inr ⟨r1, List.mem_append_left _ r2⟩
    · intro x tick hx
      exact hx
    · intro x v hx
      exact hx
  refine Task.task_tick_stable (fun x => x.sched.in_run = true ∧
      x.sched.tasks = w.sched.tasks ∧ (∀ e ∈ w.log, e ∈ x.log) ∧
      (∀ id ∈ w.sched.pending_remove, id ∈ x.sched.pending_remove) ∧
      (∀ id ∈ x.sched.pending_remove,
        id ∈ w.sched.pending_remove ∨ (id ≠ UINT32_MAX ∧ Event.removeCalled id ∈ x.log)))
    hexec ?_ now t w ⟨h, rfl, fun _ he => he, fun _ hi => hi, fun _ hi => Or.inl hi⟩
  intro x id step ⟨q1, q2, q3, q4, q5⟩
  refine ⟨q1, q2, fun e he => List.mem_append_left _ (q3 e he), q4, ?_⟩
  intro y hy
  rcases q5 y hy with r | ⟨r1, r2⟩
  · exact Or.inl r
  · exact Or.inr ⟨r1, List.mem_append_left _ r2⟩

theorem getD_some_lt (l : List TaskPtr) (i : Nat) (t : Task) (h : l.getD i none = some t) :
    i < l.length := by
  by_contra hge
  rw [List.getD_eq_default _ _ (by omega)] at h
  cases h

/-- One turn of the loop keeps both properties of the marks. -/
theorem Scheduler.visit_marks {c : Prop} {ids : List (Option Nat)} {P0 : List TaskPtr}
    (now i : Nat) (w : World) (hinv : PassInv c ids P0 w)
    (hJ : Scheduler.FinishedMarked w) (hK : Scheduler.MarkedJustified w) :
    Scheduler.FinishedMarked (Scheduler.visit now i w) ∧
    Scheduler.MarkedJustified (Scheduler.visit now i w) := by
  cases ht : w.sched.tasks.getD i none with
  | none =>
    have hv : Scheduler.visit now i w = w := by
      unfold Scheduler.visit; rw [ht]
    rw [hv]; exact ⟨hJ, hK⟩
  | some t =>
    cases hc : w.sched.pending_remove.contains t.st.task_id with
    | true =>
      have hv : Scheduler.visit now i w = w := by
        unfold Scheduler.visit; rw [ht]; simp only [hc, if_true]
      rw [hv]; exact ⟨hJ, hK⟩
    | false =>
      have hnot : t.st.task_id ∉ w.sched.pending_remove := by
        intro hm
        have : w.sched.pending_remove.contains t.st.task_id = true := by simpa using hm
        rw [hc] at this; cases this
      have hi : i < w.sched.tasks.length := getD_some_lt _ _ _ ht
      have hidi : ids.getD i none = some t.st.task_id := by
        rw [← hinv.ids_eq, ids_getD, ht]; rfl
      obtain ⟨w1, hw1⟩ : ∃ w1 : World,
          w1 = { w with sched := { w.sched with current_task := t.st.task_id },
                        log := w.log ++ [Event.tick i t.st.task_id] } := ⟨_, rfl⟩
      have hs1 : w1.sched.tasks = w.sched.tasks := by rw [hw1]
      have hs2 : w1.sched.pending_remove = w.sched.pending_remove := by rw [hw1]
      have hs3 : w1.sched.in_run = true := by rw [hw1]; exact hinv.in_run
      have hl1 : w1.log = w.log ++ [Event.tick i t.st.task_id] := by rw [hw1]
      obtain ⟨e1, e2, e3, _, _⟩ := Scheduler.visit_eq now i w t ht hc w1 hw1
      obtain ⟨m1, m2, m3, m4, m5⟩ := Task.tick_marks now t w1 hs3
      have hticks := Task.tick_ticks now t w1
      have hfrom : ∀ j id, Event.tick j id ∈ (t.tick now w1).2.log →
          Event.tick j id ∈ w.log ∨ (j = i ∧ id = t.st.task_id) := by
        intro j id hm
        have h1 : (j, id) ∈ tickEvents (t.tick now w1).2.log := (mem_tickEvents _ _ _).2 hm
        rw [hticks] at h1
        have h2 := (mem_tickEvents _ _ _).1 h1
        rw [hl1] at h2
        rcases List.mem_append.1 h2 with h3 | h3
        · exact Or.inl h3
        · have h4 := List.mem_singleton.1 h3
          injection h4 with h5 h6
          exact Or.inr ⟨h5, h6⟩
      have hsub : ∀ id ∈ w.sched.pending_remove,
          id ∈ (Scheduler.visit now i w).sched.pending_remove := by
        intro id hid
        rw [e3]
        have := m4 id (by rw [hs2]; exact hid)
        split
        · exact List.mem_insert_of_mem this
        · exact this
      have hlogsub : ∀ e ∈ w.log, e ∈ (Scheduler.visit now i w).log := by
        intro e he
        rw [e1]
        exact m3 e (by rw [hl1]; exact List.mem_append_left _ he)
      have hnew : Event.tick i t.st.task_id ∈ (Scheduler.visit now i w).log := by
        rw [e1]
        exact m3 _ (by rw [hl1]; exact List.mem_append_right _ (List.mem_singleton.2 rfl))
      have hget_i : (Scheduler.visit now i w).sched.tasks.getD i none =
          some (t.tick now w1).1 := by
        rw [e2, m2, hs1]
        exact getD_set_self _ _ _ hi
      have hget_ne : ∀ j, j ≠ i → (Scheduler.visit now i w).sched.tasks.getD j none =
          w.sched.tasks.getD j none := by
        intro j hj
        rw [e2, m2, hs1]
        exact getD_set_ne _ _ _ _ (fun h => hj h.symm)
      constructor
      · intro j id u hm hu hfin
        rw [e1] at hm
        by_cases hji : j = i
        · subst hji
          have hid : id = t.st.task_id := by
            rcases hfrom j id hm with h1 | ⟨_, h1⟩
            · have := hinv.ticks j id h1
              rw [hidi] at this
              exact (Option.some.inj this).symm
            · exact h1
          rw [hget_i] at hu
          have hu2 : (t.tick now w1).1 = u := Option.some.inj hu
          rw [e3, hu2, if_pos hfin, hid]
          exact List.mem_insert_self _ _
        · rcases hfrom j id hm with h1 | ⟨h1, _⟩
          · rw [hget_ne j hji] at hu
            exact hsub id (hJ j id u h1 hu hfin)
          · exact absurd h1 hji
      · intro id hid
        rw [e3] at hid
        have hold : id ∈ (t.tick now w1).2.sched.pending_remove →
            (id ≠ UINT32_MAX ∧ Event.removeCalled id ∈ (Scheduler.visit now i w).log) ∨
            ∃ j u, Event.tick j id ∈ (Scheduler.visit now i w).log ∧
              (Scheduler.visit now i w).sched.tasks.getD j none = some u ∧
              u.st.finished = true := by
          intro hid2
          rcases m5 id hid2 with r | ⟨r1, r2⟩
          · rw [hs2] at r
            rcases hK id r with ⟨k1, k2⟩ | ⟨j, u, k1, k2, k3⟩
            · exact Or.inl ⟨k1, hlogsub _ k2⟩
            · have hji : j ≠ i := by
                intro hji
                subst hji
                have := hinv.ticks j id k1
                rw [hidi] at this
                have hid3 : t.st.task_id = id := Option.some.inj this
                rw [hid3] at hnot
                exact hnot r
              exact Or.inr ⟨j, u, hlogsub _ k1, by rw [hget_ne j hji]; exact k2, k3⟩
          · exact Or.inl ⟨r1, by rw [e1]; exact r2⟩
        split at hid
        · rename_i hfin
          rcases List.mem_insert_iff.1 hid with h1 | h1
          · subst h1
            exact Or.inr ⟨i, _, hnew, hget_i, hfin⟩
          · exact hold h1
        · exact hold hid

theorem Scheduler.pass_marks {c : Prop} {ids : List (Option Nat)} {P0 : List TaskPtr}
    (now : Nat) :
    ∀ (n i : Nat) (w : World), PassInv c ids P0 w → Scheduler.FinishedMarked w →
      Scheduler.MarkedJustified w →
      Scheduler.FinishedMarked (Scheduler.pass now n i w) ∧
      Scheduler.MarkedJustified (Scheduler.pass now n i w) := by
  intro n
  induction n with
  | zero => intro i w _ hJ hK; exact ⟨hJ, hK⟩
  | succ n ih =>
    intro i w hinv hJ hK
    unfold Scheduler.pass
    split
    · obtain ⟨a, b⟩ := Scheduler.visit_marks now i w hinv hJ hK
      exact ih _ _ (hinv.visit now i w) a b
    · exact ⟨hJ, hK⟩

/-- The `tick` in which `run_count` reaches `max_runs` sets `finished`
(primary template). -/
theorem StepTask.tick_limit_finished {σ : Type} (fire : Nat → σ → σ) (now : Nat)
    (t : StepTask) (w : σ) (h : t.run_count < t.max_runs) :
    (StepTask.tick fire now t w).1.max_runs ≤ (StepTask.tick fire now t w).1.run_count →
      (StepTask.tick fire now t w).1.finished = true := by
  have hl : ∀ (t1 : StepTask), t1.run_count < t1.max_runs →
      (StepTask.drain fire now t1 w).1.max_runs ≤ (StepTask.drain fire now t1 w).1.run_count →
      (StepTask.drain fire now t1 w).1.finished_flag = true := fun t1 h1 =>
    StepTask.loop_rule fire now (fun u _ => u.max_runs ≤ u.run_count → u.finished_flag = true)
      (fun u w _ _ _ => ⟨fun _ _ => rfl, fun hlt hle => absurd hle (by
        show ¬ (u.max_runs ≤ add32 u.run_count 1)
        omega)⟩) _ t1 w
      (fun hle => absurd hle (by omega))
  unfold StepTask.tick
  split
  · split
    · exact hl _ h
    · intro hle
      have hle2 : t.max_runs ≤ t.run_count := hle
      omega
  · exact hl _ h

/-- The `tick` in which `run_count` reaches `max_runs` sets `finished`
(`ScheduledTask<1>`). -/
theorem SingleTask.single_tick_limit_finished {σ : Type} (fire : Nat → σ → σ) (now : Nat)
    (t : SingleTask) (w : σ) (h : t.run_count < t.max_runs) :
    (SingleTask.tick fire now t w).1.max_runs ≤ (SingleTask.tick fire now t w).1.run_count →
      (SingleTask.tick fire now t w).1.finished = true := by
  have hl : ∀ (t1 : SingleTask), t1.run_count < t1.max_runs →
      (SingleTask.fireOnce fire now t1 w).1.max_runs ≤
        (SingleTask.fireOnce fire now t1 w).1.run_count →
      (SingleTask.fireOnce fire now t1 w).1.finished_flag = true := by
    intro t1 h1
    rw [SingleTask.fireOnce_eq]
    split
    · split
      · intro _; rfl
      · rename_i hne
        intro hle
        exact absurd hle hne
    · intro hle
      have hle2 : t1.max_runs ≤ t1.run_count := hle
      omega
  unfold SingleTask.tick
  split
  · split
    · exact hl _ h
    · intro hle
      have hle2 : t.max_runs ≤ t.run_count := hle
      omega
  · exact hl _ h

/-- C13, counterexample. Two active tasks carry the identifier 7 and no callback calls
`removeTask`. In `runOnce` at `now = 1` the first task fires its only run and finishes;
the second is not ticked, has not finished and was not requested removed, and yet the
active collection is empty when `runOnce` returns. -/
theorem Scheduler.finished_reaped_counterexample :
    twins.sched.tasks.map TaskPtr.id = [some 7, some 7] ∧
    (Scheduler.runOnce twins 1).log = [Event.tick 0 7, Event.fire 7 0] ∧
    (Scheduler.passEnd twins 1).sched.tasks.map (fun t => t.map (fun x => x.st.finished)) =
      [some true, some false] ∧
    (Scheduler.runOnce twins 1).sched.tasks.length = 0 := by
  decide

/-- C13, amended. Let the scheduler be between public calls outside a pass. At the end of
the loop of `runOnce` an identifier is marked for removal exactly when a callback of
the pass passed it to `removeTask` (and it is not `UINT32_MAX`) or a task carrying it
reports `finished()` after its `tick` of this pass. When `runOnce` returns, the active
collection holds the tasks whose identifier is not marked, in their order, followed by
the tasks added during the pass. So a task that reports `finished()` after its `tick`
is erased, with every task carrying the same identifier; and a task is still present when
its identifier was not passed to `removeTask` and is not carried by a task that finished.
The `tick` in which `run_count` reaches `max_runs` sets `finished`, so that pass erases
the task. -/
theorem Scheduler.finished_reaped (w : World) (now : Nat) (hidle : w.sched.Idle)
    (hlog : w.log = []) :
    (∀ id, id ∈ (Scheduler.passEnd w now).sched.pending_remove ↔
      ((id ≠ UINT32_MAX ∧ Event.removeCalled id ∈ (Scheduler.passEnd w now).log) ∨
        ∃ i t, Event.tick i id ∈ (Scheduler.passEnd w now).log ∧
          (Scheduler.passEnd w now).sched.tasks.getD i none = some t ∧
          t.st.finished = true)) ∧
    (Scheduler.runOnce w now).sched.tasks =
      (Scheduler.passEnd w now).sched.tasks.filter
          (fun t => !t.flagged (Scheduler.passEnd w now).sched.pending_remove) ++
        (Scheduler.passEnd w now).sched.pending_add ∧
    (∀ i t, Event.tick i t.st.task_id ∈ (Scheduler.passEnd w now).log →
      (Scheduler.passEnd w now).sched.tasks.getD i none = some t → t.st.finished = true →
      ∀ x ∈ (Scheduler.passEnd w now).sched.tasks.filter
          (fun t => !t.flagged (Scheduler.passEnd w now).sched.pending_remove),
        x.id ≠ some t.st.task_id) ∧
    (∀ t, some t ∈ (Scheduler.passEnd w now).sched.tasks →
      Event.removeCalled t.st.task_id ∉ (Scheduler.passEnd w now).log →
      (∀ j u, Event.tick j t.st.task_id ∈ (Scheduler.passEnd w now).log →
        (Scheduler.passEnd w now).sched.tasks.getD j none = some u →
        u.st.finished = false) →
      some t ∈ (Scheduler.runOnce w now).sched.tasks) ∧
    (∀ (st : StepTask) (u : SingleTask) (x : World) (cb : Nat → Prog),
      (st.run_count < st.max_runs →
        (StepTask.tick (fireCb cb st.task_id) now st x).1.max_runs ≤
          (StepTask.tick (fireCb cb st.task_id) now st x).1.run_count →
        (StepTask.tick (fireCb cb st.task_id) now st x).1.finished = true) ∧
      (u.run_count < u.max_runs →
        (SingleTask.tick (fireCb cb u.task_id) now u x).1.max_runs ≤
          (SingleTask.tick (fireCb cb u.task_id) now u x).1.run_count →
        (SingleTask.tick (fireCb cb u.task_id) now u x).1.finished = true)) := by
  obtain ⟨h1, h2, h3, h4⟩ := hidle
  have hinv := Scheduler.passEnd_inv w now hlog
  have hstart := Scheduler.passStart_inv w hlog
  have hJK := Scheduler.pass_marks now w.sched.tasks.length 0
    { w with sched := { w.sched with in_run := true } } hstart
    (by
      intro i id t hm
      have hm2 : Event.tick i id ∈ w.log := hm
      rw [hlog] at hm2
      cases hm2)
    (by
      intro id hid
      have hid2 : id ∈ w.sched.pending_remove := hid
      rw [h3] at hid2
      cases hid2)
  have hJ : Scheduler.FinishedMarked (Scheduler.passEnd w now) := hJK.1
  have hK : Scheduler.MarkedJustified (Scheduler.passEnd w now) := hJK.2
  have hT : none ∉ (Scheduler.passEnd w now).sched.tasks :=
    no_null_of_ids _ (by rw [hinv.ids_eq]; exact ids_no_null _ h4)
  have hmark : ∀ id, id ∈ (Scheduler.passEnd w now).sched.pending_remove ↔
      ((id ≠ UINT32_MAX ∧ Event.removeCalled id ∈ (Scheduler.passEnd w now).log) ∨
        ∃ i t, Event.tick i id ∈ (Scheduler.passEnd w now).log ∧
          (Scheduler.passEnd w now).sched.tasks.getD i none = some t ∧
          t.st.finished = true) := by
    intro id
    constructor
    · exact hK id
    · rintro (⟨a, b⟩ | ⟨i, t, a, b, c⟩)
      · exact hinv.removed id b a
      · exact hJ i id t a b c
  have htasks : (Scheduler.runOnce w now).sched.tasks =
      (Scheduler.passEnd w now).sched.tasks.filter
          (fun t => !t.flagged (Scheduler.passEnd w now).sched.pending_remove) ++
        (Scheduler.passEnd w now).sched.pending_add := by
    obtain ⟨added, ha1, ha2⟩ := hinv.pending
    rw [h2, List.nil_append] at ha1
    rw [(Scheduler.runOnce_tasks w now).1, ha1, pending_all_some added _ ha2]
    congr 1
    split
    · rename_i hemp
      have hnil : (Scheduler.passEnd w now).sched.pending_remove = [] :=
        List.isEmpty_iff.1 hemp
      rw [hnil]
      symm
      rw [List.filter_eq_self]
      intro x hx
      cases x with
      | none => exact absurd hx hT
      | some y => simp [TaskPtr.flagged]
    · rfl
  refine ⟨hmark, htasks, ?_, ?_, ?_⟩
  · intro i t a b c x hx heq
    have hmem := hJ i _ t a b c
    have hnf := (List.mem_filter.1 hx).2
    cases x with
    | none => cases heq
    | some y =>
      have hy : y.st.task_id = t.st.task_id := by
        simpa [TaskPtr.id] using heq
      simp only [TaskPtr.flagged, hy] at hnf
      have : (Scheduler.passEnd w now).sched.pending_remove.contains t.st.task_id = true := by
        simpa using hmem
      rw [this] at hnf
      cases hnf
  · intro t ht hrem hfin
    rw [htasks]
    apply List.mem_append_left
    rw [List.mem_filter]
    refine ⟨ht, ?_⟩
    have hnot : t.st.task_id ∉ (Scheduler.passEnd w now).sched.pending_remove := by
      intro hm
      rcases (hmark _).1 hm with ⟨_, b⟩ | ⟨j, u, a, b, c⟩
      · exact hrem b
      · rw [hfin j u a b] at c
        cases c
    simpa [TaskPtr.flagged] using hnot
  · intro st u x cb
    exact ⟨StepTask.tick_limit_finished _ now st x, SingleTask.single_tick_limit_finished _ now u x⟩

/-- Witness of the amended C13: a task limited to two runs and an unlimited one, ticked
at 1 and then at 2: the second pass holds the second run of the limited task, and only
the unlimited task is left when it returns. -/
theorem Scheduler.finished_reaped_witness :
    (Scheduler.runOnce (Scheduler.runOnce limited 1).next 2).sched.tasks.map TaskPtr.id =
      [some 2] := by
  rw [(Scheduler.finished_reaped (Scheduler.runOnce limited 1).next 2
    ((Scheduler.idle_invariant limited.sched limited AddCall.addTask none 0 0 1).2.2.2.2.2
      ⟨rfl, rfl, rfl, no_null_of_ids _ (by decide)⟩ rfl) rfl).2.1]
  decide

/-! ## Scheduler: identifiers -/

/-- The `add` members that use the counter return its value and advance it by one
(32-bit sum). -/
theorem Scheduler.add_counter (s : Scheduler) (call : AddCall) (t : Task)
    (hc : call.counter = true) :
    (s.add call (some t)).2 = s.next_id ∧
    (s.add call (some t)).1.next_id = add32 s.next_id 1 := by
  cases call with
  | addTask =>
    cases h : s.in_run <;> simp [Scheduler.add, Scheduler.addTask, Scheduler.enqueue, h]
  | addTaskAndInit =>
    cases h : s.in_run <;>
      simp [Scheduler.add, Scheduler.addTaskAndInit, Scheduler.addTask, Scheduler.enqueue, h]
  | addTaskAndInitAt last_tick =>
    cases h : s.in_run <;>
      simp [Scheduler.add, Scheduler.addTaskAndInitAt, Scheduler.addTask, Scheduler.enqueue, h]
  | addTaskWithID id => cases hc
  | addTaskAndInitWithID last_tick id => cases hc

theorem Scheduler.removeTask_next_id (s : Scheduler) (id : Nat) :
    (s.removeTask id).next_id = s.next_id := by
  unfold Scheduler.removeTask
  split
  · rfl
  · cases hin : s.in_run with
    | true => simp only [hin, Bool.not_true, Bool.false_eq_true, if_false]
    | false =>
      simp only [hin, Bool.not_false, if_true]
      exact (Scheduler.flushPending_fields _).2.2.2.2.2.1

theorem Scheduler.removeTask_in_run_eq (s : Scheduler) (id : Nat) :
    (s.removeTask id).in_run = s.in_run := by
  unfold Scheduler.removeTask
  split
  · rfl
  · cases hin : s.in_run with
    | true => simp only [hin, Bool.not_true, Bool.false_eq_true, if_false]
    | false =>
      simp only [hin, Bool.not_false, if_true]
      exact (Scheduler.flushPending_fields _).2.2.2.2.1

theorem Scheduler.add_in_run_eq (s : Scheduler) (call : AddCall) (t : TaskPtr) :
    (s.add call t).1.in_run = s.in_run := by
  cases t with
  | none => rw [Scheduler.add_none]
  | some t =>
    cases h : s.in_run with
    | true => rw [(Scheduler.add_in_run s call t h).choose_spec.2.2.2.2.1]
    | false => rw [(Scheduler.add_idle s call t h).choose_spec.2.2.2.2.1]

/-- Moving to a state with the same counter and the same registrations recorded, whose
tasks are among the previous ones in the same order. -/
theorem Scheduler.Counted.transfer {w : World} (h : Scheduler.Counted w) (w1 : World)
    (hin : w1.sched.in_run = false → w1.sched.pending_add = [])
    (hnext : w1.sched.next_id = w.sched.next_id)
    (hlog : addedIds w1.log = addedIds w.log)
    (hsub : ((w1.sched.tasks ++ w1.sched.pending_add).map TaskPtr.id).Sublist
      ((w.sched.tasks ++ w.sched.pending_add).map TaskPtr.id))
    (hcb : ∀ t, some t ∈ w1.sched.tasks ++ w1.sched.pending_add →
      ∃ t0, some t0 ∈ w.sched.tasks ++ w.sched.pending_add ∧ t.cb = t0.cb) :
    Scheduler.Counted w1 :=
  { pending := hin
    next := by rw [hnext, hlog]; exact h.next
    ids := by rw [hlog]; exact h.ids
    sub := by rw [hlog]; exact hsub.trans h.sub
    cbs := by
      intro t ht step
      obtain ⟨t0, h0, hc⟩ := hcb t ht
      rw [hc]
      exact h.cbs t0 h0 step }

theorem range_one_concat (k : Nat) :
    (List.range' 1 (k + 1)).map (fun n => n % U32) =
      (List.range' 1 k).map (fun n => n % U32) ++ [(1 + k) % U32] := by
  rw [List.range'_concat]
  simp

/-- A registration with the counter keeps the state `Counted`. -/
theorem Scheduler.Counted.add {w : World} (h : Scheduler.Counted w) (call : AddCall)
    (st : TaskState) (cb : Nat → Prog) (hc : call.counter = true)
    (hcb : ∀ step, (cb step).CounterOnly) :
    Scheduler.Counted
      { w with sched := (w.sched.add call (some { st := st, cb := cb })).1,
               log := w.log ++ [Event.added (w.sched.add call (some { st := st, cb := cb })).2] } := by
  obtain ⟨c1, c2⟩ := Scheduler.add_counter w.sched call { st := st, cb := cb } hc
  have hlog : addedIds (w.log ++ [Event.added (w.sched.add call (some { st := st, cb := cb })).2])
      = addedIds w.log ++ [(1 + (addedIds w.log).length) % U32] := by
    rw [addedIds_append, c1, h.next]; rfl
  have hU := U32_eq
  cases hrun : w.sched.in_run with
  | true =>
    obtain ⟨t1, a1, a2, a3, a4, a5, _⟩ :=
      Scheduler.add_in_run w.sched call { st := st, cb := cb } hrun
    refine ⟨?_, ?_, ?_, ?_, ?_⟩
    · intro hf
      have : (w.sched.add call (some { st := st, cb := cb })).1.in_run = false := hf
      rw [a5] at this; cases this
    · show (w.sched.add call (some { st := st, cb := cb })).1.next_id = _
      rw [c2, hlog, h.next, List.length_append]
      simp only [List.length_singleton, add32]
      rw [hU]; omega
    · rw [hlog, List.length_append, List.length_singleton, range_one_concat, ← h.ids]
    · show ((((w.sched.add call (some { st := st, cb := cb })).1.tasks ++
        (w.sched.add call (some { st := st, cb := cb })).1.pending_add)).map TaskPtr.id).Sublist _
      rw [hlog, a4, a1, ← List.append_assoc, List.map_append, List.map_append _ (addedIds w.log)]
      refine List.Sublist.append h.sub ?_
      have : TaskPtr.id (some t1) = some ((1 + (addedIds w.log).length) % U32) := by
        show some t1.st.task_id = _
        rw [a2, c1, h.next]
      simp [this]
    · intro t ht step
      have ht2 : some t ∈ (w.sched.add call (some { st := st, cb := cb })).1.tasks ++
          (w.sched.add call (some { st := st, cb := cb })).1.pending_add := ht
      rw [a4, a1, ← List.append_assoc] at ht2
      rcases List.mem_append.1 ht2 with h1 | h1
      · exact h.cbs t h1 step
      · have : t = t1 := by simpa using h1
        rw [this, a3]
        exact hcb step
  | false =>
    obtain ⟨t1, a1, a2, a3, a4, a5, _⟩ :=
      Scheduler.add_idle w.sched call { st := st, cb := cb } hrun
    have hpa := h.pending hrun
    refine ⟨?_, ?_, ?_, ?_, ?_⟩
    · intro _
      show (w.sched.add call (some { st := st, cb := cb })).1.pending_add = []
      rw [a4]; exact hpa
    · show (w.sched.add call (some { st := st, cb := cb })).1.next_id = _
      rw [c2, hlog, h.next, List.length_append]
      simp only [List.length_singleton, add32]
      rw [hU]; omega
    · rw [hlog, List.length_append, List.length_singleton, range_one_concat, ← h.ids]
    · show ((((w.sched.add call (some { st := st, cb := cb })).1.tasks ++
        (w.sched.add call (some { st := st, cb := cb })).1.pending_add)).map TaskPtr.id).Sublist _
      have hs := h.sub
      rw [hpa, List.append_nil] at hs
      rw [hlog, a4, a1, hpa, List.append_nil, List.map_append,
        List.map_append _ (addedIds w.log)]
      refine List.Sublist.append hs ?_
      have : TaskPtr.id (some t1) = some ((1 + (addedIds w.log).length) % U32) := by
        show some t1.st.task_id = _
        rw [a2, c1, h.next]
      simp [this]
    · intro t ht step
      have ht2 : some t ∈ (w.sched.add call (some { st := st, cb := cb })).1.tasks ++
          (w.sched.add call (some { st := st, cb := cb })).1.pending_add := ht
      rw [a4, a1, hpa, List.append_nil] at ht2
      rcases List.mem_append.1 ht2 with h1 | h1
      · exact h.cbs t (List.mem_append_left _ h1) step
      · have : t = t1 := by simpa using h1
        rw [this, a3]
        exact hcb step

/-- A `removeTask` call keeps the state `Counted`. -/
theorem Scheduler.Counted.remove {w : World} (h : Scheduler.Counted w) (id : Nat) :
    Scheduler.Counted
      { w with sched := w.sched.removeTask id, log := w.log ++ [Event.removeCalled id] } := by
  have hlog : addedIds (w.log ++ [Event.removeCalled id]) = addedIds w.log := by
    rw [addedIds_append]; simp [addedIds]
  cases hrun : w.sched.in_run with
  | true =>
    obtain ⟨b1, b2, b3, _, _⟩ := Scheduler.removeTask_in_run w.sched id hrun
    refine h.transfer _ ?_ (Scheduler.removeTask_next_id _ _) hlog ?_ ?_
    · intro hf
      have : (w.sched.removeTask id).in_run = false := hf
      rw [b2] at this; cases this
    · show (((w.sched.removeTask id).tasks ++ (w.sched.removeTask id).pending_add).map
        TaskPtr.id).Sublist _
      rw [b1, b3]
    · intro t ht
      have ht2 : some t ∈ (w.sched.removeTask id).tasks ++
          (w.sched.removeTask id).pending_add := ht
      rw [b1, b3] at ht2
      exact ⟨t, ht2, rfl⟩
  | false =>
    have hpa := h.pending hrun
    have htasks : (w.sched.removeTask id).pending_add = [] ∧
        (w.sched.removeTask id).tasks.Sublist w.sched.tasks := by
      by_cases hid : id = UINT32_MAX
      · have hsame : w.sched.removeTask id = w.sched := by
          simp [Scheduler.removeTask, hid]
        rw [hsame]
        exact ⟨hpa, List.Sublist.refl _⟩
      · have hb : (id == UINT32_MAX) = false := by simpa using hid
        have hrem : w.sched.removeTask id =
            Scheduler.flushPending
              { w.sched with pending_remove := w.sched.pending_remove.insert id } := by
          simp [Scheduler.removeTask, hb, hrun]
        have hf := Scheduler.flushPending_fields
          { w.sched with pending_remove := w.sched.pending_remove.insert id }
        rw [hrem]
        refine ⟨hf.2.1, ?_⟩
        rw [hf.1]
        simp only [hpa, List.filter_nil, List.append_nil]
        split
        · exact List.Sublist.refl _
        · exact List.filter_sublist _
    refine h.transfer _ (fun _ => htasks.1) (Scheduler.removeTask_next_id _ _) hlog ?_ ?_
    · show (((w.sched.removeTask id).tasks ++ (w.sched.removeTask id).pending_add).map
        TaskPtr.id).Sublist _
      rw [htasks.1, hpa, List.append_nil, List.append_nil]
      exact htasks.2.map _
    · intro t ht
      have ht2 : some t ∈ (w.sched.removeTask id).tasks ++
          (w.sched.removeTask id).pending_add := ht
      rw [htasks.1, List.append_nil] at ht2
      exact ⟨t, List.mem_append_left _ (htasks.2.subset ht2), rfl⟩

/-- Code that registers with the counter only keeps the state `Counted`; it does not
change `in_run`. -/
theorem exec_counted : ∀ (p : Prog), p.CounterOnly → ∀ (w : World), Scheduler.Counted w →
    Scheduler.Counted (exec p w) ∧ (exec p w).sched.in_run = w.sched.in_run := by
  intro p
  induction p with
  | ret => intro _ w h; exact ⟨h, rfl⟩
  | add call st cb k _ ih =>
    intro hp w h
    simp only [Prog.CounterOnly] at hp
    obtain ⟨hc, hcb, hk⟩ := hp
    obtain ⟨r1, r2⟩ := ih _ (hk _) _ (h.add call st cb hc hcb)
    exact ⟨r1, r2.trans (Scheduler.add_in_run_eq _ _ _)⟩
  | addNull call k ih =>
    intro hp w h
    simp only [Prog.CounterOnly] at hp
    have hmain := ih (w.sched.add call none).2 (hp _)
      { w with sched := (w.sched.add call none).1 } (by rw [Scheduler.add_none]; exact h)
    exact ⟨hmain.1, hmain.2.trans (Scheduler.add_in_run_eq _ _ _)⟩
  | removeTask id k ih =>
    intro hp w h
    simp only [Prog.CounterOnly] at hp
    obtain ⟨r1, r2⟩ := ih hp _ (h.remove id)
    exact ⟨r1, r2.trans (Scheduler.removeTask_in_run_eq _ _)⟩
  | currentTaskId k ih =>
    intro hp w h
    simp only [Prog.CounterOnly] at hp
    have hlog : addedIds (w.log ++ [Event.currentRead w.sched.currentTaskId]) =
        addedIds w.log := by
      rw [addedIds_append]; simp [addedIds]
    exact ih _ (hp _) { w with log := w.log ++ [Event.currentRead w.sched.currentTaskId] }
      (h.transfer _ h.pending rfl hlog (List.Sublist.refl _) (fun t ht => ⟨t, ht, rfl⟩))
  | taskCount k ih =>
    intro hp w h
    simp only [Prog.CounterOnly] at hp
    exact ih _ (hp _) w h
  | resetTime tick k ih =>
    intro hp w h
    simp only [Prog.CounterOnly] at hp
    exact ih hp { w with sched := w.sched.resetTime tick }
      (h.transfer _ h.pending rfl rfl (List.Sublist.refl _) (fun t ht => ⟨t, ht, rfl⟩))
  | getDev k ih =>
    intro hp w h
    simp only [Prog.CounterOnly] at hp
    exact ih _ (hp _) w h
  | setDev v k ih =>
    intro hp w h
    simp only [Prog.CounterOnly] at hp
    exact ih hp { w with dev := v }
      (h.transfer _ h.pending rfl rfl (List.Sublist.refl _) (fun t ht => ⟨t, ht, rfl⟩))

theorem Task.tick_cb (now : Nat) (t : Task) (w : World) : (t.tick now w).1.cb = t.cb := by
  unfold Task.tick
  cases t.st <;> rfl

/-- The `tick` of a task whose callback registers with the counter only keeps the state
`Counted`. -/
theorem Task.tick_counted (now : Nat) (t : Task) (w : World)
    (hcb : ∀ step, (t.cb step).CounterOnly) (h : Scheduler.Counted w) :
    Scheduler.Counted (t.tick now w).2 := by
  have hfire : ∀ id step x, Scheduler.Counted x → Scheduler.Counted (fireCb t.cb id step x) := by
    intro id step x hx
    have hlog : addedIds (x.log ++ [Event.fire id step]) = addedIds x.log := by
      rw [addedIds_append]; simp [addedIds]
    exact (exec_counted _ (hcb step) { x with log := x.log ++ [Event.fire id step] }
      (hx.transfer _ hx.pending rfl hlog (List.Sublist.refl _) (fun u hu => ⟨u, hu, rfl⟩))).1
  unfold Task.tick
  cases hst : t.st with
  | step st => exact StepTask.tick_stable _ Scheduler.Counted (hfire st.task_id) now st w h
  | single st =>
    exact SingleTask.single_tick_stable _ Scheduler.Counted (hfire st.task_id) now st w h

/-- One turn of the loop of `runOnce` keeps the state `Counted`. -/
theorem Scheduler.visit_counted (now i : Nat) (w : World) (h : Scheduler.Counted w)
    (hin : w.sched.in_run = true) : Scheduler.Counted (Scheduler.visit now i w) := by
  cases ht : w.sched.tasks.getD i none with
  | none =>
    have hv : Scheduler.visit now i w = w := by
      unfold Scheduler.visit; rw [ht]
    rw [hv]; exact h
  | some t =>
    cases hc : w.sched.pending_remove.contains t.st.task_id with
    | true =>
      have hv : Scheduler.visit now i w = w := by
        unfold Scheduler.visit; rw [ht]; simp only [hc, if_true]
      rw [hv]; exact h
    | false =>
      have hi : i < w.sched.tasks.length := getD_some_lt _ _ _ ht
      have hmem : some t ∈ w.sched.tasks := ht ▸ getD_mem_of_lt _ i hi
      obtain ⟨w1, hw1⟩ : ∃ w1 : World,
          w1 = { w with sched := { w.sched with current_task := t.st.task_id },
                        log := w.log ++ [Event.tick i t.st.task_id] } := ⟨_, rfl⟩
      have hs1 : w1.sched.tasks = w.sched.tasks := by rw [hw1]
      have hs3 : w1.sched.in_run = true := by rw [hw1]; exact hin
      have hc1 : Scheduler.Counted w1 := by
        rw [hw1]
        refine h.transfer _ ?_ rfl ?_ (List.Sublist.refl _) (fun u hu => ⟨u, hu, rfl⟩)
        · intro hf
          have : w.sched.in_run = false := hf
          rw [hin] at this; cases this
        · show addedIds (w.log ++ [Event.tick i t.st.task_id]) = addedIds w.log
          rw [addedIds_append]; simp [addedIds]
      obtain ⟨e1, e2, _, e4, e5, e6⟩ := Scheduler.visit_eq now i w t ht hc w1 hw1
      obtain ⟨m1, m2, _, _, _⟩ := Task.tick_marks now t w1 hs3
      have hc2 := Task.tick_counted now t w1
        (h.cbs t (List.mem_append_left _ hmem)) hc1
      have hids : (Scheduler.visit now i w).sched.tasks.map TaskPtr.id =
          (t.tick now w1).2.sched.tasks.map TaskPtr.id := by
        rw [e2, List.map_set, m2, hs1]
        have : TaskPtr.id (some (t.tick now w1).1) = some t.st.task_id := by
          show some (t.tick now w1).1.st.task_id = _
          rw [Task.task_tick_task_id]
        rw [this]
        exact set_same_of_getD _ i _ (by rw [ids_getD, ht]; rfl)
      refine hc2.transfer _ ?_ e6 (by rw [e1]) ?_ ?_
      · intro hf
        rw [e5, m1] at hf; cases hf
      · rw [List.map_append, List.map_append, hids, e4]
      · intro u hu
        rw [e4] at hu
        rcases List.mem_append.1 hu with h1 | h1
        · rw [e2] at h1
          rcases List.mem_or_eq_of_mem_set h1 with h2 | h2
          · exact ⟨u, List.mem_append_left _ h2, rfl⟩
          · refine ⟨t, List.mem_append_left _ (by rw [m2, hs1]; exact hmem), ?_⟩
            have : u = (t.tick now w1).1 := Option.some.inj h2
            rw [this, Task.tick_cb]
        · exact ⟨u, List.mem_append_right _ h1, rfl⟩

theorem Scheduler.pass_counted (now : Nat) :
    ∀ (n i : Nat) (w : World), Scheduler.Counted w → w.sched.in_run = true →
      Scheduler.Counted (Scheduler.pass now n i w) := by
  intro n
  induction n with
  | zero => intro i w h _; exact h
  | succ n ih =>
    intro i w h hin
    unfold Scheduler.pass
    split
    · exact ih _ _ (Scheduler.visit_counted now i w h hin)
        (Scheduler.visit_length now i w hin).1
    · exact h

/-- A pass keeps the state `Counted`. -/
theorem Scheduler.runOnce_counted (w : World) (now : Nat) (h : Scheduler.Counted w) :
    Scheduler.Counted (Scheduler.runOnce w now) := by
  have h0 : Scheduler.Counted { w with sched := { w.sched with in_run := true } } := by
    refine h.transfer _ ?_ rfl rfl (List.Sublist.refl _) (fun u hu => ⟨u, hu, rfl⟩)
    intro hf
    cases hf
  have he : Scheduler.Counted (Scheduler.passEnd w now) :=
    Scheduler.pass_counted now _ 0 _ h0 rfl
  obtain ⟨r1, r2, _, _⟩ := Scheduler.runOnce_tasks w now
  have hnext : (Scheduler.runOnce w now).sched.next_id =
      (Scheduler.passEnd w now).sched.next_id :=
    (Scheduler.flushPending_fields
      { (Scheduler.passEnd w now).sched with in_run := false }).2.2.2.2.2.1
  have hsub : ((Scheduler.runOnce w now).sched.tasks ++
      (Scheduler.runOnce w now).sched.pending_add).Sublist
      ((Scheduler.passEnd w now).sched.tasks ++ (Scheduler.passEnd w now).sched.pending_add) := by
    rw [r1, r2, List.append_nil]
    refine List.Sublist.append ?_ (List.filter_sublist _)
    split
    · exact List.Sublist.refl _
    · exact List.filter_sublist _
  exact he.transfer _ (fun _ => r2) hnext rfl (hsub.map _)
    (fun u hu => ⟨u, hsub.subset hu, rfl⟩)

theorem runOps_counted : ∀ (ops : List Op) (w : World), Scheduler.Counted w →
    (∀ op ∈ ops, op.CounterOnly) → Scheduler.Counted (runOps w ops) := by
  intro ops
  induction ops with
  | nil => intro w h _; exact h
  | cons op ops ih =>
    intro w h hops
    have hop := hops op (by simp)
    have hstep : Scheduler.Counted (Op.apply w op) := by
      cases op with
      | call p => exact (exec_counted p hop w h).1
      | runOnce now => exact Scheduler.runOnce_counted w now h
    exact ih _ hstep (fun o ho => hops o (by simp [ho]))

theorem Scheduler.counted_new (start dev : Nat) :
    Scheduler.Counted { sched := Scheduler.new start, dev := dev, log := [] } :=
  { pending := fun _ => rfl
    next := rfl
    ids := rfl
    sub := List.Sublist.refl _
    cbs := by
      intro t ht
      simp [Scheduler.new] at ht }

/-- C14, counterexample. `addTaskWithID` gives the identifier it is passed, whatever has
been registered before: two tasks registered under 7 are both active with 7; a task
registered under 1 and then a task registered with `addTask` both carry 1; and after
the task 1 has been removed, a new task registered under 1 carries 1 again. -/
theorem Scheduler.id_reuse_counterexample :
    (((Scheduler.new 0).addTaskWithID (some { st := everyMs, cb := idleCb }) 7).1.addTaskWithID
        (some { st := everyMs, cb := idleCb }) 7).1.tasks.map TaskPtr.id = [some 7, some 7] ∧
    (((Scheduler.new 0).addTaskWithID (some { st := everyMs, cb := idleCb }) 1).1.addTask
        (some { st := everyMs, cb := idleCb })).1.tasks.map TaskPtr.id = [some 1, some 1] ∧
    ((((Scheduler.new 0).addTask (some { st := everyMs, cb := idleCb })).1.removeTask
        1).addTaskAndInitWithID (some { st := everyMs, cb := idleCb }) 0 1).1.tasks.map
        TaskPtr.id = [some 1] := by
  decide

/-- C14, amended. On a scheduler used from its construction through any sequence of
passes and of calls of `addTask`, `addTaskAndInit` (both overloads), `removeTask` and
`resetTime`, made from the main loop or from callbacks, the `n`-th registration gets the
identifier `n` modulo `2^32` and the counter is one ahead; the identifiers of the
active tasks followed by the pending additions are among those given, in the order in
which they were given. Hence, as long as fewer than `2^32 - 1` tasks have been
registered, every identifier given differs from all those given before and from
`UINT32_MAX`, and no two tasks of the active or pending collections share one.
`addTaskWithID` and `addTaskAndInitWithID` return the identifier they are passed. -/
theorem Scheduler.ids_from_counter (start dev : Nat) (ops : List Op) (w : World)
    (hw : w = runOps { sched := Scheduler.new start, dev := dev, log := [] } ops)
    (hops : ∀ op ∈ ops, op.CounterOnly) :
    addedIds w.log = (List.range' 1 (addedIds w.log).length).map (fun n => n % U32) ∧
    w.sched.next_id = (1 + (addedIds w.log).length) % U32 ∧
    ((w.sched.tasks ++ w.sched.pending_add).map TaskPtr.id).Sublist
      ((addedIds w.log).map some) ∧
    ((addedIds w.log).length < UINT32_MAX →
      addedIds w.log = List.range' 1 (addedIds w.log).length ∧ (addedIds w.log).Nodup ∧
      UINT32_MAX ∉ addedIds w.log ∧
      ((w.sched.tasks ++ w.sched.pending_add).map TaskPtr.id).Nodup) ∧
    (∀ (s : Scheduler) (t : Task) (id last_tick : Nat),
      (s.addTaskWithID (some t) id).2 = id ∧
      (s.addTaskAndInitWithID (some t) last_tick id).2 = id) := by
  have h : Scheduler.Counted w := by
    rw [hw]
    exact runOps_counted ops _ (Scheduler.counted_new start dev) hops
  refine ⟨h.ids, h.next, h.sub, ?_, fun _ _ _ _ => ⟨rfl, rfl⟩⟩
  intro hlen
  have hmax : UINT32_MAX = 4294967295 := rfl
  have hU := U32_eq
  have hplain : addedIds w.log = List.range' 1 (addedIds w.log).length := by
    have hid := h.ids
    have hmap : (List.range' 1 (addedIds w.log).length).map (fun n => n % U32) =
        List.range' 1 (addedIds w.log).length := by
      conv_rhs => rw [← List.map_id (List.range' 1 (addedIds w.log).length)]
      apply List.map_congr_left
      intro n hn
      have hn2 := List.mem_range'_1.1 hn
      show n % U32 = n
      apply Nat.mod_eq_of_lt
      omega
    rw [hmap] at hid
    exact hid
  have hnd : (addedIds w.log).Nodup := by
    rw [hplain]; exact List.nodup_range' _ _
  refine ⟨hplain, hnd, ?_, ?_⟩
  · rw [hplain]
    intro hm
    have := List.mem_range'_1.1 hm
    omega
  · exact (hnd.map (Option.some_injective _)).sublist h.sub

/-- Witness of the amended C14: a main loop that registers two tasks, runs a pass in which
a callback registers a third, removes the first and registers a fourth: the
identifiers given are 1, 2, 3, 4. -/
theorem Scheduler.ids_from_counter_witness :
    addedIds (runOps { sched := Scheduler.new 0, dev := 0, log := [] } mainLoop).log =
      [1, 2, 3, 4] :=
  (Scheduler.ids_from_counter 0 0 mainLoop _ rfl (by
    intro op hop
    simp only [mainLoop, List.mem_cons, List.mem_singleton, List.not_mem_nil, or_false] at hop
    rcases hop with h | h | h <;> subst h <;>
      simp [Op.CounterOnly, Prog.CounterOnly, AddCall.counter, spawn, idleCb])).1.trans
    (by decide)


/-! ## Control task -/

theorem errorOf_plain (control : ControlMode) (L R : Nat) (h : control ≠ ControlMode.DOS) :
    errorOf control L R = some ((R : Int) - (L : Int)) := by
  unfold errorOf
  rw [if_neg h]

/-- The control task as one expression, outside the `DOS` mode. -/
theorem controlTask_plain (pid : Rat → Rat → Int → Int → Int) (cfg : Config)
    (LBuffer RBuffer : Buffer Nat) (st : State) (h : st.Control ≠ ControlMode.DOS) :
    controlTask pid cfg LBuffer RBuffer st =
      some (copyParams
          (selectConfig cfg
            (analyse cfg st ((RBuffer.read (-1) : Int) - (LBuffer.read (-1) : Int))
              (LBuffer.read (-1) % 2 ^ 16) (RBuffer.read (-1) % 2 ^ 16)).Condition)
          (analyse cfg st ((RBuffer.read (-1) : Int) - (LBuffer.read (-1) : Int))
            (LBuffer.read (-1) % 2 ^ 16) (RBuffer.read (-1) % 2 ^ 16))
          ((RBuffer.read (-1) : Int) - (LBuffer.read (-1) : Int)),
        steerCommand pid cfg
          (copyParams
            (selectConfig cfg
              (analyse cfg st ((RBuffer.read (-1) : Int) - (LBuffer.read (-1) : Int))
                (LBuffer.read (-1) % 2 ^ 16) (RBuffer.read (-1) % 2 ^ 16)).Condition)
            (analyse cfg st ((RBuffer.read (-1) : Int) - (LBuffer.read (-1) : Int))
              (LBuffer.read (-1) % 2 ^ 16) (RBuffer.read (-1) % 2 ^ 16))
            ((RBuffer.read (-1) : Int) - (LBuffer.read (-1) : Int)))
          ((RBuffer.read (-1) : Int) - (LBuffer.read (-1) : Int))
          ((RBuffer.read (-2) : Int) - (LBuffer.read (-2) : Int))
          (LBuffer.read (-1) % 2 ^ 16) (RBuffer.read (-1) % 2 ^ 16)) := by
  unfold controlTask
  rw [errorOf_plain _ _ _ h, errorOf_plain _ _ _ h]

theorem copyParams_fields (config : Params) (st : State) (e : Int) :
    (copyParams config st e).Condition = st.Condition ∧
    (copyParams config st e).DeadZone = config.DeadZone ∧
    (copyParams config st e).StraightZone = config.StraightZone ∧
    (copyParams config st e).OutZone = config.OutZone ∧
    (copyParams config st e).Speed = config.Speed ∧
    (copyParams config st e).Control =
      (if (e.natAbs : Int) < (config.DeadZone : Int) then ControlMode.Stop else st.Control) := by
  unfold copyParams
  simp only
  split <;> simp

/-- The control mode never becomes `DOS`: no assignment of the control task writes it. -/
theorem controlTask_never_DOS (pid : Rat → Rat → Int → Int → Int) (cfg : Config)
    (LBuffer RBuffer : Buffer Nat) (st st1 : State) (rot : Int)
    (h : st.Control ≠ ControlMode.DOS)
    (hrun : controlTask pid cfg LBuffer RBuffer st = some (st1, rot)) :
    st1.Control ≠ ControlMode.DOS := by
  rw [controlTask_plain pid cfg LBuffer RBuffer st h] at hrun
  have h1 := (Prod.mk.inj (Option.some.inj hrun)).1
  rw [← h1, (copyParams_fields _ _ _).2.2.2.2.2]
  split
  · decide
  · unfold analyse
    split
    · split
      · simp only
        split <;> decide
      · simp
    · exact h

/-- C21. Track-condition transition. In a control tick with analysis enabled, the control
mode at the start not being `DOS` (no assignment writes `DOS`) and the newest samples
`left`, `right` being 16-bit values, the tick is defined and, with
`err = right - left` and the zones of `State` as they are at the start of the tick: if
`|err| > StraightZone` or `left + right < OutZone`, the condition becomes `Mid` and the
analysis sets the mode to `Max` when `left + right < OutZone` and to `PID` otherwise;
else the condition becomes `Straight` and the analysis sets the mode to `PID`. The tick
ends with the parameters of the new condition copied and the dead-zone test applied to
that mode. When the dead zone of the `Mid` set is 0, as in the initializer of `Config`,
a tick with `left + right < OutZone` ends with mode `Max`, whatever the error. -/
theorem controlTask_transition (pid : Rat → Rat → Int → Int → Int) (cfg : Config)
    (LBuffer RBuffer : Buffer Nat) (st : State) (left right : Nat)
    (hana : cfg.UseAnalysis = true) (hmode : st.Control ≠ ControlMode.DOS)
    (hleft : LBuffer.read (-1) = left) (hright : RBuffer.read (-1) = right)
    (hl : left < 2 ^ 16) (hr : right < 2 ^ 16) :
    ∃ st1 rot, controlTask pid cfg LBuffer RBuffer st = some (st1, rot) ∧
      (((((right : Int) - (left : Int)).natAbs : Int) > st.StraightZone ∨
          ((left + right : Nat) : Int) < st.OutZone) →
        st1.Condition = Track.Mid ∧
        (analyse cfg st ((right : Int) - (left : Int)) left right).Control =
          (if ((left + right : Nat) : Int) < st.OutZone then ControlMode.Max
            else ControlMode.PID) ∧
        st1 = copyParams cfg.Mid (analyse cfg st ((right : Int) - (left : Int)) left right)
          ((right : Int) - (left : Int))) ∧
      (¬ ((((right : Int) - (left : Int)).natAbs : Int) > st.StraightZone ∨
          ((left + right : Nat) : Int) < st.OutZone) →
        st1.Condition = Track.Straight ∧
        (analyse cfg st ((right : Int) - (left : Int)) left right).Control =
          ControlMode.PID ∧
        st1 = copyParams cfg.Straight
          (analyse cfg st ((right : Int) - (left : Int)) left right)
          ((right : Int) - (left : Int))) ∧
      (cfg.Mid.DeadZone = 0 → ((left + right : Nat) : Int) < st.OutZone →
        st1.Control = ControlMode.Max) ∧
      Config.compiled.Mid.DeadZone = 0 := by
  have hlm : left % 2 ^ 16 = left := Nat.mod_eq_of_lt hl
  have hrm : right % 2 ^ 16 = right := Nat.mod_eq_of_lt hr
  refine ⟨_, _, controlTask_plain pid cfg LBuffer RBuffer st hmode, ?_⟩
  rw [hleft, hright, hlm, hrm]
  by_cases hc : (((right : Int) - (left : Int)).natAbs : Int) > st.StraightZone ∨
      ((left + right : Nat) : Int) < st.OutZone
  · have ha : analyse cfg st ((right : Int) - (left : Int)) left right =
        { st with Condition := Track.Mid,
                  Control := if ((left + right : Nat) : Int) < st.OutZone
                    then ControlMode.Max else ControlMode.PID } := by
      unfold analyse
      rw [if_pos hana, if_pos (by simpa using hc)]
    refine ⟨fun _ => ?_, fun hn => absurd hc hn, ?_, rfl⟩
    · rw [ha]
      exact ⟨(copyParams_fields _ _ _).1, rfl, rfl⟩
    · intro hd hout
      rw [(copyParams_fields _ _ _).2.2.2.2.2, ha]
      simp only [selectConfig, hd, hout, if_true]
      rw [if_neg (by simp)]
  · have ha : analyse cfg st ((right : Int) - (left : Int)) left right =
        { st with Condition := Track.Straight, Control := ControlMode.PID } := by
      unfold analyse
      rw [if_pos hana, if_neg (by simpa using hc)]
    refine ⟨fun hp => absurd hp hc, fun _ => ?_, ?_, rfl⟩
    · rw [ha]
      exact ⟨(copyParams_fields _ _ _).1, rfl, rfl⟩
    · intro _ hout
      exact absurd (Or.inr hout) hc

/-- Witness of C21: the configuration of the contest mode, the initial `State`, newest
samples 400 and 500: the sum 900 is below the out zone 1600, the tick ends in condition
`Mid` with mode `Max`. -/
theorem controlTask_transition_witness :
    ∃ st1 rot, controlTask (fun _ _ _ _ => 0) Config.contest
        { N := 4, buffer := [100, 200, 300, 400], head := 0 }
        { N := 4, buffer := [100, 200, 300, 500], head := 0 } State.compiled = some (st1, rot) ∧
      st1.Condition = Track.Mid ∧ st1.Control = ControlMode.Max := by
  obtain ⟨st1, rot, h1, h2, _, h4, _⟩ := controlTask_transition (fun _ _ _ _ => 0)
    Config.contest { N := 4, buffer := [100, 200, 300, 400], head := 0 }
    { N := 4, buffer := [100, 200, 300, 500], head := 0 } State.compiled 400 500
    rfl (by decide) (by decide) (by decide) (by decide) (by decide)
  exact ⟨st1, rot, h1, (h2 (Or.inr (by decide))).1, h4 rfl (by decide)⟩

/-- C22. The dead zone forces `Stop`. In every control tick that is defined (no division
by zero in the `DOS` formula), whatever the condition, the mode and the analysis flag:
if the absolute value of the latest error is smaller than the dead zone of the parameter
set selected in the tick, the tick ends with mode `Stop` and with the dead zone of that
set in `State`, the argument passed to `setDirection` is 0, with steering enabled or not,
and the duty written is the neutral one. -/
theorem controlTask_dead_zone (pid : Rat → Rat → Int → Int → Int) (cfg : Config)
    (LBuffer RBuffer : Buffer Nat) (st st1 : State) (rot e : Int)
    (hrun : controlTask pid cfg LBuffer RBuffer st = some (st1, rot))
    (herr : errorOf st.Control (LBuffer.read (-1)) (RBuffer.read (-1)) = some e)
    (hdead : (e.natAbs : Int) <
      ((selectConfig cfg (analyse cfg st e (LBuffer.read (-1) % 2 ^ 16)
        (RBuffer.read (-1) % 2 ^ 16)).Condition).DeadZone : Int)) :
    st1.Control = ControlMode.Stop ∧
    st1.DeadZone = ((selectConfig cfg (analyse cfg st e (LBuffer.read (-1) % 2 ^ 16)
        (RBuffer.read (-1) % 2 ^ 16)).Condition).DeadZone : Int) ∧
    rot = 0 ∧ setDirection rot = STEER_CENTER := by
  unfold controlTask at hrun
  rw [herr] at hrun
  cases hp : errorOf st.Control (LBuffer.read (-2)) (RBuffer.read (-2)) with
  | none => rw [hp] at hrun; cases hrun
  | some p =>
    rw [hp] at hrun
    have h1 := (Prod.mk.inj (Option.some.inj hrun)).1
    have h2 := (Prod.mk.inj (Option.some.inj hrun)).2
    have hf := copyParams_fields
      (selectConfig cfg (analyse cfg st e (LBuffer.read (-1) % 2 ^ 16)
        (RBuffer.read (-1) % 2 ^ 16)).Condition)
      (analyse cfg st e (LBuffer.read (-1) % 2 ^ 16) (RBuffer.read (-1) % 2 ^ 16)) e
    have hstop : st1.Control = ControlMode.Stop := by
      rw [← h1, hf.2.2.2.2.2, if_pos hdead]
    have hrot : rot = 0 := by
      rw [← h2]
      unfold steerCommand
      split
      · rw [h1, hstop]
      · rfl
    refine ⟨hstop, by rw [← h1]; exact hf.2.1, hrot, ?_⟩
    rw [hrot]
    decide

/-- Witness of C22: the initial parameters (dead zone 250 in the `Default` set), analysis
off, newest samples 400 and 500: the error 100 is inside the dead zone. -/
theorem controlTask_dead_zone_witness :
    (controlTask (fun _ _ _ _ => 5) { Config.compiled with SteerEnabled := true }
        { N := 4, buffer := [100, 200, 300, 400], head := 0 }
        { N := 4, buffer := [100, 200, 300, 500], head := 0 } State.compiled).map
          (fun r => (r.1.Control, r.2)) = some (ControlMode.Stop, 0) := by
  have hrun := controlTask_plain (fun _ _ _ _ => 5)
    { Config.compiled with SteerEnabled := true }
    { N := 4, buffer := [100, 200, 300, 400], head := 0 }
    { N := 4, buffer := [100, 200, 300, 500], head := 0 } State.compiled (by decide)
  obtain ⟨h1, _, h3, _⟩ := controlTask_dead_zone (fun _ _ _ _ => 5)
    { Config.compiled with SteerEnabled := true }
    { N := 4, buffer := [100, 200, 300, 400], head := 0 }
    { N := 4, buffer := [100, 200, 300, 500], head := 0 } State.compiled _ _ 100 hrun
    (by decide) (by decide)
  rw [hrun]
  simp only [Option.map_some']
  rw [h1, h3]

/-! ## Actuators -/

/-- C23. Steering clamp: for every rotation (in particular every `int32_t`),
`setDirection` writes the duty `741 + clamp(rotation, -90, 90)`, which lies in
`[651, 831]`; every input is accepted. -/
theorem setDirection_clamp (rotation : Int) :
    (setDirection rotation : Int) = 741 + max (-90) (min rotation 90) ∧
    651 ≤ setDirection rotation ∧ setDirection rotation ≤ 831 := by
  have hU := U32_eq
  have key : (setDirection rotation : Int) = 741 + max (-90) (min rotation 90) := by
    unfold setDirection toU32 STEER_CENTER STEER_MAX
    rw [hU]
    simp only
    split
    · omega
    · split <;> omega
  refine ⟨key, ?_, ?_⟩ <;> omega

/-- C24. Drive power clamp and sign encoding: with `p = clamp(power, -4800, 4800)`, for
`p > 0` the duty written is `p` and the direction pin is reset; otherwise the duty
written is `4800 + p` and the direction pin is set. The duty lies in `[0, 4800]`. -/
theorem setPower_clamp (power : Int) :
    setPower power =
      (if 0 < max (-4800) (min power 4800) then
        ((max (-4800) (min power 4800)).toNat, false)
       else ((4800 + max (-4800) (min power 4800)).toNat, true)) ∧
    (setPower power).1 ≤ 4800 := by
  have hU := U32_eq
  have key : setPower power =
      (if 0 < max (-4800) (min power 4800) then
        ((max (-4800) (min power 4800)).toNat, false)
       else ((4800 + max (-4800) (min power 4800)).toNat, true)) := by
    unfold setPower toU32 POWER_MAX
    rw [hU]
    simp only
    by_cases h1 : power > 4800
    · rw [if_pos h1, if_pos (by decide), if_pos (by omega)]
      congr 1
      omega
    · rw [if_neg h1]
      by_cases h2 : power < -4800
      · rw [if_pos h2, if_neg (by decide), if_neg (by omega)]
        congr 1
        omega
      · rw [if_neg h2]
        by_cases h3 : power > 0
        · rw [if_pos h3, if_pos (by omega)]
          congr 1
          omega
        · rw [if_neg h3, if_neg (by omega)]
          congr 1
          omega
  refine ⟨key, ?_⟩
  rw [key]
  split
  · show (max (-4800) (min power 4800)).toNat ≤ 4800
    omega
  · show (4800 + max (-4800) (min power 4800)).toNat ≤ 4800
    omega


/-! ## Main loop: the shutdown block -/

/-- What one iteration does to the latches, to the record and to the scheduler. -/
theorem mainIteration_latch (g : Globals) (ids : SteadyIds) (haltCb melodyCb : Nat → Prog)
    (l : MainLoop) (now : Nat) :
    ∃ reached : Bool,
      reached = decide (g.StopPassNeeded (Scheduler.runOnce l.world now).dev ≤
        g.StopPassed (Scheduler.runOnce l.world now).dev) ∧
      (mainIteration g ids haltCb melodyCb l now).trace =
        l.trace ++ [(reached, (reached || l.Stopped) && !l.stopped)] ∧
      (mainIteration g ids haltCb melodyCb l now).Stopped = (reached || l.Stopped) ∧
      (mainIteration g ids haltCb melodyCb l now).stopped =
        (l.stopped || (reached || l.Stopped)) ∧
      (mainIteration g ids haltCb melodyCb l now).world.sched =
        (if ((reached || l.Stopped) && !l.stopped) = true then
          shutdownBlock ids (g.BrakingTime (Scheduler.runOnce l.world now).dev) haltCb
            melodyCb l.brake l.endShow l.relayBuzz now (Scheduler.runOnce l.world now).sched
        else (Scheduler.runOnce l.world now).sched) := by
  refine ⟨_, rfl, ?_⟩
  by_cases hle : g.StopPassNeeded (Scheduler.runOnce l.world now).dev ≤
      g.StopPassed (Scheduler.runOnce l.world now).dev <;>
    cases hS : l.Stopped <;> cases hs : l.stopped <;> simp [mainIteration, hle, hS, hs]

theorem LatchInv.step (g : Globals) (ids : SteadyIds) (haltCb melodyCb : Nat → Prog)
    (l : MainLoop) (now : Nat) (h : LatchInv l) :
    LatchInv (mainIteration g ids haltCb melodyCb l now) := by
  obtain ⟨reached, _, ht, hS, hs, _⟩ := mainIteration_latch g ids haltCb melodyCb l now
  obtain ⟨i1, i2, i3, i4⟩ := h
  refine ⟨?_, ?_, ?_, ?_⟩
  · rw [hS, hs, i1]
    cases reached <;> cases l.stopped <;> rfl
  · rw [hs, ht, List.any_append, ← i2, i1]
    cases reached <;> cases l.stopped <;> rfl
  · intro k r x hk
    rw [ht] at hk ⊢
    by_cases hlt : k < l.trace.length
    · rw [List.getElem?_append_left hlt] at hk
      rw [List.take_append_of_le_length (by omega)]
      exact i3 k r x hk
    · rw [List.getElem?_append_right (by omega)] at hk
      by_cases hke : k = l.trace.length
      · subst hke
        simp only [Nat.sub_self, List.getElem?_cons_zero, Option.some.injEq,
          Prod.mk.injEq] at hk
        rw [List.take_left', ← i2, ← hk.1, ← hk.2, i1]
        · cases reached <;> cases l.stopped <;> simp
        · rfl
      · have : k - l.trace.length = (k - l.trace.length - 1) + 1 := by omega
        rw [this] at hk
        simp at hk
  · rw [ht, List.filter_append, List.length_append, i4, hs, i1]
    cases reached <;> cases l.stopped <;> rfl

theorem LatchInv.run (g : Globals) (ids : SteadyIds) (haltCb melodyCb : Nat → Prog)
    (nows : List Nat) : ∀ (l : MainLoop), LatchInv l →
      LatchInv (mainLoopRun g ids haltCb melodyCb l nows) ∧
      (mainLoopRun g ids haltCb melodyCb l nows).trace.length =
        l.trace.length + nows.length := by
  induction nows with
  | nil => intro l h; exact ⟨h, rfl⟩
  | cons now rest ih =>
    intro l h
    obtain ⟨a, b⟩ := ih _ (LatchInv.step g ids haltCb melodyCb l now h)
    refine ⟨a, ?_⟩
    show (mainLoopRun g ids haltCb melodyCb (mainIteration g ids haltCb melodyCb l now)
      rest).trace.length = _
    rw [b]
    obtain ⟨_, _, ht, _⟩ := mainIteration_latch g ids haltCb melodyCb l now
    rw [ht, List.length_append, List.length_singleton, List.length_cons]
    omega

/-- C25. The shutdown block runs exactly once. Each iteration of the main loop calls
`runOnce`, tests `State.StopPassed >= Config.StopPassNeeded` on the globals as the pass
left them, and runs the shutdown block (seven `removeTask`, `resetTime(now)`,
`setDirection(0)`, five `addTaskAndInit`) when `State.Stopped` holds and the static
latch does not. From the start of the loop (both latches false), whatever the
callbacks do to the counter and for every sequence of tick values: the block runs in
an iteration exactly when the test holds in that iteration and has held in none before,
so it runs in the first such iteration and at most once in all. -/
theorem shutdown_once (g : Globals) (ids : SteadyIds) (haltCb melodyCb : Nat → Prog)
    (l : MainLoop) (nows : List Nat)
    (hS : l.Stopped = false) (hs : l.stopped = false) (ht : l.trace = []) :
    (mainLoopRun g ids haltCb melodyCb l nows).trace.length = nows.length ∧
    (∀ k r x, (mainLoopRun g ids haltCb melodyCb l nows).trace[k]? = some (r, x) →
      (x = true ↔ (r = true ∧
        ((mainLoopRun g ids haltCb melodyCb l nows).trace.take k).any (fun e => e.1) =
          false))) ∧
    ((mainLoopRun g ids haltCb melodyCb l nows).trace.filter (fun e => e.2)).length ≤ 1 ∧
    (∀ (l1 : MainLoop) (now : Nat), ∃ reached : Bool,
      reached = decide (g.StopPassNeeded (Scheduler.runOnce l1.world now).dev ≤
        g.StopPassed (Scheduler.runOnce l1.world now).dev) ∧
      (mainIteration g ids haltCb melodyCb l1 now).trace =
        l1.trace ++ [(reached, (reached || l1.Stopped) && !l1.stopped)] ∧
      (mainIteration g ids haltCb melodyCb l1 now).world.sched =
        (if ((reached || l1.Stopped) && !l1.stopped) = true then
          shutdownBlock ids (g.BrakingTime (Scheduler.runOnce l1.world now).dev) haltCb
            melodyCb l1.brake l1.endShow l1.relayBuzz now
            (Scheduler.runOnce l1.world now).sched
        else (Scheduler.runOnce l1.world now).sched)) := by
  have h0 : LatchInv l := by
    refine ⟨by rw [hS, hs], by rw [hs, ht]; rfl, ?_, by rw [ht, hs]; rfl⟩
    intro k r x hk
    rw [ht] at hk
    simp at hk
  obtain ⟨⟨_, _, i3, i4⟩, hlen⟩ := LatchInv.run g ids haltCb melodyCb nows l h0
  refine ⟨by rw [hlen, ht]; simp, i3, ?_, ?_⟩
  · rw [i4]
    split <;> omega
  · intro l1 now
    obtain ⟨reached, a, b, _, _, e⟩ := mainIteration_latch g ids haltCb melodyCb l1 now
    exact ⟨reached, a, b, e⟩

/-- Witness of C25: a loop whose counter reaches 2 in the second iteration and keeps
growing: the block runs in the second of four iterations only, and leaves the counting
task followed by the five tasks of the stop sequence. -/
theorem shutdown_once_witness :
    (mainLoopRun stopDemoGlobals stopDemoIds idleCb idleCb stopDemo [1, 2, 3, 4]).trace =
      [(false, false), (true, true), (true, false), (true, false)] ∧
    (mainLoopRun stopDemoGlobals stopDemoIds idleCb idleCb stopDemo
      [1, 2, 3, 4]).trace.length = 4 ∧
    (mainLoopRun stopDemoGlobals stopDemoIds idleCb idleCb stopDemo
      [1, 2]).world.sched.tasks.map TaskPtr.id =
      [some 2, some 3, some 4, some 5, some 6, some 7] :=
  ⟨by decide,
    (shutdown_once stopDemoGlobals stopDemoIds idleCb idleCb stopDemo [1, 2, 3, 4]
      rfl rfl rfl).1,
    by decide⟩


/-! ## Telemetry -/

theorem floatBytes_length (bits : Nat) : (floatBytes bits).length = 4 := rfl

theorem flatMap_floatBytes_length (datas : List Nat) :
    (datas.flatMap floatBytes).length = datas.length * 4 := by
  induction datas with
  | nil => rfl
  | cons d ds ih =>
    rw [List.flatMap_cons, List.length_append, ih, floatBytes_length, List.length_cons]
    omega

theorem sendDataSafely_loop (datas : List Nat) : ∀ sent : List Nat,
    datas.foldl (fun s data => HAL_UART_Transmit s (floatBytes data) 4) sent =
      sent ++ datas.flatMap floatBytes := by
  induction datas with
  | nil => intro sent; simp
  | cons d ds ih =>
    intro sent
    rw [List.foldl_cons, ih, List.flatMap_cons]
    unfold HAL_UART_Transmit
    rw [List.take_of_length_le (by rw [floatBytes_length]), List.append_assoc]

/-- C26. Telemetry framing. For every list of `n` floats (the byte count `4n` fitting
`size_t`, as it does for every vector the target can hold) and whatever has been sent
before, `sendData` and `sendDataSafely` put the same bytes on the line: the four bytes
of each float in memory order, in list order, followed by the four bytes of `vofaEnd`;
that is `4n + 4` bytes. -/
theorem sendData_framing (sent datas : List Nat) (hsize : datas.length * 4 < SIZE_MOD) :
    sendData sent datas = sendDataSafely sent datas ∧
    sendData sent datas = sent ++ datas.flatMap floatBytes ++ [0x00, 0x00, 0x80, 0x7f] ∧
    (sendData sent datas).length = sent.length + (4 * datas.length + 4) := by
  have h1 : sendData sent datas =
      sent ++ datas.flatMap floatBytes ++ [0x00, 0x00, 0x80, 0x7f] := by
    unfold sendData HAL_UART_Transmit
    simp only
    rw [Nat.mod_eq_of_lt hsize,
      List.take_of_length_le (by rw [flatMap_floatBytes_length])]
    rfl
  have h2 : sendDataSafely sent datas =
      sent ++ datas.flatMap floatBytes ++ [0x00, 0x00, 0x80, 0x7f] := by
    unfold sendDataSafely
    simp only
    rw [sendDataSafely_loop]
    rfl
  refine ⟨by rw [h1, h2], h1, ?_⟩
  rw [h1, List.length_append, List.length_append, flatMap_floatBytes_length]
  simp only [List.length_cons, List.length_nil]
  omega

/-- Witness of C26: the floats 1.0 and -2.0 (words `0x3F800000` and `0xC0000000`). -/
theorem sendData_framing_witness :
    sendDataSafely [] [0x3F800000, 0xC0000000] =
      [0x00, 0x00, 0x80, 0x3f, 0x00, 0x00, 0x00, 0xc0, 0x00, 0x00, 0x80, 0x7f] :=
  ((sendData_framing [] [0x3F800000, 0xC0000000] (by decide)).1.symm.trans
    (sendData_framing [] [0x3F800000, 0xC0000000] (by decide)).2.1).trans (by decide)

theorem leWord_floatBytes (w : Nat) (hw : w < 2 ^ 32) : leWord (floatBytes w) = w := by
  unfold leWord floatBytes
  simp only [List.getD_cons_zero, List.getD_cons_succ]
  omega

/-- C27, counterexample. Read as a little-endian binary32 word, `vofaEnd` is
`0x7F800000`: its fraction field is zero, so it is not a NaN; it is the pattern of
positive infinity, and a telemetry value of positive infinity is sent as these bytes. -/
theorem vofaEnd_not_nan :
    leWord vofaEnd = 0x7F800000 ∧ fractionField (leWord vofaEnd) = 0 ∧
    isNaN (leWord vofaEnd) = false ∧ isInfinite (leWord vofaEnd) = true ∧
    floatBytes 0x7F800000 = vofaEnd := by
  decide

/-- C27, amended. The bytes of `vofaEnd`, read as a little-endian binary32 word, are the
pattern of positive infinity: sign bit 0, exponent field all ones, fraction field zero.
The only binary32 word whose bytes in memory are `vofaEnd` is that one, so no finite
value, no NaN and no negative infinity is sent as these bytes. -/
theorem vofaEnd_infinity (w : Nat) (hw : w < 2 ^ 32) :
    signBit (leWord vofaEnd) = 0 ∧ exponentField (leWord vofaEnd) = 255 ∧
    fractionField (leWord vofaEnd) = 0 ∧
    (floatBytes w = vofaEnd ↔ w = 0x7F800000) ∧
    (floatBytes w = vofaEnd → isInfinite w = true ∧ signBit w = 0) := by
  have hiff : floatBytes w = vofaEnd ↔ w = 0x7F800000 := by
    constructor
    · intro h
      have := leWord_floatBytes w hw
      rw [h] at this
      rw [← this]
      decide
    · intro h
      rw [h]
      decide
  refine ⟨by decide, by decide, by decide, hiff, ?_⟩
  intro h
  rw [hiff.1 h]
  decide

/-- Witness of the amended C27: the word of 1.0 is not sent as `vofaEnd`. -/
theorem vofaEnd_infinity_witness : ¬ floatBytes 0x3F800000 = vofaEnd :=
  fun h => absurd ((vofaEnd_infinity 0x3F800000 (by decide)).2.2.2.1.1 h) (by decide)


/-! ## Tasks: wraparound and backlog -/

theorem sub32_shift (now l c : Nat) : sub32 (add32 now c) (add32 l c) = sub32 now l := by
  unfold sub32 add32
  rw [U32_eq]
  omega

theorem add32_swap (l c d : Nat) : add32 (add32 l c) d = add32 (add32 l d) c := by
  unfold add32
  rw [U32_eq]
  omega

/-- The loop of `tick` on a shifted clock. -/
theorem StepTask.loop_shift {σ : Type} (fire : Nat → σ → σ) (now c : Nat) :
    ∀ (fuel : Nat) (t : StepTask) (w : σ),
      StepTask.loop fire (add32 now c) fuel (t.shift c) w =
        ((StepTask.loop fire now fuel t w).1.shift c, (StepTask.loop fire now fuel t w).2) := by
  intro fuel
  induction fuel with
  | zero => intro t w; rfl
  | succ n ih =>
    intro t w
    rw [StepTask.loop_succ, StepTask.loop_succ]
    have hs : sub32 (add32 now c) (t.shift c).last_tick_ms = sub32 now t.last_tick_ms :=
      sub32_shift now t.last_tick_ms c
    have hd : (t.shift c).current_step_duration = t.current_step_duration := rfl
    have hr : (t.shift c).run_count = t.run_count := rfl
    have hm : (t.shift c).max_runs = t.max_runs := rfl
    rw [hs, hd, hr, hm]
    by_cases h1 : t.run_count < t.max_runs ∧ t.current_step_duration ≤ sub32 now t.last_tick_ms
    · rw [if_pos h1, if_pos h1]
      have hl : add32 (t.shift c).last_tick_ms t.current_step_duration =
          add32 (add32 t.last_tick_ms t.current_step_duration) c :=
        add32_swap t.last_tick_ms c t.current_step_duration
      by_cases h2 : t.max_runs ≤ add32 t.run_count 1
      · rw [if_pos h2, if_pos h2, hl]
        rfl
      · rw [if_neg h2, if_neg h2, hl]
        exact ih
          { t with last_tick_ms := add32 t.last_tick_ms t.current_step_duration,
                   run_count := add32 t.run_count 1,
                   cur_step := ((t.cur_step + 1) % SIZE_MOD) % t.Steps }
          (fire t.cur_step w)
    · rw [if_neg h1, if_neg h1]

theorem StepTask.tick_shift {σ : Type} (fire : Nat → σ → σ) (now c : Nat) (t : StepTask)
    (w : σ) :
    StepTask.tick fire (add32 now c) (t.shift c) w =
      ((StepTask.tick fire now t w).1.shift c, (StepTask.tick fire now t w).2) := by
  have hs : sub32 (add32 now c) (t.shift c).last_tick_ms = sub32 now t.last_tick_ms :=
    sub32_shift now t.last_tick_ms c
  unfold StepTask.tick
  have h1 : (t.shift c).started = t.started := rfl
  have h2 : (t.shift c).initial_delay_ms = t.initial_delay_ms := rfl
  rw [h1, h2, hs]
  cases hst : t.started with
  | true =>
    simp only [Bool.not_true, Bool.false_eq_true, if_false]
    exact StepTask.loop_shift fire now c _ t w
  | false =>
    simp only [Bool.not_false, if_true]
    by_cases hd : t.initial_delay_ms ≤ sub32 now t.last_tick_ms
    · rw [if_pos hd, if_pos hd]
      have hl : add32 (t.shift c).last_tick_ms t.initial_delay_ms =
          add32 (add32 t.last_tick_ms t.initial_delay_ms) c :=
        add32_swap t.last_tick_ms c t.initial_delay_ms
      rw [hl]
      exact StepTask.loop_shift fire now c _
        { t with last_tick_ms := add32 t.last_tick_ms t.initial_delay_ms, started := true } w
    · rw [if_neg hd, if_neg hd]

theorem SingleTask.single_tick_shift {σ : Type} (fire : Nat → σ → σ) (now c : Nat)
    (t : SingleTask) (w : σ) :
    SingleTask.tick fire (add32 now c) (t.shift c) w =
      ((SingleTask.tick fire now t w).1.shift c, (SingleTask.tick fire now t w).2) := by
  have hfire : ∀ u : SingleTask,
      SingleTask.fireOnce fire (add32 now c) (u.shift c) w =
        ((SingleTask.fireOnce fire now u w).1.shift c, (SingleTask.fireOnce fire now u w).2) := by
    intro u
    rw [SingleTask.fireOnce_eq, SingleTask.fireOnce_eq]
    have hs : sub32 (add32 now c) (u.shift c).last_tick_ms = sub32 now u.last_tick_ms :=
      sub32_shift now u.last_tick_ms c
    have hd : (u.shift c).dur = u.dur := rfl
    have hr : (u.shift c).run_count = u.run_count := rfl
    have hm : (u.shift c).max_runs = u.max_runs := rfl
    have hl : add32 (u.shift c).last_tick_ms u.dur = add32 (add32 u.last_tick_ms u.dur) c :=
      add32_swap u.last_tick_ms c u.dur
    rw [hs, hd, hr, hm, hl]
    by_cases h1 : u.run_count < u.max_runs ∧ u.dur ≤ sub32 now u.last_tick_ms
    · rw [if_pos h1, if_pos h1]
      by_cases h2 : u.max_runs ≤ add32 u.run_count 1
      · rw [if_pos h2, if_pos h2]; rfl
      · rw [if_neg h2, if_neg h2]; rfl
    · rw [if_neg h1, if_neg h1]
  have hs : sub32 (add32 now c) (t.shift c).last_tick_ms = sub32 now t.last_tick_ms :=
    sub32_shift now t.last_tick_ms c
  unfold SingleTask.tick
  have h1 : (t.shift c).started = t.started := rfl
  have h2 : (t.shift c).initial_delay_ms = t.initial_delay_ms := rfl
  rw [h1, h2, hs]
  cases hst : t.started with
  | true =>
    simp only [Bool.not_true, Bool.false_eq_true, if_false]
    exact hfire t
  | false =>
    simp only [Bool.not_false, if_true]
    by_cases hd : t.initial_delay_ms ≤ sub32 now t.last_tick_ms
    · rw [if_pos hd, if_pos hd]
      have hl : add32 (t.shift c).last_tick_ms t.initial_delay_ms =
          add32 (add32 t.last_tick_ms t.initial_delay_ms) c :=
        add32_swap t.last_tick_ms c t.initial_delay_ms
      rw [hl]
      exact hfire
        { t with last_tick_ms := add32 t.last_tick_ms t.initial_delay_ms, started := true }
    · rw [if_neg hd, if_neg hd]

/-- C28. Wraparound tolerance of `tick`. For both task classes, every task state, every
`now`, every offset `c` and every callback acting on an outside state `w`: ticking the
task whose `last_tick_ms` is shifted by `c` at time `now + c` (32-bit sums) leaves the
outside state that ticking the unshifted task at `now` leaves, so the callback is
invoked as often and with the same step indices, and leaves the same task state with
`last_tick_ms` shifted by `c`. For instance a `makeTask(10, cb)` whose `last_tick_ms`
is `2^32 - 5` is not invoked at `now = 4` and is invoked once at `now = 5`, which leaves
`last_tick_ms = 5`. -/
theorem tick_wraparound {σ : Type} (fire : Nat → σ → σ) (now c : Nat) (t : StepTask)
    (u : SingleTask) (w : σ) :
    StepTask.tick fire (add32 now c) (t.shift c) w =
      ((StepTask.tick fire now t w).1.shift c, (StepTask.tick fire now t w).2) ∧
    SingleTask.tick fire (add32 now c) (u.shift c) w =
      ((SingleTask.tick fire now u w).1.shift c, (SingleTask.tick fire now u w).2) ∧
    (SingleTask.tick record 4
        { SingleTask.periodic 10 INF_RUNS with last_tick_ms := 4294967291 } []).2 = [] ∧
    (SingleTask.tick record 5
        { SingleTask.periodic 10 INF_RUNS with last_tick_ms := 4294967291 } []).2 = [0] ∧
    (SingleTask.tick record 5
        { SingleTask.periodic 10 INF_RUNS with last_tick_ms := 4294967291 }
        []).1.last_tick_ms = 5 ∧
    (StepTask.tick record 35
        { StepTask.averaged 2 20 INF_RUNS with last_tick_ms := 4294967291 } []).2 =
      [0, 1, 0, 1] :=
  ⟨StepTask.tick_shift fire now c t w, SingleTask.single_tick_shift fire now c u w,
    by decide, by decide, by decide, by decide⟩

theorem StepTask.current_step_duration_eq (t : StepTask) :
    t.current_step_duration = t.durationOf t.cur_step := rfl

/-- C29. Backlog drained by the multi-step task. For every started `ScheduledTask<Steps>`
(averaged or custom durations) and every `tick(now)`, the steps fired being recorded:
when the call returns, either `run_count` has reached `max_runs` or the 32-bit
difference `now - last_tick_ms` is smaller than the duration of the current step; and
`last_tick_ms` has advanced by the sum of the durations of the steps fired in the call
(32-bit sum), whatever the elapsed time. -/
theorem StepTask.tick_drains (now : Nat) (t : StepTask) (log : List Nat)
    (hstarted : t.started = true) (hmax : t.max_runs < U32) (hlast : t.last_tick_ms < U32) :
    ∃ fired : List Nat,
      (StepTask.tick record now t log).2 = log ++ fired ∧
      (StepTask.tick record now t log).1.last_tick_ms =
        (t.last_tick_ms + (fired.map t.durationOf).sum) % U32 ∧
      ((StepTask.tick record now t log).1.max_runs ≤
          (StepTask.tick record now t log).1.run_count ∨
        sub32 now (StepTask.tick record now t log).1.last_tick_ms <
          (StepTask.tick record now t log).1.current_step_duration) := by
  have htick : StepTask.tick record now t log = StepTask.drain record now t log := by
    unfold StepTask.tick
    rw [hstarted]
    rfl
  rw [htick]
  have hU := U32_eq
  have hinv := StepTask.loop_rule record now
    (fun u lg => ∃ fired : List Nat, lg = log ++ fired ∧
      u.last_tick_ms = (t.last_tick_ms + (fired.map t.durationOf).sum) % U32 ∧
      u.step_durations = t.step_durations ∧ u.step_period_ms = t.step_period_ms)
    (by
      intro u lg ⟨fired, h1, h2, h3, h4⟩ _ _
      have hdur : u.current_step_duration = t.durationOf u.cur_step := by
        unfold StepTask.current_step_duration StepTask.durationOf
        rw [h3, h4]
      have hsum : add32 u.last_tick_ms u.current_step_duration =
          (t.last_tick_ms + ((fired ++ [u.cur_step]).map t.durationOf).sum) % U32 := by
        rw [hdur, h2, List.map_append, List.sum_append]
        simp only [List.map_cons, List.map_nil, List.sum_cons, List.sum_nil, add32]
        rw [hU]
        omega
      have hlog : record u.cur_step lg = log ++ (fired ++ [u.cur_step]) := by
        unfold record
        rw [h1, List.append_assoc]
      exact ⟨fun _ => ⟨fired ++ [u.cur_step], hlog, hsum, h3, h4⟩,
        fun _ => ⟨fired ++ [u.cur_step], hlog, hsum, h3, h4⟩⟩)
    (t.max_runs - t.run_count) t log
    ⟨[], by simp, by simp [Nat.mod_eq_of_lt hlast], rfl, rfl⟩
  obtain ⟨fired, h1, h2, _, _⟩ := hinv
  exact ⟨fired, h1, h2, StepTask.loop_exit record now _ t log (Nat.le_refl _) hmax⟩

/-- Witness of C29: `ScheduledTask<2>(20, cb)` (steps of 10 ms) ticked 35 ms late records
the steps 0, 1, 0, advances `last_tick_ms` by 30 and ends 5 ms behind `now`. -/
theorem StepTask.tick_drains_witness :
    (StepTask.tick record 35 (StepTask.averaged 2 20 INF_RUNS) []).2 = [0, 1, 0] ∧
    (StepTask.tick record 35 (StepTask.averaged 2 20 INF_RUNS) []).1.last_tick_ms = 30 ∧
    ∃ fired : List Nat,
      (StepTask.tick record 35 (StepTask.averaged 2 20 INF_RUNS) []).2 = [] ++ fired ∧
      (StepTask.tick record 35 (StepTask.averaged 2 20 INF_RUNS) []).1.last_tick_ms =
        (0 + (fired.map (StepTask.averaged 2 20 INF_RUNS).durationOf).sum) % U32 :=
  ⟨by decide, by decide,
    (StepTask.tick_drains 35 (StepTask.averaged 2 20 INF_RUNS) [] rfl (by decide)
      (by decide)).imp (fun _ h => ⟨h.1, h.2.1⟩)⟩



theorem take_orderedInsert (r : Nat → Nat → Prop) [DecidableRel r] (v : Nat) :
    ∀ (k : Nat) (l : List Nat),
      (List.orderedInsert r v l).take k = (List.orderedInsert r v (l.take k)).take k := by
  intro k
  induction k with
  | zero => intro l; simp
  | succ k ih =>
    intro l
    cases l with
    | nil => simp
    | cons b l =>
      simp only [List.take_succ_cons, List.orderedInsert]
      split
      · simp only [List.take_succ_cons]
        congr 1
        cases k with
        | zero => simp
        | succ k => simp [List.take_take]
      · simp only [List.take_succ_cons]
        congr 1
        exact ih l

theorem insertMin_eq (a0 a1 a2 a3 v : Nat) (h01 : a0 ≤ a1) (h12 : a1 ≤ a2) (h23 : a2 ≤ a3) :
    insertMin [a0, a1, a2, a3] v =
      (List.orderedInsert (fun x y => x ≤ y) v [a0, a1, a2, a3]).take 4 := by
  have hr : List.range 4 = [0, 1, 2, 3] := rfl
  unfold insertMin
  rw [hr]
  simp only [List.find?, List.getD_cons_zero, List.getD_cons_succ, List.orderedInsert]
  by_cases c0 : v < a0 <;> by_cases c1 : v < a1 <;> by_cases c2 : v < a2 <;>
    by_cases c3 : v < a3 <;>
    simp [c0, c1, c2, c3, shiftIn] <;> split_ifs <;> simp <;> omega


theorem insertMax_eq (a0 a1 a2 a3 v : Nat) (h01 : a1 ≤ a0) (h12 : a2 ≤ a1) (h23 : a3 ≤ a2) :
    insertMax [a0, a1, a2, a3] v =
      (List.orderedInsert (fun x y => y ≤ x) v [a0, a1, a2, a3]).take 4 := by
  have hr : List.range 4 = [0, 1, 2, 3] := rfl
  unfold insertMax
  rw [hr]
  simp only [List.find?, List.getD_cons_zero, List.getD_cons_succ, List.orderedInsert]
  by_cases c0 : a0 < v <;> by_cases c1 : a1 < v <;> by_cases c2 : a2 < v <;>
    by_cases c3 : a3 < v <;>
    simp [c0, c1, c2, c3, shiftIn] <;> split_ifs <;> simp <;> omega

theorem sort_perm_asc (l1 l2 : List Nat) (h : l1.Perm l2) :
    l1.insertionSort (fun x y => x ≤ y) = l2.insertionSort (fun x y => x ≤ y) :=
  List.eq_of_perm_of_sorted
    (((List.perm_insertionSort _ l1).trans h).trans (List.perm_insertionSort _ l2).symm)
    (List.sorted_insertionSort _ l1) (List.sorted_insertionSort _ l2)

theorem sort_perm_desc (l1 l2 : List Nat) (h : l1.Perm l2) :
    l1.insertionSort (fun x y => y ≤ x) = l2.insertionSort (fun x y => y ≤ x) :=
  List.eq_of_perm_of_sorted
    (((List.perm_insertionSort _ l1).trans h).trans (List.perm_insertionSort _ l2).symm)
    (List.sorted_insertionSort _ l1) (List.sorted_insertionSort _ l2)

theorem four_of_length (a : List Nat) (h : a.length = 4) :
    ∃ a0 a1 a2 a3, a = [a0, a1, a2, a3] := by
  match a, h with
  | [a0, a1, a2, a3], _ => exact ⟨a0, a1, a2, a3, rfl⟩

/-- The selection loop on `minVals`, started from four sorted entries: after the samples
`p` it holds the first four entries of the ascending sort of `p` and the initial
entries together. -/
theorem foldl_insertMin (init : List Nat) (hlen : init.length = 4)
    (hs : init.Sorted (fun x y => x ≤ y)) (p : List Nat) :
    p.foldl insertMin init = ((p ++ init).insertionSort (fun x y => x ≤ y)).take 4 := by
  induction p using List.reverseRecOn with
  | nil =>
    rw [List.foldl_nil, List.nil_append, List.Sorted.insertionSort_eq hs,
      List.take_of_length_le (by omega)]
  | append_singleton q v ih =>
    rw [List.foldl_append, List.foldl_cons, List.foldl_nil, ih]
    have hsorted : (((q ++ init).insertionSort (fun x y => x ≤ y)).take 4).Sorted
        (fun x y => x ≤ y) :=
      (List.sorted_insertionSort _ _).sublist (List.take_sublist _ _)
    have hl4 : (((q ++ init).insertionSort (fun x y => x ≤ y)).take 4).length = 4 := by
      rw [List.length_take, List.length_insertionSort, List.length_append]
      omega
    obtain ⟨a0, a1, a2, a3, ha⟩ := four_of_length _ hl4
    rw [ha] at hsorted
    have hord : a0 ≤ a1 ∧ a1 ≤ a2 ∧ a2 ≤ a3 := by
      simp only [List.Sorted, List.pairwise_cons, List.mem_cons, List.mem_singleton,
        forall_eq_or_imp, forall_eq] at hsorted
      exact ⟨hsorted.1.1, hsorted.2.1.1, hsorted.2.2.1.1⟩
    rw [ha, insertMin_eq a0 a1 a2 a3 v hord.1 hord.2.1 hord.2.2, ← ha,
      ← take_orderedInsert]
    have hcons : List.orderedInsert (fun x y => x ≤ y) v
        ((q ++ init).insertionSort (fun x y => x ≤ y)) =
        (v :: (q ++ init)).insertionSort (fun x y => x ≤ y) := rfl
    rw [hcons]
    congr 1
    apply sort_perm_asc
    rw [List.append_assoc]
    exact (List.perm_middle).symm

/-- The same for `maxVals` and the descending sort. -/
theorem foldl_insertMax (init : List Nat) (hlen : init.length = 4)
    (hs : init.Sorted (fun x y => y ≤ x)) (p : List Nat) :
    p.foldl insertMax init = ((p ++ init).insertionSort (fun x y => y ≤ x)).take 4 := by
  induction p using List.reverseRecOn with
  | nil =>
    rw [List.foldl_nil, List.nil_append, List.Sorted.insertionSort_eq hs,
      List.take_of_length_le (by omega)]
  | append_singleton q v ih =>
    rw [List.foldl_append, List.foldl_cons, List.foldl_nil, ih]
    have hsorted : (((q ++ init).insertionSort (fun x y => y ≤ x)).take 4).Sorted
        (fun x y => y ≤ x) :=
      (List.sorted_insertionSort _ _).sublist (List.take_sublist _ _)
    have hl4 : (((q ++ init).insertionSort (fun x y => y ≤ x)).take 4).length = 4 := by
      rw [List.length_take, List.length_insertionSort, List.length_append]
      omega
    obtain ⟨a0, a1, a2, a3, ha⟩ := four_of_length _ hl4
    rw [ha] at hsorted
    have hord : a1 ≤ a0 ∧ a2 ≤ a1 ∧ a3 ≤ a2 := by
      simp only [List.Sorted, List.pairwise_cons, List.mem_cons, List.mem_singleton,
        forall_eq_or_imp, forall_eq] at hsorted
      exact ⟨hsorted.1.1, hsorted.2.1.1, hsorted.2.2.1.1⟩
    rw [ha, insertMax_eq a0 a1 a2 a3 v hord.1 hord.2.1 hord.2.2, ← ha,
      ← take_orderedInsert]
    have hcons : List.orderedInsert (fun x y => y ≤ x) v
        ((q ++ init).insertionSort (fun x y => y ≤ x)) =
        (v :: (q ++ init)).insertionSort (fun x y => y ≤ x) := rfl
    rw [hcons]
    congr 1
    apply sort_perm_desc
    rw [List.append_assoc]
    exact (List.perm_middle).symm

theorem selectExtremes_fold (samples : List Nat) : ∀ (a b : List Nat),
    samples.foldl (fun mm val => (insertMin mm.1 val, insertMax mm.2 val)) (a, b) =
      (samples.foldl insertMin a, samples.foldl insertMax b) := by
  induction samples with
  | nil => intro a b; rfl
  | cons v vs ih => intro a b; rw [List.foldl_cons, ih]; rfl

/-- The selection loop on a list of at least four 16-bit samples: `minVals` is the first
four entries of the ascending sort, `maxVals` the first four of the descending sort. -/
theorem selectExtremes_take (samples : List Nat) (hlen : 4 ≤ samples.length)
    (hrange : ∀ x ∈ samples, x ≤ UINT16_MAX) :
    (selectExtremes samples).1 = (samples.insertionSort (fun x y => x ≤ y)).take 4 ∧
    (selectExtremes samples).2 = (samples.insertionSort (fun x y => y ≤ x)).take 4 := by
  unfold selectExtremes
  rw [selectExtremes_fold]
  constructor
  · show samples.foldl insertMin [UINT16_MAX, UINT16_MAX, UINT16_MAX, UINT16_MAX] = _
    rw [foldl_insertMin [UINT16_MAX, UINT16_MAX, UINT16_MAX, UINT16_MAX] rfl
      (by simp [List.Sorted])]
    have hsorted : (samples.insertionSort (fun x y => x ≤ y) ++
        [UINT16_MAX, UINT16_MAX, UINT16_MAX, UINT16_MAX]).Sorted (fun x y => x ≤ y) := by
      rw [List.Sorted, List.pairwise_append]
      refine ⟨List.sorted_insertionSort _ _, by simp, ?_⟩
      intro x hx y hy
      have hx2 : x ∈ samples := (List.perm_insertionSort _ samples).mem_iff.1 hx
      have hy2 : y = UINT16_MAX := by simpa using hy
      rw [hy2]
      exact hrange x hx2
    rw [sort_perm_asc _ _ ((List.perm_insertionSort (fun x y => x ≤ y) samples).symm.append_right
        [UINT16_MAX, UINT16_MAX, UINT16_MAX, UINT16_MAX]),
      List.Sorted.insertionSort_eq hsorted,
      List.take_append_of_le_length (by rw [List.length_insertionSort]; exact hlen)]
  · show samples.foldl insertMax [0, 0, 0, 0] = _
    rw [foldl_insertMax [0, 0, 0, 0] rfl (by simp [List.Sorted])]
    have hsorted : (samples.insertionSort (fun x y => y ≤ x) ++ [0, 0, 0, 0]).Sorted
        (fun x y => y ≤ x) := by
      rw [List.Sorted, List.pairwise_append]
      refine ⟨List.sorted_insertionSort _ _, by simp, ?_⟩
      intro x _ y hy
      have hy2 : y = 0 := by simpa using hy
      rw [hy2]
      exact Nat.zero_le x
    rw [sort_perm_desc _ _ ((List.perm_insertionSort (fun x y => y ≤ x) samples).symm.append_right
        [0, 0, 0, 0]),
      List.Sorted.insertionSort_eq hsorted,
      List.take_append_of_le_length (by rw [List.length_insertionSort]; exact hlen)]

theorem Buffer.samples_range (b : Buffer Nat) (h : ∀ x ∈ b.buffer, x ≤ UINT16_MAX) :
    b.samples.length = b.N ∧ ∀ x ∈ b.samples, x ≤ UINT16_MAX := by
  unfold Buffer.samples
  refine ⟨by rw [List.length_map, List.length_range], ?_⟩
  intro x hx
  obtain ⟨i, _, hi⟩ := List.mem_map.1 hx
  rw [← hi]
  unfold Buffer.read Buffer.get
  cases hg : b.buffer[b.slot (Int.ofNat i)]? with
  | none => exact Nat.zero_le _
  | some y => exact h y (List.mem_iff_getElem?.2 ⟨_, hg⟩)

/-- C30. Partial selection of the filter. For every content of the 64-sample buffer
(16-bit samples), after the selection loop `minVals` is the first four entries of the
ascending sort of the samples and `maxVals` the first four entries of their descending
sort; so they are the four smallest and the four largest samples, counted with
multiplicity and in order, also when samples equal 0 or 65535. -/
theorem selectExtremes_sorted (b : Buffer Nat) (hN : b.N = 64)
    (hrange : ∀ x ∈ b.buffer, x ≤ UINT16_MAX) :
    (selectExtremes b.samples).1 = (b.samples.insertionSort (fun x y => x ≤ y)).take 4 ∧
    (selectExtremes b.samples).2 = (b.samples.insertionSort (fun x y => y ≤ x)).take 4 ∧
    (b.samples.insertionSort (fun x y => x ≤ y)).Sorted (fun x y => x ≤ y) ∧
    (b.samples.insertionSort (fun x y => x ≤ y)).Perm b.samples ∧
    (b.samples.insertionSort (fun x y => y ≤ x)).Sorted (fun x y => y ≤ x) ∧
    (b.samples.insertionSort (fun x y => y ≤ x)).Perm b.samples := by
  obtain ⟨h1, h2⟩ := Buffer.samples_range b hrange
  obtain ⟨r1, r2⟩ := selectExtremes_take b.samples (by rw [h1, hN]; decide) h2
  exact ⟨r1, r2, List.sorted_insertionSort _ _, List.perm_insertionSort _ _,
    List.sorted_insertionSort _ _, List.perm_insertionSort _ _⟩

set_option maxRecDepth 100000 in
/-- Witness of C30: 64 samples holding 0 twice, 65535 twice and 1, 2, 3, 9 among sixes:
the four smallest are 0, 0, 1, 2 and the four largest 65535, 65535, 9, 6. -/
theorem selectExtremes_sorted_witness :
    selectExtremes (Buffer.samples { N := 64, buffer := sentinels, head := 5 }) =
      ([0, 0, 1, 2], [65535, 65535, 9, 6]) ∧
    (selectExtremes (Buffer.samples { N := 64, buffer := sentinels, head := 5 })).1 =
      ((Buffer.samples { N := 64, buffer := sentinels, head := 5 }).insertionSort
        (fun x y => x ≤ y)).take 4 :=
  ⟨by decide,
    (selectExtremes_sorted { N := 64, buffer := sentinels, head := 5 } rfl
      (by decide)).1⟩

/-! ## Step range -/

theorem StepTask.valid_duration (t : StepTask) (h : t.Valid) :
    1 ≤ t.current_step_duration ∧
    (t.step_durations ≠ [] → t.cur_step < t.step_durations.length ∧
      t.step_durations[t.cur_step]? = some t.current_step_duration) := by
  obtain ⟨hS, hc, h3⟩ := h
  rcases h3 with ⟨he, hp⟩ | ⟨hl, hd⟩
  · refine ⟨?_, fun hne => absurd he hne⟩
    unfold StepTask.current_step_duration
    rw [he]
    exact hp
  · have hlt : t.cur_step < t.step_durations.length := by rw [hl]; exact hc
    have hne : t.step_durations.isEmpty = false := by
      cases hd2 : t.step_durations with
      | nil => rw [hd2] at hlt; cases hlt
      | cons a l => rfl
    have hcur : t.current_step_duration = t.step_durations[t.cur_step] := by
      unfold StepTask.current_step_duration
      rw [hne]
      simp only [Bool.not_false, if_true]
      exact List.getD_eq_getElem _ _ hlt
    refine ⟨?_, fun _ => ⟨hlt, ?_⟩⟩
    · rw [hcur]
      exact hd _ (List.getElem_mem _)
    · rw [hcur]
      exact List.getElem?_eq_getElem hlt

theorem StepTask.valid_ctor (S P D m : Nat) (durs : List Nat) (hS : 1 ≤ S)
    (hlen : durs.length = S) :
    (StepTask.averaged S P m).Valid ∧ (StepTask.delayed S D P m).Valid ∧
    (StepTask.custom S durs D m).Valid := by
  refine ⟨⟨hS, hS, Or.inl ⟨rfl, init_average_steps_pos S P⟩⟩,
    ⟨hS, hS, Or.inl ⟨rfl, init_average_steps_pos S P⟩⟩, ⟨hS, hS, Or.inr ⟨?_, ?_⟩⟩⟩
  · show (durs.map (fun d => max 1 d)).length = S
    rw [List.length_map, hlen]
  · intro d hd
    have hd2 : d ∈ durs.map (fun d => max 1 d) := hd
    obtain ⟨x, _, hx⟩ := List.mem_map.1 hd2
    rw [← hx]
    exact Nat.le_max_left 1 x

theorem StepTask.loop_range (now : Nat) (S : Nat) (fuel : Nat) (t : StepTask)
    (log : List Nat) (hv : t.Valid) (hS : t.Steps = S) (hlog : ∀ s ∈ log, s < S) :
    (StepTask.loop record now fuel t log).1.Valid ∧
    (StepTask.loop record now fuel t log).1.Steps = S ∧
    ∀ s ∈ (StepTask.loop record now fuel t log).2, s < S := by
  refine StepTask.loop_rule record now
    (fun u lg => u.Valid ∧ u.Steps = S ∧ ∀ s ∈ lg, s < S) ?_ fuel t log ⟨hv, hS, hlog⟩
  intro u lg ⟨⟨h1, h2, h3⟩, h4, h5⟩ _ _
  have hrec : ∀ s ∈ record u.cur_step lg, s < S := by
    intro s hs
    unfold record at hs
    rcases List.mem_append.1 hs with h | h
    · exact h5 s h
    · rw [List.mem_singleton.1 h, ← h4]
      exact h2
  exact ⟨fun _ => ⟨⟨h1, h2, h3⟩, h4, hrec⟩,
    fun _ => ⟨⟨h1, Nat.mod_lt _ h1, h3⟩, h4, hrec⟩⟩

theorem StepTask.tick_range (now : Nat) (S : Nat) (t : StepTask) (log : List Nat)
    (hv : t.Valid) (hS : t.Steps = S) (hlog : ∀ s ∈ log, s < S) :
    (StepTask.tick record now t log).1.Valid ∧
    (StepTask.tick record now t log).1.Steps = S ∧
    ∀ s ∈ (StepTask.tick record now t log).2, s < S := by
  unfold StepTask.tick
  split
  · split
    · exact StepTask.loop_range now S _ _ log hv hS hlog
    · exact ⟨hv, hS, hlog⟩
  · exact StepTask.loop_range now S _ t log hv hS hlog

theorem StepTask.run_range (S : Nat) (nows : List Nat) :
    ∀ (t : StepTask) (log : List Nat), t.Valid → t.Steps = S → (∀ s ∈ log, s < S) →
      (StepTask.run t log nows).1.Valid ∧ (StepTask.run t log nows).1.Steps = S ∧
      ∀ s ∈ (StepTask.run t log nows).2, s < S := by
  induction nows with
  | nil => intro t log hv hS hlog; exact ⟨hv, hS, hlog⟩
  | cons now rest ih =>
    intro t log hv hS hlog
    rw [StepTask.run_cons]
    obtain ⟨a, b, c⟩ := StepTask.tick_range now S t log hv hS hlog
    exact ih _ _ a b c

/-- C31. The step index is in range. Let a `ScheduledTask<Steps>` be in a state that its
constructors establish (`Steps > 0`, cursor below `Steps`, no duration vector or one of
`Steps` entries) and let `table` be any table of at least `Steps` entries. After every
sequence of `tick` calls the state is again such a state, the cursor is below `Steps`,
every index passed to the callback is below `Steps` and so addresses an entry of
`table`, and when there is a duration vector the cursor addresses one of its entries,
which is the duration `current_step_duration` returns. All three constructors establish
such a state, and the light show task has as many steps as `Setting.Lights` has
entries. -/
theorem StepTask.step_in_range (t : StepTask) (log nows table : List Nat)
    (hv : t.Valid) (hlog : ∀ s ∈ log, s < t.Steps) (htable : t.Steps ≤ table.length) :
    (StepTask.run t log nows).1.Valid ∧
    (StepTask.run t log nows).1.Steps = t.Steps ∧
    (StepTask.run t log nows).1.cur_step < t.Steps ∧
    (∀ s ∈ (StepTask.run t log nows).2, s < t.Steps) ∧
    (∀ s ∈ (StepTask.run t log nows).2, ∃ x, table[s]? = some x) ∧
    ((StepTask.run t log nows).1.step_durations ≠ [] →
      (StepTask.run t log nows).1.cur_step <
          (StepTask.run t log nows).1.step_durations.length ∧
        (StepTask.run t log nows).1.step_durations[(StepTask.run t log nows).1.cur_step]? =
          some (StepTask.run t log nows).1.current_step_duration) ∧
    (∀ (S P D m : Nat) (durs : List Nat), 1 ≤ S → durs.length = S →
      (StepTask.averaged S P m).Valid ∧ (StepTask.delayed S D P m).Valid ∧
        (StepTask.custom S durs D m).Valid) ∧
    lightShow.Steps = Lights.length := by
  obtain ⟨a, b, c⟩ := StepTask.run_range t.Steps nows t log hv rfl hlog
  refine ⟨a, b, ?_, c, ?_, (StepTask.valid_duration _ a).2,
    fun S P D m durs hS hlen => StepTask.valid_ctor S P D m durs hS hlen, rfl⟩
  · have := a.2.1
    rw [b] at this
    exact this
  · intro s hs
    have hlt : s < table.length := Nat.lt_of_lt_of_le (c s hs) htable
    exact ⟨table[s], List.getElem?_eq_getElem hlt⟩

/-- Witness of C31: the light show task, registered at tick 0 and ticked at 80, 160 and
2000, passes the indices 0 to 19 to its callback, each of which addresses an entry of
`Setting.Lights`. -/
theorem StepTask.step_in_range_witness :
    (StepTask.run lightShow [] [80, 160, 2000]).2 = List.range 20 ∧
    (∀ s ∈ (StepTask.run lightShow [] [80, 160, 2000]).2, ∃ x, Lights[s]? = some x) :=
  ⟨by decide,
    (StepTask.step_in_range lightShow [] [80, 160, 2000] Lights (by decide)
      (fun s hs => absurd hs (List.not_mem_nil s)) (by decide)).2.2.2.2.1⟩

/-! ## Termination of the catch-up loop -/

theorem StepTask.loop_valid {σ : Type} (fire : Nat → σ → σ) (now fuel : Nat) (t : StepTask)
    (w : σ) (hv : t.Valid) : (StepTask.loop fire now fuel t w).1.Valid := by
  refine StepTask.loop_rule fire now (fun u _ => u.Valid) ?_ fuel t w hv
  intro u _ ⟨h1, h2, h3⟩ _ _
  exact ⟨fun _ => ⟨h1, h2, h3⟩, fun _ => ⟨h1, Nat.mod_lt _ h1, h3⟩⟩

theorem StepTask.loop_measure {σ : Type} (fire : Nat → σ → σ) (now : Nat) :
    ∀ (fuel : Nat) (t : StepTask) (w : σ), t.Valid → sub32 now t.last_tick_ms ≤ fuel →
      ∀ fuel2, sub32 now t.last_tick_ms ≤ fuel2 →
        StepTask.loop fire now fuel t w = StepTask.loop fire now fuel2 t w := by
  intro fuel
  induction fuel with
  | zero =>
    intro t w hv h fuel2 _
    have hpos := (StepTask.valid_duration t hv).1
    have hidle : ¬ (t.run_count < t.max_runs ∧
        t.current_step_duration ≤ sub32 now t.last_tick_ms) := by
      intro hc
      omega
    rw [StepTask.loop_idle fire now 0 t w hidle, StepTask.loop_idle fire now fuel2 t w hidle]
  | succ fuel ih =>
    intro t w hv h fuel2 h2
    have hpos := (StepTask.valid_duration t hv).1
    cases fuel2 with
    | zero =>
      have hidle : ¬ (t.run_count < t.max_runs ∧
          t.current_step_duration ≤ sub32 now t.last_tick_ms) := by
        intro hc
        omega
      rw [StepTask.loop_idle fire now (fuel + 1) t w hidle,
        StepTask.loop_idle fire now 0 t w hidle]
    | succ f2 =>
      rw [StepTask.loop_succ, StepTask.loop_succ]
      split
      · rename_i hc
        split
        · rfl
        · have hsub := sub32_add32 now t.last_tick_ms t.current_step_duration hc.2
          apply ih
          · exact ⟨hv.1, Nat.mod_lt _ hv.1, hv.2.2⟩
          · show sub32 now (add32 t.last_tick_ms t.current_step_duration) ≤ fuel
            rw [hsub]
            omega
          · show sub32 now (add32 t.last_tick_ms t.current_step_duration) ≤ f2
            rw [hsub]
            omega
      · rfl

theorem StepTask.loop_fired (now : Nat) :
    ∀ (fuel : Nat) (t : StepTask) (log : List Nat),
      ∃ fired : List Nat, (StepTask.loop record now fuel t log).2 = log ++ fired ∧
        fired.length ≤ fuel := by
  intro fuel
  induction fuel with
  | zero => intro t log; exact ⟨[], by simp [StepTask.loop], Nat.le_refl _⟩
  | succ fuel ih =>
    intro t log
    rw [StepTask.loop_succ]
    split
    · split
      · exact ⟨[t.cur_step], rfl, by simp⟩
      · obtain ⟨fired, h1, h2⟩ := ih
          { t with last_tick_ms := add32 t.last_tick_ms t.current_step_duration,
                   run_count := add32 t.run_count 1,
                   cur_step := ((t.cur_step + 1) % SIZE_MOD) % t.Steps }
          (record t.cur_step log)
        refine ⟨t.cur_step :: fired, ?_, by simp; omega⟩
        rw [h1]
        unfold record
        simp
    · exact ⟨[], by simp, Nat.zero_le _⟩

theorem StepTask.drain_terminates (now : Nat) (t : StepTask) (log : List Nat)
    (hv : t.Valid) (hmax : t.max_runs < U32) :
    (∀ fuel, sub32 now t.last_tick_ms ≤ fuel →
      StepTask.loop record now fuel t log = StepTask.drain record now t log) ∧
    ∃ fired : List Nat, (StepTask.drain record now t log).2 = log ++ fired ∧
      fired.length ≤ sub32 now t.last_tick_ms ∧ fired.length ≤ t.max_runs - t.run_count := by
  have hfuel : ∀ fuel, sub32 now t.last_tick_ms ≤ fuel →
      StepTask.loop record now fuel t log = StepTask.drain record now t log := by
    intro fuel hf
    rw [← StepTask.loop_enough record now (max fuel (t.max_runs - t.run_count)) t log
      (Nat.le_max_right _ _) hmax]
    exact StepTask.loop_measure record now fuel t log hv hf _
      (Nat.le_trans hf (Nat.le_max_left _ _))
  refine ⟨hfuel, ?_⟩
  obtain ⟨f1, a1, b1⟩ := StepTask.loop_fired now (sub32 now t.last_tick_ms) t log
  obtain ⟨f2, a2, b2⟩ := StepTask.loop_fired now (t.max_runs - t.run_count) t log
  rw [hfuel _ (Nat.le_refl _)] at a1
  have a3 : (StepTask.drain record now t log).2 = log ++ f2 := a2
  have hf : f1 = f2 := List.append_cancel_left (a1.symm.trans a3)
  exact ⟨f1, a1, b1, by rw [hf]; exact b2⟩

/-- C32. The catch-up loop terminates. Let a `ScheduledTask<Steps>` be in a state that its
constructors establish, with any run limit and any counters, and let `now` be any tick
value, before or after `last_tick_ms`. Then `tick(now)` returns in such a state again,
having invoked the callback finitely often: at most `max_runs - run_count` times and
fewer than `2^32` times, for a started task at most as many times as the 32-bit
difference `now - last_tick_ms`. The duration of the current step is at least 1; each
pass through the loop body takes that duration from the 32-bit difference without
wrapping it, so the difference strictly decreases and as many passes as the difference
are enough to leave the loop. On return the run limit is reached or the difference is
below the duration of the current step. For instance a task limited to 3 runs whose
`last_tick_ms = 10` lies ahead of `now = 5` fires three times and finishes. -/
theorem StepTask.tick_terminates (now : Nat) (t : StepTask) (log : List Nat)
    (hv : t.Valid) (hmax : t.max_runs < U32) :
    (StepTask.tick record now t log).1.Valid ∧
    1 ≤ t.current_step_duration ∧
    (t.current_step_duration ≤ sub32 now t.last_tick_ms →
      sub32 now (add32 t.last_tick_ms t.current_step_duration) + t.current_step_duration =
          sub32 now t.last_tick_ms ∧
        sub32 now (add32 t.last_tick_ms t.current_step_duration) <
          sub32 now t.last_tick_ms) ∧
    (∀ fuel, sub32 now t.last_tick_ms ≤ fuel →
      StepTask.loop record now fuel t log = StepTask.drain record now t log) ∧
    (∃ fired : List Nat, (StepTask.tick record now t log).2 = log ++ fired ∧
      fired.length ≤ t.max_runs - t.run_count ∧ fired.length < U32 ∧
      (t.started = true → fired.length ≤ sub32 now t.last_tick_ms)) ∧
    ((StepTask.tick record now t log).1.started = true →
      (StepTask.tick record now t log).1.max_runs ≤
          (StepTask.tick record now t log).1.run_count ∨
        sub32 now (StepTask.tick record now t log).1.last_tick_ms <
          (StepTask.tick record now t log).1.current_step_duration) ∧
    (StepTask.tick record 5 { StepTask.averaged 2 20 3 with last_tick_ms := 10 } []).2 =
      [0, 1, 0] ∧
    (StepTask.tick record 5 { StepTask.averaged 2 20 3 with last_tick_ms := 10 }
      []).1.finished = true := by
  have hpos := (StepTask.valid_duration t hv).1
  refine ⟨?_, hpos, ?_, (StepTask.drain_terminates now t log hv hmax).1, ?_, ?_,
    by decide, by decide⟩
  · unfold StepTask.tick
    split
    · split
      · exact StepTask.loop_valid record now _ _ log hv
      · exact hv
    · exact StepTask.loop_valid record now _ t log hv
  · intro hc
    have hsub := sub32_add32 now t.last_tick_ms t.current_step_duration hc
    rw [hsub]
    omega
  · cases hst : t.started with
    | true =>
      have htick : StepTask.tick record now t log = StepTask.drain record now t log := by
        unfold StepTask.tick
        rw [hst]
        rfl
      rw [htick]
      obtain ⟨fired, h1, h2, h3⟩ := (StepTask.drain_terminates now t log hv hmax).2
      have := sub32_lt now t.last_tick_ms
      exact ⟨fired, h1, h3, by omega, fun _ => h2⟩
    | false =>
      by_cases hd : t.initial_delay_ms ≤ sub32 now t.last_tick_ms
      · have htick : StepTask.tick record now t log = StepTask.drain record now
            { t with last_tick_ms := add32 t.last_tick_ms t.initial_delay_ms,
                     started := true } log := by
          unfold StepTask.tick
          rw [hst]
          simp only [Bool.not_false, if_true, if_pos hd]
        rw [htick]
        obtain ⟨fired, h1, h2, h3⟩ := (StepTask.drain_terminates now
          { t with last_tick_ms := add32 t.last_tick_ms t.initial_delay_ms, started := true }
          log hv hmax).2
        have := sub32_lt now (add32 t.last_tick_ms t.initial_delay_ms)
        have h2b : fired.length ≤ sub32 now (add32 t.last_tick_ms t.initial_delay_ms) := h2
        exact ⟨fired, h1, h3, by omega, fun h => by cases h⟩
      · have htick : StepTask.tick record now t log = (t, log) := by
          unfold StepTask.tick
          rw [hst]
          simp only [Bool.not_false, if_true, if_neg hd]
        rw [htick]
        have hU := U32_eq
        exact ⟨[], by simp, Nat.zero_le _, by simp; omega, fun _ => Nat.zero_le _⟩
  · intro hst2
    have key : ∀ u : StepTask, u.max_runs = t.max_runs →
        (StepTask.drain record now u log).1.max_runs ≤
            (StepTask.drain record now u log).1.run_count ∨
          sub32 now (StepTask.drain record now u log).1.last_tick_ms <
            (StepTask.drain record now u log).1.current_step_duration := by
      intro u hu
      exact StepTask.loop_exit record now _ u log (Nat.le_refl _) (by rw [hu]; exact hmax)
    cases hst : t.started with
    | true =>
      have htick : StepTask.tick record now t log = StepTask.drain record now t log := by
        unfold StepTask.tick
        rw [hst]
        rfl
      rw [htick]
      exact key t rfl
    | false =>
      by_cases hd : t.initial_delay_ms ≤ sub32 now t.last_tick_ms
      · have htick : StepTask.tick record now t log = StepTask.drain record now
            { t with last_tick_ms := add32 t.last_tick_ms t.initial_delay_ms,
                     started := true } log := by
          unfold StepTask.tick
          rw [hst]
          simp only [Bool.not_false, if_true, if_pos hd]
        rw [htick]
        exact key _ rfl
      · have htick : StepTask.tick record now t log = (t, log) := by
          unfold StepTask.tick
          rw [hst]
          simp only [Bool.not_false, if_true, if_neg hd]
        rw [htick] at hst2
        rw [hst] at hst2
        cases hst2

/-- Witness of C32: `ScheduledTask<2>(20, cb)` with the default run limit, ticked at
`now = 5` when `last_tick_ms = 4294967290`, so that the 32-bit difference is 11: the
callback is invoked at most once. -/
theorem StepTask.tick_terminates_witness :
    ∃ fired : List Nat,
      (StepTask.tick record 5
        { StepTask.averaged 2 20 INF_RUNS with last_tick_ms := 4294967290 } []).2 =
          [] ++ fired ∧
      fired.length ≤ 11 :=
  (StepTask.tick_terminates 5
    { StepTask.averaged 2 20 INF_RUNS with last_tick_ms := 4294967290 } [] (by decide)
    (by decide)).2.2.2.2.1.imp (fun _ h => ⟨h.1, h.2.2.2 rfl⟩)

/-! ## The single-step specialization fires at most once per call -/

theorem SingleTask.dur_pos (t : SingleTask) : 1 ≤ t.dur := by
  unfold SingleTask.dur
  by_cases h1 : 0 < t.single_step_duration
  · by_cases h2 : t.single_step_duration = 0
    · omega
    · simp [h1, h2]
      omega
  · by_cases h2 : t.period_ms = 0
    · simp [h1, h2]
    · simp [h1, h2]
      omega

theorem SingleTask.fireOnce_once {σ : Type} (fire : Nat → σ → σ) (now : Nat) (t : SingleTask)
    (w : σ) :
    (SingleTask.fireOnce fire now t w).1.started = t.started ∧
    (((SingleTask.fireOnce fire now t w).2 = w ∧
        (SingleTask.fireOnce fire now t w).1.last_tick_ms = t.last_tick_ms) ∨
      ((SingleTask.fireOnce fire now t w).2 = fire 0 w ∧
        (SingleTask.fireOnce fire now t w).1.last_tick_ms = add32 t.last_tick_ms t.dur ∧
        t.run_count < t.max_runs ∧ t.dur ≤ sub32 now t.last_tick_ms)) := by
  rw [SingleTask.fireOnce_eq]
  split
  · rename_i hc
    split
    · exact ⟨rfl, Or.inr ⟨rfl, rfl, hc.1, hc.2⟩⟩
    · exact ⟨rfl, Or.inr ⟨rfl, rfl, hc.1, hc.2⟩⟩
  · exact ⟨rfl, Or.inl ⟨rfl, rfl⟩⟩

/-- C33. The single-step specialization fires at most once per call. For every state of a
`ScheduledTask<1>` (the type `makeTask` builds), every `now` and every callback, one
`tick(now)` leaves the outside world as it was or as one invocation of the callback
leaves it, and it advances `last_tick_ms` (32-bit sum) by nothing, by the initial delay,
by one `dur` or by both, so by at most the initial delay plus `dur`; `dur` is
`max(1, period_ms)` because `single_step_duration` is 0 in every task the constructors
build. When a started task below its run limit is ticked with `dur` or more elapsed,
whatever the backlog, the callback is invoked once and the 32-bit difference
`now - last_tick_ms` shrinks by `dur` only: the rest is left for later calls. -/
theorem SingleTask.tick_fires_once {σ : Type} (fire : Nat → σ → σ) (now : Nat)
    (t : SingleTask) (w : σ) (hlast : t.last_tick_ms < U32) :
    ((SingleTask.tick fire now t w).2 = w ∨ (SingleTask.tick fire now t w).2 = fire 0 w) ∧
    (∃ delta, delta ≤ (if t.started then 0 else t.initial_delay_ms) + t.dur ∧
      (SingleTask.tick fire now t w).1.last_tick_ms = add32 t.last_tick_ms delta) ∧
    (t.single_step_duration = 0 → t.dur = max 1 t.period_ms) ∧
    (∀ D P m, (SingleTask.periodic P m).single_step_duration = 0 ∧
      (SingleTask.delayed D P m).single_step_duration = 0) ∧
    (t.started = true → t.run_count < t.max_runs → t.dur ≤ sub32 now t.last_tick_ms →
      (SingleTask.tick fire now t w).2 = fire 0 w ∧
      (SingleTask.tick fire now t w).1.last_tick_ms = add32 t.last_tick_ms t.dur ∧
      sub32 now (SingleTask.tick fire now t w).1.last_tick_ms =
        sub32 now t.last_tick_ms - t.dur) := by
  have hU := U32_eq
  have hzero : add32 t.last_tick_ms 0 = t.last_tick_ms := by
    have hl : t.last_tick_ms < 4294967296 := by rw [← hU]; exact hlast
    unfold add32
    rw [hU]
    omega
  refine ⟨?_, ?_, ?_, fun _ _ _ => ⟨rfl, rfl⟩, ?_⟩
  · unfold SingleTask.tick
    split
    · split
      · rcases (SingleTask.fireOnce_once fire now
          { t with last_tick_ms := add32 t.last_tick_ms t.initial_delay_ms, started := true }
          w).2 with h | h
        · exact Or.inl h.1
        · exact Or.inr h.1
      · exact Or.inl rfl
    · rcases (SingleTask.fireOnce_once fire now t w).2 with h | h
      · exact Or.inl h.1
      · exact Or.inr h.1
  · cases hst : t.started with
    | true =>
      have htick : SingleTask.tick fire now t w = SingleTask.fireOnce fire now t w := by
        unfold SingleTask.tick
        rw [hst]
        rfl
      rw [htick]
      rcases (SingleTask.fireOnce_once fire now t w).2 with h | h
      · exact ⟨0, by simp, by rw [h.2, hzero]⟩
      · exact ⟨t.dur, by simp, h.2.1⟩
    | false =>
      by_cases hd : t.initial_delay_ms ≤ sub32 now t.last_tick_ms
      · have htick : SingleTask.tick fire now t w = SingleTask.fireOnce fire now
            { t with last_tick_ms := add32 t.last_tick_ms t.initial_delay_ms,
                     started := true } w := by
          unfold SingleTask.tick
          rw [hst]
          simp only [Bool.not_false, if_true, if_pos hd]
        rw [htick]
        rcases (SingleTask.fireOnce_once fire now
          { t with last_tick_ms := add32 t.last_tick_ms t.initial_delay_ms, started := true }
          w).2 with h | h
        · refine ⟨t.initial_delay_ms, by simp, ?_⟩
          rw [h.2]
        · refine ⟨t.initial_delay_ms + t.dur, by simp, ?_⟩
          rw [h.2.1]
          show add32 (add32 t.last_tick_ms t.initial_delay_ms) t.dur =
            add32 t.last_tick_ms (t.initial_delay_ms + t.dur)
          unfold add32
          rw [hU]
          omega
      · have htick : SingleTask.tick fire now t w = (t, w) := by
          unfold SingleTask.tick
          rw [hst]
          simp only [Bool.not_false, if_true, if_neg hd]
        rw [htick]
        exact ⟨0, Nat.zero_le _, hzero.symm⟩
  · intro h0
    unfold SingleTask.dur
    rw [h0]
    simp only [Nat.lt_irrefl, if_false]
    by_cases hp : t.period_ms = 0
    · rw [hp]
      rfl
    · have : (t.period_ms == 0) = false := by simpa using hp
      rw [this]
      simp only [Bool.false_eq_true, if_false]
      omega
  · intro hst hrun hdur
    have htick : SingleTask.tick fire now t w = SingleTask.fireOnce fire now t w := by
      unfold SingleTask.tick
      rw [hst]
      rfl
    rw [htick]
    rcases (SingleTask.fireOnce_once fire now t w).2 with h | h
    · exfalso
      have hf := SingleTask.fireOnce_eq fire now t w
      rw [if_pos ⟨hrun, hdur⟩] at hf
      have hl := h.2
      rw [hf] at hl
      have hl2 : add32 t.last_tick_ms t.dur = t.last_tick_ms := by
        split at hl <;> exact hl
      have hs := sub32_add32 now t.last_tick_ms t.dur hdur
      rw [hl2] at hs
      have hpos := SingleTask.dur_pos t
      omega
    · exact ⟨h.1, h.2.1, by rw [h.2.1]; exact sub32_add32 now t.last_tick_ms t.dur hdur⟩

/-- Witness of C33: `makeTask(10, cb)` registered at tick 0 and ticked 35 ms late invokes
the callback once and ends with `last_tick_ms = 10`, 25 ms behind `now`. -/
theorem SingleTask.tick_fires_once_witness :
    (SingleTask.tick record 35 (SingleTask.periodic 10 INF_RUNS) []).2 = [0] ∧
    (SingleTask.tick record 35 (SingleTask.periodic 10 INF_RUNS) []).1.last_tick_ms = 10 ∧
    sub32 35 (SingleTask.tick record 35 (SingleTask.periodic 10 INF_RUNS) []).1.last_tick_ms =
      25 :=
  ⟨(SingleTask.tick_fires_once record 35 (SingleTask.periodic 10 INF_RUNS) [] (by decide)).2.2.2.2
      rfl (by decide) (by decide) |>.1,
    by decide, by decide⟩

/-! ## A run limit of zero -/

theorem StepTask.tick_never {σ : Type} (fire : Nat → σ → σ) (now : Nat) (t : StepTask)
    (w : σ) (h : t.max_runs = 0) :
    (StepTask.tick fire now t w).2 = w ∧
    (StepTask.tick fire now t w).1.finished_flag = t.finished_flag ∧
    (StepTask.tick fire now t w).1.max_runs = 0 ∧
    (StepTask.tick fire now t w).1.task_id = t.task_id := by
  have hidle : ∀ u : StepTask, u.max_runs = 0 → StepTask.drain fire now u w = (u, w) := by
    intro u hu
    unfold StepTask.drain
    exact StepTask.loop_idle fire now _ u w (by rw [hu]; intro hc; omega)
  unfold StepTask.tick
  split
  · split
    · rw [hidle { t with last_tick_ms := add32 t.last_tick_ms t.initial_delay_ms,
                         started := true } h]
      exact ⟨rfl, rfl, h, rfl⟩
    · exact ⟨rfl, rfl, h, rfl⟩
  · rw [hidle t h]
    exact ⟨rfl, rfl, h, rfl⟩

theorem SingleTask.single_tick_never {σ : Type} (fire : Nat → σ → σ) (now : Nat)
    (t : SingleTask) (w : σ) (h : t.max_runs = 0) :
    (SingleTask.tick fire now t w).2 = w ∧
    (SingleTask.tick fire now t w).1.finished_flag = t.finished_flag ∧
    (SingleTask.tick fire now t w).1.max_runs = 0 ∧
    (SingleTask.tick fire now t w).1.task_id = t.task_id := by
  have hidle : ∀ u : SingleTask, u.max_runs = 0 →
      SingleTask.fireOnce fire now u w = (u, w) := by
    intro u hu
    rw [SingleTask.fireOnce_eq, if_neg (by rw [hu]; intro hc; omega)]
  unfold SingleTask.tick
  split
  · split
    · rw [hidle { t with last_tick_ms := add32 t.last_tick_ms t.initial_delay_ms,
                         started := true } h]
      exact ⟨rfl, rfl, h, rfl⟩
    · exact ⟨rfl, rfl, h, rfl⟩
  · rw [hidle t h]
    exact ⟨rfl, rfl, h, rfl⟩

theorem StepTask.run_never (nows : List Nat) :
    ∀ (t : StepTask) (log : List Nat), t.max_runs = 0 →
      (StepTask.run t log nows).2 = log ∧
      (StepTask.run t log nows).1.finished = t.finished ∧
      (StepTask.run t log nows).1.max_runs = 0 := by
  induction nows with
  | nil => intro t log h; exact ⟨rfl, rfl, h⟩
  | cons now rest ih =>
    intro t log h
    rw [StepTask.run_cons]
    obtain ⟨a, b, c, _⟩ := StepTask.tick_never record now t log h
    obtain ⟨x, y, z⟩ := ih (StepTask.tick record now t log).1 (StepTask.tick record now t log).2 c
    exact ⟨x.trans a, y.trans b, z⟩

theorem SingleTask.single_run_never (nows : List Nat) :
    ∀ (t : SingleTask) (log : List Nat), t.max_runs = 0 →
      (SingleTask.run t log nows).2 = log ∧
      (SingleTask.run t log nows).1.finished = t.finished ∧
      (SingleTask.run t log nows).1.max_runs = 0 := by
  induction nows with
  | nil => intro t log h; exact ⟨rfl, rfl, h⟩
  | cons now rest ih =>
    intro t log h
    rw [SingleTask.single_run_cons]
    obtain ⟨a, b, c, _⟩ := SingleTask.single_tick_never record now t log h
    obtain ⟨x, y, z⟩ := ih (SingleTask.tick record now t log).1
      (SingleTask.tick record now t log).2 c
    exact ⟨x.trans a, y.trans b, z⟩

theorem Task.task_tick_never (now : Nat) (t : Task) (w : World) (h : t.st.NeverRuns) :
    (t.tick now w).2 = w ∧ (t.tick now w).1.st.NeverRuns ∧
    (t.tick now w).1.st.task_id = t.st.task_id ∧ (t.tick now w).1.cb = t.cb := by
  obtain ⟨st, cb⟩ := t
  cases st with
  | step s =>
    have hm : s.max_runs = 0 := h.1
    have hf : s.finished_flag = false := h.2
    obtain ⟨a, b, c, d⟩ := StepTask.tick_never (fireCb cb s.task_id) now s w hm
    exact ⟨a, ⟨c, b.trans hf⟩, d, rfl⟩
  | single s =>
    have hm : s.max_runs = 0 := h.1
    have hf : s.finished_flag = false := h.2
    obtain ⟨a, b, c, d⟩ := SingleTask.single_tick_never (fireCb cb s.task_id) now s w hm
    exact ⟨a, ⟨c, b.trans hf⟩, d, rfl⟩

theorem Scheduler.visit_kept (now i j id : Nat) (cb : Nat → Prog) (w : World)
    (hrun : w.sched.in_run = true)
    (h : ∃ t1 : Task, w.sched.tasks.getD j none = some t1 ∧ t1.st.NeverRuns ∧
      t1.st.task_id = id ∧ t1.cb = cb) :
    ∃ t1 : Task, (Scheduler.visit now i w).sched.tasks.getD j none = some t1 ∧
      t1.st.NeverRuns ∧ t1.st.task_id = id ∧ t1.cb = cb := by
  obtain ⟨t1, h1, h2, h3, h4⟩ := h
  cases hi : w.sched.tasks.getD i none with
  | none =>
    have hv : Scheduler.visit now i w = w := by
      unfold Scheduler.visit
      rw [hi]
    rw [hv]
    exact ⟨t1, h1, h2, h3, h4⟩
  | some ti =>
    cases hc : w.sched.pending_remove.contains ti.st.task_id with
    | true =>
      have hv : Scheduler.visit now i w = w := by
        unfold Scheduler.visit
        rw [hi]
        simp only [hc, if_true]
      rw [hv]
      exact ⟨t1, h1, h2, h3, h4⟩
    | false =>
      obtain ⟨w1, hw1⟩ : ∃ w1 : World, w1 =
          { w with sched := { w.sched with current_task := ti.st.task_id },
                   log := w.log ++ [Event.tick i ti.st.task_id] } := ⟨_, rfl⟩
      have hrun1 : w1.sched.in_run = true := by rw [hw1]; exact hrun
      have htasks1 : w1.sched.tasks = w.sched.tasks := by rw [hw1]
      have hv := (Scheduler.visit_eq now i w ti hi hc w1 hw1).2.1
      have hkeep := (Task.tick_marks now ti w1 hrun1).2.1
      rw [hv, hkeep, htasks1]
      by_cases hij : i = j
      · subst hij
        have hti : ti = t1 := Option.some.inj (hi.symm.trans h1)
        rw [getD_set_self _ _ _ (getD_some_lt _ _ _ hi), hti]
        obtain ⟨_, b, c, d⟩ := Task.task_tick_never now t1 w1 h2
        exact ⟨_, rfl, b, c.trans h3, d.trans h4⟩
      · rw [getD_set_ne _ _ _ _ hij]
        exact ⟨t1, h1, h2, h3, h4⟩

theorem Scheduler.pass_kept (now j id : Nat) (cb : Nat → Prog) :
    ∀ (n i : Nat) (w : World), w.sched.in_run = true →
      (∃ t1 : Task, w.sched.tasks.getD j none = some t1 ∧ t1.st.NeverRuns ∧
        t1.st.task_id = id ∧ t1.cb = cb) →
      ∃ t1 : Task, (Scheduler.pass now n i w).sched.tasks.getD j none = some t1 ∧
        t1.st.NeverRuns ∧ t1.st.task_id = id ∧ t1.cb = cb := by
  intro n
  induction n with
  | zero => intro i w _ h; exact h
  | succ n ih =>
    intro i w hrun h
    unfold Scheduler.pass
    split
    · exact ih (i + 1) _ (Scheduler.visit_length now i w hrun).1
        (Scheduler.visit_kept now i j id cb w hrun h)
    · exact h

/-- C34, counterexample. A task created with `max_runs = 0` and a task limited to one
run are registered under the same identifier 7; no callback calls `removeTask` and
`clearAll` is not called. In `runOnce` at `now = 1` the first is ticked without firing,
the second fires its only run and finishes, and when `runOnce` returns the active
collection is empty: the scheduler has removed the task that never runs. -/
theorem Scheduler.zero_limit_counterexample :
    zeroTwins.sched.tasks.map (fun t => t.map (fun x => (x.st.task_id, x.st.max_runs))) =
      [some (7, 0), some (7, 1)] ∧
    (Scheduler.runOnce zeroTwins 1).log = [Event.tick 0 7, Event.tick 1 7, Event.fire 7 0] ∧
    (Scheduler.passEnd zeroTwins 1).sched.tasks.map
        (fun t => t.map (fun x => x.st.finished)) = [some false, some true] ∧
    (Scheduler.runOnce zeroTwins 1).sched.tasks.length = 0 := by
  decide

/-- C34, amended. A run limit of zero yields a task that never fires and never finishes,
and that a pass removes only by its identifier. For both task classes and every
sequence of `tick` calls on a task with `max_runs = 0`, no callback invocation is
recorded and `finished()` keeps its value, which is false after every constructor. In
a scheduler between public calls, let position `i` hold such a task: after the loop of
`runOnce` the position holds the task with the same identifier and callback, its run
limit still zero and `finished()` still false, and its `tick` left the world
untouched; when `runOnce` returns the task is in the active collection, unless a
callback of the pass passed its identifier to `removeTask` or another position holds a
task with the same identifier that finished in the pass. -/
theorem Scheduler.zero_limit_stays (w : World) (now i : Nat) (t : Task) (st : StepTask)
    (u : SingleTask) (log nows : List Nat)
    (hidle : w.sched.Idle) (hlog : w.log = [])
    (ht : w.sched.tasks.getD i none = some t) (hz : t.st.NeverRuns)
    (hst : st.max_runs = 0) (hu : u.max_runs = 0) :
    ((StepTask.run st log nows).2 = log ∧
      (StepTask.run st log nows).1.finished = st.finished) ∧
    ((SingleTask.run u log nows).2 = log ∧
      (SingleTask.run u log nows).1.finished = u.finished) ∧
    (∀ (S P D : Nat) (durs : List Nat),
      (StepTask.averaged S P 0).finished = false ∧
      (StepTask.delayed S D P 0).finished = false ∧
      (StepTask.custom S durs D 0).finished = false ∧
      (SingleTask.periodic P 0).finished = false ∧
      (SingleTask.delayed D P 0).finished = false) ∧
    (∀ x : World, (t.tick now x).2 = x) ∧
    ∃ t1 : Task, (Scheduler.passEnd w now).sched.tasks.getD i none = some t1 ∧
      t1.st.NeverRuns ∧ t1.st.task_id = t.st.task_id ∧ t1.cb = t.cb ∧
      (some t1 ∈ (Scheduler.runOnce w now).sched.tasks ∨
        (t.st.task_id ≠ UINT32_MAX ∧
          Event.removeCalled t.st.task_id ∈ (Scheduler.passEnd w now).log) ∨
        ∃ k v, k ≠ i ∧ Event.tick k t.st.task_id ∈ (Scheduler.passEnd w now).log ∧
          (Scheduler.passEnd w now).sched.tasks.getD k none = some v ∧
          v.st.finished = true) := by
  obtain ⟨a1, a2, _⟩ := StepTask.run_never nows st log hst
  obtain ⟨b1, b2, _⟩ := SingleTask.single_run_never nows u log hu
  refine ⟨⟨a1, a2⟩, ⟨b1, b2⟩, fun _ _ _ _ => ⟨rfl, rfl, rfl, rfl, rfl⟩,
    fun x => (Task.task_tick_never now t x hz).1, ?_⟩
  obtain ⟨h1, h2, h3, h4⟩ := hidle
  have hstart := Scheduler.passStart_inv w hlog
  have hJK := Scheduler.pass_marks now w.sched.tasks.length 0
    { w with sched := { w.sched with in_run := true } } hstart
    (by
      intro k id v hm
      have hm2 : Event.tick k id ∈ w.log := hm
      rw [hlog] at hm2
      cases hm2)
    (by
      intro id hid
      have hid2 : id ∈ w.sched.pending_remove := hid
      rw [h3] at hid2
      cases hid2)
  have hK : Scheduler.MarkedJustified (Scheduler.passEnd w now) := hJK.2
  obtain ⟨t1, c1, c2, c3, c4⟩ := Scheduler.pass_kept now i t.st.task_id t.cb
    w.sched.tasks.length 0 { w with sched := { w.sched with in_run := true } } rfl
    ⟨t, ht, hz, rfl, rfl⟩
  have c1b : (Scheduler.passEnd w now).sched.tasks.getD i none = some t1 := c1
  refine ⟨t1, c1b, c2, c3, c4, ?_⟩
  have hmem : some t1 ∈ (Scheduler.passEnd w now).sched.tasks := by
    rw [← c1b]
    exact getD_mem_of_lt _ _ (getD_some_lt _ _ _ c1b)
  by_cases hin : t.st.task_id ∈ (Scheduler.passEnd w now).sched.pending_remove
  · right
    rcases hK _ hin with h | ⟨k, v, e1, e2, e3⟩
    · exact Or.inl h
    · refine Or.inr ⟨k, v, ?_, e1, e2, e3⟩
      intro hki
      rw [hki, c1b] at e2
      have : t1 = v := Option.some.inj e2
      rw [← this, c2.2] at e3
      cases e3
  · left
    rw [(Scheduler.runOnce_tasks w now).1]
    apply List.mem_append_left
    have hflag : TaskPtr.flagged (Scheduler.passEnd w now).sched.pending_remove (some t1) =
        false := by
      show List.contains _ t1.st.task_id = false
      rw [c3]
      simpa using hin
    split
    · exact hmem
    · exact List.mem_filter.2 ⟨hmem, by rw [hflag]; rfl⟩

/-- Witness of the amended C34: a task created with `max_runs = 0` (identifier 1) next to
a task limited to one run (identifier 2). After `runOnce` at `now = 1` the second has
fired and is gone, the first is still there. -/
theorem Scheduler.zero_limit_stays_witness :
    (Scheduler.runOnce zeroAndOnce 1).sched.tasks.map TaskPtr.id = [some 1] ∧
    (Scheduler.runOnce zeroAndOnce 1).log =
      [Event.tick 0 1, Event.tick 1 2, Event.fire 2 0] ∧
    ∀ x : World,
      (Task.tick 1 { st := (TaskState.single (SingleTask.periodic 1 0)).setId 1, cb := idleCb }
        x).2 = x :=
  ⟨by decide, by decide,
    (Scheduler.zero_limit_stays zeroAndOnce 1 0
      { st := (TaskState.single (SingleTask.periodic 1 0)).setId 1, cb := idleCb }
      (StepTask.averaged 2 20 0) (SingleTask.periodic 1 0) [] [1, 2]
      ⟨rfl, rfl, rfl, no_null_of_ids _ (by decide)⟩ rfl rfl ⟨rfl, rfl⟩ rfl rfl).2.2.2.1⟩

/-! ## Bounds of the filter output -/

theorem sorted_asc_outside (s : List Nat) (hs : s.Sorted (fun x y => x ≤ y))
    (h4 : 4 ≤ s.length) (v : Nat) (hv : v ∈ s) (hne : ∀ j, j < 4 → v ≠ s.getD j 0) :
    s.getD 3 0 < v := by
  obtain ⟨i, hi, hiv⟩ := List.getElem_of_mem hv
  have h3 : s.getD 3 0 = s[3] := List.getD_eq_getElem _ _ (by omega)
  by_cases hlt : i < 4
  · exfalso
    apply hne i hlt
    rw [List.getD_eq_getElem _ _ hi, hiv]
  · have hle : s[3] ≤ s[i] := List.pairwise_iff_getElem.1 hs 3 i (by omega) hi (by omega)
    have hn3 := hne 3 (by omega)
    rw [h3] at hn3 ⊢
    rw [hiv] at hle
    omega

theorem sorted_desc_outside (s : List Nat) (hs : s.Sorted (fun x y => y ≤ x))
    (h4 : 4 ≤ s.length) (v : Nat) (hv : v ∈ s) (hne : ∀ j, j < 4 → v ≠ s.getD j 0) :
    v < s.getD 3 0 := by
  obtain ⟨i, hi, hiv⟩ := List.getElem_of_mem hv
  have h3 : s.getD 3 0 = s[3] := List.getD_eq_getElem _ _ (by omega)
  by_cases hlt : i < 4
  · exfalso
    apply hne i hlt
    rw [List.getD_eq_getElem _ _ hi, hiv]
  · have hle : s[i] ≤ s[3] := List.pairwise_iff_getElem.1 hs 3 i (by omega) hi (by omega)
    have hn3 := hne 3 (by omega)
    rw [h3] at hn3 ⊢
    rw [hiv] at hle
    omega

theorem getD_take_four (s : List Nat) (j : Nat) (hj : j < 4) :
    (s.take 4).getD j 0 = s.getD j 0 := by
  simp [List.getD_eq_getElem?_getD, List.getElem?_take, hj]

theorem isMinMax_false (mins maxs : List Nat) (v : Nat) (h : isMinMax mins maxs v = false) :
    ∀ j, j < 4 → v ≠ mins.getD j 0 ∧ v ≠ maxs.getD j 0 := by
  intro j hj
  unfold isMinMax at h
  rw [List.any_eq_false] at h
  have := h j (List.mem_range.2 hj)
  simpa using this

/-- A sample that the second loop of `getFiltered` does not flag lies strictly between
the fourth entry of the ascending sort and the fourth entry of the descending sort of
the samples. -/
theorem survivor_between (samples : List Nat) (hlen : 4 ≤ samples.length)
    (hrange : ∀ x ∈ samples, x ≤ UINT16_MAX) (v : Nat) (hv : v ∈ samples)
    (hflag : isMinMax (selectExtremes samples).1 (selectExtremes samples).2 v = false) :
    (samples.insertionSort (fun x y => x ≤ y)).getD 3 0 < v ∧
    v < (samples.insertionSort (fun x y => y ≤ x)).getD 3 0 := by
  obtain ⟨e1, e2⟩ := selectExtremes_take samples hlen hrange
  have hne := isMinMax_false _ _ v hflag
  rw [e1, e2] at hne
  constructor
  · apply sorted_asc_outside _ (List.sorted_insertionSort _ _)
      (by rw [List.length_insertionSort]; exact hlen) v
      ((List.perm_insertionSort _ samples).mem_iff.2 hv)
    intro j hj
    have := (hne j hj).1
    rwa [getD_take_four _ j hj] at this
  · apply sorted_desc_outside _ (List.sorted_insertionSort _ _)
      (by rw [List.length_insertionSort]; exact hlen) v
      ((List.perm_insertionSort _ samples).mem_iff.2 hv)
    intro j hj
    have := (hne j hj).2
    rwa [getD_take_four _ j hj] at this

theorem weighted_bounds (wt : Nat → Nat) (lo hi W : Nat) (hW : W ≤ U64) :
    ∀ (vs : List Nat) (k : Nat), (∀ v ∈ vs, lo ≤ v ∧ v ≤ hi) →
      (∀ n, k ≤ n → n < k + vs.length → 1 ≤ wt n ∧ wt n < W) →
      lo * weightTotal wt k vs ≤ weightedTotal wt k vs ∧
      weightedTotal wt k vs ≤ hi * weightTotal wt k vs ∧
      vs.length ≤ weightTotal wt k vs ∧ weightTotal wt k vs ≤ W * vs.length := by
  intro vs
  induction vs with
  | nil => intro k _ _; simp [weightTotal, weightedTotal]
  | cons v rest ih =>
    intro k hv hw
    obtain ⟨a, b, c, d⟩ := ih (k + 1) (fun x hx => hv x (List.mem_cons_of_mem _ hx))
      (fun n h1 h2 => hw n (by omega) (by simp only [List.length_cons]; omega))
    obtain ⟨w1, w2⟩ := hw k (Nat.le_refl _) (by simp only [List.length_cons]; omega)
    obtain ⟨v1, v2⟩ := hv v (List.mem_cons_self _ _)
    have hmod : wt k % U64 = wt k := Nat.mod_eq_of_lt (Nat.lt_of_lt_of_le w2 hW)
    simp only [weightTotal, weightedTotal, hmod, List.length_cons]
    have m1 : lo * wt k ≤ v * wt k := Nat.mul_le_mul_right _ v1
    have m2 : v * wt k ≤ hi * wt k := Nat.mul_le_mul_right _ v2
    refine ⟨?_, ?_, by omega, ?_⟩
    · rw [Nat.mul_add]
      omega
    · rw [Nat.mul_add]
      omega
    · rw [Nat.mul_add]
      omega

theorem Buffer.read_last (b : Buffer Nat) (hN : b.N = 64) :
    b.read (-1) = b.read (Int.ofNat 63) ∧ b.read (-1) ∈ b.samples := by
  have hS := SIZE_MOD_eq
  have h : b.read (-1) = b.read (Int.ofNat 63) := by
    unfold Buffer.read Buffer.get Buffer.slot Buffer.slotOf toSizeT
    rw [hN, hS]
    have e1 : ((-1 : Int) % ((4294967296 : Nat) : Int)).toNat = 4294967295 := by decide
    have e2 : ((Int.ofNat 63) % ((4294967296 : Nat) : Int)).toNat = 63 := by decide
    rw [e1, e2]
    have e3 : (b.head + 64 + 4294967295) % 4294967296 % 64 =
        (b.head + 64 + 63) % 4294967296 % 64 := by omega
    rw [e3]
  refine ⟨h, ?_⟩
  rw [h]
  unfold Buffer.samples
  rw [hN]
  exact List.mem_map.2 ⟨63, List.mem_range.2 (by decide), rfl⟩

/-- C35. The filter output is bounded by the data. Let the 64-sample buffer hold any
16-bit samples and let the integer weights be positive and below `2^42` (the weights of
`getFiltered` are at most `1.1^63 + 0.5 < 406`). With `minVals`, `maxVals` the result
of the selection loop and `surv` the samples the second loop does not flag:
`getFiltered` returns a value `r` that is at least some sample and at most some sample
of the buffer. When `surv` is not empty, `r` is the quotient of the weighted sum by the
weight sum, it is greater than the fourth entry of the ascending sort of the samples
and smaller than the fourth entry of their descending sort. Both 64-bit sums are the
exact sums: nothing wraps. -/
theorem getFiltered_bounded (wt : Nat → Nat) (b : Buffer Nat) (mins maxs surv : List Nat)
    (hN : b.N = 64) (hrange : ∀ x ∈ b.buffer, x ≤ UINT16_MAX)
    (hwt : ∀ n, n < 64 → 1 ≤ wt n ∧ wt n < 2 ^ 42)
    (hmm : selectExtremes b.samples = (mins, maxs))
    (hsurv : surv = b.samples.filter (fun v => !isMinMax mins maxs v)) :
    ∃ r, getFiltered wt b = some r ∧
      (∃ x ∈ b.samples, x ≤ r) ∧ (∃ y ∈ b.samples, r ≤ y) ∧
      (surv ≠ [] →
        r = weightedTotal wt 0 surv / weightTotal wt 0 surv ∧
        (b.samples.insertionSort (fun x y => x ≤ y)).getD 3 0 < r ∧
        r < (b.samples.insertionSort (fun x y => y ≤ x)).getD 3 0) ∧
      (surv = [] → r = b.read (-1)) ∧
      weightedTotal wt 0 surv < U64 ∧ weightTotal wt 0 surv < U64 ∧
      (accumulate wt mins maxs b.samples
        { weightedSum := 0, weightSum := 0, used := 0 }).weightedSum =
          weightedTotal wt 0 surv ∧
      (accumulate wt mins maxs b.samples
        { weightedSum := 0, weightSum := 0, used := 0 }).weightSum =
          weightTotal wt 0 surv := by
  have hU := U64_eq
  obtain ⟨hlen, hle⟩ := Buffer.samples_range b hrange
  rw [hN] at hlen
  have h4 : 4 ≤ b.samples.length := by rw [hlen]; decide
  have hmins : (selectExtremes b.samples).1 = mins := by rw [hmm]
  have hmaxs : (selectExtremes b.samples).2 = maxs := by rw [hmm]
  -- the surviving samples lie strictly between the two fourth entries
  have hbetween : ∀ v ∈ surv,
      (b.samples.insertionSort (fun x y => x ≤ y)).getD 3 0 + 1 ≤ v ∧
      v ≤ (b.samples.insertionSort (fun x y => y ≤ x)).getD 3 0 - 1 := by
    intro v hv
    rw [hsurv] at hv
    obtain ⟨hv1, hv2⟩ := List.mem_filter.1 hv
    have hflag : isMinMax (selectExtremes b.samples).1 (selectExtremes b.samples).2 v =
        false := by
      rw [hmins, hmaxs]
      simpa using hv2
    obtain ⟨c1, c2⟩ := survivor_between b.samples h4 hle v hv1 hflag
    omega
  have hsurvlen : surv.length ≤ 64 := by
    rw [hsurv, ← hlen]
    exact List.length_filter_le _ _
  have hdesc_le : (b.samples.insertionSort (fun x y => y ≤ x)).getD 3 0 ≤ 65535 := by
    have hl : 3 < (b.samples.insertionSort (fun x y => y ≤ x)).length := by
      rw [List.length_insertionSort]
      omega
    rw [List.getD_eq_getElem _ _ hl]
    exact hle _ ((List.perm_insertionSort _ b.samples).mem_iff.1 (List.getElem_mem _))
  obtain ⟨b1, b2, b3, b4⟩ := weighted_bounds wt
    ((b.samples.insertionSort (fun x y => x ≤ y)).getD 3 0 + 1)
    ((b.samples.insertionSort (fun x y => y ≤ x)).getD 3 0 - 1) (2 ^ 42)
    (by rw [hU]; decide) surv 0 hbetween
    (fun n _ h2 => hwt n (by omega))
  have hT : weightTotal wt 0 surv < U64 := by
    rw [hU]
    omega
  have hWT : weightedTotal wt 0 surv < U64 := by
    rw [hU]
    have : ((b.samples.insertionSort (fun x y => y ≤ x)).getD 3 0 - 1) *
        weightTotal wt 0 surv ≤ 65535 * (2 ^ 42 * 64) :=
      Nat.mul_le_mul (by omega) (by omega)
    omega
  have hacc := accumulate_closed wt mins maxs b.samples
    { weightedSum := 0, weightSum := 0, used := 0 } (by rw [hU]; decide) (by rw [hU]; decide)
  simp only [Nat.zero_add] at hacc
  rw [← hsurv, Nat.mod_eq_of_lt hWT, Nat.mod_eq_of_lt hT] at hacc
  have hget : getFiltered wt b =
      if weightTotal wt 0 surv = 0 then some (b.read (-1))
      else some ((weightedTotal wt 0 surv / weightTotal wt 0 surv) % 2 ^ 16) := by
    unfold getFiltered
    rw [hN]
    simp only [hmins, hmaxs, hacc, udiv]
    by_cases hz : weightTotal wt 0 surv = 0
    · simp [hz]
    · simp [hz]
  by_cases hs : surv = []
  · have hz : weightTotal wt 0 surv = 0 := by rw [hs]; rfl
    rw [hget, if_pos hz]
    have hmem := (Buffer.read_last b hN).2
    exact ⟨b.read (-1), rfl, ⟨_, hmem, Nat.le_refl _⟩, ⟨_, hmem, Nat.le_refl _⟩,
      fun h => absurd hs h, fun _ => rfl, hWT, hT, by rw [hacc], by rw [hacc]⟩
  · have hpos : 0 < surv.length := List.length_pos.2 hs
    have hTpos : 0 < weightTotal wt 0 surv := by omega
    have hz : ¬ weightTotal wt 0 surv = 0 := by omega
    have q1 : (b.samples.insertionSort (fun x y => x ≤ y)).getD 3 0 + 1 ≤
        weightedTotal wt 0 surv / weightTotal wt 0 surv :=
      (Nat.le_div_iff_mul_le hTpos).2 b1
    have q2 : weightedTotal wt 0 surv / weightTotal wt 0 surv ≤
        (b.samples.insertionSort (fun x y => y ≤ x)).getD 3 0 - 1 :=
      Nat.div_le_of_le_mul (by rw [Nat.mul_comm]; exact b2)
    have q3 : (weightedTotal wt 0 surv / weightTotal wt 0 surv) % 2 ^ 16 =
        weightedTotal wt 0 surv / weightTotal wt 0 surv := by
      apply Nat.mod_eq_of_lt
      have : (2 : Nat) ^ 16 = 65536 := by decide
      omega
    rw [hget, if_neg hz, q3]
    have hla : 3 < (b.samples.insertionSort (fun x y => x ≤ y)).length := by
      rw [List.length_insertionSort]
      omega
    have hld : 3 < (b.samples.insertionSort (fun x y => y ≤ x)).length := by
      rw [List.length_insertionSort]
      omega
    have ma : (b.samples.insertionSort (fun x y => x ≤ y)).getD 3 0 ∈ b.samples := by
      rw [List.getD_eq_getElem _ _ hla]
      exact (List.perm_insertionSort _ b.samples).mem_iff.1 (List.getElem_mem _)
    have md : (b.samples.insertionSort (fun x y => y ≤ x)).getD 3 0 ∈ b.samples := by
      rw [List.getD_eq_getElem _ _ hld]
      exact (List.perm_insertionSort _ b.samples).mem_iff.1 (List.getElem_mem _)
    exact ⟨_, rfl, ⟨_, ma, by omega⟩, ⟨_, md, by omega⟩,
      fun _ => ⟨rfl, by omega, by omega⟩, fun h => absurd h hs, hWT, hT,
      by rw [hacc], by rw [hacc]⟩

set_option maxRecDepth 100000 in
/-- Witness of C35: five 1s, five 9s and the values 2, 3, 4, 8, 7, 6 among 48 fives, with
the weights 1, 2, 3, ...: the ten extreme samples are dropped and the result 5 lies
between the fourth smallest sample 1 and the fourth largest sample 9. -/
theorem getFiltered_bounded_witness :
    ∃ r, getFiltered (fun n => n + 1) { N := 64, buffer := tenExtremes, head := 0 } = some r ∧
      1 < r ∧ r < 9 :=
  (getFiltered_bounded (fun n => n + 1) { N := 64, buffer := tenExtremes, head := 0 }
    [1, 1, 1, 1] [9, 9, 9, 9]
    ((Buffer.samples { N := 64, buffer := tenExtremes, head := 0 }).filter
      (fun v => !isMinMax [1, 1, 1, 1] [9, 9, 9, 9] v))
    rfl (by decide)
    (fun n hn => ⟨by show 1 ≤ n + 1; omega, by show n + 1 < 2 ^ 42; omega⟩) (by decide) rfl).imp
    (fun _ h => ⟨h.1, by
      have h3 := h.2.2.2.1 (by decide)
      have e1 : ((Buffer.samples { N := 64, buffer := tenExtremes, head := 0 }).insertionSort
          (fun x y => x ≤ y)).getD 3 0 = 1 := by decide
      have e2 : ((Buffer.samples { N := 64, buffer := tenExtremes, head := 0 }).insertionSort
          (fun x y => y ≤ x)).getD 3 0 = 9 := by decide
      rw [e1, e2] at h3
      exact ⟨h3.2.1, h3.2.2⟩⟩)

/-! ## The control mode `DOS` is unreachable -/

theorem analyse_control (cfg : Config) (st : State) (e : Int) (l r : Nat) :
    (cfg.UseAnalysis = true →
      (analyse cfg st e l r).Control = ControlMode.PID ∨
        (analyse cfg st e l r).Control = ControlMode.Max) ∧
    (cfg.UseAnalysis = false → analyse cfg st e l r = st) := by
  unfold analyse
  constructor
  · intro h
    rw [h]
    simp only [if_true]
    split
    · simp only
      split
      · exact Or.inr rfl
      · exact Or.inl rfl
    · exact Or.inl rfl
  · intro h
    rw [h]
    simp

theorem AppState.step_never_DOS (a : AppState) (t : AppTick)
    (h : a.State.Control ≠ ControlMode.DOS) :
    ∃ a1, a.step t = some a1 ∧ a1.State.Control ≠ ControlMode.DOS := by
  cases t with
  | control pid cfg LBuffer RBuffer =>
    have hp := controlTask_plain pid cfg LBuffer RBuffer a.State h
    obtain ⟨r, hr⟩ : ∃ r, controlTask pid cfg LBuffer RBuffer a.State = some r := ⟨_, hp⟩
    have hnd := controlTask_never_DOS pid cfg LBuffer RBuffer a.State r.1 r.2 h hr
    refine ⟨{ a with State := r.1 }, ?_, hnd⟩
    show (match controlTask pid cfg LBuffer RBuffer a.State with
      | some r => some { a with State := r.1 }
      | none => none) = _
    rw [hr]
  | statistics LBuffer RBuffer =>
    have hs : sdataCollectionTask LBuffer RBuffer a.ErrBuffer a.State =
        some (a.ErrBuffer.push ((RBuffer.read (-1) : Int) - (LBuffer.read (-1) : Int))) := by
      unfold sdataCollectionTask
      rw [errorOf_plain _ _ _ h]
    obtain ⟨e, he⟩ : ∃ e, sdataCollectionTask LBuffer RBuffer a.ErrBuffer a.State = some e :=
      ⟨_, hs⟩
    refine ⟨{ a with ErrBuffer := e }, ?_, h⟩
    show (match sdataCollectionTask LBuffer RBuffer a.ErrBuffer a.State with
      | some e => some { a with ErrBuffer := e }
      | none => none) = _
    rw [he]

/-- C36. The control mode `DOS` is unreachable. From every state whose mode is not `DOS`,
in particular from the initial `State` (mode `PID`), every sequence of firings of the
control task and of the statistics task, under whatever configuration, buffer contents
and floating-point outcome each firing finds, is defined (no division by zero) and
ends in a state whose mode is `PID`, `Stop` or `Max`. In such a state both tasks
compute the error as `right - left`: the other formula is not evaluated. -/
theorem AppState.never_DOS (ticks : List AppTick) (a0 : AppState)
    (h : a0.State.Control ≠ ControlMode.DOS) :
    State.compiled.Control = ControlMode.PID ∧
    ∃ a, a0.run ticks = some a ∧ a.State.Control ≠ ControlMode.DOS ∧
      (a.State.Control = ControlMode.PID ∨ a.State.Control = ControlMode.Stop ∨
        a.State.Control = ControlMode.Max) ∧
      ∀ L R : Nat, errorOf a.State.Control L R = some ((R : Int) - (L : Int)) := by
  refine ⟨rfl, ?_⟩
  induction ticks generalizing a0 with
  | nil =>
    refine ⟨a0, rfl, h, ?_, fun L R => errorOf_plain _ L R h⟩
    cases hc : a0.State.Control with
    | PID => exact Or.inl rfl
    | Stop => exact Or.inr (Or.inl rfl)
    | Max => exact Or.inr (Or.inr rfl)
    | DOS => exact absurd hc h
  | cons t ts ih =>
    obtain ⟨a1, h1, h2⟩ := AppState.step_never_DOS a0 t h
    obtain ⟨a, h3, h4⟩ := ih a1 h2
    refine ⟨a, ?_, h4⟩
    show (match a0.step t with
      | some a1 => a1.run ts
      | none => none) = _
    rw [h1]
    exact h3

/-- Witness of C36: from the initial `State`, a statistics firing that finds the right
reading 0, then a control firing in the contest configuration with readings 400 and
500: both are defined and the mode ends as `Max`. -/
theorem AppState.never_DOS_witness :
    ∃ a, AppState.run { State := State.compiled, ErrBuffer := Buffer.new 20 0 }
        [AppTick.statistics { N := 4, buffer := [0, 0, 0, 7], head := 0 }
            { N := 4, buffer := [0, 0, 0, 0], head := 0 },
          AppTick.control (fun _ _ _ _ => 0) Config.contest
            { N := 4, buffer := [100, 200, 300, 400], head := 0 }
            { N := 4, buffer := [100, 200, 300, 500], head := 0 }] = some a ∧
      a.State.Control ≠ ControlMode.DOS :=
  (AppState.never_DOS
    [AppTick.statistics { N := 4, buffer := [0, 0, 0, 7], head := 0 }
        { N := 4, buffer := [0, 0, 0, 0], head := 0 },
      AppTick.control (fun _ _ _ _ => 0) Config.contest
        { N := 4, buffer := [100, 200, 300, 400], head := 0 }
        { N := 4, buffer := [100, 200, 300, 500], head := 0 }]
    { State := State.compiled, ErrBuffer := Buffer.new 20 0 } (by decide)).2.imp
    (fun _ h => ⟨h.1, h.2.1⟩)

/-! ## The mode `Stop` after a tick outside the dead zone -/

/-- C37, counterexample. Analysis off and steering on, as in `runMode` 2 with the switch
set. A first control tick finds the readings 400 and 500: the error 100 is inside the
dead zone 250 of the `Default` set and the mode becomes `Stop`. The next tick finds 400
and 1500: the error 1100 is outside the dead zone, and yet the mode after the tick is
`Stop` and the steering command is 0, not the computed output 5. -/
theorem controlTask_stop_latched :
    ((controlTask (fun _ _ _ _ => 5) { Config.compiled with SteerEnabled := true }
        { N := 4, buffer := [100, 200, 300, 400], head := 0 }
        { N := 4, buffer := [100, 200, 300, 500], head := 0 } State.compiled).map
      (fun r => r.1.Control)) = some ControlMode.Stop ∧
    (((controlTask (fun _ _ _ _ => 5) { Config.compiled with SteerEnabled := true }
        { N := 4, buffer := [100, 200, 300, 400], head := 0 }
        { N := 4, buffer := [100, 200, 300, 500], head := 0 } State.compiled).bind
      (fun r => controlTask (fun _ _ _ _ => 5) { Config.compiled with SteerEnabled := true }
        { N := 4, buffer := [200, 300, 400, 400], head := 0 }
        { N := 4, buffer := [200, 300, 500, 1500], head := 0 } r.1)).map
      (fun r => (r.1.Control, r.1.DeadZone, r.2))) = some (ControlMode.Stop, 250, 0) ∧
    errorOf ControlMode.Stop 400 1500 = some 1100 := by
  decide

/-- C37, amended. In every control tick that is defined, whatever mode the previous tick
left behind: if the absolute value of the latest error is not below the dead zone of the
parameter set selected in the tick, the mode after the tick is the mode the analysis
block leaves. With analysis enabled that is `PID` or `Max`, so not `Stop`; with
analysis disabled it is the mode the previous tick left behind, so `Stop` stays once
set. With steering enabled and mode `PID` after the tick, the argument passed to
`setDirection` is the computed output. -/
theorem controlTask_not_latched (pid : Rat → Rat → Int → Int → Int) (cfg : Config)
    (LBuffer RBuffer : Buffer Nat) (st st1 : State) (rot e p : Int)
    (hrun : controlTask pid cfg LBuffer RBuffer st = some (st1, rot))
    (herr : errorOf st.Control (LBuffer.read (-1)) (RBuffer.read (-1)) = some e)
    (hprev : errorOf st.Control (LBuffer.read (-2)) (RBuffer.read (-2)) = some p)
    (hout : ¬ (e.natAbs : Int) <
      ((selectConfig cfg (analyse cfg st e (LBuffer.read (-1) % 2 ^ 16)
        (RBuffer.read (-1) % 2 ^ 16)).Condition).DeadZone : Int)) :
    st1.Control = (analyse cfg st e (LBuffer.read (-1) % 2 ^ 16)
      (RBuffer.read (-1) % 2 ^ 16)).Control ∧
    (cfg.UseAnalysis = true →
      st1.Control ≠ ControlMode.Stop ∧
        (st1.Control = ControlMode.PID ∨ st1.Control = ControlMode.Max)) ∧
    (cfg.UseAnalysis = false → st1.Control = st.Control) ∧
    (cfg.SteerEnabled = true → st1.Control = ControlMode.PID →
      rot = pid st1.Kp st1.Kd e p) := by
  unfold controlTask at hrun
  rw [herr, hprev] at hrun
  have h1 := (Prod.mk.inj (Option.some.inj hrun)).1
  have h2 := (Prod.mk.inj (Option.some.inj hrun)).2
  have hf := copyParams_fields
    (selectConfig cfg (analyse cfg st e (LBuffer.read (-1) % 2 ^ 16)
      (RBuffer.read (-1) % 2 ^ 16)).Condition)
    (analyse cfg st e (LBuffer.read (-1) % 2 ^ 16) (RBuffer.read (-1) % 2 ^ 16)) e
  have hctl : st1.Control = (analyse cfg st e (LBuffer.read (-1) % 2 ^ 16)
      (RBuffer.read (-1) % 2 ^ 16)).Control := by
    rw [← h1, hf.2.2.2.2.2, if_neg hout]
  obtain ⟨ha1, ha2⟩ := analyse_control cfg st e (LBuffer.read (-1) % 2 ^ 16)
    (RBuffer.read (-1) % 2 ^ 16)
  refine ⟨hctl, ?_, ?_, ?_⟩
  · intro hana
    rcases ha1 hana with h | h
    · rw [hctl, h]
      exact ⟨by decide, Or.inl rfl⟩
    · rw [hctl, h]
      exact ⟨by decide, Or.inr rfl⟩
  · intro hana
    rw [hctl, ha2 hana]
  · intro hsteer hpid
    rw [← h2]
    unfold steerCommand
    rw [hsteer, h1, hpid]
    simp only [if_true]

/-- Witness of the amended C37: analysis and steering on, the previous tick having left
`Stop`; the readings 400 and 1500 give the error 1100, outside the dead zone 0 of the
`Mid` set, and the mode after the tick is `PID`. -/
theorem controlTask_not_latched_witness :
    (controlTask (fun _ _ _ _ => 5) Config.contest
        { N := 4, buffer := [200, 300, 400, 400], head := 0 }
        { N := 4, buffer := [200, 300, 500, 1500], head := 0 }
        { State.compiled with Control := ControlMode.Stop }).map
      (fun r => (r.1.Control, r.2)) = some (ControlMode.PID, 5) := by
  have hrun := controlTask_plain (fun _ _ _ _ => 5) Config.contest
    { N := 4, buffer := [200, 300, 400, 400], head := 0 }
    { N := 4, buffer := [200, 300, 500, 1500], head := 0 }
    { State.compiled with Control := ControlMode.Stop } (by decide)
  obtain ⟨_, h2, _, h4⟩ := controlTask_not_latched (fun _ _ _ _ => 5) Config.contest
    { N := 4, buffer := [200, 300, 400, 400], head := 0 }
    { N := 4, buffer := [200, 300, 500, 1500], head := 0 }
    { State.compiled with Control := ControlMode.Stop } _ _ 1100 100 hrun
    (by decide) (by decide) (by decide)
  rw [hrun]
  simp only [Option.map_some']
  have hpid := (h2 rfl).2
  rcases hpid with hp | hm
  · rw [hp, h4 rfl hp]
  · exfalso
    revert hm
    decide
end Nutshell
